import Mathlib

/-!
# jimage: PNG and JPEG decoders

A shallow embedding of the parts of `src/src/pngreader.c` and
`src/src/jpgreader.c` that the verified properties talk about.

Conventions.

* Bytes and the unsigned integers of the source are `Nat`; signed integers are
  `Int`. A reduction modulo `2^w` is written where the source can wrap.
* A buffer reached through a pointer is a `List`; an access outside the
  buffer makes the embedded function return `none`.
* A loop of the source with a fixed number of iterations is a recursive
  function over the iterations left; any other loop is a recursive function
  over a fuel argument, and running out of fuel gives `none`.
* The PNG reader is embedded as built without `PNGR_CFG_DOCRC` (the define is
  commented out in `pngreader.h`): `INITCRC32` expands to nothing and
  `checkcrc32` only consumes the four trailer bytes.
* The input callback is a memory stream: it delivers the bytes asked for, or
  the bytes left when fewer are left, and never reports an I/O error. The
  callback is an argument of `readmoreWith` and `ensurebytesWith` only.
* The error codes and the states of the JPEG reader are those of
  `src/jpgreader.h`, the header that `jpgreader.c` includes.
-/

set_option maxRecDepth 100000

namespace Jimage

/-! ## Buffers -/

/-- Read `buf[i]`; `none` outside the buffer. -/
def rd {α : Type} (buf : List α) (i : Nat) : Option α :=
  buf[i]?

/-- Store `buf[i] = v`; `none` outside the buffer. -/
def wr {α : Type} (buf : List α) (i : Nat) (v : α) : Option (List α) :=
  if i < buf.length then some (buf.set i v) else none

/-! ## Machine integers -/

/-- Conversion to `int16` (two's complement wrap). -/
def toInt16 (v : Int) : Int :=
  (v + 32768) % 65536 - 32768

/-- Conversion to `uint16`. -/
def toUInt16 (v : Int) : Nat :=
  (v % 65536).toNat

/-! ## PNG reader: state -/

/-- Error code `PNGR_EIOERROR`. -/
def PNGR_EIOERROR : Nat := 2
/-- Error code `PNGR_EINCORRECTUSE`. -/
def PNGR_EINCORRECTUSE : Nat := 1
/-- Error code `PNGR_ELIMIT`. -/
def PNGR_ELIMIT : Nat := 6
/-- Error code `PNGR_EBADDATA`. -/
def PNGR_EBADDATA : Nat := 7
/-- Error code `PNGR_EMISSINGCHUNK`. -/
def PNGR_EMISSINGCHUNK : Nat := 12
/-- Error code `PNGR_EDUPLICATEDCHUNK`. -/
def PNGR_EDUPLICATEDCHUNK : Nat := 13
/-- Error code `PNGR_ECHUNKORDER`. -/
def PNGR_ECHUNKORDER : Nat := 14
/-- Property bit `PNGR_TRNS`. -/
def PNGR_TRNS : Nat := 0x01
/-- The state `PNGR_BADSTATE`. -/
def PNGR_BADSTATE : Nat := 0xDEADBEEF

/-- Chunk header `struct TChunkHead`. -/
structure TChunkHead where
  length : Nat
  fcc : List Nat
  deriving DecidableEq

/-- Presence bits `struct TPNGRChunkMap` (those the embedded code reads). -/
structure TPNGRChunkMap where
  PLTE : Bool
  TRNS : Bool
  BKGD : Bool := false
  deriving DecidableEq

/-- The fields of `struct TPNGRPblc` and `struct TPNGRPrvt` used by the
embedded functions. `input` is the payload of the input callback: the bytes it
has not delivered yet. -/
structure TPNGR where
  state : Nat
  error : Nat
  warnings : Nat
  sizex : Nat
  sizey : Nat
  colortype : Nat
  depth : Nat
  interlace : Nat
  properties : Nat
  palettesize : Nat
  palette : List Nat
  alpha : List Nat
  hasalpha : Nat
  chunkmap : TPNGRChunkMap
  rawpelsize : Nat
  rawrowsize : Nat
  rowmemory : Nat
  rowsize : Nat
  pelsize : Nat
  pass : Nat
  passrowsize : List Nat
  passmemsize : List Nat
  remaining : Nat
  input : List Nat
  background : List Nat := [0, 0, 0]
  deriving DecidableEq

/-- The reader after `pngr_reset`, with the given input stream. -/
def TPNGR.init (input : List Nat) : TPNGR :=
  { state := 0, error := 0, warnings := 0, sizex := 0, sizey := 0, colortype := 0, depth := 0,
    interlace := 0, properties := 0, palettesize := 0, palette := List.replicate 1024 0,
    alpha := [0, 0, 0], hasalpha := 0,
    chunkmap := { PLTE := false, TRNS := false },
    rawpelsize := 0, rawrowsize := 0, rowmemory := 0, rowsize := 0, pelsize := 0,
    pass := 0, passrowsize := List.replicate 7 0,
    passmemsize := List.replicate 7 0, remaining := 0,
    input := input }

/-! ## PNG reader: input and chunk heads -/

/-- The macro `TOI32`. -/
def TOI32 (a b c d : Nat) : Nat :=
  (a <<< 0x18) ||| (b <<< 0x10) ||| (c <<< 0x08) ||| d

/-- The macro `TOI16`. -/
def TOI16 (a b : Nat) : Nat :=
  (a <<< 0x08) ||| b

/-- Function `readinput`: ask the callback for `size` bytes. A short delivery
(`r ^ size` not zero, `r` not negative) sets `PNGR_EBADDATA`. The result is
the bytes read, `none` when the function returns 0. -/
def readinput (pngr : TPNGR) (size : Nat) : Option (List Nat) × TPNGR :=
  if pngr.input.length < size then
    (none, { pngr with input := [], error := PNGR_EBADDATA })
  else
    (some (pngr.input.take size), { pngr with input := pngr.input.drop size })

/-- Function `getchunkhead`. -/
def getchunkhead (pngr : TPNGR) : TChunkHead × TPNGR :=
  match readinput pngr 8 with
  | (none, pngr) => ({ length := 0, fcc := [0, 0, 0, 0] }, pngr)
  | (some s, pngr) =>
    let length := TOI32 (s.getD 0 0) (s.getD 1 0) (s.getD 2 0) (s.getD 3 0)
    if length > 0x7fffffff then
      ({ length := 0, fcc := [0, 0, 0, 0] }, { pngr with error := PNGR_EBADDATA })
    else
      ({ length := length, fcc := [s.getD 4 0, s.getD 5 0, s.getD 6 0, s.getD 7 0] }, pngr)

/-- Function `checkcrc32` without `DOCRC`: only reads the four trailer bytes. -/
def checkcrc32 (pngr : TPNGR) : TPNGR :=
  (readinput pngr 4).2

/-! ## PNG reader: `readzlibheader` -/

/-- The loop of `readzlibheader` that gathers the two header bytes, which may
lie in different IDAT chunks. `s` holds the bytes read so far (`i = s.length`).
The result is `none` when the fuel runs out, `some (none, _)` for `return 0`
and `some (some s, _)` when the loop ends with both bytes. -/
def readzlibheaderLoop : Nat → TPNGR → List Nat → Option (Option (List Nat) × TPNGR)
  | 0, _, _ => none
  | fuel + 1, pngr, s =>
    if s.length < 2 then
      if pngr.remaining ≠ 0 then
        match readinput pngr 1 with
        | (some b, pngr) =>
          readzlibheaderLoop fuel { pngr with remaining := pngr.remaining - 1 } (s ++ b)
        | (none, pngr) => some (none, pngr)
      else
        let pngr := checkcrc32 pngr
        if pngr.error ≠ 0 then some (none, pngr)
        else
          match getchunkhead pngr with
          | (head, pngr) =>
            if head.fcc ≠ [0x49, 0x44, 0x41, 0x54] then
              if pngr.error = 0 then some (none, { pngr with error := PNGR_EBADDATA })
              else some (none, pngr)
            else
              readzlibheaderLoop fuel { pngr with remaining := head.length } s
    else some (some s, pngr)

/-- The check of the zlib header made by `readzlibheader` once `s[0]`, `s[1]`
are read: `true` for `return 1`, `false` for `goto L_ERROR`. -/
def zlibheadercheck (s0 s1 : Nat) : Bool :=
  let cm := (s0 >>> 0) &&& 0x0f
  let ci := (s0 >>> 4) &&& 0x0f
  if cm = 0 ∧ ci ≤ 7 then
    let fchck := (s0 <<< 8) ||| s1
    if fchck % 31 ≠ 0 then false
    else
      let fdict := (s1 >>> 5) &&& 0x01
      if fdict ≠ 0 then false else true
  else false

/-- Function `readzlibheader`: the returned flag and the reader afterwards. Every
iteration of the loop consumes input or returns, so `input.length + 3`
iterations are enough. -/
def readzlibheader (pngr : TPNGR) : Option (Bool × TPNGR) :=
  match readzlibheaderLoop (pngr.input.length + 3) pngr [] with
  | none => none
  | some (none, pngr) => some (false, pngr)
  | some (some s, pngr) =>
    if zlibheadercheck (s.getD 0 0) (s.getD 1 0) then some (true, pngr)
    else some (false, { pngr with error := PNGR_EBADDATA })

/-! ## PNG reader: `parseTRNS` -/

/-- The loop of `parseTRNS` for indexed images:
`palette[(i * 4) + 3] = s[i]` for `i < length`; the first argument counts the
iterations left. -/
def parseTRNSpalette (s : List Nat) : Nat → Nat → List Nat → Option (List Nat)
  | 0, _, palette => some palette
  | n + 1, i, palette => do
    let a ← rd s i
    let palette ← wr palette ((i * 4) + 3) a
    parseTRNSpalette s n (i + 1) palette

/-- Function `parseTRNS`: the returned flag and the reader afterwards. -/
def parseTRNS (pngr : TPNGR) (head : TChunkHead) : Option (Bool × TPNGR) :=
  if pngr.chunkmap.TRNS then some (false, { pngr with error := PNGR_EDUPLICATEDCHUNK })
  else if pngr.state = 4 then some (false, { pngr with error := PNGR_ECHUNKORDER })
  else if pngr.colortype = 3 ∧ pngr.chunkmap.PLTE = false then
    some (false, { pngr with error := PNGR_ECHUNKORDER })
  else
    let pngr := { pngr with chunkmap := { pngr.chunkmap with TRNS := true } }
    if pngr.colortype = 4 ∨ pngr.colortype = 6 then some (false, pngr)
    else
      let finish (pngr : TPNGR) : Option (Bool × TPNGR) :=
        let pngr := checkcrc32 { pngr with hasalpha := 1 }
        if pngr.error ≠ 0 then some (false, pngr) else some (true, pngr)
      if pngr.colortype = 3 then
        if pngr.palettesize = 0 ∨ head.length > pngr.palettesize then some (false, pngr)
        else
          match readinput pngr head.length with
          | (none, pngr) => some (false, pngr)
          | (some s, pngr) =>
            match parseTRNSpalette s head.length 0 pngr.palette with
            | none => none
            | some palette => finish { pngr with palette := palette }
      else
        let gray : Option (Option TPNGR) :=
          if pngr.colortype = 0 then
            if head.length ≠ 2 then some none
            else
              match readinput pngr 2 with
              | (none, _) => some none
              | (some s, pngr) =>
                if pngr.colortype ^^^ 16 ≠ 0 then
                  (wr pngr.alpha 0 (s.getD 1 0)).map (fun alpha => some { pngr with alpha := alpha })
                else
                  (wr pngr.alpha 0 (TOI16 (s.getD 0 0) (s.getD 1 0))).map
                    (fun alpha => some { pngr with alpha := alpha })
          else some (some pngr)
        match gray with
        | none => none
        | some none =>
          -- `return 0` after a wrong length or a failed read
          some (false, if head.length ≠ 2 then pngr else (readinput pngr 2).2)
        | some (some pngr) =>
          let rgb : Option (Option TPNGR) :=
            if pngr.colortype = 2 then
              if head.length ≠ 6 then some none
              else
                match readinput pngr 6 with
                | (none, _) => some none
                | (some s, pngr) =>
                  if pngr.colortype ^^^ 16 ≠ 0 then do
                    let alpha ← wr pngr.alpha 0 (s.getD 1 0)
                    let alpha ← wr alpha 1 (s.getD 3 0)
                    let alpha ← wr alpha 2 (s.getD 5 0)
                    pure (some { pngr with alpha := alpha })
                  else do
                    let alpha ← wr pngr.alpha 0 (TOI16 (s.getD 0 0) (s.getD 1 0))
                    let alpha ← wr alpha 1 (TOI16 (s.getD 2 0) (s.getD 3 0))
                    let alpha ← wr alpha 2 (TOI16 (s.getD 4 0) (s.getD 5 0))
                    pure (some { pngr with alpha := alpha })
            else some (some pngr)
          match rgb with
          | none => none
          | some none => some (false, if head.length ≠ 6 then pngr else (readinput pngr 6).2)
          | some (some pngr) =>
            finish { pngr with properties := pngr.properties ||| PNGR_TRNS }

/-! ## PNG reader: `unfilter` -/

/-- Function `paetchfilter`: the arithmetic is that of `int16`, with the branchless
absolute value `(x ^ (x >> 15)) - (x >> 15)`. -/
def paetchfilter (a b c : Nat) : Nat :=
  let p := toInt16 ((a : Int) + (b : Int) - (c : Int))
  let pa := toInt16 (p - (a : Int))
  let pb := toInt16 (p - (b : Int))
  let pc := toInt16 (p - (c : Int))
  let ta := pa >>> (15 : Nat)
  let tb := pb >>> (15 : Nat)
  let tc := pc >>> (15 : Nat)
  let pa := Int.xor pa ta
  let pb := Int.xor pb tb
  let pc := Int.xor pc tc
  let pa := toInt16 (pa - ta)
  let pb := toInt16 (pb - tb)
  let pc := toInt16 (pc - tc)
  if pa ≤ pb ∧ pa ≤ pc then a
  else if pb ≤ pc then b
  else c

/-- The statement `curr[i] += e` on bytes. -/
def addTo (curr : List Nat) (i : Nat) (e : Option Nat) : Option (List Nat) := do
  let v ← e
  let x ← rd curr i
  wr curr i ((x + v) % 256)

/-- A loop `for (; i < size; i++) body`; `body curr i` is the row after the
body ran at index `i`. -/
def loop1 (body : List Nat → Nat → Option (List Nat)) (size : Nat) :
    Nat → Nat → List Nat → Option (List Nat)
  | 0, _, _ => none
  | fuel + 1, i, curr =>
    if i < size then do
      let curr ← body curr i
      loop1 body size fuel (i + 1) curr
    else some curr

/-- A loop unrolled four times, `for (; i < size;) { body; i++; body; i++;
body; i++; body; i++; }`: the test is made once for four bytes. -/
def loop4 (body : List Nat → Nat → Option (List Nat)) (size : Nat) :
    Nat → Nat → List Nat → Option (List Nat)
  | 0, _, _ => none
  | fuel + 1, i, curr =>
    if i < size then do
      let curr ← body curr i
      let curr ← body curr (i + 1)
      let curr ← body curr (i + 2)
      let curr ← body curr (i + 3)
      loop4 body size fuel (i + 4) curr
    else some curr

/-- Function `unfilter(curr, prev, filter, size, psize)`: the row `curr` after the
call. The loops run at most `size` times. -/
def unfilter (curr prev : List Nat) (filter size psize : Nat) : Option (List Nat) :=
  match filter with
  | 1 =>
    loop4 (fun curr i => addTo curr i (rd curr (i - psize))) size (size + 1) psize curr
  | 2 =>
    loop4 (fun curr i => addTo curr i (rd prev i)) size (size + 1) 0 curr
  | 3 => do
    let curr ← loop1 (fun curr i => addTo curr i ((rd prev i).map (fun b => b >>> 1)))
      psize (psize + 1) 0 curr
    loop4 (fun curr i => addTo curr i (do
        let a ← rd curr (i - psize)
        let b ← rd prev i
        pure ((a + b) >>> 1)))
      size (size + 1) psize curr
  | 4 => do
    let curr ← loop1 (fun curr i => addTo curr i (rd prev i)) psize (psize + 1) 0 curr
    loop1 (fun curr i => addTo curr i (do
        let a ← rd curr (i - psize)
        let c ← rd prev (i - psize)
        let b ← rd prev i
        pure (paetchfilter a b c)))
      size (size + 1) psize curr
  | _ => some curr

/-- Paeth predictor as the PNG filter table words it: `p = a + b - c` and the
value among `a`, `b`, `c` nearest to `p`, ties in the order `a`, `b`, `c`. -/
def paethPredictor (a b c : Nat) : Nat :=
  let p : Int := (a : Int) + (b : Int) - (c : Int)
  let pa := |p - (a : Int)|
  let pb := |p - (b : Int)|
  let pc := |p - (c : Int)|
  if pa ≤ pb ∧ pa ≤ pc then a
  else if pb ≤ pc then b
  else c

/-- The filter an encoder applies to the row `x` above which lies `prev`, for
pixel stride `psize`: byte `i` minus its prediction modulo 256, the
prediction being 0 (None), the byte to the left (Sub), the byte above (Up),
the floor of their mean (Average) or the Paeth predictor of left, above and
upper left; bytes left of the row count as 0. This is the inverse of the
rules of the filter table, taken from the table and not from `unfilter`. -/
def pngfilter (f psize : Nat) (x prev : List Nat) : List Nat :=
  (List.range x.length).map (fun i =>
    let a := if i < psize then 0 else x.getD (i - psize) 0
    let b := prev.getD i 0
    let c := if i < psize then 0 else prev.getD (i - psize) 0
    let pred :=
      match f with
      | 1 => a
      | 2 => b
      | 3 => (a + b) / 2
      | 4 => paethPredictor a b c
      | _ => 0
    (x.getD i 0 + 256 - pred) % 256)

/-- Loop invariant of `unfilter` at index `i`, for the original row `x` and
the filtered row `flt`, both of `size` bytes, in a buffer of `len` bytes: the
bytes below `i` are those of `x`, the bytes from `i` on are still those of
`flt`. -/
def UnfilterInv (x flt : List Nat) (size len i : Nat) (cur : List Nat) : Prop :=
  cur.length = len ∧
    (∀ k, k < i → k < size → cur[k]? = some (x.getD k 0)) ∧
    (∀ k, i ≤ k → k < size → cur[k]? = some (flt.getD k 0))

/-- What the loops of `unfilter` need of the expression `e` added to
`curr[i]`: from index `lo` on and up to the overrun of the unrolled loops it
can be evaluated when the bytes below `i` are restored, and below `hi` it is
the value that restores byte `i`. -/
def PredOk (x flt : List Nat) (size lo hi : Nat) (e : List Nat → Nat → Option Nat) : Prop :=
  ∀ cur i, size + 3 ≤ cur.length → lo ≤ i → i < size + 3 →
    (∀ k, k < i → k < size → cur[k]? = some (x.getD k 0)) →
    ∃ p, e cur i = some p ∧ (i < hi → (flt.getD i 0 + p) % 256 = x.getD i 0)

/-! ## PNG reader: `unpack` -/

/-- The loop of `unpack` for depth 1; the first argument is `i + 1` for the
byte `row[i]` expanded next, `j` is the write index. The shifts are those of
the source. -/
def unpack1 : Nat → Nat → List Nat → Option (List Nat)
  | 0, _, row => some row
  | i + 1, j, row => do
    let v ← rd row i
    let row ← wr row (j - 1) ((v >>> 0) &&& 1)
    let row ← wr row (j - 2) ((v >>> 1) &&& 1)
    let row ← wr row (j - 3) ((v >>> 2) &&& 1)
    let row ← wr row (j - 4) ((v >>> 3) &&& 1)
    let row ← wr row (j - 5) ((v >>> 4) &&& 1)
    let row ← wr row (j - 6) ((v >>> 6) &&& 1)
    let row ← wr row (j - 7) ((v >>> 6) &&& 1)
    let row ← wr row (j - 8) ((v >>> 7) &&& 1)
    unpack1 i (j - 8) row

/-- The loop of `unpack` for depth 2. -/
def unpack2 : Nat → Nat → List Nat → Option (List Nat)
  | 0, _, row => some row
  | i + 1, j, row => do
    let v ← rd row i
    let row ← wr row (j - 1) ((v >>> 0) &&& ((1 <<< 2) - 1))
    let row ← wr row (j - 2) ((v >>> 2) &&& ((1 <<< 2) - 1))
    let row ← wr row (j - 3) ((v >>> 4) &&& ((1 <<< 2) - 1))
    let row ← wr row (j - 4) ((v >>> 6) &&& ((1 <<< 2) - 1))
    unpack2 i (j - 4) row

/-- The loop of `unpack` for depth 4. -/
def unpack4 : Nat → Nat → List Nat → Option (List Nat)
  | 0, _, row => some row
  | i + 1, j, row => do
    let v ← rd row i
    let row ← wr row (j - 1) ((v >>> 0) &&& ((1 <<< 4) - 1))
    let row ← wr row (j - 2) ((v >>> 4) &&& ((1 <<< 4) - 1))
    unpack4 i (j - 2) row

/-- Function `unpack(row, size, depth)`: expansion of the row in place. -/
def unpack (row : List Nat) (size depth : Nat) : Option (List Nat) :=
  match depth with
  | 1 =>
    let i := ((size * 1) + 7) >>> 3
    unpack1 i (i * 8) row
  | 2 =>
    let i := ((size * 2) + 7) >>> 3
    unpack2 i (i * 4) row
  | 4 =>
    let i := ((size * 4) + 7) >>> 3
    unpack4 i (i * 2) row
  | _ => some row

/-- The sample `n` of a packed row `packed` of depth `d`, most significant
bits first: `(packed[(n*d) div 8] >> (8 - d - ((n*d) mod 8))) & (2^d - 1)`. -/
def packedSample (packed : List Nat) (d n : Nat) : Nat :=
  (packed.getD ((n * d) / 8) 0 >>> (8 - d - ((n * d) % 8))) &&& (2 ^ d - 1)

/-! ## PNG reader: `setrow` and `getsample`

The target is little-endian (`CTB_IS_LITTLEENDIAN`): `BYTE0_OFFSET` is 1,
`BYTE1_OFFSET` is 0, the byte view of a `uint16` has its low byte first. -/

/-- The macro `BYTE0_OFFSET` on a little-endian target. -/
def BYTE0_OFFSET : Nat := 1
/-- The macro `BYTE1_OFFSET` on a little-endian target. -/
def BYTE1_OFFSET : Nat := 0

/-- The bytes of the array `alpha` of `uint16` seen through `(uint8*)` on a
little-endian target. -/
def alphaBytes (alpha : List Nat) : List Nat :=
  alpha.flatMap (fun a => [a % 256, (a >>> 8) % 256])

/-- A loop `for (i = 0; i < n; i++) { body; pixels += dp; row += dr; }` over
the pixels of a row: `body pixels po ro` is the pixel buffer after the body
ran with `pixels` at offset `po` and `row` at offset `ro`. The first argument
counts the iterations left. -/
def pixelLoop (body : List Nat → Nat → Nat → Option (List Nat)) (dp dr : Nat) :
    Nat → Nat → Nat → List Nat → Option (List Nat)
  | 0, _, _, pixels => some pixels
  | n + 1, po, ro, pixels => do
    let pixels ← body pixels po ro
    pixelLoop body dp dr n (po + dp) (ro + dr) pixels

/-- The reads `buf[o + k]` for the offsets `k` of `ks`, in this order. -/
def rds (buf : List Nat) (o : Nat) : List Nat → Option (List Nat)
  | [] => some []
  | k :: ks => do
    let v ← rd buf (o + k)
    let vs ← rds buf o ks
    pure (v :: vs)

/-- The stores `buf[o] = v0; buf[o + 1] = v1; ...` for the values given. -/
def wrs (buf : List Nat) (o : Nat) : List Nat → Option (List Nat)
  | [] => some buf
  | v :: vs => do
    let buf ← wr buf o v
    wrs buf (o + 1) vs

/-- Body of the loop of `setrow` / the code of `getsample` for colortype 0,
depth below 16, with a tRNS key: `pixels[0] = row[0]; pixels[1] = 0xff;`
and `pixels[1] = 0x00` when `row[0] == sample[0]`. -/
def keyGray8 (sample row : List Nat) (pixels : List Nat) (po ro : Nat) : Option (List Nat) := do
  let px ← rds row ro [0]
  let key ← rds sample 0 [0]
  let pixels ← wrs pixels po (px ++ [0xff])
  if px = key then wr pixels (po + 1) 0x00 else pure pixels

/-- Body of the loop of `setrow` / the code of `getsample` for colortype 2,
depth below 16, with a tRNS key: `pixels[0..2] = row[0..2]; pixels[3] = 0xff;`
and `pixels[3] = 0x00` when `row[k] == sample[k]` for `k = 0, 1, 2`. -/
def keyRGB8 (sample row : List Nat) (pixels : List Nat) (po ro : Nat) : Option (List Nat) := do
  let px ← rds row ro [0, 1, 2]
  let key ← rds sample 0 [0, 1, 2]
  let pixels ← wrs pixels po (px ++ [0xff])
  if px = key then wr pixels (po + 3) 0x00 else pure pixels

/-- Body of the loop of `setrow` / the code of `getsample` for colortype 0,
depth 16, with a tRNS key: `pixels[0] = row[BYTE0_OFFSET + 0];
pixels[1] = row[BYTE1_OFFSET + 0]; pixels[2] = pixels[3] = 0xff;` and both
set to `0x00` when `pixels[k] == sample[k]` for `k = 0, 1`. -/
def keyGray16 (sample row : List Nat) (pixels : List Nat) (po ro : Nat) : Option (List Nat) := do
  let px ← rds row ro [BYTE0_OFFSET + 0, BYTE1_OFFSET + 0]
  let key ← rds sample 0 [0, 1]
  let pixels ← wrs pixels po (px ++ [0xff, 0xff])
  if px = key then wrs pixels (po + 2) [0x00, 0x00] else pure pixels

/-- Body of the loop of `setrow` / the code of `getsample` for colortype 2,
depth 16, with a tRNS key: six bytes taken pairwise swapped from `row`, two
bytes `0xff`, both set to `0x00` when `pixels[k] == sample[k]` for
`k = 0..5`. -/
def keyRGB16 (sample row : List Nat) (pixels : List Nat) (po ro : Nat) : Option (List Nat) := do
  let px ← rds row ro [BYTE0_OFFSET + 0, BYTE1_OFFSET + 0, BYTE0_OFFSET + 2, BYTE1_OFFSET + 2,
    BYTE0_OFFSET + 4, BYTE1_OFFSET + 4]
  let key ← rds sample 0 [0, 1, 2, 3, 4, 5]
  let pixels ← wrs pixels po (px ++ [0xff, 0xff])
  if px = key then wrs pixels (po + 6) [0x00, 0x00] else pure pixels

/-- Body of the 16-bit loop of `setrow`: `*pixels++ = row[1];
*pixels++ = row[0]; row += 2`. -/
def swap16 (row : List Nat) (pixels : List Nat) (po ro : Nat) : Option (List Nat) := do
  let r1 ← rd row (ro + 1)
  let r0 ← rd row (ro + 0)
  let pixels ← wr pixels (po + 0) r1
  wr pixels (po + 1) r0

/-- Library call `memcpy(pixels, row, n)`. -/
def memcpy (pixels row : List Nat) (n : Nat) : Option (List Nat) :=
  pixelLoop (fun pixels po ro => do let b ← rd row ro; wr pixels po b) 1 1 n 0 0 pixels

/-- Function `setrow(pngr, pixels, row)`: the buffer at `pixels` after the call. -/
def setrow (pngr : TPNGR) (pixels row : List Nat) : Option (List Nat) :=
  if pngr.hasalpha ≠ 0 ∧ (pngr.colortype = 0 ∨ pngr.colortype = 2) then
    if pngr.depth ^^^ 16 ≠ 0 then
      let sample := pngr.alpha.map (fun a => a % 256)
      if pngr.colortype = 0 then pixelLoop (keyGray8 sample row) 2 1 pngr.sizex 0 0 pixels
      else pixelLoop (keyRGB8 sample row) 4 3 pngr.sizex 0 0 pixels
    else
      let sample := alphaBytes pngr.alpha
      if pngr.colortype = 0 then pixelLoop (keyGray16 sample row) 4 2 pngr.sizex 0 0 pixels
      else pixelLoop (keyRGB16 sample row) 8 6 pngr.sizex 0 0 pixels
  else if pngr.depth = 16 then
    let total := pngr.sizex * (pngr.pelsize >>> 1)
    pixelLoop (swap16 row) 2 2 total 0 0 pixels
  else memcpy pixels row pngr.rowsize

/-- The statement `p[k] = v` for `uint16* p = (void*) pixel` on a
little-endian target: low byte at `2k`, high byte at `2k + 1`. -/
def store16 (pixel : List Nat) (k v : Nat) : Option (List Nat) := do
  let pixel ← wr pixel (2 * k) (v % 256)
  wr pixel (2 * k + 1) ((v >>> 8) % 256)

/-- Function `getsample(pngr, source, pixel)`: the bytes at the returned pointer, which
is `pixel` (the local buffer of 8 bytes, filled by the function) or `source`.
`source` is the raw row from the current sample on. -/
def getsample (pngr : TPNGR) (source pixel : List Nat) : Option (List Nat) :=
  if pngr.colortype = 3 then do
    let s0 ← rd source 0
    let j := s0 * 4
    let p0 ← rd pngr.palette (j + 0)
    let p1 ← rd pngr.palette (j + 1)
    let p2 ← rd pngr.palette (j + 2)
    let pixel ← wr pixel 0 p0
    let pixel ← wr pixel 1 p1
    let pixel ← wr pixel 2 p2
    if pngr.hasalpha ≠ 0 then do
      let p3 ← rd pngr.palette (j + 3)
      wr pixel 3 p3
    else pure pixel
  else if pngr.hasalpha ≠ 0 ∧ (pngr.colortype = 0 ∨ pngr.colortype = 2) then
    if pngr.depth ^^^ 16 ≠ 0 then
      let sample := pngr.alpha.map (fun a => a % 256)
      if pngr.colortype = 0 then keyGray8 sample source pixel 0 0
      else keyRGB8 sample source pixel 0 0
    else
      let sample := alphaBytes pngr.alpha
      if pngr.colortype = 0 then keyGray16 sample source pixel 0 0
      else keyRGB16 sample source pixel 0 0
  else if pngr.depth = 16 then
    let word (k : Nat) : Option Nat := do
      let hi ← rd source (2 * k + 1)
      let lo ← rd source (2 * k)
      pure (((hi <<< 0x08) ||| lo) % 65536)
    let from_ (n : Nat) (pixel : List Nat) : Option (List Nat) :=
      (List.range n).reverse.foldlM (fun pixel k => do let v ← word k; store16 pixel k v) pixel
    match pngr.pelsize with
    | 8 => from_ 4 pixel
    | 6 => from_ 3 pixel
    | 4 => from_ 2 pixel
    | 2 => from_ 1 pixel
    | _ => some pixel
  else some source

/-- The `switch (PRVT->pelsize)` of `pngr_decodepass` that copies one pixel
from `sample` to `offsetx`, the pixel buffer `pixels` at offset `o`. -/
def copypel (pelsize : Nat) (pixels : List Nat) (o : Nat) (sample : List Nat) :
    Option (List Nat) :=
  let idx : List Nat :=
    match pelsize with
    | 8 => [7, 6, 5, 4, 3, 2, 1, 0]
    | 6 => [5, 4, 3, 2, 1, 0]
    | 4 => [3, 2, 1, 0]
    | 3 => [2, 1, 0]
    | 2 => [1, 0]
    | 1 => [0]
    | _ => []
  idx.foldlM (fun pixels k => do let b ← rd sample k; wr pixels (o + k) b) pixels

/-- One pixel of the exact-placement branch of `pngr_decodepass`:
`sample = getsample(pngr, row, pixel)` followed by the copy to `offsetx`. The
local buffer `pixel` starts as eight zero bytes. -/
def passpixel (pngr : TPNGR) (pixels : List Nat) (o : Nat) (row : List Nat) :
    Option (List Nat) := do
  let sample ← getsample pngr row (List.replicate 8 0)
  copypel pngr.pelsize pixels o sample

/-- A 16-bit image without tRNS key, one pixel wide, of the given colortype
and pixel size (colortype 0 with pixel size 2, colortype 6 with pixel size
8). -/
def reader16 (colortype pelsize : Nat) : TPNGR :=
  { TPNGR.init [] with
    colortype := colortype, depth := 16, sizex := 1, sizey := 1,
    pelsize := pelsize, rowsize := pelsize, rawpelsize := pelsize }

/-- The reader of the 2 x 2 example: 8-bit RGB (colortype 2) with the tRNS key
(10, 20, 30). -/
def keyReader : TPNGR :=
  { TPNGR.init [] with
    colortype := 2, depth := 8, sizex := 2, sizey := 2, pelsize := 4, rowsize := 8,
    rawpelsize := 3, hasalpha := 1, alpha := [10, 20, 30] }

/-! ## JPEG reader: state -/

/-- Error code `JPGR_ENOSUPPORTED` (`src/jpgreader.h`, as the codes below). -/
def JPGR_ENOSUPPORTED : Nat := 4
/-- Error code `JPGR_EBADDATA`. -/
def JPGR_EBADDATA : Nat := 5
/-- Error code `JPGR_ETABLEID`. -/
def JPGR_ETABLEID : Nat := 8
/-- Error code `JPGR_ESEGMENTORDER`. -/
def JPGR_ESEGMENTORDER : Nat := 13
/-- Error code `JPGR_ELIMIT`. -/
def JPGR_ELIMIT : Nat := 16
/-- Warning bit `JPGR_BADICCP`. -/
def JPGR_BADICCP : Nat := 0x04
/-- Warning bit `JPGR_SEGMENTORDER`. -/
def JPGR_SEGMENTORDER : Nat := 0x08
/-- Flag `JPGR_IGNOREICCP`. -/
def JPGR_IGNOREICCP : Nat := 0x01
/-- The state `JPGR_BADSTATE`. -/
def JPGR_BADSTATE : Nat := 0xDEADBEEF

/-- Size of the root table index, `ROOTBITS`. -/
def ROOTBITS : Nat := 9
/-- Table size `ENOUGH_DC` for `ROOTBITS` 9. -/
def ENOUGH_DC : Nat := 576
/-- Table size `ENOUGH_AC` for `ROOTBITS` 9. -/
def ENOUGH_AC : Nat := 822

/-- Huffman table, `struct TJPGDCHmTable` / `struct TJPGACHmTable`: `symbols`
has `ENOUGH_DC` or `ENOUGH_AC` entries of 16 bits, `sextent` (AC only) has
`1 << ROOTBITS` entries. -/
structure TJPGHmTable where
  defined : Nat
  symbols : List Nat
  sextent : List Int
  deriving DecidableEq

/-- Quantization table, `struct TJPGQnTable`: 64 values of type `int16`. -/
structure TJPGQnTable where
  defined : Nat
  values : List Int
  deriving DecidableEq

/-- The fields of `struct TJPGComponent` used by the embedded functions.
`units` are the buffers `units[k]` point to, 64 samples each, and `scan` is
the memory `scan` points to, 64 coefficients for each unit. The pointers
`dctable`, `actable` and `qtable` are kept as the index of the table they
point to, `none` for `NULL`; `id` is `(uint32) -1` while the component is not
set. -/
structure TJPGComponent where
  ysampling : Nat
  xsampling : Nat
  umap : List Nat
  iblock : List Nat
  offset : List Nat
  units : List (List Int)
  id : Nat := 0xffffffff
  nrows : Nat := 0
  ncols : Nat := 0
  irows : Nat := 0
  icols : Nat := 0
  rumode : List Nat := List.replicate 16 0
  dctable : Option Nat := none
  actable : Option Nat := none
  qtable : Option Nat := none
  cofficient : Int := 0
  ucount : Nat := 0
  scan : List Int := []
  deriving DecidableEq

/-- The bit field `struct TJPGRSegmentMap`. -/
structure TJPGRSegmentMap where
  APP0s : Nat
  SOFXs : Nat
  SOSs : Nat
  deriving DecidableEq

/-- Fields of `struct TJPGRPblc` that the headers of the file set. The source
file writes `colortype`, `depth` and `requiredmemory`, which `src/jpgreader.h`
does not declare (its struct has `cmode` instead). -/
structure TJPGRHeader where
  colortype : Nat := 0
  depth : Nat := 0
  requiredmemory : Nat := 0
  isprogressive : Nat := 0
  mayorversion : Nat := 0
  minorversion : Nat := 0
  xdensity : Nat := 0
  ydensity : Nat := 0
  unit : Nat := 0
  deriving DecidableEq

/-- Fields of `struct TJPGRPrvt` that describe the frame and the current scan.
`inputfn` tells whether the pointer `inputfn` is set; the callback itself is
an argument of the functions that call it. -/
structure TJPGRScan where
  nrows : Nat := 0
  ncols : Nat := 0
  nscancomponents : Nat := 0
  scancomponent : Nat := 0
  corder : List Nat := List.replicate 3 0
  isrgb : Nat := 0
  keepyuv : Nat := 0
  ncomponents : Nat := 0
  isinterleaved : Nat := 0
  al : Nat := 0
  ah : Nat := 0
  ss : Nat := 0
  se : Nat := 0
  eobrun : Int := 0
  npass : Nat := 0
  rinterval : Nat := 0
  inputfn : Bool := false
  deriving DecidableEq

/-- The bit buffer of `struct TJPGRPrvt`: `bbuffer` (64 bits), the counters
and the prefetch buffer `bb` of `BPREFETCHBZ` 16-bit words. -/
structure TJPGRBits where
  bbuffer : Nat := 0
  bbcount : Nat := 0
  bbcread : Int := 0
  bend : Nat := 0
  bb : List Nat := List.replicate 32 0
  bindex : Nat := 0
  deriving DecidableEq

/-- The fields of `struct TJPGRPblc` and `struct TJPGRPrvt` used by the
embedded functions. The input buffer is kept as `window`, the bytes between
`bgn` and `end`, and `room`, the distance from `end` to `sourceend`; `stream`
is the payload of the input callback, the bytes not delivered yet.

The ICC profile memory is `iccpmemory` (`none` for `NULL`), `iccpappend` is
the offset of the pointer `iccpappend` in it and `iccpsizePrvt` is the private
field `iccpsize`, the number of bytes allocated; `iccprofile` tells whether the
public pointer `iccprofile` is set (it then points to `iccpmemory`) and
`iccpsize` is the public field. The fields of the frame, the scan and the bit
buffer are grouped in `header`, `scan` and `bits`. The Huffman tables are
`dctables` and `actables`; a table that was never built has no content.

`nomemory` is not a field of the source: it stands for the allocator, and is
`true` when `CTB_REALLOC` has no block to give and returns `NULL`. -/
structure TJPGR where
  state : Nat
  error : Nat
  warnings : Nat
  flags : Nat
  iccprofile : Bool
  iccpsize : Nat
  segmentmap : TJPGRSegmentMap
  iccpmemory : Option (List Nat)
  iccpappend : Nat
  iccpsizePrvt : Nat
  iccpmode : Nat
  iccptotal : Nat
  iccps1 : Nat
  iccps2 : Nat
  sizex : Nat
  sizey : Nat
  ysampling : Nat
  xsampling : Nat
  issubsampled : Nat
  nunits : Nat
  originy : List Nat
  originx : List Nat
  pixels : List Nat
  components : List TJPGComponent
  qtables : List TJPGQnTable
  window : List Nat
  room : Nat
  endofinput : Nat
  stream : List Nat
  nomemory : Bool := false
  header : TJPGRHeader := {}
  scan : TJPGRScan := {}
  bits : TJPGRBits := {}
  dctables : List TJPGHmTable := List.replicate 4 { defined := 0, symbols := [], sextent := [] }
  actables : List TJPGHmTable := List.replicate 4 { defined := 0, symbols := [], sextent := [] }
  deriving DecidableEq

/-- Size of the input buffer, `BUFFERSIZE`. -/
def BUFFERSIZE : Nat := 4096

/-- A component as `jpgr_reset` leaves it: no table, no sampling factor and the
identifier `(uint32) -1`. -/
def TJPGComponent.init : TJPGComponent :=
  { ysampling := 0, xsampling := 0, umap := [], iblock := List.replicate 16 0,
    offset := List.replicate 16 0, units := [] }

/-- The JPEG reader after `jpgr_reset`, with the given input stream: empty
input buffer, four undefined quantization tables, three components not set. -/
def TJPGR.init (stream : List Nat) : TJPGR :=
  { state := 0, error := 0, warnings := 0, flags := 0, iccprofile := false, iccpsize := 0,
    segmentmap := { APP0s := 0, SOFXs := 0, SOSs := 0 },
    iccpmemory := none, iccpappend := 0, iccpsizePrvt := 0, iccpmode := 0, iccptotal := 0,
    iccps1 := 0, iccps2 := 0,
    sizex := 0, sizey := 0, ysampling := 0, xsampling := 0,
    issubsampled := 0, nunits := 0, originy := List.replicate 16 0,
    originx := List.replicate 16 0, pixels := [],
    components := List.replicate 3 TJPGComponent.init,
    qtables := List.replicate 4 { defined := 0, values := List.replicate 64 0 },
    window := [], room := BUFFERSIZE, endofinput := 0, stream := stream }

/-! ## JPEG reader: input -/

/-- Function `readmore`: refill the input buffer through the callback; the result is
the number of bytes then visible from `bgn`. -/
def readmore (jpgr : TJPGR) (avaible amount : Nat) : Nat × TJPGR :=
  let remaining := if jpgr.room + avaible < amount then BUFFERSIZE - avaible else jpgr.room
  if jpgr.endofinput ≠ 0 then
    (avaible, { jpgr with room := remaining })
  else
    let r := min remaining jpgr.stream.length
    if r > 0 then
      (avaible + r,
        { jpgr with window := jpgr.window ++ jpgr.stream.take r, room := remaining - r,
                    stream := jpgr.stream.drop r })
    else
      (avaible, { jpgr with room := remaining, endofinput := 1 })

/-- Function `ensurebytes`. -/
def ensurebytes (jpgr : TJPGR) (amount : Nat) : Bool × TJPGR :=
  let avaible := jpgr.window.length
  let (avaible, jpgr) := if avaible < amount then readmore jpgr avaible amount else (avaible, jpgr)
  (decide (avaible ≥ amount), jpgr)

/-- Function `consumebytes`. -/
def consumebytes (jpgr : TJPGR) (amount : Nat) : TJPGR :=
  { jpgr with window := jpgr.window.drop amount }

/-- Function `readinput` of the JPEG reader: the bytes the returned pointer gives
access to, `none` for `NULL`. -/
def jreadinput (jpgr : TJPGR) (amount : Nat) : Option (List Nat) × TJPGR :=
  match ensurebytes jpgr amount with
  | (true, jpgr) => (some (jpgr.window.take amount), consumebytes jpgr amount)
  | (false, jpgr) => (none, jpgr)

/-- Function `read16`. -/
def read16 (jpgr : TJPGR) : Nat × TJPGR :=
  match jreadinput jpgr 2 with
  | (none, jpgr) => (0, jpgr)
  | (some s, jpgr) => (TOI16 (s.getD 0 0) (s.getD 1 0), jpgr)

/-! ## JPEG reader: `parseDQT` -/

/-- The table `zzorder`. -/
def zzorder : List Nat :=
  [ 0,  8,  1,  2,  9, 16, 24, 17,
   10,  3,  4, 11, 18, 25, 32, 40,
   33, 26, 19, 12,  5,  6, 13, 20,
   27, 34, 41, 48, 56, 49, 42, 35,
   28, 21, 14,  7, 15, 22, 29, 36,
   43, 50, 57, 58, 51, 44, 37, 30,
   23, 31, 38, 45, 52, 59, 60, 53,
   46, 39, 47, 54, 61, 62, 55, 63,
   63, 63, 63, 63, 63, 63, 63, 63,
   63, 63, 63, 63, 63, 63, 63, 63]

/-- The loop of `parseDQT` that stores the 64 values of one table:
`table->values[zzorder[i]] = (int16) v`. -/
def parseDQTvalues (s : List Nat) (precision : Nat) (values : List Int) : Option (List Int) :=
  (List.range 64).foldlM (fun values i => do
    let v ← if precision = 0 then rd s i
            else do
              let hi ← rd s (i <<< 1)
              let lo ← rd s ((i <<< 1) + 1)
              pure ((hi <<< 0x08) ||| lo)
    let z ← rd zzorder i
    wr values z (toInt16 (v : Int))) values

/-- The `while (r)` loop of `parseDQT`. Each iteration takes at least 65 bytes
off `r` or returns. The result is the returned flag and the reader. -/
def parseDQTLoop : Nat → TJPGR → (r tablemap : Nat) → Option (Bool × TJPGR)
  | 0, _, _, _ => none
  | fuel + 1, jpgr, r, tablemap =>
    if r ≠ 0 then
      match jreadinput jpgr 1 with
      | (none, jpgr) => some (false, jpgr)
      | (some s, jpgr) =>
        let r := r - 1
        let id := (s.getD 0 0 >>> 0) &&& 0x0f
        let precision := (s.getD 0 0 >>> 4) &&& 0x0f
        let i := 1 <<< id
        if tablemap &&& i ≠ 0 ∨ id > 3 then
          some (false, { jpgr with error := JPGR_ETABLEID })
        else
          let tablemap := tablemap ||| 1
          let total := if precision ≠ 0 then 128 else 64
          if r < total then some (false, jpgr)
          else
            match jreadinput jpgr total with
            | (none, jpgr) => some (false, jpgr)
            | (some s, jpgr) =>
              let r := r - total
              match rd jpgr.qtables id with
              | none => none
              | some table =>
                match parseDQTvalues s precision table.values with
                | none => none
                | some values =>
                  parseDQTLoop fuel
                    { jpgr with qtables := jpgr.qtables.set id { defined := 1, values := values } }
                    r tablemap
    else some (true, jpgr)

/-- Function `parseDQT`. -/
def parseDQT (jpgr : TJPGR) : Option (Bool × TJPGR) :=
  match read16 jpgr with
  | (r, jpgr) =>
    if r ≤ 1 then some (false, jpgr)
    else parseDQTLoop (r + 1) jpgr (r - 2) 0

/-! ## JPEG reader: `setpixels1` -/

/-- Function `tograyscale`: `r = v + 128` in `int16`, then the clamp that tests
`(uint16) r > 255`. -/
def tograyscale (v : Int) : Nat :=
  let r := toInt16 (v + 128)
  let r := if toUInt16 r > 255 then (if r > 255 then 255 else 0) else r
  (r % 256).toNat

/-- Function `setrow1(r1 + ro, row + o)`: eight samples of `r1` from `ro` on, offset by
128 and clamped, stored in `row` from `o` on. -/
def setrow1 (r1 : List Int) (ro : Nat) (row : List Nat) (o : Nat) : Option (List Nat) :=
  (List.range 8).foldlM (fun row i => do
    let v ← rd r1 (ro + i)
    let r := toInt16 (v + 128)
    let r := if toUInt16 r > 255 then (if r > 255 then 255 else 0) else r
    wr row (o + i) (r % 256).toNat) row

/-- The table `svalue` of `setpixels1`. -/
def svalue : List Nat := [0, 3, 4, 0, 5]

/-- The `stepx` loop of `setpixels1`, taken when the 8 pixels of the row do
not all lie inside the image. The first argument counts the iterations left.
The loop advances `s` itself (`s++`); the result is `s` and the pixel buffer
after the loop. -/
def setpixels1Edge (jpgr : TJPGR) (c1 : TJPGComponent) (u1 : List Int) (d1 row : Nat) :
    Nat → (s col : Nat) → List Nat → Option (Nat × List Nat)
  | 0, s, _, pixels => some (s, pixels)
  | n + 1, s, col, pixels =>
    if col ≥ jpgr.sizex then some (s, pixels)
    else do
      let a1 ← if jpgr.issubsampled ≠ 0 then (do let m ← rd c1.umap s; rd u1 (m + d1))
               else rd u1 s
      let r := tograyscale a1
      let o := (row * jpgr.sizex) + col
      let pixels ← wr pixels o r
      setpixels1Edge jpgr c1 u1 d1 row n (s + 1) (col + 1) pixels

/-- The loop `for (s = 0; s < 64; s += 8)` of `setpixels1` for unit `i`. Every
iteration adds at least 8 to `s`. -/
def setpixels1Rows (jpgr : TJPGR) (c1 : TJPGComponent) (u1 : List Int) (d1 x i sx : Nat) :
    Nat → (s row : Nat) → List Nat → Option (List Nat)
  | 0, _, _, _ => none
  | fuel + 1, s, row, pixels =>
    if s < 64 then
      if row ≥ jpgr.sizey then some pixels
      else do
        let ox ← rd jpgr.originx i
        let col := (x <<< sx) + ox
        if col + 8 ≤ jpgr.sizex then
          let o := (row * jpgr.sizex) + col
          if jpgr.issubsampled ≠ 0 then do
            let r1 ← (List.range 8).mapM (fun k => do let m ← rd c1.umap (s + k); rd u1 (m + d1))
            let pixels ← setrow1 r1 0 pixels o
            setpixels1Rows jpgr c1 u1 d1 x i sx fuel (s + 8 + 8) (row + 1) pixels
          else do
            let pixels ← setrow1 u1 s pixels o
            setpixels1Rows jpgr c1 u1 d1 x i sx fuel (s + 8) (row + 1) pixels
        else do
          let (s, pixels) ← setpixels1Edge jpgr c1 u1 d1 row 8 s col pixels
          setpixels1Rows jpgr c1 u1 d1 x i sx fuel (s + 8) (row + 1) pixels
    else some pixels

/-- The loop over the units of the MCU in `setpixels1`; the first argument
counts the units left, `i` is the unit index. -/
def setpixels1Units (jpgr : TJPGR) (c1 : TJPGComponent) (y x sy sx : Nat) :
    Nat → (i : Nat) → List Nat → Option (List Nat)
  | 0, _, pixels => some pixels
  | n + 1, i, pixels => do
    let d1 ← rd c1.offset i
    let i1 ← rd c1.iblock i
    let u1 ← rd c1.units i1
    let oy ← rd jpgr.originy i
    let row := (y <<< sy) + oy
    let pixels ← setpixels1Rows jpgr c1 u1 d1 x i sx 9 0 row pixels
    setpixels1Units jpgr c1 y x sy sx n (i + 1) pixels

/-- Function `setpixels1(jpgr, y, x)`: paint MCU `(y, x)` of a single-component image
into `pixels`. -/
def setpixels1 (jpgr : TJPGR) (y x : Nat) : Option TJPGR := do
  let c1 ← rd jpgr.components 0
  let sy ← rd svalue jpgr.ysampling
  let sx ← rd svalue jpgr.xsampling
  let pixels ← setpixels1Units jpgr c1 y x sy sx jpgr.nunits 0 jpgr.pixels
  pure { jpgr with pixels := pixels }

/-- The first map of `upscalemap` (sampling 1 1): the identity on 0..63. -/
def upscalemap0 : List Nat := List.range 64

/-- A single-component reader without subsampling, as `initcomponents` sets it
up for sampling factors 1, 1: one unit per MCU at origin (0, 0), block index 0
and offset 0; the unit buffer is `unit` and the pixel buffer holds
`sizex * sizey` zero bytes. -/
def grayReader (sizex sizey : Nat) (unit : List Int) : TJPGR :=
  { TJPGR.init [] with
    sizex := sizex, sizey := sizey, ysampling := 1, xsampling := 1, issubsampled := 0,
    nunits := 1, pixels := List.replicate (sizex * sizey) 0,
    components := [{ ysampling := 1, xsampling := 1, umap := upscalemap0,
                     iblock := List.replicate 16 0, offset := List.replicate 16 0,
                     units := [unit] }] }

/-- Body of a DQT segment (after the marker): the 16-bit length, then for each
`(id, v)` of `tables` one 8-bit-precision table with identifier `id` whose 64
values are all `v`. -/
def dqtSegment (tables : List (Nat × Nat)) : List Nat :=
  let body := tables.flatMap (fun t => t.1 :: List.replicate 64 t.2)
  [(body.length + 2) / 256, (body.length + 2) % 256] ++ body

/-! ## JPEG reader: Huffman tables -/

/-- The macro `LENGTHBITS`. -/
def LENGTHBITS : Nat := 5
/-- The macro `LENGTHMASK`. -/
def LENGTHMASK : Nat := (1 <<< LENGTHBITS) - 1
/-- The macro `GETLENGTH`. -/
def GETLENGTH (s : Nat) : Nat := s &&& LENGTHMASK
/-- The macro `GETSYMBOL`. -/
def GETSYMBOL (s : Nat) : Nat := s >>> LENGTHBITS

/-- Function `extend`. The operands stay far below `2^63` in absolute value, so the
arithmetic of `intxx` is that of the integers (bitwise operations in two's
complement). -/
def extend (m a : Int) : Int :=
  a + Int.land ((a - ((1 : Int) <<< (m - 1))) >>> (31 : Nat)) (((-1 : Int) <<< m) + 1)

/-- One iteration of the loop of `buildextenttable`: the value stored in
`sextent[i]` for the root entry `s = symbols[i]`. -/
def buildextententry (i s : Nat) : Int :=
  if s ≥ 0x8000 then 0
  else
    let rs := GETSYMBOL s
    let length := GETLENGTH s
    let rrrr := rs >>> 4
    let ssss := (rs >>> 0) &&& 0x0f
    if ssss = 0 ∨ length + ssss > ROOTBITS then 0
    else
      let a := ((i <<< length) &&& ((1 <<< ROOTBITS) - 1)) >>> (ROOTBITS - ssss)
      let v := extend ssss a
      if v < -128 ∨ v > 127 then 0
      else toInt16 (Int.lor (Int.lor (v <<< 8) ((rrrr <<< 4 : Nat) : Int)) ((length + ssss : Nat) : Int))

/-- Function `buildextenttable`. -/
def buildextenttable (table : TJPGHmTable) : Option TJPGHmTable := do
  let sextent ← (List.range (1 <<< ROOTBITS)).foldlM (fun sextent i => do
    let s ← rd table.symbols i
    wr sextent i (buildextententry i s)) table.sextent
  pure { table with sextent := sextent }

/-- First loop of `buildtable`: the Kraft check and the first code of every
length. The arguments are the iterations left, `i`, `j`, `m`, `c` and `codes`;
the result is `some none` for `return 0`, else `m` and `codes`. -/
def buildtableCodes (lns : List Nat) :
    Nat → Nat → Int → Nat → Nat → List Nat → Option (Option (Nat × List Nat))
  | 0, _, _, m, _, codes => some (some (m, codes))
  | n + 1, i, j, m, c, codes =>
    match rd lns i with
    | none => none
    | some l =>
      let j := (j <<< 1) - (l : Int)
      if j < 0 then some none
      else
        match wr codes i c with
        | none => none
        | some codes => buildtableCodes lns n (i + 1) j (m + l) (((c + l) <<< 1) % 65536) codes

/-- The range check of the symbols of a DC table in `buildtable`: `some false`
for `return 0`. -/
def buildtableRange (symbols : List Nat) : Nat → Nat → Option Bool
  | 0, _ => some true
  | n + 1, i =>
    match rd symbols i with
    | none => none
    | some v => if v > 15 then some false else buildtableRange symbols n (i + 1)

/-- The loop `for (m = 0; m < j; m++)` of `buildtable` that marks root entries
as subtable pointers for the codes of length `i`; the result is the table and
`offset`. -/
def buildtableMark (i r c : Nat) : Nat → Nat → List Nat → Nat → Option (List Nat × Nat)
  | 0, _, symbols, offset => some (symbols, offset)
  | n + 1, m, symbols, offset =>
    let k := c + m
    match rd symbols k with
    | none => none
    | some old =>
      if old ≠ 0 then buildtableMark i r c n (m + 1) symbols offset
      else
        let entry := (1 <<< 15) ||| (offset <<< LENGTHBITS) ||| (16 - i)
        match wr symbols k (entry % 65536) with
        | none => none
        | some symbols => buildtableMark i r c n (m + 1) symbols (offset + (1 <<< r))

/-- The loop `for (i = 16; i > ROOTBITS; i--)` of `buildtable`; the first
argument is `i - ROOTBITS`. -/
def buildtableSecondary (lns codes : List Nat) : Nat → List Nat → Nat → Option (List Nat × Nat)
  | 0, symbols, offset => some (symbols, offset)
  | n + 1, symbols, offset => do
    let i := ROOTBITS + (n + 1)
    let count ← rd lns (i - 1)
    if count = 0 then buildtableSecondary lns codes n symbols offset
    else do
      let r := i - ROOTBITS
      let code ← rd codes (i - 1)
      let c := code >>> r
      let j := (count >>> r) + (if count &&& ((1 <<< r) - 1) ≠ 0 then 1 else 0)
      let (symbols, offset) ← buildtableMark i r c j 0 symbols offset
      buildtableSecondary lns codes n symbols offset

/-- The loop `for (i = (1u << r) - 1; i >= 0; i--)` of `buildtable`:
`symbols[k + (c | i)] = e`; the first argument is `i + 1`. -/
def buildtableFill (e k c : Nat) : Nat → List Nat → Option (List Nat)
  | 0, symbols => some symbols
  | i + 1, symbols =>
    match wr symbols (k + (c ||| i)) e with
    | none => none
    | some symbols => buildtableFill e k c i symbols

/-- The loop `for (v = 0; v < count; v++)` of `buildtable` for the codes of
length `j + 1`; a negative shift count makes the result `none`. -/
def buildtablePut (syms : List Nat) (j : Nat) :
    Nat → Nat → List Nat → List Nat → Option (Nat × List Nat × List Nat)
  | 0, m, codes, symbols => some (m, codes, symbols)
  | n + 1, m, codes, symbols => do
    let sym ← rd syms m
    let e := ((sym <<< LENGTHBITS) ||| (j + 1)) % 65536
    let code ← rd codes j
    let (k, c, r) ←
      if j + 1 > ROOTBITS then do
        let r := (j + 1) - ROOTBITS
        let c := code >>> r
        let entry ← rd symbols c
        let c := code &&& ((1 <<< r) - 1)
        let r : Int := (((16 - ROOTBITS : Nat) : Int) - (GETLENGTH entry : Int)) - (r : Int)
        if r < 0 then none
        else
          let c := (c <<< r.toNat) % 65536
          let k := GETSYMBOL (entry &&& ((1 <<< 15) - 1))
          pure (k, c, r.toNat)
      else
        let r := ROOTBITS - (j + 1)
        pure (0, (code <<< r) % 65536, r)
    let symbols ← buildtableFill e k c (1 <<< r) symbols
    let codes ← wr codes j ((code + 1) % 65536)
    buildtablePut syms j n (m + 1) codes symbols

/-- The loop `for (j = 0; j < 16; j++)` of `buildtable` that populates the
table; the first argument counts the iterations left. -/
def buildtablePopulate (lns syms : List Nat) :
    Nat → Nat → Nat → List Nat → List Nat → Option (List Nat)
  | 0, _, _, _, symbols => some symbols
  | n + 1, j, m, codes, symbols => do
    let count ← rd lns j
    let (m, codes, symbols) ← buildtablePut syms j count m codes symbols
    buildtablePopulate lns syms n (j + 1) m codes symbols

/-- The loop `for (i = 0; i < 1u << ROOTBITS; i++) table->symbols[i] = 0` of
`buildtable`: the root entries are set to 0 and the entries behind them are
kept; a table shorter than the root table makes the result `none`. -/
def buildtableReset (symbols : List Nat) : Option (List Nat) :=
  if symbols.length < 1 <<< ROOTBITS then none
  else some (List.replicate (1 <<< ROOTBITS) 0 ++ symbols.drop (1 <<< ROOTBITS))

/-- Function `buildtable(table, mode, lns, symbols)`: the returned flag and the table
afterwards. -/
def buildtable (table : TJPGHmTable) (mode : Nat) (lns syms : List Nat) :
    Option (Bool × TJPGHmTable) := do
  match ← buildtableCodes lns 16 0 1 0 0 (List.replicate 16 0) with
  | none => pure (false, table)
  | some (m, codes) =>
    let ok ← if mode &&& 0x01 = 0 then buildtableRange syms m 0 else pure true
    if ok = false then pure (false, table)
    else
      let v := if mode &&& 0x01 = 0 then ENOUGH_DC else ENOUGH_AC
      let symbols ← buildtableReset table.symbols
      let (symbols, offset) ← buildtableSecondary lns codes (16 - ROOTBITS) symbols (1 <<< ROOTBITS)
      if offset > v then pure (false, { table with symbols := symbols })
      else
        let symbols ← buildtablePopulate lns syms 16 0 0 codes symbols
        let table := { table with symbols := symbols }
        if mode >>> 1 ≠ 0 then
          let table ← buildextenttable table
          pure (true, table)
        else pure (true, table)

/-- The macro `ROOTMASK`. -/
def ROOTMASK : Nat := 0xffffffff ^^^ (((1 <<< ROOTBITS) - 1) <<< (16 - ROOTBITS))

/-- Function `decodesymbol(table, bits)`. -/
def decodesymbol (table : TJPGHmTable) (bits : Nat) : Option Nat := do
  let s ← rd table.symbols (bits >>> (16 - ROOTBITS))
  if s ≥ 0x8000 then
    let offset := GETSYMBOL (s &&& ((1 <<< 15) - 1))
    let extra := GETLENGTH s
    rd table.symbols (offset + ((bits &&& ROOTMASK) >>> extra))
  else pure s

/-- An empty DC table: `ENOUGH_DC` zero entries. -/
def emptyDCTable : TJPGHmTable :=
  { defined := 0, symbols := List.replicate ENOUGH_DC 0, sextent := [] }

/-- An empty AC table: `ENOUGH_AC` zero entries and `1 << ROOTBITS` extents. -/
def emptyACTable : TJPGHmTable :=
  { defined := 0, symbols := List.replicate ENOUGH_AC 0,
    sextent := List.replicate (1 <<< ROOTBITS) 0 }

/-- Canonical codeword number `k` (counted from 0 in the order of `symbols`)
of the code with count vector `lns`, as the pair (length, code value): the
codes of each length are consecutive, and the first code of a length is twice
the code after the last one of the previous length. -/
def canonicalCode (lns : List Nat) (k : Nat) : Option (Nat × Nat) :=
  let rec go : List Nat → Nat → Nat → Nat → Option (Nat × Nat)
    | [], _, _, _ => none
    | l :: rest, len, first, k =>
      if k < l then some (len, first + k) else go rest (len + 1) ((first + l) * 2) (k - l)
  go lns 1 0 k

/-! ## JPEG reader: segments

The segment parsers `parsesegments` dispatches to are parameters of the
embedding, gathered in `TSegmentParsers`; so is the part of `parseSOS` that
follows its segment-order guard. -/

/-- Marker `EOI`. -/
def EOI : Nat := 0xffd9
/-- Marker `APP0`. -/
def APP0 : Nat := 0xffe0
/-- Marker `APP2`. -/
def APP2 : Nat := 0xffe2
/-- Marker `DQT`. -/
def DQT : Nat := 0xffdb
/-- Marker `DHT`. -/
def DHT : Nat := 0xffc4
/-- Marker `SOF0`. -/
def SOF0 : Nat := 0xffc0
/-- Marker `SOF1`. -/
def SOF1 : Nat := 0xffc1
/-- Marker `SOF2`. -/
def SOF2 : Nat := 0xffc2
/-- Marker `SOF3`. -/
def SOF3 : Nat := 0xffc3
/-- Marker `SOF5`. -/
def SOF5 : Nat := 0xffc5
/-- Marker `SOF6`. -/
def SOF6 : Nat := 0xffc6
/-- Marker `SOF7`. -/
def SOF7 : Nat := 0xffc7
/-- Marker `SOF9`. -/
def SOF9 : Nat := 0xffc9
/-- Marker `SOFA`. -/
def SOFA : Nat := 0xffca
/-- Marker `SOFB`. -/
def SOFB : Nat := 0xffcb
/-- Marker `SOFD`. -/
def SOFD : Nat := 0xffcd
/-- Marker `SOFE`. -/
def SOFE : Nat := 0xffce
/-- Marker `SOFF`. -/
def SOFF : Nat := 0xffcf
/-- Marker `DRI`. -/
def DRI : Nat := 0xffdd
/-- Marker `SOS`. -/
def SOS : Nat := 0xffda

/-- The loop of `skipbytes`; the first argument is the fuel. -/
def skipbytesLoop : Nat → TJPGR → Nat → Option TJPGR
  | 0, _, _ => none
  | fuel + 1, jpgr, amount =>
    if amount ≠ 0 then
      let r := if amount > 256 then 256 else amount
      match ensurebytes jpgr r with
      | (false, jpgr) => some jpgr
      | (true, jpgr) => skipbytesLoop fuel (consumebytes jpgr r) (amount - r)
    else some jpgr

/-- Function `skipbytes`: every iteration but the last removes 256 bytes from
`amount`, so `amount / 256 + 2` iterations are enough. -/
def skipbytes (jpgr : TJPGR) (amount : Nat) : Option TJPGR :=
  skipbytesLoop (amount / 256 + 2) jpgr amount

/-- The `do ... while (s[0] == 0xff)` loop of `readmarker`; the first argument
is the fuel. -/
def readmarkerLoop : Nat → TJPGR → Option (Nat × TJPGR)
  | 0, _ => none
  | fuel + 1, jpgr =>
    match jreadinput jpgr 1 with
    | (none, jpgr) => some (0, jpgr)
    | (some s, jpgr) =>
      if s.getD 0 0 = 0xff then readmarkerLoop fuel jpgr
      else some (TOI16 0xff (s.getD 0 0), jpgr)

/-- Function `readmarker`: every iteration of its loop consumes a byte, so one
iteration more than the bytes left is enough. -/
def readmarker (jpgr : TJPGR) : Option (Nat × TJPGR) :=
  match jreadinput jpgr 1 with
  | (none, jpgr) => some (0, jpgr)
  | (some s, jpgr) =>
    if s.getD 0 0 = 0xff then
      readmarkerLoop (jpgr.window.length + jpgr.stream.length + 1) jpgr
    else some (s.getD 0 0, jpgr)

/-- The segment parsers called by `parsesegments`; each gives the returned flag
and the reader afterwards. -/
structure TSegmentParsers where
  parseAPP0 : TJPGR → Option (Bool × TJPGR)
  parseAPP2 : TJPGR → Option (Bool × TJPGR)
  parseDQT : TJPGR → Option (Bool × TJPGR)
  parseSOF0 : TJPGR → Bool → Option (Bool × TJPGR)
  parseDHT : TJPGR → Option (Bool × TJPGR)
  parseDRI : TJPGR → Option (Bool × TJPGR)
  parseSOS : TJPGR → Option (Bool × TJPGR)

/-- The code of `parsesegments` after its `switch`, for a marker `m` the
`switch` left with `break` or did not list: the segment is skipped. The result
is `some b` for `return b` and `none` when the loop goes on. -/
def skipsegment (m : Nat) (jpgr : TJPGR) : Option (Option Bool × TJPGR) :=
  let badmarker (jpgr : TJPGR) : Option (Option Bool × TJPGR) :=
    if (m >>> 8) ^^^ 0xff ≠ 0 then some (some false, jpgr) else some (none, jpgr)
  if ¬ ((m ≥ 0xffd0 ∧ m ≤ 0xffd9) ∨ m = 0xff01) then
    match read16 jpgr with
    | (r, jpgr) =>
      if r < 2 then some (some false, jpgr)
      else
        match skipbytes jpgr (r - 2) with
        | none => none
        | some jpgr => if jpgr.error ≠ 0 then some (some false, jpgr) else badmarker jpgr
  else badmarker jpgr

/-- One iteration of the loop of `parsesegments` after `m = readmarker(jpgr)`.
The result is `some b` for `return b` (the `break` at `EOI` leads to
`return 1`) and `none` for `continue` or the end of the loop body. -/
def segment (p : TSegmentParsers) (m : Nat) (jpgr : TJPGR) : Option (Option Bool × TJPGR) :=
  let called (r : Option (Bool × TJPGR)) : Option (Option Bool × TJPGR) :=
    match r with
    | none => none
    | some (false, jpgr) => some (some false, jpgr)
    | some (true, jpgr) => some (none, jpgr)
  if m = EOI then
    if jpgr.state ≠ 3 then
      some (some false, { jpgr with error := JPGR_EBADDATA, state := JPGR_BADSTATE })
    else some (some true, { jpgr with state := 4 })
  else if m = APP0 then called (p.parseAPP0 jpgr)
  else if m = APP2 then
    if jpgr.flags &&& JPGR_IGNOREICCP = 0 then called (p.parseAPP2 jpgr)
    else skipsegment m jpgr
  else if m = DQT then called (p.parseDQT jpgr)
  else if m = SOF2 ∨ m = SOF1 ∨ m = SOF0 then called (p.parseSOF0 jpgr (decide (m = SOF2)))
  else if m = SOF3 ∨ m = SOF5 ∨ m = SOF6 ∨ m = SOF7 then
    some (some false, { jpgr with error := JPGR_ENOSUPPORTED })
  else if m = DHT then called (p.parseDHT jpgr)
  else if m = DRI then called (p.parseDRI jpgr)
  else if m = SOS then
    match p.parseSOS jpgr with
    | none => none
    | some (false, jpgr) => some (some false, jpgr)
    | some (true, jpgr) => some (some true, jpgr)
  else skipsegment m jpgr

/-- The loop of `parsesegments`; the first argument is the fuel. -/
def parsesegmentsLoop (p : TSegmentParsers) : Nat → TJPGR → Option (Bool × TJPGR)
  | 0, _ => none
  | fuel + 1, jpgr =>
    match readmarker jpgr with
    | none => none
    | some (m, jpgr) =>
      match segment p m jpgr with
      | none => none
      | some (some b, jpgr) => some (b, jpgr)
      | some (none, jpgr) => parsesegmentsLoop p fuel jpgr

/-- Function `parsesegments`: the returned flag and the reader afterwards. The
fuel is one iteration more than the bytes left. -/
def parsesegments (p : TSegmentParsers) (jpgr : TJPGR) : Option (Bool × TJPGR) :=
  parsesegmentsLoop p (jpgr.window.length + jpgr.stream.length + 1) jpgr

/-- Function `parseSOS`: the guard on the segment order at its start. `rest` stands
for the statements that follow `PRVT->segmentmap.SOSs = 1`. -/
def parseSOS (rest : TJPGR → Option (Bool × TJPGR)) (jpgr : TJPGR) : Option (Bool × TJPGR) :=
  if jpgr.segmentmap.SOFXs = 0 then some (false, { jpgr with error := JPGR_SEGMENTORDER })
  else rest { jpgr with segmentmap := { jpgr.segmentmap with SOSs := 1 } }

/-- A stream with one segment of the given marker (second byte `m`) carrying
the two bytes `aa bb`, followed by the marker `EOI`. -/
def frameStream (m : Nat) : List Nat :=
  [0xff, m, 0x00, 0x04, 0xaa, 0xbb, 0xff, 0xd9]

/-! ## ICC profiles

`checkiccheader`, `readinput` and `MAXICCPSIZE` exist in both readers; the
names of the JPEG reader carry a leading `j`. The integers of type `uintxx`
are 64 bits wide (`CTB_ENV64`). `CTB_REALLOC` returns `NULL` when the field
`nomemory` of the reader is set; otherwise it gives a block that keeps the
old bytes and has zero bytes beyond them. -/

/-- The chain `s[0] != v0 && s[1] != v1 && ...` over the bytes of `s` from the
offset `o` on; a byte is read only when all tests before it hold. -/
def alldiffer (s : List Nat) (o : Nat) : List Nat → Option Bool
  | [] => some true
  | v :: vs => do
    let b ← rd s o
    if b ≠ v then alldiffer s (o + 1) vs else pure false

/-- ICC profile size limit `MAXICCPSIZE` of the PNG reader. -/
def MAXICCPSIZE : Nat := 0x800000
/-- ICC profile size limit `MAXICCPSIZE` of the JPEG reader. -/
def jMAXICCPSIZE : Nat := 0xfeef11

/-- Function `checkiccheader(header)` of the PNG reader. -/
def checkiccheader (header : List Nat) : Option Nat := do
  let b ← rds header 0 [0, 1, 2, 3]
  let size := TOI32 (b.getD 0 0) (b.getD 1 0) (b.getD 2 0) (b.getD 3 0)
  let differ ← alldiffer header 36 [0x61, 0x63, 0x73, 0x70]
  if differ then pure 0
  else if size > MAXICCPSIZE ∨ size < 0x80 then pure 0
  else pure size

/-- Function `checkiccheader(jpgr, s)` of the JPEG reader: the returned size and the
reader afterwards. -/
def jcheckiccheader (jpgr : TJPGR) (s : List Nat) : Option (Nat × TJPGR) := do
  let b ← rds s 0 [0, 1, 2, 3]
  let size := TOI32 (b.getD 0 0) (b.getD 1 0) (b.getD 2 0) (b.getD 3 0)
  let differ ← alldiffer s 36 [0x61, 0x63, 0x73, 0x70]
  if differ then pure (0, jpgr)
  else if size > jMAXICCPSIZE ∨ size < 0x80 then pure (0, { jpgr with error := JPGR_ELIMIT })
  else pure (size, jpgr)

/-- The loop of `readiccp`; `bgn` is the offset of the local pointer `bgn` in
`iccpmemory` and the first argument is the fuel. The result is the value
returned. -/
def readiccpLoop : Nat → TJPGR → Nat → Nat → Option (Nat × TJPGR)
  | 0, _, _, _ => none
  | fuel + 1, jpgr, r, bgn =>
    if r ≠ 0 then
      let v := jpgr.iccptotal - bgn
      let v := if v > r then r else v
      let total := if v > 256 then 256 else v
      if total = 0 then some (r, jpgr)
      else
        match jreadinput jpgr total with
        | (none, jpgr) => some (0, jpgr)
        | (some s, jpgr) =>
          match jpgr.iccpmemory.bind (fun mem => wrs mem bgn s) with
          | none => none
          | some mem =>
            readiccpLoop fuel { jpgr with iccpmemory := some mem } (r - total) (bgn + total)
    else some (r, jpgr)

/-- Function `readiccp(jpgr, remaining)`: every iteration but the last takes 256
bytes. The pointer `iccpappend` is read and not written. -/
def readiccp (jpgr : TJPGR) (remaining : Nat) : Option (Nat × TJPGR) :=
  readiccpLoop (remaining / 256 + 2) jpgr remaining jpgr.iccpappend

/-- The array `signature` of `checkiccpsignature`: the text `ICC_PROFILE` and
its terminator. -/
def signature : List Nat :=
  [0x49, 0x43, 0x43, 0x5f, 0x50, 0x52, 0x4f, 0x46, 0x49, 0x4c, 0x45, 0x00]

/-- Function `checkiccpsignature`. -/
def checkiccpsignature (jpgr : TJPGR) (r : Nat) : Bool × TJPGR :=
  if r < 14 then (false, jpgr)
  else
    match ensurebytes jpgr 12 with
    | (false, jpgr) => (false, { jpgr with error := JPGR_EBADDATA })
    | (true, jpgr) => (decide (jpgr.window.take 12 = signature), jpgr)

/-- Error code `JPGR_EOOM`. -/
def JPGR_EOOM : Nat := 18

/-- Function `primeiccpchunk`. The pointer returned by `readinput` is used unchecked,
so a failed read gives `none`. When the profile memory has to grow and
`CTB_REALLOC` returns `NULL` the error is `JPGR_EOOM` and the function returns
0 with the profile memory as it was. -/
def primeiccpchunk (jpgr : TJPGR) (r : Nat) : Option (Bool × TJPGR) :=
  if r < 0x80 then (skipbytes jpgr r).map (fun jpgr => (false, jpgr))
  else
    match jreadinput jpgr 0x80 with
    | (none, _) => none
    | (some s, jpgr) =>
      match jcheckiccheader jpgr s with
      | none => none
      | some (total, jpgr) =>
        if total = 0 then
          (skipbytes jpgr r).map (fun jpgr => (false, { jpgr with iccpmode := 2 }))
        else if total > jpgr.iccpsizePrvt ∧ jpgr.nomemory = true then
          some (false, { jpgr with error := JPGR_EOOM })
        else
          let jpgr :=
            if total > jpgr.iccpsizePrvt then
              let old := jpgr.iccpmemory.getD []
              { jpgr with
                iccpmemory := some (old.take total ++ List.replicate (total - old.length) 0),
                iccpappend := 0, iccpsizePrvt := total }
            else jpgr
          match jpgr.iccpmemory.bind (fun mem => wrs mem 0 s) with
          | none => none
          | some mem =>
            some (true, { jpgr with iccptotal := total, iccpmemory := some mem,
                                    iccpappend := 0x80 })

/-- The end of `parseAPP2`, from the test of the sequence on: `s1` and `s2` are
the sequence number and the total of the segment, `r` the bytes left in it. -/
def appendiccp (jpgr : TJPGR) (r s1 s2 : Nat) : Option (Bool × TJPGR) :=
  if s2 ≠ jpgr.iccps2 ∨ s1 ≠ jpgr.iccps1 then
    match skipbytes jpgr r with
    | none => none
    | some jpgr =>
      if jpgr.error ≠ 0 then some (false, jpgr)
      else some (true, { jpgr with iccpmode := 2, warnings := jpgr.warnings ||| JPGR_BADICCP })
  else
    let jpgr := { jpgr with iccps1 := (jpgr.iccps1 + 1) % 256 }
    match readiccp jpgr r with
    | none => none
    | some (r, jpgr) =>
      if r = 0 ∧ jpgr.error ≠ 0 then some (false, jpgr)
      else
        let jpgr :=
          if s1 = s2 then
            { jpgr with iccprofile := jpgr.iccpmemory.isSome, iccpsize := jpgr.iccptotal,
                        iccpmode := 2 }
          else jpgr
        if r ≠ 0 then
          match skipbytes jpgr r with
          | none => none
          | some jpgr => some (decide (jpgr.error = 0), jpgr)
        else some (true, jpgr)

/-- The part of `parseAPP2` that follows the signature of an ICC segment, from
the test `iccpmode == 2` on; `r` is the number of bytes left in the segment. -/
def iccpchunk (jpgr : TJPGR) (r : Nat) : Option (Bool × TJPGR) :=
  if jpgr.iccpmode = 2 then
    (skipbytes jpgr r).map (fun jpgr => (decide (jpgr.error = 0), jpgr))
  else
    match jreadinput jpgr 2 with
    | (none, jpgr) => some (false, jpgr)
    | (some s, jpgr) =>
      let s1 := s.getD 0 0
      let s2 := s.getD 1 0
      let r := r - 2
      if jpgr.iccpmode = 0 then
        match primeiccpchunk jpgr r with
        | none => none
        | some (false, jpgr) =>
          if jpgr.error ≠ 0 then some (false, jpgr)
          else if jpgr.iccpmode = 2 then
            some (true, { jpgr with warnings := jpgr.warnings ||| JPGR_BADICCP })
          else some (true, jpgr)
        | some (true, jpgr) =>
          appendiccp { jpgr with iccps1 := s1, iccps2 := s2, iccpmode := 1 } (r - 0x80) s1 s2
      else appendiccp jpgr r s1 s2

/-- Function `parseAPP2`: the returned flag and the reader afterwards. -/
def parseAPP2 (jpgr : TJPGR) : Option (Bool × TJPGR) :=
  match read16 jpgr with
  | (r, jpgr) =>
    if r < 1 then
      some (false, if jpgr.error = 0 then { jpgr with error := JPGR_EBADDATA } else jpgr)
    else
      let r := (r + 2 ^ 64 - 2) % 2 ^ 64
      match checkiccpsignature jpgr r with
      | (false, jpgr) =>
        if jpgr.error ≠ 0 then some (false, jpgr)
        else (skipbytes jpgr r).map (fun jpgr => (decide (jpgr.error = 0), jpgr))
      | (true, jpgr) => iccpchunk (consumebytes jpgr 12) (r - 12)

/-- An ICC header of 128 bytes: the size `size` (below 256) at offset 0 and
the four bytes `sig` at offset 36. -/
def iccHeader (size : Nat) (sig : List Nat) : List Nat :=
  [0, 0, 0, size] ++ List.replicate 32 0 ++ sig ++ List.replicate 88 0

/-- The body of an APP2 segment of an ICC profile: length, signature, sequence
number `seq`, total `tot` and the bytes `body`. -/
def iccSegment (seq tot : Nat) (body : List Nat) : List Nat :=
  [(body.length + 16) / 256, (body.length + 16) % 256] ++ signature ++ [seq, tot] ++ body

/-- The calls of `parseAPP2` for `n` APP2 segments that follow one another in
the input, as long as the function returns 1. -/
def parseAPP2s : Nat → TJPGR → Option (Bool × TJPGR)
  | 0, jpgr => some (true, jpgr)
  | n + 1, jpgr =>
    match parseAPP2 jpgr with
    | none => none
    | some (false, jpgr) => some (false, jpgr)
    | some (true, jpgr) => parseAPP2s n jpgr

/-- The bodies of a list of ICC segments, each given by its sequence number,
its total and its payload, one after the other. -/
def iccStream : List (Nat × Nat × List Nat) → List Nat
  | [] => []
  | (seq, tot, body) :: segs => iccSegment seq tot body ++ iccStream segs

/-- The fate of a profile, from the numbers of its segments: `s1` is the
sequence number expected next and `s2` the total of the first segment. The
first segment whose numbers are not the expected ones spoils the profile
(`some false`); a segment in sequence whose number equals the total completes
it (`some true`); whatever follows either of them is not looked at. `none`
means the profile is still open after the last segment. -/
def iccpOutcome : Nat → Nat → List (Nat × Nat × List Nat) → Option Bool
  | _, _, [] => none
  | s1, s2, (seq, tot, _) :: segs =>
    if tot ≠ s2 ∨ seq ≠ s1 then some false
    else if seq = tot then some true
    else iccpOutcome ((s1 + 1) % 256) s2 segs

/-! ## PNG reader: `parsePLTE` and `parsechunks` -/

/-- The entry count `psize = (head.length * 0x156) >> 10` of `parsePLTE`. -/
def psize (length : Nat) : Nat :=
  (length * 0x156) >>> 10

/-- The loop of `parsePLTE` that expands the palette from RGB to RGBA in
place, from the last entry down; `i` and `j` are the two indices and the first
argument counts the iterations left (`i` is three times that count). -/
def expandpalette : Nat → Nat → Nat → List Nat → Option (List Nat)
  | 0, _, _, palette => some palette
  | n + 1, i, j, palette => do
    let palette ← wr palette (j - 1) 0xff
    let b ← rd palette (i - 1)
    let palette ← wr palette (j - 2) b
    let b ← rd palette (i - 2)
    let palette ← wr palette (j - 3) b
    let b ← rd palette (i - 3)
    let palette ← wr palette (j - 4) b
    expandpalette n (i - 3) (j - 4) palette

/-- Function `parsePLTE`: the returned flag and the reader afterwards. The chunk body
is read straight into `palette`; a short read leaves there the bytes that were
delivered. -/
def parsePLTE (pngr : TPNGR) (head : TChunkHead) : Option (Bool × TPNGR) :=
  if pngr.chunkmap.PLTE then some (false, { pngr with error := PNGR_EDUPLICATEDCHUNK })
  else if pngr.state = 4 then some (false, { pngr with error := PNGR_ECHUNKORDER })
  else
    let pngr := { pngr with chunkmap := { pngr.chunkmap with PLTE := true } }
    if pngr.colortype = 0 ∨ pngr.colortype = 4 then some (false, pngr)
    else if head.length > 0x300 then some (false, pngr)
    else
      let ps := psize head.length
      if ps = 0 ∨ (head.length + 2 ^ 64 - ps * 3) % 2 ^ 64 ≠ 0 then some (false, pngr)
      else
        let limit := if pngr.colortype = 3 then 1 <<< pngr.depth else 0xff
        if ps > limit then some (false, pngr)
        else
          let s := pngr.input.take head.length
          if s.length ≤ pngr.palette.length then
            let pngr := { pngr with palettesize := ps,
                                    palette := s ++ pngr.palette.drop s.length }
            match readinput pngr head.length with
            | (none, pngr) => some (false, pngr)
            | (some _, pngr) =>
              match expandpalette ps (ps * 3) (ps * 4) pngr.palette with
              | none => none
              | some palette =>
                let pngr := checkcrc32 { pngr with palette := palette }
                some (decide (pngr.error = 0), pngr)
          else none

/-- An indexed reader, 8 bits deep, whose input holds the body of a PLTE chunk
of two entries followed by four trailer bytes. -/
def paletteReader : TPNGR :=
  { TPNGR.init [10, 20, 30, 40, 50, 60, 0, 0, 0, 0] with colortype := 3, depth := 8 }

/-- The four character code of a chunk head as `parsechunks` computes it. -/
def fourcc (fcc : List Nat) : Nat :=
  TOI32 (fcc.getD 0 0) (fcc.getD 1 0) (fcc.getD 2 0) (fcc.getD 3 0)

/-- The loop of `parsechunks`. `parseancillary` is a parameter of the
embedding; the first argument is the fuel. -/
def parsechunksLoop (parseancillary : TPNGR → Nat → TChunkHead → Option (Bool × TPNGR)) :
    Nat → TPNGR → Option (Bool × TPNGR)
  | 0, _ => none
  | fuel + 1, pngr =>
    match getchunkhead pngr with
    | (head, pngr) =>
      if pngr.error ≠ 0 then some (false, pngr)
      else
        let fcc := fourcc head.fcc
        if fcc = TOI32 0x49 0x45 0x4e 0x44 then
          if pngr.state = 4 then
            if pngr.error ≠ 0 then some (false, pngr)
            else
              let pngr := checkcrc32 pngr
              some (decide (pngr.error = 0), pngr)
          else some (false, { pngr with error := PNGR_ECHUNKORDER })
        else if fcc = TOI32 0x49 0x48 0x44 0x52 then
          some (false, { pngr with error := PNGR_EDUPLICATEDCHUNK })
        else if fcc = TOI32 0x50 0x4c 0x54 0x45 then
          match parsePLTE pngr head with
          | none => none
          | some (false, pngr) =>
            some (false, if pngr.error = 0 then { pngr with error := PNGR_EBADDATA } else pngr)
          | some (true, pngr) => parsechunksLoop parseancillary fuel pngr
        else if fcc = TOI32 0x49 0x44 0x41 0x54 then
          if pngr.state = 4 then some (false, { pngr with error := PNGR_ECHUNKORDER })
          else if pngr.colortype = 3 ∧ pngr.palettesize = 0 then
            some (false, { pngr with error := PNGR_EMISSINGCHUNK })
          else readzlibheader { pngr with remaining := head.length }
        else
          match parseancillary pngr fcc head with
          | none => none
          | some (false, pngr) =>
            some (false, if pngr.error = 0 then { pngr with error := PNGR_EBADDATA } else pngr)
          | some (true, pngr) => parsechunksLoop parseancillary fuel pngr

/-- Function `parsechunks`: the returned flag and the reader afterwards. Every
iteration reads a chunk head of eight bytes or returns. -/
def parsechunks (parseancillary : TPNGR → Nat → TChunkHead → Option (Bool × TPNGR))
    (pngr : TPNGR) : Option (Bool × TPNGR) :=
  parsechunksLoop parseancillary (pngr.input.length + 1) pngr

/-! ## PNG reader: `setvalues` and the image information -/

/-- Color mode `IMAGE_GRAY`. -/
def IMAGE_GRAY : Nat := 1
/-- Color mode `IMAGE_GRAYALPHA`. -/
def IMAGE_GRAYALPHA : Nat := 2
/-- Color mode `IMAGE_RGB`. -/
def IMAGE_RGB : Nat := 3
/-- Color mode `IMAGE_RGBALPHA`. -/
def IMAGE_RGBALPHA : Nat := 4
/-- Color mode `IMAGE_YCBCR`. -/
def IMAGE_YCBCR : Nat := 5

/-- The record `struct TImageInfo`. -/
structure TImageInfo where
  sizex : Nat
  sizey : Nat
  colortype : Nat
  depth : Nat
  size : Nat
  deriving DecidableEq

/-- Function `imginfo_getpelsize` (`src/imageinfo.h`). -/
def imginfo_getpelsize (imginfo : TImageInfo) : Nat :=
  let pelsize :=
    if imginfo.colortype = IMAGE_GRAY then 1
    else if imginfo.colortype = IMAGE_GRAYALPHA then 2
    else if imginfo.colortype = IMAGE_RGBALPHA then 4
    else if imginfo.colortype = IMAGE_RGB ∨ imginfo.colortype = IMAGE_YCBCR then 3
    else 0
  (pelsize * (imginfo.depth >>> 3)) % 2 ^ 64

/-- Function `imginfo_getrowsize` (`src/imageinfo.h`). -/
def imginfo_getrowsize (imginfo : TImageInfo) : Nat :=
  (imginfo_getpelsize imginfo * imginfo.sizex) % 2 ^ 64

/-- Function `isvalidmode`. -/
def isvalidmode (colordepth colortype : Nat) : Bool :=
  let deep : Bool := decide (colordepth = 8 ∨ colordepth = 16)
  if colortype = 0 then
    if colordepth = 1 ∨ colordepth = 2 ∨ colordepth = 4 then true else deep
  else if colortype = 2 ∨ colortype = 4 ∨ colortype = 6 then deep
  else if colortype = 3 then
    decide (colordepth = 1 ∨ colordepth = 2 ∨ colordepth = 4 ∨ colordepth = 8)
  else false

/-- Image size limit `MAXSAFESIZE` on a 64 bit platform. -/
def MAXSAFESIZE : Nat := 0x100000000

/-- Function `checklimits`. -/
def checklimits (sizex sizey pelsize : Nat) : Bool :=
  let v := (sizex * pelsize) % 2 ^ 64
  if v > MAXSAFESIZE >>> 2 then false
  else
    let v := (v * 2) % 2 ^ 64
    if v > MAXSAFESIZE >>> 2 then false
    else
      let v := (sizex * sizey) % 2 ^ 64
      if v > MAXSAFESIZE then false
      else
        let v := (v * pelsize) % 2 ^ 64
        if v > MAXSAFESIZE then false else true

/-- The table `cmap` of `setvalues`. -/
def cmap : List Nat := [1, 0, 3, 1, 2, 0, 4]

/-- Function `setvalues`: the returned flag, the reader and the image information
afterwards. -/
def setvalues (pngr : TPNGR) (info : TImageInfo) : Option (Bool × TPNGR × TImageInfo) :=
  let mode :=
    if pngr.colortype = 0 then (if pngr.hasalpha ≠ 0 then IMAGE_GRAYALPHA else IMAGE_GRAY)
    else if pngr.colortype = 2 ∨ pngr.colortype = 3 then
      (if pngr.hasalpha ≠ 0 then IMAGE_RGBALPHA else IMAGE_RGB)
    else if pngr.colortype = 4 then IMAGE_GRAYALPHA
    else if pngr.colortype = 6 then IMAGE_RGBALPHA
    else 0
  match rd cmap pngr.colortype with
  | none => none
  | some r =>
    let pelsize := r
    let pelsize := if pngr.colortype = 3 then pelsize + 2 else pelsize
    let pelsize := if pngr.hasalpha ≠ 0 then pelsize + 1 else pelsize
    let pelsize := if pngr.depth = 16 then (pelsize <<< 1) % 2 ^ 64 else pelsize
    if checklimits pngr.sizex pngr.sizey pelsize then
      let r := (r * ((pngr.depth + 7) >>> 3)) % 2 ^ 64
      let rowmemory := ((pngr.sizex * r) + 1) % 2 ^ 64
      let rawrowsize := rowmemory
      let rawrowsize := if pngr.depth < 8 then (((pngr.depth * pngr.sizex) + 7) >>> 3) + 1
        else rawrowsize
      let rowmemory :=
        if pngr.depth < 8 then
          (if pngr.depth = 1 then rowmemory + (8 - 1)
           else if pngr.depth = 2 then rowmemory + (4 - 1)
           else if pngr.depth = 4 then rowmemory + (2 - 1)
           else rowmemory)
        else rowmemory
      let rowmemory := rowmemory + 16
      let pngr := { pngr with rawrowsize := rawrowsize, rowmemory := rowmemory, rawpelsize := r,
                              rowsize := (pelsize * pngr.sizex) % 2 ^ 64, pelsize := pelsize }
      let info := { info with sizex := pngr.sizex, sizey := pngr.sizey, colortype := mode,
                              depth := if pngr.depth = 16 then 16 else 8 }
      some (true, pngr, { info with size := (imginfo_getrowsize info * pngr.sizey) % 2 ^ 64 })
    else some (false, pngr, info)

/-! ## PNG reader: Adam7 passes

The rows that `decoderow` yields (inflate, unfilter, unpack) are an input of
the embedding: `rows` holds the decoded rows still to come and `decoderow`
returns `NULL` when none is left. `checktail` and the `parsechunks` call that
end a decoding are parameters. The private fields `interpolate`, `pixels` and
`idxs`, which neither of them touches, are kept in `TPNGRBuffers` together
with the memory the two pointers give access to (`none` for `NULL`).

`visited` is not part of the source: it records, in order, the coordinates
`(x, y)` and the offset in `pixels` of every sample the pass loops place. -/

/-- The fields `interpolate`, `pixels`, `idxs`, the decoded rows to come and
the record of the samples placed. -/
structure TPNGRBuffers where
  interpolate : Nat
  pixels : Option (List Nat)
  idxs : Option (List Nat)
  rows : List (List Nat)
  visited : List (Nat × Nat × Nat)
  deriving DecidableEq

/-- The record `struct TPassInfo`. -/
structure TPassInfo where
  originx : Nat
  originy : Nat
  stepx : Nat
  stepy : Nat
  deriving DecidableEq

/-- The table `passinfo`. -/
def passinfo : List TPassInfo :=
  [⟨0, 0, 8, 8⟩, ⟨4, 0, 8, 8⟩, ⟨0, 4, 4, 8⟩, ⟨2, 0, 4, 4⟩, ⟨0, 2, 2, 4⟩, ⟨1, 0, 2, 2⟩,
   ⟨0, 1, 1, 2⟩]

/-- The constant `ADAM7PASSES`. -/
def ADAM7PASSES : Nat := 7

/-- The array `shiftx` of `setuppasses`. -/
def shiftx : List Nat := [3, 3, 2, 2, 1, 1, 0]
/-- The array `shifty` of `setuppasses`. -/
def shifty : List Nat := [3, 3, 3, 2, 2, 1, 1]
/-- The array `passsizex` of `pngr_decodepass`. -/
def passsizex : List Nat := [8, 4, 4, 2, 2, 1, 1]
/-- The array `passsizey` of `pngr_decodepass`. -/
def passsizey : List Nat := [8, 8, 4, 4, 2, 2, 1]

/-- The loop of `setuppasses` from pass `i` on; the first argument counts the
iterations left. The sums are taken in `uint32`, the type of `sizex`. -/
def setuppassesLoop : Nat → Nat → TPNGR → Option TPNGR
  | 0, _, pngr => some pngr
  | n + 1, i, pngr => do
    let info ← rd passinfo i
    let shx ← rd shiftx i
    let shy ← rd shifty i
    let sizex := ((pngr.sizex + info.stepx - info.originx - 1) % 2 ^ 32) >>> shx
    let sizey := ((pngr.sizey + info.stepy - info.originy - 1) % 2 ^ 32) >>> shy
    if sizex = 0 ∨ sizey = 0 then
      let passrowsize ← wr pngr.passrowsize i 0
      setuppassesLoop n (i + 1) { pngr with passrowsize := passrowsize }
    else
      let passrowsize ← wr pngr.passrowsize i sizex
      let memsize :=
        if pngr.depth < 8 then (((pngr.depth * sizex) + 7) >>> 3) + 1
        else sizex * pngr.rawpelsize + 1
      let passmemsize ← wr pngr.passmemsize i memsize
      setuppassesLoop n (i + 1)
        { pngr with passrowsize := passrowsize, passmemsize := passmemsize }

/-- Function `setuppasses`. -/
def setuppasses (pngr : TPNGR) (b : TPNGRBuffers) : Option (TPNGR × TPNGRBuffers) :=
  (setuppassesLoop ADAM7PASSES 0 pngr).map (fun pngr => (pngr, { b with interpolate := 1 }))

/-- The inner loop of `fill`: `x2` pixels from `position` on; the first
argument counts the iterations left. -/
def fillRow (pelsize : Nat) (s : List Nat) : Nat → Nat → List Nat → Option (List Nat)
  | 0, _, pixels => some pixels
  | n + 1, position, pixels => do
    let pixels ← copypel pelsize pixels position s
    fillRow pelsize s n (position + pelsize) pixels

/-- The outer loop of `fill` from row `y` on; the first argument counts the
iterations left. -/
def fillRows (pngr : TPNGR) (offset : Nat) (s : List Nat) (x2 : Nat) :
    Nat → Nat → List Nat → Option (List Nat)
  | 0, _, pixels => some pixels
  | n + 1, y, pixels => do
    let pixels ← fillRow pngr.pelsize s x2 (offset + (y * pngr.rowsize)) pixels
    fillRows pngr offset s x2 n (y + 1) pixels

/-- Function `fill(pngr, offset, s, x2, y2)`: the pixel buffer afterwards; `offset`
is an offset in `pixels`. Its `switch` is the one of `copypel`. -/
def fill (pngr : TPNGR) (pixels : List Nat) (offset : Nat) (s : List Nat) (x2 y2 : Nat) :
    Option (List Nat) :=
  fillRows pngr offset s x2 y2 0 pixels

/-- The statements that paint one sample in the `interpolate` branch of
`pngr_decodepass`: the block is clipped to the image, the sample fills it. -/
def fillpixel (pngr : TPNGR) (i x y : Nat) (pixels : List Nat) (offsetx : Nat)
    (row : List Nat) : Option (List Nat) := do
  let wx ← rd passsizex i
  let wy ← rd passsizey i
  let sx := pngr.sizex - x
  let sy := pngr.sizey - y
  let sx := if sx > wx then wx else sx
  let sy := if sy > wy then wy else sy
  let sample ← getsample pngr row (List.replicate 8 0)
  fill pngr pixels offsetx sample sx sy

/-- The loop `for (x = ORIGIN_X(i); x < pngr->sizex; x += STEP_X(i))` over the
samples of a decoded row, in either branch of `pngr_decodepass`; `paint` is
the statement that differs (`passpixel` or `fillpixel`), called with the pixel
buffer, `x`, the offset `offsetx` and the row from the current sample on. The
first argument is the fuel. -/
def passLoop (pngr : TPNGR) (info : TPassInfo) (y stepx : Nat) (rowp : List Nat)
    (paint : List Nat → Nat → Nat → List Nat → Option (List Nat)) :
    Nat → Nat → Nat → Nat → List Nat → List (Nat × Nat × Nat) →
      Option (List Nat × List (Nat × Nat × Nat))
  | 0, _, _, _, _, _ => none
  | fuel + 1, x, ro, offsetx, pixels, visited =>
    if x < pngr.sizex then
      match paint pixels x offsetx (rowp.drop ro) with
      | none => none
      | some pixels =>
        passLoop pngr info y stepx rowp paint fuel (x + info.stepx) (ro + pngr.rawpelsize)
          (offsetx + stepx) pixels (visited ++ [(x, y, offsetx)])
    else some (pixels, visited)

/-- The loop of `pngr_decodepass` that copies the palette indices of a decoded
row; the first argument is the fuel. -/
def idxLoop (pngr : TPNGR) (info : TPassInfo) (rowp : List Nat) :
    Nat → Nat → Nat → Nat → List Nat → Option (List Nat)
  | 0, _, _, _, _ => none
  | fuel + 1, x, ro, offsetx, idxs =>
    if x < pngr.sizex then do
      let v ← rd rowp ro
      let idxs ← wr idxs offsetx v
      idxLoop pngr info rowp fuel (x + info.stepx) (ro + 1) (offsetx + info.stepx) idxs
    else some idxs

/-- The body of the row loop of `pngr_decodepass` once `decoderow` gave the
row `rowp`: the pixels, then the indices. -/
def passrow (pngr : TPNGR) (info : TPassInfo) (i y stepx peloffsety idxoffsety : Nat)
    (rowp : List Nat) (b : TPNGRBuffers) : Option TPNGRBuffers :=
  let painted : Option (Option (List Nat) × List (Nat × Nat × Nat)) :=
    match b.pixels with
    | none => some (none, b.visited)
    | some pixels =>
      (passLoop pngr info y stepx rowp
        (if b.interpolate ≠ 0 then fun pixels x offsetx row => fillpixel pngr i x y pixels offsetx row
         else fun pixels _ offsetx row => passpixel pngr pixels offsetx row)
        (pngr.sizex + 1) info.originx 0 peloffsety pixels b.visited).map
        (fun r => (some r.1, r.2))
  match painted with
  | none => none
  | some (pixels, visited) =>
    let copied : Option (Option (List Nat)) :=
      match b.idxs with
      | none => some none
      | some idxs =>
        (idxLoop pngr info rowp (pngr.sizex + 1) info.originx 0 idxoffsety idxs).map some
    match copied with
    | none => none
    | some idxs => some { b with pixels := pixels, idxs := idxs, visited := visited }

/-- The loop `for (y = ORIGIN_Y(i); y < pngr->sizey; y += STEP_Y(i))` of
`pngr_decodepass`; the flag is `false` when `decoderow` returned `NULL`. The
first argument is the fuel. -/
def rowLoop (pngr : TPNGR) (info : TPassInfo) (i stepx stepy : Nat) :
    Nat → Nat → Nat → Nat → TPNGRBuffers → Option (Bool × TPNGRBuffers)
  | 0, _, _, _, _ => none
  | fuel + 1, y, peloffsety, idxoffsety, b =>
    if y < pngr.sizey then
      match b.rows with
      | [] => some (false, b)
      | rowp :: rows =>
        match passrow pngr info i y stepx peloffsety idxoffsety rowp { b with rows := rows } with
        | none => none
        | some b =>
          rowLoop pngr info i stepx stepy fuel (y + info.stepy)
            (if b.pixels.isSome then peloffsety + stepy else peloffsety)
            (if b.idxs.isSome then idxoffsety + info.stepy * pngr.sizex else idxoffsety) b
    else some (true, b)

/-- The check of the state that opens `pngr_decodeimg` and `pngr_decodepass`:
the reader afterwards and `false` when the function returns 0 at once. -/
def enterdecoding (pngr : TPNGR) : TPNGR × Bool :=
  if pngr.state ^^^ 3 ≠ 0 then
    if pngr.state = 2 then ({ pngr with state := pngr.state + 1 }, true)
    else
      ({ pngr with state := PNGR_BADSTATE,
                   error := if pngr.error = 0 then PNGR_EINCORRECTUSE else pngr.error }, false)
  else (pngr, true)

/-- The end of a decoding, shared by `pngr_decodeimg` and `pngr_decodepass`:
`checktail`, the state 4 or 5, `parsechunks`. -/
def finishdecoding (checktail parsechunks : TPNGR → Option (Bool × TPNGR)) (pngr : TPNGR) :
    Option TPNGR :=
  match checktail pngr with
  | none => none
  | some (false, pngr) => some { pngr with state := 5 }
  | some (true, pngr) =>
    match parsechunks { pngr with state := 4 } with
    | none => none
    | some (ok, pngr) =>
      if ok = false ∨ pngr.warnings ≠ 0 then some { pngr with state := 5 } else some pngr

/-- Function `pngr_decodepass`: the value returned, the reader and the buffers
afterwards. -/
def pngr_decodepass (checktail parsechunks : TPNGR → Option (Bool × TPNGR))
    (pngr : TPNGR) (b : TPNGRBuffers) : Option (Nat × TPNGR × TPNGRBuffers) :=
  match enterdecoding pngr with
  | (pngr, false) => some (0, pngr, b)
  | (pngr, true) =>
    let i := pngr.pass
    match rd pngr.passrowsize i, rd pngr.passmemsize i with
    | some rowsize, some _ =>
      let decoded : Option (Bool × TPNGRBuffers) :=
        if rowsize = 0 then some (true, b)
        else
          match rd passinfo i with
          | none => none
          | some info =>
            let stepx := info.stepx * pngr.pelsize
            let stepy := info.stepy * pngr.rowsize
            rowLoop pngr info i stepx stepy (pngr.sizey + 1) info.originy
              (info.originx * pngr.pelsize + info.originy * pngr.rowsize)
              (info.originx + info.originy * pngr.sizex) b
      match decoded with
      | none => none
      | some (false, b) => some (0, { pngr with state := PNGR_BADSTATE }, b)
      | some (true, b) =>
        let r := pngr.pass + 1
        let pngr := { pngr with pass := r }
        if r = ADAM7PASSES then
          (finishdecoding checktail parsechunks pngr).map (fun pngr => (0, pngr, b))
        else some (r, pngr, b)
    | _, _ => none

/-- Successive calls of `pngr_decodepass`, the values returned being ignored:
the calls the `switch (PRVT->pass)` of `pngr_decodeimg` falls through. -/
def passes (checktail parsechunks : TPNGR → Option (Bool × TPNGR)) :
    Nat → TPNGR → TPNGRBuffers → Option (TPNGR × TPNGRBuffers)
  | 0, pngr, b => some (pngr, b)
  | n + 1, pngr, b =>
    match pngr_decodepass checktail parsechunks pngr b with
    | none => none
    | some (_, pngr, b) => passes checktail parsechunks n pngr b

/-- The calls `pngr_decodepass(pngr)` of a caller that goes on until the
function returns 0; the first argument is the fuel. -/
def decodepasses (checktail parsechunks : TPNGR → Option (Bool × TPNGR)) :
    Nat → TPNGR → TPNGRBuffers → Option (TPNGR × TPNGRBuffers)
  | 0, _, _ => none
  | fuel + 1, pngr, b =>
    match pngr_decodepass checktail parsechunks pngr b with
    | none => none
    | some (r, pngr, b) =>
      if r = 0 then some (pngr, b) else decodepasses checktail parsechunks fuel pngr b

/-- The loops of `pngr_decodeimg` that expand the palette indices of a row to
RGB or RGBA; `j` is the index in the row, `po` the offset of `pixels` and the
first argument counts the iterations left. -/
def paletterow (pngr : TPNGR) (row : List Nat) : Nat → Nat → Nat → List Nat → Option (List Nat)
  | 0, _, _, pixels => some pixels
  | n + 1, j, po, pixels => do
    let v ← rd row j
    let entry := v * 4
    let e ← rds pngr.palette entry (if pngr.hasalpha ≠ 0 then [0, 1, 2, 3] else [0, 1, 2])
    let pixels ← wrs pixels po e
    paletterow pngr row n (j + 1) (po + e.length) pixels

/-- The row loop of `pngr_decodeimg` for an image that is not interlaced; `po`
and `io` are the offsets of the pointers `pixels` and `idxs`, the first
argument counts the iterations left and the flag is `false` when `decoderow`
returned `NULL`. -/
def imgRows (pngr : TPNGR) : Nat → Nat → Nat → TPNGRBuffers → Option (Bool × TPNGRBuffers)
  | 0, _, _, b => some (true, b)
  | n + 1, po, io, b =>
    match b.rows with
    | [] => some (false, b)
    | row :: rows =>
      let painted : Option (Option (List Nat) × Nat) :=
        match b.pixels with
        | none => some (none, po)
        | some pixels =>
          if pngr.colortype = 3 then
            (paletterow pngr row pngr.sizex 0 po pixels).map
              (fun px => (some px, po + pngr.sizex * (if pngr.hasalpha ≠ 0 then 4 else 3)))
          else
            (setrow pngr (pixels.drop po) row).map
              (fun px => (some (pixels.take po ++ px), po + pngr.rowsize))
      match painted with
      | none => none
      | some (pixels, po) =>
        let copied : Option (Option (List Nat) × Nat) :=
          match b.idxs with
          | none => some (none, io)
          | some idxs =>
            (pixelLoop (fun idxs o j => do let v ← rd row j; wr idxs o v) 1 1 pngr.sizex io 0
              idxs).map (fun idxs => (some idxs, io + pngr.sizex))
        match copied with
        | none => none
        | some (idxs, io) =>
          imgRows pngr n po io { b with rows := rows, pixels := pixels, idxs := idxs }

/-- Function `pngr_decodeimg`: the value returned, the reader and the buffers
afterwards. -/
def pngr_decodeimg (checktail parsechunks : TPNGR → Option (Bool × TPNGR))
    (pngr : TPNGR) (b : TPNGRBuffers) : Option (Nat × TPNGR × TPNGRBuffers) :=
  match enterdecoding pngr with
  | (pngr, false) => some (0, pngr, b)
  | (pngr, true) =>
    if pngr.interlace ≠ 0 then
      match passes checktail parsechunks (ADAM7PASSES - pngr.pass) pngr
          { b with interpolate := 0 } with
      | none => none
      | some (pngr, b) =>
        if pngr.state = 4 ∨ pngr.state = 5 then some (1, pngr, b) else some (0, pngr, b)
    else
      match imgRows pngr pngr.sizey 0 0 b with
      | none => none
      | some (false, b) => some (0, { pngr with state := PNGR_BADSTATE }, b)
      | some (true, b) =>
        (finishdecoding checktail parsechunks pngr).map (fun pngr => (1, pngr, b))

/-- A tail that checks out: stands for `checktail` and for the closing
`parsechunks` in the examples. -/
def tailok (pngr : TPNGR) : Option (Bool × TPNGR) :=
  some (true, pngr)

/-- The reader of an interlaced indexed image of 4 x 4 pixels with 8 bit
indices and a palette of grays, before `setuppasses`. -/
def reader4x4 : TPNGR :=
  { TPNGR.init [] with
    state := 2, sizex := 4, sizey := 4, colortype := 3, depth := 8, interlace := 1,
    palettesize := 256, palette := (List.range 256).flatMap (fun v => [v, v, v, 0xff]),
    rawpelsize := 1, rawrowsize := 5, rowmemory := 21, rowsize := 12, pelsize := 3 }

/-- The buffers of the 4 x 4 example: 48 bytes of pixels, no index buffer and
the seven decoded rows of the passes. -/
def buffers4x4 : TPNGRBuffers :=
  { interpolate := 0, pixels := some (List.replicate 48 0), idxs := none,
    rows := [[1], [2], [3, 4], [5, 6], [7, 8], [9, 10, 11, 12], [13, 14, 15, 16]],
    visited := [] }

/-- The 4 x 4 example after `setuppasses` and `k` calls of `pngr_decodepass`
in exact-placement mode. -/
def decoded4x4 (k : Nat) : Option (TPNGR × TPNGRBuffers) :=
  (setuppasses reader4x4 buffers4x4).bind
    (fun r => passes tailok tailok k r.1 { r.2 with interpolate := 0 })

/-- The 4 x 4 example as `setuppasses` leaves it. -/
def ready4x4 : TPNGR :=
  { reader4x4 with passrowsize := [1, 0, 0, 1, 2, 2, 4], passmemsize := [2, 0, 0, 2, 3, 3, 5] }

/-- The 4 x 4 example between two calls of `pngr_decodepass` (state 3). -/
def exact4x4 : TPNGR :=
  { ready4x4 with state := 3 }

/-- The reader of an interlaced gray image of 1 x 1 pixel, 8 bits deep, before
`setuppasses`. -/
def reader1x1 : TPNGR :=
  { TPNGR.init [] with
    state := 2, sizex := 1, sizey := 1, colortype := 0, depth := 8, interlace := 1,
    rawpelsize := 1, rawrowsize := 2, rowmemory := 18, rowsize := 1, pelsize := 1 }

/-- The buffers of the 1 x 1 example: one byte of pixels, the decoded row of
the image and one row more. -/
def buffers1x1 : TPNGRBuffers :=
  { interpolate := 0, pixels := some [0], idxs := none, rows := [[5], [6]], visited := [] }

/-! ## Adam7: the pixels of a pass

Notions used to state the properties of the pass loops. -/

/-- The number of bytes the `switch (PRVT->pelsize)` of `pngr_decodepass` and
`fill` copies: `pelsize` when it is one of the cases, else none. -/
def pelbytes (pelsize : Nat) : Nat :=
  if pelsize = 1 ∨ pelsize = 2 ∨ pelsize = 3 ∨ pelsize = 4 ∨ pelsize = 6 ∨ pelsize = 8 then
    pelsize
  else 0

/-- Pixel `(px, py)` lies on the grid of a pass: at or after its origin, a
whole number of steps away from it in both directions. -/
def owns (info : TPassInfo) (px py : Nat) : Prop :=
  info.originx ≤ px ∧ (px - info.originx) % info.stepx = 0 ∧
  info.originy ≤ py ∧ (py - info.originy) % info.stepy = 0

/-- Pixel `(px, py)` lies on the grid of pass `i` of `passinfo`. -/
def ownedby (i px py : Nat) : Prop :=
  match passinfo[i]? with
  | some info => owns info px py
  | none => False

/-- Pixel `(px, py)` lies on the grid of a pass before pass `i`. -/
def ownedBelow : Nat → Nat → Nat → Prop
  | 0, _, _ => False
  | i + 1, px, py => ownedBelow i px py ∨ ownedby i px py

/-- Pixel `(px, py)` has got its own sample when the loops of pass `i` reach
the sample `(x, y)`: it belongs to an earlier pass, or to pass `i` and comes
before `(x, y)` in the order of the loops. -/
def Painted (i y x px py : Nat) : Prop :=
  ownedBelow i px py ∨ (ownedby i px py ∧ (py < y ∨ (py = y ∧ px < x)))

/-- The pixel buffers `F` (replication) and `E` (exact placement) agree but
inside pixels of the image that have not got their own sample yet. -/
def PassInv (pngr : TPNGR) (i y x : Nat) (F E : List Nat) : Prop :=
  F.length = E.length ∧
  ∀ b, F[b]? ≠ E[b]? →
    ∃ px py t, px < pngr.sizex ∧ py < pngr.sizey ∧ t < pelbytes pngr.pelsize ∧
      b = py * pngr.rowsize + px * pngr.pelsize + t ∧ ¬ Painted i y x px py

/-- The buffers `bf` of a decoding by replication and `be` of a decoding by
exact placement that consume the same rows: they differ in the mode and in
the pixel buffers, which are related by `PassInv`. -/
def BufSim (pngr : TPNGR) (i y x : Nat) (bf be : TPNGRBuffers) : Prop :=
  bf.interpolate ≠ 0 ∧ be.interpolate = 0 ∧ bf.idxs = be.idxs ∧ bf.rows = be.rows ∧
  bf.visited = be.visited ∧
  ∃ F E, bf.pixels = some F ∧ be.pixels = some E ∧ pngr.sizey * pngr.rowsize ≤ F.length ∧
    PassInv pngr i y x F E

/-- The reader knows an empty pass by `passrowsize`: an entry 0 stands for a
pass without a pixel in the image. -/
def EmptyKnown (pngr : TPNGR) : Prop :=
  ∀ (k : Nat) (info : TPassInfo), passinfo[k]? = some info → pngr.passrowsize[k]? = some 0 →
    pngr.sizex ≤ info.originx ∨ pngr.sizey ≤ info.originy

/-- The samples of a pass with `ncols` columns and `nrows` rows, in the order
of its loops: coordinates and offset in the pixel buffer. -/
def passgrid (pngr : TPNGR) (info : TPassInfo) (ncols nrows : Nat) : List (Nat × Nat × Nat) :=
  (List.range nrows).flatMap (fun ky => (List.range ncols).map (fun kx =>
    (info.originx + kx * info.stepx, info.originy + ky * info.stepy,
      (info.originy + ky * info.stepy) * pngr.rowsize
        + (info.originx + kx * info.stepx) * pngr.pelsize)))

/-- The number of rows a pass decodes: none when its `passrowsize` is 0, else
the rows of the image on its grid, `ceil((sizey - originy) / stepy)`. -/
def passrows (pngr : TPNGR) (info : TPassInfo) (rowsize : Nat) : Nat :=
  if rowsize = 0 then 0 else (pngr.sizey - info.originy + info.stepy - 1) / info.stepy

/-- The record `visited` holds every pixel of the image that lies on the
grid of a pass before pass `k`, once, and nothing else. -/
def VisitedInv (pngr : TPNGR) (k : Nat) (v : List (Nat × Nat × Nat)) : Prop :=
  v.Nodup ∧ ∀ x y o, (x, y, o) ∈ v ↔
    (x < pngr.sizex ∧ y < pngr.sizey ∧ o = y * pngr.rowsize + x * pngr.pelsize ∧
      ownedBelow k x y)

/-- The number of decoded rows the passes before pass `i` take: the sum of
`passrows` over them. -/
def rowstart (pngr : TPNGR) : Nat → Nat
  | 0 => 0
  | i + 1 =>
    rowstart pngr i +
      (match passinfo[i]?, pngr.passrowsize[i]? with
       | some info, some prs => passrows pngr info prs
       | _, _ => 0)

/-- The pixel at the offset `o` of the pixel buffer `px` holds the sample
`s`: the bytes the `switch (PRVT->pelsize)` copies are there and equal. -/
def holdsSample (pelsize : Nat) (px : List Nat) (o : Nat) (s : List Nat) : Prop :=
  ∀ t, t < pelbytes pelsize → t < s.length ∧ px[o + t]? = s[t]?

/-- The byte `j` of the pixel buffer lies outside the pixel at offset `o`. -/
def outsidePixel (pelsize : Nat) (o j : Nat) : Prop :=
  j < o ∨ o + pelbytes pelsize ≤ j

/-- The pixels of the passes before pass `k` hold their samples: the pixel
`(x, y)` on the grid of pass `i` holds what `getsample` gives for the sample
number `(x - ox) / sx` of the row number `(y - oy) / sy` of that pass, the rows
of the passes following one another in `rows`. -/
def SamplesPlaced (pngr : TPNGR) (rows : List (List Nat)) (k : Nat) (px : List Nat) : Prop :=
  ∀ (i : Nat) (info : TPassInfo) (x y : Nat), i < k → passinfo[i]? = some info →
    x < pngr.sizex → y < pngr.sizey → owns info x y →
    ∃ rowp s, rows[rowstart pngr i + (y - info.originy) / info.stepy]? = some rowp ∧
      getsample pngr (rowp.drop ((x - info.originx) / info.stepx * pngr.rawpelsize))
        (List.replicate 8 0) = some s ∧
      holdsSample pngr.pelsize px (y * pngr.rowsize + x * pngr.pelsize) s

/-! ## JPEG reader: the input callback

`readmore` and `ensurebytes` above stand for a callback that stores as many
bytes as it is asked for while the input lasts. `readmoreWith` and
`ensurebytesWith` are the same functions with the callback as an argument:
`inputfn stream size` is the value the callback returns when `stream` holds
the bytes not delivered yet and `size` bytes are asked for; a positive value
`r` means that the first `r` bytes of `stream` were stored at `end`. -/

/-- Error code `JPGR_EBADSTATE` (`src/jpgreader.h`, as the codes below). -/
def JPGR_EBADSTATE : Nat := 1
/-- Error code `JPGR_EBADFILE`. -/
def JPGR_EBADFILE : Nat := 2
/-- Error code `JPGR_EINVALIDIMAGE`. -/
def JPGR_EINVALIDIMAGE : Nat := 3
/-- Error code `JPGR_EIOERROR`. -/
def JPGR_EIOERROR : Nat := 6
/-- Error code `JPGR_ENOQTTABLE`. -/
def JPGR_ENOQTTABLE : Nat := 10
/-- Error code `JPGR_EINVALIDPASS`. -/
def JPGR_EINVALIDPASS : Nat := 12
/-- Error code `JPGR_EBADUSE`. -/
def JPGR_EBADUSE : Nat := 15
/-- Error code `JPGR_EPASSLIMIT`. -/
def JPGR_EPASSLIMIT : Nat := 17
/-- Warning bit `JPGR_BADSIGNATURE`. -/
def JPGR_BADSIGNATURE : Nat := 0x01
/-- Warning bit `JPGR_BADVERSION`. -/
def JPGR_BADVERSION : Nat := 0x02
/-- Flag `JPGR_KEEPYCBCR`. -/
def JPGR_KEEPYCBCR : Nat := 0x02
/-- Limit `JPGR_MAXPASSES`. -/
def JPGR_MAXPASSES : Nat := 100
/-- Value `JPGR_ABORTED` of `eJPGRState`. -/
def JPGR_ABORTED : Int := -3
/-- Value `JPGR_DECODING` of `eJPGRState`. -/
def JPGR_DECODING : Int := -2
/-- Value `JPGR_READY` of `eJPGRState`. -/
def JPGR_READY : Int := -1
/-- Value `JPGR_NOTSET` of `eJPGRState`. -/
def JPGR_NOTSET : Int := 0
/-- Value `JPGR_DECODED` of `eJPGRState`. -/
def JPGR_DECODED : Int := 1
/-- Value `JPGR_DECODEDWITHERROR` of `eJPGRState`. -/
def JPGR_DECODEDWITHERROR : Int := 2
/-- Marker `SOI`. -/
def SOI : Nat := 0xffd8

/-- Function `readmore` with the callback `inputfn`: the number of bytes then
visible from `bgn` (0 after an error of the callback) and the reader. -/
def readmoreWith (inputfn : List Nat → Nat → Int) (jpgr : TJPGR) (avaible amount : Nat) :
    Nat × TJPGR :=
  let remaining := if jpgr.room + avaible < amount then BUFFERSIZE - avaible else jpgr.room
  if jpgr.endofinput ≠ 0 then
    (avaible, { jpgr with room := remaining })
  else
    let r := inputfn jpgr.stream remaining
    if r > 0 then
      (avaible + r.toNat,
        { jpgr with window := jpgr.window ++ jpgr.stream.take r.toNat,
                    room := remaining - r.toNat, stream := jpgr.stream.drop r.toNat })
    else if r ≠ 0 then
      (0, { jpgr with room := remaining, endofinput := 1, error := JPGR_EIOERROR })
    else
      (avaible, { jpgr with room := remaining, endofinput := 1 })

/-- Function `ensurebytes` with the callback `inputfn`. -/
def ensurebytesWith (inputfn : List Nat → Nat → Int) (jpgr : TJPGR) (amount : Nat) :
    Bool × TJPGR :=
  let avaible := jpgr.window.length
  let (avaible, jpgr) :=
    if avaible < amount then readmoreWith inputfn jpgr avaible amount else (avaible, jpgr)
  (decide (avaible ≥ amount), jpgr)

/-- The callback that stores all it is asked for while the input lasts. -/
def fullread (stream : List Nat) (size : Nat) : Int :=
  (min size stream.length : Nat)

/-- A callback that stores one byte per call while the input lasts. -/
def bytewise (stream : List Nat) (size : Nat) : Int :=
  if stream.length = 0 ∨ size = 0 then 0 else 1

/-- The contract of `TIMGInputFn` (`src/imageinfo.h`) for a callback that never
fails: it returns the number of bytes stored, which is at most the size asked
for and the input left, and zero only when there is no more input. -/
def ObeysContract (inputfn : List Nat → Nat → Int) : Prop :=
  ∀ (stream : List Nat) (size : Nat), 0 < size →
    0 ≤ inputfn stream size ∧ inputfn stream size ≤ size ∧
    inputfn stream size ≤ stream.length ∧ (inputfn stream size = 0 → stream = [])

/-! ## JPEG reader: public calls

The scan decoders, `updateimg` and `parsesegments` are parameters of the
public calls, gathered in `TDecoders`. `updateimg` gives the components and
the pixel buffer, the only parts of the reader it writes. -/

/-- Function `jpgr_reset`. A `NULL` payload is an empty stream and `pixels = NULL`
an empty pixel buffer. -/
def jpgr_reset (jpgr : TJPGR) : TJPGR :=
  { jpgr with
    state := 0, error := 0, sizex := 0, sizey := 0,
    header := { colortype := 0, depth := 0, requiredmemory := 0, isprogressive := 0,
                mayorversion := 0, minorversion := 0, xdensity := 0, ydensity := 0, unit := 0 },
    iccprofile := false, iccpsize := 0,
    issubsampled := 0,
    iccpsizePrvt := if jpgr.iccpmemory = none then 0 else jpgr.iccpsizePrvt,
    iccpappend := 0, iccpmode := 0, iccptotal := 0, iccps1 := 0, iccps2 := 0,
    ysampling := 0, xsampling := 0, nunits := 0, pixels := [],
    scan := { jpgr.scan with
              ncomponents := 0, isinterleaved := 0, nrows := 0, ncols := 0,
              al := 0, ah := 0, ss := 0, se := 0, eobrun := 0, npass := 0, rinterval := 0,
              inputfn := false, isrgb := 0, keepyuv := 0 },
    stream := [],
    components := jpgr.components.map (fun c =>
      { c with dctable := none, actable := none, qtable := none, ysampling := 0,
               xsampling := 0, ncols := 0, nrows := 0, cofficient := 0, id := 0xffffffff }),
    qtables := jpgr.qtables.map (fun t => { t with defined := 0 }),
    dctables := jpgr.dctables.map (fun t => { t with defined := 0 }),
    actables := jpgr.actables.map (fun t => { t with defined := 0 }),
    segmentmap := { APP0s := 0, SOFXs := 0, SOSs := 0 },
    window := [], room := BUFFERSIZE, endofinput := 0 }

/-- Function `jpgr_setinputfn`: `fn` tells whether the callback given is not
`NULL`, `user` is the stream it reads. -/
def jpgr_setinputfn (jpgr : TJPGR) (fn : Bool) (user : List Nat) : TJPGR :=
  if jpgr.state ≠ 0 then
    { jpgr with error := JPGR_EBADUSE, state := JPGR_EBADSTATE }
  else
    { jpgr with scan := { jpgr.scan with inputfn := fn }, stream := user }

/-- Function `jpgr_getstate` (`src/jpgreader.h`): the value returned, and the values
stored through `error` and `wrnns`. -/
def jpgr_getstate (jpgr : TJPGR) : Int × Nat × Nat :=
  let r :=
    match jpgr.state with
    | 0 => JPGR_NOTSET
    | 1 => JPGR_READY
    | 2 => JPGR_READY
    | 3 => JPGR_DECODING
    | 4 => JPGR_DECODED
    | 5 => JPGR_DECODEDWITHERROR
    | _ => JPGR_ABORTED
  (r, jpgr.error, jpgr.warnings)

/-- The scan decoders, `updateimg` and `parsesegments`, called by the public
functions; `stack` is the content of the local array `components` of
`jpgr_decodeimg`, which the function does not initialise. -/
structure TDecoders where
  parsesegments : TJPGR → Option (Bool × TJPGR)
  decodebaseline : TJPGR → Option (Bool × TJPGR)
  readfirstDC : TJPGR → Option (Bool × TJPGR)
  refineDC : TJPGR → Option (Bool × TJPGR)
  readfirstAC : TJPGR → Option (Bool × TJPGR)
  refineAC : TJPGR → Option (Bool × TJPGR)
  updateimg : TJPGR → Option (List TJPGComponent × List Nat)
  stack : List Nat

/-- The call `updateimg(PBLC)`. -/
def callupdateimg (d : TDecoders) (jpgr : TJPGR) : Option TJPGR :=
  (d.updateimg jpgr).map (fun r => { jpgr with components := r.1, pixels := r.2 })

/-- Function `jpgr_initdecoder`: the value returned, the reader and `info`. -/
def jpgr_initdecoder (d : TDecoders) (jpgr : TJPGR) (info : TImageInfo) :
    Option (Bool × TJPGR × TImageInfo) :=
  let onerror (jpgr : TJPGR) : Option (Bool × TJPGR × TImageInfo) :=
    some (false,
      { jpgr with state := JPGR_BADSTATE,
                  error := if jpgr.error = 0 then JPGR_EBADDATA else jpgr.error }, info)
  if jpgr.state ≠ 0 then onerror jpgr
  else if jpgr.scan.inputfn = false then onerror { jpgr with error := JPGR_EIOERROR }
  else
    match read16 jpgr with
    | (m, jpgr) =>
      if m = SOI then
        match d.parsesegments jpgr with
        | none => none
        | some (false, jpgr) => onerror jpgr
        | some (true, jpgr) =>
          let mode :=
            if jpgr.scan.ncomponents = 3 then
              (if jpgr.scan.isrgb ≠ 0 then IMAGE_RGB else IMAGE_YCBCR)
            else IMAGE_GRAY
          let colortype := mode
          let mode :=
            if jpgr.scan.ncomponents = 3 ∧ mode = IMAGE_YCBCR ∧ jpgr.scan.keepyuv = 0 then IMAGE_RGB
            else mode
          some (true,
            { jpgr with header := { jpgr.header with colortype := colortype }, state := 1 },
            { sizey := jpgr.sizey, sizex := jpgr.sizex, colortype := mode, depth := 8,
              size := jpgr.sizex * jpgr.sizey * jpgr.scan.ncomponents })
      else
        onerror { jpgr with error := if jpgr.error = 0 then JPGR_EBADFILE else jpgr.error }

/-- Function `jpgr_setbuffers`. The statements that hand out the working memory
to the components are the parameter `assign`; `pixels` is the target buffer,
`none` for `NULL`. -/
def jpgr_setbuffers (assign : TJPGR → List TJPGComponent) (jpgr : TJPGR)
    (pixels : Option (List Nat)) : TJPGR :=
  if jpgr.state ^^^ 1 ≠ 0 then
    { jpgr with state := JPGR_BADSTATE,
                error := if jpgr.error = 0 then JPGR_EBADUSE else jpgr.error }
  else
    let total := jpgr.sizey * jpgr.sizex * jpgr.scan.ncomponents
    { jpgr with
      components := assign jpgr,
      pixels :=
        match pixels with
        | none => []
        | some px =>
          if jpgr.header.isprogressive ≠ 0 then
            List.replicate (min total px.length) 0 ++ px.drop total
          else px,
      state := 2 }

/-- The test `c->qtable->defined == 0` over the components `i` on of
`jpgr_decodeimg` and `jpgr_decodepass`: `some true` when a table is not
defined; the first argument counts the components left. -/
def qtablemissing (jpgr : TJPGR) : Nat → Nat → Option Bool
  | 0, _ => some false
  | n + 1, i => do
    let c ← rd jpgr.components i
    let q ← c.qtable
    let t ← rd jpgr.qtables q
    if t.defined = 0 then pure true else qtablemissing jpgr n (i + 1)

/-- The statements of `jpgr_decodepass` that follow the test of the state: the
value returned and the reader. -/
def decodepassScan (d : TDecoders) (jpgr : TJPGR) (update : Bool) : Option (Nat × TJPGR) :=
  let onerror (jpgr : TJPGR) : Option (Nat × TJPGR) :=
    some (0, { jpgr with state := JPGR_BADSTATE,
                         error := if jpgr.error = 0 then JPGR_EBADDATA else jpgr.error })
  let finish (jpgr : TJPGR) : Option (Nat × TJPGR) :=
    match (if update then callupdateimg d jpgr else some jpgr) with
    | none => none
    | some jpgr =>
      match d.parsesegments jpgr with
      | none => none
      | some (false, jpgr) => onerror jpgr
      | some (true, jpgr) =>
        if jpgr.state = 4 then some (0, jpgr)
        else
          let npass := (jpgr.scan.npass + 1) % 2 ^ 32
          if npass > JPGR_MAXPASSES then
            some (0, { jpgr with scan := { jpgr.scan with npass := npass },
                                 error := JPGR_EPASSLIMIT })
          else some (npass, { jpgr with scan := { jpgr.scan with npass := npass } })
  let called (r : Option (Bool × TJPGR)) : Option (Nat × TJPGR) :=
    match r with
    | none => none
    | some (false, jpgr) => onerror jpgr
    | some (true, jpgr) => finish jpgr
  let scan (jpgr : TJPGR) : Option (Nat × TJPGR) :=
    if jpgr.scan.ss = 0 then
      if jpgr.scan.se ≠ 0 then onerror { jpgr with error := JPGR_EINVALIDPASS }
      else if jpgr.scan.ah = 0 then called (d.readfirstDC jpgr)
      else called (d.refineDC jpgr)
    else
      if jpgr.scan.nscancomponents ≠ 1 then onerror { jpgr with error := JPGR_EINVALIDPASS }
      else if jpgr.scan.ah = 0 then called (d.readfirstAC jpgr)
      else called (d.refineAC jpgr)
  if jpgr.scan.npass = 0 then
    match qtablemissing jpgr jpgr.scan.ncomponents 0 with
    | none => none
    | some true => onerror { jpgr with error := JPGR_ENOQTTABLE }
    | some false => scan jpgr
  else scan jpgr

/-- Function `jpgr_decodepass`: the value returned and the reader. -/
def jpgr_decodepass (d : TDecoders) (jpgr : TJPGR) (update : Bool) : Option (Nat × TJPGR) :=
  if jpgr.state ^^^ 3 ≠ 0 then
    if jpgr.state = 2 then decodepassScan d { jpgr with state := jpgr.state + 1 } update
    else
      some (0, { jpgr with state := JPGR_BADSTATE,
                           error := if jpgr.error = 0 then JPGR_EBADUSE else jpgr.error })
  else decodepassScan d jpgr update

/-- The loop `while (jpgr_decodepass(jpgr, 0))` of `jpgr_decodeimg`; the first
argument is the fuel. -/
def decodepassLoop (d : TDecoders) : Nat → TJPGR → Option TJPGR
  | 0, _ => none
  | fuel + 1, jpgr =>
    match jpgr_decodepass d jpgr false with
    | none => none
    | some (r, jpgr) => if r ≠ 0 then decodepassLoop d fuel jpgr else some jpgr

/-- The loop over the scans of a baseline image that is not interleaved, in
`jpgr_decodeimg`. The result is `some r` for a `return r` inside the loop,
else `none` with the value of `r` at the end of the loop; `components` is the
local array. The first argument is the fuel. -/
def scansLoop (d : TDecoders) (last : Nat) :
    Nat → (i r : Nat) → List Nat → TJPGR → Option (Option Nat × Nat × TJPGR)
  | 0, _, _, _, _ => none
  | fuel + 1, i, r, components, jpgr =>
    if i < jpgr.scan.ncomponents then do
      let components ← wr components jpgr.scan.scancomponent 1
      match d.decodebaseline jpgr with
      | none => none
      | some (false, jpgr) => some (none, 0, jpgr)
      | some (true, jpgr) =>
        match d.parsesegments jpgr with
        | none => none
        | some (false, jpgr) => some (none, 0, jpgr)
        | some (true, jpgr) =>
          if jpgr.state = 4 ∧ i ≠ last then
            some (some 0, 1, { jpgr with error := JPGR_EBADDATA })
          else do
            let seen ← rd components jpgr.scan.scancomponent
            if i ≠ last ∧ seen = 1 then
              some (none, 1,
                { jpgr with error := if jpgr.error = 0 then JPGR_EBADDATA else jpgr.error })
            else scansLoop d last fuel (i + 1) 1 components jpgr
    else some (none, r, jpgr)

/-- The statements of `jpgr_decodeimg` that follow the test of the state: the
value returned and the reader. A call of `jpgr_decodepass` that does not
return 0 adds one to `npass` and leaves it at most `JPGR_MAXPASSES`, so
`JPGR_MAXPASSES + 2` turns of its loop are enough; the loop over the scans
ends after `ncomponents` turns. -/
def decodeimgScans (d : TDecoders) (jpgr : TJPGR) : Option (Nat × TJPGR) :=
  if jpgr.header.isprogressive ≠ 0 then
    match decodepassLoop d (JPGR_MAXPASSES + 2) jpgr with
    | none => none
    | some jpgr =>
      if jpgr.error ≠ 0 then some (0, jpgr)
      else (callupdateimg d jpgr).map (fun jpgr => (1, jpgr))
  else
    match qtablemissing jpgr jpgr.scan.ncomponents 0 with
    | none => none
    | some true => some (0, { jpgr with error := JPGR_ENOQTTABLE })
    | some false =>
      if jpgr.scan.isinterleaved = 0 then
        match scansLoop d ((jpgr.scan.ncomponents + 2 ^ 32 - 1) % 2 ^ 32)
            (jpgr.scan.ncomponents + 1) 0 0 d.stack jpgr with
        | none => none
        | some (some r, _, jpgr) => some (r, jpgr)
        | some (none, r, jpgr) =>
          let closed : Option TJPGR :=
            if r = 1 then
              if jpgr.state ≠ 4 then
                some { jpgr with state := 5,
                                 error := if jpgr.error = 0 then JPGR_EBADDATA else jpgr.error }
              else some jpgr
            else
              match d.parsesegments jpgr with
              | none => none
              | some (false, jpgr) =>
                some { jpgr with state := 5,
                                 error := if jpgr.error = 0 then JPGR_EBADDATA else jpgr.error }
              | some (true, jpgr) =>
                if jpgr.state ≠ 4 then some { jpgr with state := 5 } else some jpgr
          match closed with
          | none => none
          | some jpgr => (callupdateimg d jpgr).map (fun jpgr => (1, jpgr))
      else
        match d.decodebaseline jpgr with
        | none => none
        | some (false, jpgr) => some (0, { jpgr with state := JPGR_BADSTATE })
        | some (true, jpgr) =>
          match d.parsesegments jpgr with
          | none => none
          | some (false, jpgr) => some (1, { jpgr with state := 5 })
          | some (true, jpgr) => some (1, { jpgr with state := 4 })

/-- Function `jpgr_decodeimg`: the value returned and the reader. -/
def jpgr_decodeimg (d : TDecoders) (jpgr : TJPGR) : Option (Nat × TJPGR) :=
  if jpgr.state ^^^ 3 ≠ 0 then
    if jpgr.state = 2 then decodeimgScans d { jpgr with state := jpgr.state + 1 }
    else
      some (0, { jpgr with state := JPGR_BADSTATE,
                           error := if jpgr.error = 0 then JPGR_EBADUSE else jpgr.error })
  else decodeimgScans d jpgr

/-- Function `jpgr_updateimg`. -/
def jpgr_updateimg (d : TDecoders) (jpgr : TJPGR) : Option TJPGR :=
  if jpgr.header.isprogressive = 0 then some jpgr
  else if jpgr.state ≠ 4 ∧ jpgr.state ≠ 3 ∧ jpgr.error = 0 then
    some { jpgr with error := JPGR_EBADUSE, state := JPGR_BADSTATE }
  else callupdateimg d jpgr

/-! ## JPEG reader: the frame header and the components -/

/-- The table `upscalemap`: the maps for the sampling ratios 1 1, 1 2, 1 4,
2 1, 2 2, 2 4, 4 1 and 4 2 (rows, columns). -/
def upscalemap : List (List Nat) :=
  [
    -- 1 1
    [ 0x00, 0x01, 0x02, 0x03, 0x04, 0x05, 0x06, 0x07,
      0x08, 0x09, 0x0a, 0x0b, 0x0c, 0x0d, 0x0e, 0x0f,
      0x10, 0x11, 0x12, 0x13, 0x14, 0x15, 0x16, 0x17,
      0x18, 0x19, 0x1a, 0x1b, 0x1c, 0x1d, 0x1e, 0x1f,
      0x20, 0x21, 0x22, 0x23, 0x24, 0x25, 0x26, 0x27,
      0x28, 0x29, 0x2a, 0x2b, 0x2c, 0x2d, 0x2e, 0x2f,
      0x30, 0x31, 0x32, 0x33, 0x34, 0x35, 0x36, 0x37,
      0x38, 0x39, 0x3a, 0x3b, 0x3c, 0x3d, 0x3e, 0x3f ],
    -- 1 2
    [ 0x00, 0x00, 0x01, 0x01, 0x02, 0x02, 0x03, 0x03,
      0x08, 0x08, 0x09, 0x09, 0x0a, 0x0a, 0x0b, 0x0b,
      0x10, 0x10, 0x11, 0x11, 0x12, 0x12, 0x13, 0x13,
      0x18, 0x18, 0x19, 0x19, 0x1a, 0x1a, 0x1b, 0x1b,
      0x20, 0x20, 0x21, 0x21, 0x22, 0x22, 0x23, 0x23,
      0x28, 0x28, 0x29, 0x29, 0x2a, 0x2a, 0x2b, 0x2b,
      0x30, 0x30, 0x31, 0x31, 0x32, 0x32, 0x33, 0x33,
      0x38, 0x38, 0x39, 0x39, 0x3a, 0x3a, 0x3b, 0x3b ],
    -- 1 4
    [ 0x00, 0x00, 0x00, 0x00, 0x01, 0x01, 0x01, 0x01,
      0x08, 0x08, 0x08, 0x08, 0x09, 0x09, 0x09, 0x09,
      0x10, 0x10, 0x10, 0x10, 0x11, 0x11, 0x11, 0x11,
      0x18, 0x18, 0x18, 0x18, 0x19, 0x19, 0x19, 0x19,
      0x20, 0x20, 0x20, 0x20, 0x21, 0x21, 0x21, 0x21,
      0x28, 0x28, 0x28, 0x28, 0x29, 0x29, 0x29, 0x29,
      0x30, 0x30, 0x30, 0x30, 0x31, 0x31, 0x31, 0x31,
      0x38, 0x38, 0x38, 0x38, 0x39, 0x39, 0x39, 0x39 ],
    -- 2 1
    [ 0x00, 0x01, 0x02, 0x03, 0x04, 0x05, 0x06, 0x07,
      0x00, 0x01, 0x02, 0x03, 0x04, 0x05, 0x06, 0x07,
      0x08, 0x09, 0x0a, 0x0b, 0x0c, 0x0d, 0x0e, 0x0f,
      0x08, 0x09, 0x0a, 0x0b, 0x0c, 0x0d, 0x0e, 0x0f,
      0x10, 0x11, 0x12, 0x13, 0x14, 0x15, 0x16, 0x17,
      0x10, 0x11, 0x12, 0x13, 0x14, 0x15, 0x16, 0x17,
      0x18, 0x19, 0x1a, 0x1b, 0x1c, 0x1d, 0x1e, 0x1f,
      0x18, 0x19, 0x1a, 0x1b, 0x1c, 0x1d, 0x1e, 0x1f ],
    -- 2 2
    [ 0x00, 0x00, 0x01, 0x01, 0x02, 0x02, 0x03, 0x03,
      0x00, 0x00, 0x01, 0x01, 0x02, 0x02, 0x03, 0x03,
      0x08, 0x08, 0x09, 0x09, 0x0a, 0x0a, 0x0b, 0x0b,
      0x08, 0x08, 0x09, 0x09, 0x0a, 0x0a, 0x0b, 0x0b,
      0x10, 0x10, 0x11, 0x11, 0x12, 0x12, 0x13, 0x13,
      0x10, 0x10, 0x11, 0x11, 0x12, 0x12, 0x13, 0x13,
      0x18, 0x18, 0x19, 0x19, 0x1a, 0x1a, 0x1b, 0x1b,
      0x18, 0x18, 0x19, 0x19, 0x1a, 0x1a, 0x1b, 0x1b ],
    -- 2 4
    [ 0x00, 0x00, 0x00, 0x00, 0x01, 0x01, 0x01, 0x01,
      0x00, 0x00, 0x00, 0x00, 0x01, 0x01, 0x01, 0x01,
      0x08, 0x08, 0x08, 0x08, 0x09, 0x09, 0x09, 0x09,
      0x08, 0x08, 0x08, 0x08, 0x09, 0x09, 0x09, 0x09,
      0x10, 0x10, 0x10, 0x10, 0x11, 0x11, 0x11, 0x11,
      0x10, 0x10, 0x10, 0x10, 0x11, 0x11, 0x11, 0x11,
      0x18, 0x18, 0x18, 0x18, 0x19, 0x19, 0x19, 0x19,
      0x18, 0x18, 0x18, 0x18, 0x19, 0x19, 0x19, 0x19 ],
    -- 4 1
    [ 0x00, 0x01, 0x02, 0x03, 0x04, 0x05, 0x06, 0x07,
      0x00, 0x01, 0x02, 0x03, 0x04, 0x05, 0x06, 0x07,
      0x00, 0x01, 0x02, 0x03, 0x04, 0x05, 0x06, 0x07,
      0x00, 0x01, 0x02, 0x03, 0x04, 0x05, 0x06, 0x07,
      0x08, 0x09, 0x0a, 0x0b, 0x0c, 0x0d, 0x0e, 0x0f,
      0x08, 0x09, 0x0a, 0x0b, 0x0c, 0x0d, 0x0e, 0x0f,
      0x08, 0x09, 0x0a, 0x0b, 0x0c, 0x0d, 0x0e, 0x0f,
      0x08, 0x09, 0x0a, 0x0b, 0x0c, 0x0d, 0x0e, 0x0f ],
    -- 4 2
    [ 0x00, 0x00, 0x01, 0x01, 0x02, 0x02, 0x03, 0x03,
      0x00, 0x00, 0x01, 0x01, 0x02, 0x02, 0x03, 0x03,
      0x00, 0x00, 0x01, 0x01, 0x02, 0x02, 0x03, 0x03,
      0x00, 0x00, 0x01, 0x01, 0x02, 0x02, 0x03, 0x03,
      0x08, 0x08, 0x09, 0x09, 0x0a, 0x0a, 0x0b, 0x0b,
      0x08, 0x08, 0x09, 0x09, 0x0a, 0x0a, 0x0b, 0x0b,
      0x08, 0x08, 0x09, 0x09, 0x0a, 0x0a, 0x0b, 0x0b,
      0x08, 0x08, 0x09, 0x09, 0x0a, 0x0a, 0x0b, 0x0b ] ]

/-- The local table `f` of `initcomponents`: the shift for a size of 1, 2 or 4
units. -/
def initcomponents_f : List Nat := [0x00, 0x03, 0x04, 0x00, 0x05]

/-- The local table `s` of `initcomponents`: the binary logarithm of 1, 2 and 4. -/
def initcomponents_s : List Nat := [0x00, 0x00, 0x01, 0x00, 0x02]

/-- The index `n = ((s[bsizey] << 1) + s[bsizey]) + s[bsizex]` that
`initcomponents` uses to select from `upscalemap`. -/
def umapindex (bsizey bsizex : Nat) : Option Nat := do
  let sy ← rd initcomponents_s bsizey
  let sx ← rd initcomponents_s bsizex
  pure (((sy <<< 1) + sy) + sx)

/-- The loop over `x` in `initcomponents` that sets `iblock`, `offset` and
`rumode` of a component; the first argument counts the iterations left. The
result is `j` and the component. -/
def initcomponentsCols (bsizex totalx ay n : Nat) :
    Nat → (x j ax um : Nat) → TJPGComponent → Option (Nat × TJPGComponent)
  | 0, _, j, _, _, c => some (j, c)
  | k + 1, x, j, ax, um, c => do
    let m := n + ax
    let sx ← rd initcomponents_s bsizex
    let iblock ← wr c.iblock j ((ay + (x >>> sx)) % 256)
    let offset ← wr c.offset j ((m &&& 0x3f) % 256)
    let ax := ax + totalx
    let ax := if ax ≥ 8 then ax - 8 else ax
    let rumode ← wr c.rumode j (um % 256)
    let um := if bsizex ≠ 1 then um + 1 else um
    initcomponentsCols bsizex totalx ay n k (x + 1) (j + 1) ax um
      { c with iblock := iblock, offset := offset, rumode := rumode }

/-- The loop over `y` in `initcomponents` for one component; the first argument
counts the iterations left. -/
def initcomponentsRows (xs bsizey bsizex totaly totalx rumode : Nat) :
    Nat → (y j n : Nat) → TJPGComponent → Option TJPGComponent
  | 0, _, _, _, c => some c
  | k + 1, y, j, n, c => do
    let sy ← rd initcomponents_s bsizey
    let ay := (y >>> sy) * c.xsampling
    let (j, c) ← initcomponentsCols bsizex totalx ay n xs 0 j 0 rumode c
    initcomponentsRows xs bsizey bsizex totaly totalx rumode k (y + 1) j (n + totaly) c

/-- The sizes `initcomponents` stores in a component: `irows`, `icols` and
`ucount` from the padded size `sizey`, `sizex` of the image, `nrows` and
`ncols` from its size. -/
def componentsizes (jpgr : TJPGR) (sizey sizex ys xs : Nat) (c : TJPGComponent) :
    Option TJPGComponent := do
  let shy ← rd initcomponents_s c.ysampling
  let shx ← rd initcomponents_s c.xsampling
  let fy ← rd initcomponents_f (jpgr.ysampling >>> shy)
  let fx ← rd initcomponents_f (jpgr.xsampling >>> shx)
  let bsizey := sizey >>> fy
  let bsizex := sizex >>> fx
  let ucount :=
    if jpgr.scan.isinterleaved ≠ 0 then c.ysampling * c.xsampling else bsizey * bsizex
  let fy ← rd initcomponents_f (ys >>> shy)
  let fx ← rd initcomponents_f (xs >>> shx)
  pure { c with
    irows := bsizey, icols := bsizex, ucount := ucount,
    nrows := (jpgr.sizey + ((ys >>> shy) <<< 3) - 1) >>> fy,
    ncols := (jpgr.sizex + ((xs >>> shx) <<< 3) - 1) >>> fx }

/-- The body of the loop over the components in `initcomponents`; `sizey` and
`sizex` are the locals of that name. -/
def initcomponent (jpgr : TJPGR) (sizey sizex ys xs : Nat) (c : TJPGComponent) :
    Option TJPGComponent := do
  let c ← componentsizes jpgr sizey sizex ys xs c
  let shy ← rd initcomponents_s c.ysampling
  let shx ← rd initcomponents_s c.xsampling
  let bsizey := ys >>> shy
  let bsizex := xs >>> shx
  let rumode := (bsizex + 2 ^ 64 - 1) % 2 ^ 64
  let sy ← rd initcomponents_s bsizey
  let sx ← rd initcomponents_s bsizex
  let totaly := 0x40 >>> sy
  let totalx := 0x08 >>> sx
  let c ← initcomponentsRows xs bsizey bsizex totaly totalx rumode ys 0 0 0 c
  let n ← umapindex bsizey bsizex
  let umap ← rd upscalemap n
  pure { c with umap := umap }

/-- The loop over the components in `initcomponents`; the first argument
counts the iterations left. -/
def initcomponentsLoop (jpgr : TJPGR) (sizey sizex ys xs : Nat) :
    Nat → Nat → List TJPGComponent → Option (List TJPGComponent)
  | 0, _, components => some components
  | k + 1, i, components => do
    let c ← rd components i
    let c ← initcomponent jpgr sizey sizex ys xs c
    let components ← wr components i c
    initcomponentsLoop jpgr sizey sizex ys xs k (i + 1) components

/-- Function `initcomponents(jpgr, ys, xs)`. The result is `none` when a table is read or
written outside its bounds. -/
def initcomponents (jpgr : TJPGR) (ys xs : Nat) : Option TJPGR := do
  let fy ← rd initcomponents_f ys
  let fx ← rd initcomponents_f xs
  let nrows := (jpgr.sizey + ((ys <<< 3) - 1)) >>> fy
  let ncols := (jpgr.sizex + ((xs <<< 3) - 1)) >>> fx
  let jpgr := { jpgr with scan := { jpgr.scan with nrows := nrows, ncols := ncols } }
  let sizey := nrows * (ys <<< 3)
  let sizex := ncols * (xs <<< 3)
  let components ← initcomponentsLoop jpgr sizey sizex ys xs jpgr.scan.ncomponents 0
    jpgr.components
  let origin ← (List.range ys).foldlM (fun acc y =>
    (List.range xs).foldlM (fun (acc : List Nat × List Nat × Nat) x => do
      let oy ← wr acc.1 acc.2.2 ((y <<< 3) % 256)
      let ox ← wr acc.2.1 acc.2.2 ((x <<< 3) % 256)
      pure (oy, ox, acc.2.2 + 1)) acc) (jpgr.originy, jpgr.originx, 0)
  pure { jpgr with
    components := components, originy := origin.1, originx := origin.2.1,
    nunits := origin.2.2,
    issubsampled := if jpgr.ysampling ≠ 1 ∨ jpgr.xsampling ≠ 1 then 1 else jpgr.issubsampled }

/-- Size limit `MAXSAFESIZE1` (`CTB_ENV64`). -/
def MAXSAFESIZE1 : Nat := 0x100000000
/-- Size limit `MAXSAFESIZE3` (`CTB_ENV64`). -/
def MAXSAFESIZE3 : Nat := 0x055555555

/-- Function `checksize`; the product is taken without wrap. -/
def checksize (jpgr : TJPGR) : Nat :=
  let s := jpgr.sizey * jpgr.sizex
  if jpgr.scan.ncomponents = 3 then (if s > MAXSAFESIZE3 then 0 else 1)
  else (if s > MAXSAFESIZE1 then 0 else 1)

/-- The loop over the components in `parseSOF0`: `s` is the pointer of that
name and the first argument counts the iterations left. The result is the
flag (`false` for `return 0`), `total`, `ysampling`, `xsampling` and the
reader. -/
def parseSOF0Loop : Nat → (i : Nat) → (s : List Nat) → (total ysampling xsampling : Nat) →
    TJPGR → Option (Bool × Nat × Nat × Nat × TJPGR)
  | 0, _, _, total, ysampling, xsampling, jpgr => some (true, total, ysampling, xsampling, jpgr)
  | n + 1, i, s, total, ysampling, xsampling, jpgr => do
    let id ← rd s 0
    let component ← rd jpgr.components i
    if component.id ≠ 0xffffffff then
      some (false, total, ysampling, xsampling, { jpgr with error := JPGR_EBADDATA })
    else do
      let component := { component with id := id }
      let s1 ← rd s 1
      let ys := (s1 >>> 0) &&& 0x0f
      let xs := (s1 >>> 4) &&& 0x0f
      let components ← wr jpgr.components i component
      if ys ≠ 1 ∧ ys ≠ 2 ∧ ys ≠ 4 then
        some (false, total, ysampling, xsampling,
          { jpgr with components := components, error := JPGR_ENOSUPPORTED })
      else if xs ≠ 1 ∧ xs ≠ 2 ∧ xs ≠ 4 then
        some (false, total, ysampling, xsampling,
          { jpgr with components := components, error := JPGR_ENOSUPPORTED })
      else do
        let ysampling := if ys > ysampling then ys else ysampling
        let xsampling := if xs > xsampling then xs else xsampling
        let component := { component with ysampling := ys, xsampling := xs }
        let total := total + ys * xs
        let s2 ← rd s 2
        let components ← wr jpgr.components i component
        if s2 > 3 then
          some (false, total, ysampling, xsampling, { jpgr with components := components })
        else do
          let components ← wr jpgr.components i { component with qtable := some s2 }
          parseSOF0Loop n (i + 1) (s.drop 3) total ysampling xsampling
            { jpgr with components := components }

/-- Function `parseSOF0(jpgr, progressive)`. -/
def parseSOF0 (jpgr : TJPGR) (progressive : Nat) : Option (Bool × TJPGR) :=
  if jpgr.segmentmap.SOFXs = 1 then some (false, { jpgr with error := JPGR_ENOSUPPORTED })
  else
    let jpgr := { jpgr with segmentmap := { jpgr.segmentmap with SOFXs := 1 } }
    match read16 jpgr with
    | (r, jpgr) =>
      if r < 8 then some (false, jpgr)
      else
        let r := r - 8
        match jreadinput jpgr 6 with
        | (none, jpgr) => some (false, jpgr)
        | (some s, jpgr) =>
          if s.getD 0 0 ≠ 8 then some (false, { jpgr with error := JPGR_ENOSUPPORTED })
          else
            let s := s.drop 1
            let jpgr := { jpgr with sizey := TOI16 (s.getD 0 0) (s.getD 1 0) }
            let s := s.drop 2
            let jpgr := { jpgr with sizex := TOI16 (s.getD 0 0) (s.getD 1 0) }
            let s := s.drop 2
            if jpgr.sizey = 0 ∨ jpgr.sizex = 0 then some (false, jpgr)
            else if s.getD 0 0 ^^^ 1 ≠ 0 ∧ s.getD 0 0 ^^^ 3 ≠ 0 then
              some (false, { jpgr with error := JPGR_ENOSUPPORTED })
            else
              let jpgr := { jpgr with scan := { jpgr.scan with ncomponents := s.getD 0 0 } }
              if checksize jpgr = 0 then some (false, { jpgr with error := JPGR_ELIMIT })
              else
                let total := jpgr.scan.ncomponents * 3
                if r < total then some (false, jpgr)
                else
                  match jreadinput jpgr total with
                  | (none, jpgr) => some (false, jpgr)
                  | (some s, jpgr) =>
                    match parseSOF0Loop jpgr.scan.ncomponents 0 s 0 0 0 jpgr with
                    | none => none
                    | some (false, _, _, _, jpgr) => some (false, jpgr)
                    | some (true, total, ysampling, xsampling, jpgr) =>
                      let id (k : Nat) : Nat :=
                        ((jpgr.components.getD k TJPGComponent.init).id) ||| 0x20
                      let rgb : Bool :=
                        jpgr.scan.ncomponents = 3 ∧ id 0 = 0x72 ∧ id 1 = 0x67 ∧ id 2 = 0x62
                      let keep : Bool :=
                        jpgr.scan.ncomponents = 3 ∧ rgb = false ∧ jpgr.flags &&& JPGR_KEEPYCBCR ≠ 0
                      let scan := { jpgr.scan with
                        isrgb := if rgb then 1 else jpgr.scan.isrgb,
                        keepyuv := if keep then 1 else jpgr.scan.keepyuv }
                      if total > 10 then
                        some (false, { jpgr with scan := scan, error := JPGR_EINVALIDIMAGE })
                      else
                        some (true,
                          { jpgr with scan := scan, ysampling := ysampling, xsampling := xsampling,
                                      header := { jpgr.header with isprogressive := progressive } })

/-- Body of an SOF0 segment (after the marker) of a `sizex` by `sizey` image
with 8-bit samples: the 16-bit length, then for each `(id, h, v, tq)` of
`components` the identifier, the sampling byte `h << 4 | v` and the table. -/
def sofSegment (sizey sizex : Nat) (components : List (Nat × Nat × Nat × Nat)) : List Nat :=
  let body := components.flatMap (fun c => [c.1, (c.2.1 <<< 4) ||| c.2.2.1, c.2.2.2])
  [0, 8 + body.length, 8, sizey / 256, sizey % 256, sizex / 256, sizex % 256,
    components.length] ++ body

/-! ## JPEG reader: `parseAPP0` -/

/-- Signature `JFIFID`. -/
def JFIFID : Nat := 0x4a464946
/-- Signature `JFXXID`. -/
def JFXXID : Nat := 0x4a465858

/-- The macro `ADDWARNING`. -/
def ADDWARNING (jpgr : TJPGR) (w : Nat) : TJPGR :=
  { jpgr with warnings := jpgr.warnings ||| w }

/-- The code of `parseAPP0` from the label `L_SKIP` on. -/
def parseAPP0skip (jpgr : TJPGR) (r : Nat) : Option (Bool × TJPGR) :=
  if r ≠ 0 then
    match skipbytes jpgr r with
    | none => none
    | some jpgr => if jpgr.error ≠ 0 then some (false, jpgr) else some (true, jpgr)
  else some (true, jpgr)

/-- Function `parseAPP0`; `r` is a `uint16`. -/
def parseAPP0 (jpgr : TJPGR) : Option (Bool × TJPGR) :=
  match read16 jpgr with
  | (r, jpgr) =>
    if r < 1 then some (false, jpgr)
    else
      let r := (r + 65536 - 2) % 65536
      if jpgr.segmentmap.APP0s = 1 then parseAPP0skip (ADDWARNING jpgr JPGR_SEGMENTORDER) r
      else
        let jpgr := { jpgr with
          segmentmap := { jpgr.segmentmap with APP0s := 1 },
          warnings := if jpgr.segmentmap.SOFXs = 1 then jpgr.warnings ||| JPGR_SEGMENTORDER
                      else jpgr.warnings }
        if r < 5 then some (false, jpgr)
        else
          match jreadinput jpgr 5 with
          | (none, jpgr) => some (false, jpgr)
          | (some s, jpgr) =>
            let r := r - 5
            let signature := TOI32 (s.getD 0 0) (s.getD 1 0) (s.getD 2 0) (s.getD 3 0)
            if signature ≠ JFIFID ∧ signature ≠ JFXXID then
              parseAPP0skip (ADDWARNING jpgr JPGR_BADSIGNATURE) r
            else if r < 7 then some (false, jpgr)
            else
              match jreadinput jpgr 7 with
              | (none, jpgr) => some (false, jpgr)
              | (some s, jpgr) =>
                let r := r - 7
                let jpgr := { jpgr with header := { jpgr.header with
                  mayorversion := s.getD 0 0, minorversion := s.getD 1 0 } }
                if jpgr.header.mayorversion ≠ 1 then
                  parseAPP0skip (ADDWARNING jpgr JPGR_BADVERSION) r
                else
                  let s := s.drop 2
                  parseAPP0skip { jpgr with header := { jpgr.header with
                    unit := s.getD 0 0,
                    ydensity := TOI16 (s.getD 1 0) (s.getD 2 0),
                    xdensity := TOI16 (s.getD 3 0) (s.getD 4 0) } } r

/-- The reader that is about to read the frame header of a 16 x 16 image with
the components `(id, H, V, Tq)` given. -/
def frameReader (components : List (Nat × Nat × Nat × Nat)) : TJPGR :=
  jpgr_setinputfn (TJPGR.init []) true (sofSegment 16 16 components)

/-! ## JPEG reader: the bit buffer and the restart interval

The bit buffer is the one of `CTB_ENV64`: `BPREFETCHBZ` is 32 and `bbuffer`
has 64 bits. -/

/-- Size `BPREFETCHBZ` of the prefetch buffer, in 16-bit words. -/
def BPREFETCHBZ : Nat := 32
/-- Size `BUFFERBYTES` of the prefetch buffer, in bytes. -/
def BUFFERBYTES : Nat := 64

/-- The first loop of `fecthbits`, taken when `BUFFERBYTES` bytes are in the
input buffer: it stores the bytes two by two up to a byte 0xff. The flag is
`false` for `goto L_SLOW`; the result holds `index`. The first argument counts
the iterations left. -/
def fecthbitsFast : Nat → Nat → TJPGR → Option (Bool × Nat × TJPGR)
  | 0, index, jpgr => some (true, index, jpgr)
  | n + 1, index, jpgr => do
    let b0 ← rd jpgr.window 0
    let b1 ← rd jpgr.window 1
    if b0 = 0xff ∨ b1 = 0xff then
      some (false, index,
        { jpgr with bits := { jpgr.bits with
            bbcread := jpgr.bits.bbcread + (((index <<< 1) <<< 3 : Nat) : Int) } })
    else do
      let bb ← wr jpgr.bits.bb index ((b0 <<< 8) ||| b1)
      fecthbitsFast n (index + 1)
        { jpgr with bits := { jpgr.bits with bb := bb }, window := jpgr.window.drop 2 }

/-- The byte `m` and the flag `s` that an iteration of the loop after `L_SLOW`
starts with: the next byte of the input buffer while more than one is left,
and at the end of the input the last byte unless it is 0xff, then zeros with
`s` set. The result is `none` when `readmore` is to be called. -/
def nextbyte (jpgr : TJPGR) (s : Nat) : Option (Nat × Nat) :=
  let v := jpgr.window.length
  if v > 1 then some (jpgr.window.getD 0 0, s)
  else if jpgr.endofinput ≠ 0 then
    if v ≠ 0 then
      if jpgr.window.getD 0 0 = 0xff then some (0, 1) else some (jpgr.window.getD 0 0, 0)
    else some (0, 1)
  else none

/-- The statements of the loop after `L_SLOW` that consume the byte `m`: a
byte 0xff followed by a byte that is not zero is a marker, it sets `bend` and
`s` and stands for a zero; else the byte is removed from the input, with the
zero that follows a byte 0xff, unless `s` is set. The result is `m`, `s`, `r`
and the reader. -/
def takebyte (jpgr : TJPGR) (m s r : Nat) : Option (Nat × Nat × Nat × TJPGR) :=
  if m = 0xff then
    match rd jpgr.window 1 with
    | none => none
    | some next =>
      if next ≠ 0 then some (0, 1, r, { jpgr with bits := { jpgr.bits with bend := 1 } })
      else if s = 0 then some (m, s, r + 1, { jpgr with window := jpgr.window.drop 2 })
      else some (m, s, r, jpgr)
  else if s = 0 then some (m, s, r + 1, { jpgr with window := jpgr.window.drop 1 })
  else some (m, s, r, jpgr)

/-- The loop of `fecthbits` after the label `L_SLOW`: it stores the input byte
by byte, removes the zero that follows a byte 0xff, stops at a marker and
pads with zeros. The result holds `r`, the number of bytes stored. The first
argument is the fuel. -/
def fecthbitsSlow : Nat → (index j s r buffer : Nat) → TJPGR → Option (Nat × TJPGR)
  | 0, _, _, _, _, _, _ => none
  | fuel + 1, index, j, s, r, buffer, jpgr =>
    if index < BPREFETCHBZ then
      match nextbyte jpgr s with
      | none =>
        fecthbitsSlow fuel index j s r buffer
          (readmore jpgr jpgr.window.length (4 * BUFFERBYTES)).2
      | some (m, s) =>
        match takebyte jpgr m s r with
        | none => none
        | some (m, s, r, jpgr) =>
          let buffer := m ||| (buffer <<< 8)
          if j + 8 = 16 then
            match wr jpgr.bits.bb index (buffer % 65536) with
            | none => none
            | some bb =>
              fecthbitsSlow fuel (index + 1) 0 s r 0
                { jpgr with bits := { jpgr.bits with bb := bb } }
          else fecthbitsSlow fuel index (j + 8) s r buffer jpgr
    else some (r, jpgr)

/-- Function `fecthbits`. In its second loop two bytes in three are stored and
a call of `readmore` is followed by a byte stored or by the end of the
input, so 256 iterations are enough. -/
def fecthbits (jpgr : TJPGR) : Option TJPGR :=
  let jpgr := { jpgr with bits := { jpgr.bits with bindex := 0 } }
  let slow (index : Nat) (jpgr : TJPGR) : Option TJPGR :=
    (fecthbitsSlow 256 index 0 0 0 0 jpgr).map (fun r =>
      { r.2 with bits := { r.2.bits with
          bbcread := r.2.bits.bbcread + ((r.1 <<< 3 : Nat) : Int) } })
  if jpgr.bits.bend ≠ 0 then
    if jpgr.bits.bend = 1 then
      some { jpgr with bits := { jpgr.bits with
        bb := List.replicate BPREFETCHBZ 0, bend := jpgr.bits.bend + 1 } }
    else some jpgr
  else if jpgr.window.length ≥ BUFFERBYTES then
    match fecthbitsFast BPREFETCHBZ 0 jpgr with
    | none => none
    | some (true, _, jpgr) =>
      some { jpgr with bits := { jpgr.bits with
        bbcread := jpgr.bits.bbcread + ((BUFFERBYTES <<< 3 : Nat) : Int) } }
    | some (false, index, jpgr) => slow index jpgr
  else slow 0 jpgr

/-- Function `initbitmode`. -/
def initbitmode (jpgr : TJPGR) : Option TJPGR :=
  fecthbits { jpgr with bits := { jpgr.bits with
    bbuffer := 0, bbcount := 0, bbcread := 0, bend := 0 } }

/-- Function `overread`. -/
def overread (jpgr : TJPGR) : Bool :=
  jpgr.bits.bbcread < 0

/-- Function `checkinterval`. -/
def checkinterval (jpgr : TJPGR) : Option (Bool × TJPGR) :=
  if overread jpgr = true then some (false, jpgr)
  else
    match readmarker jpgr with
    | none => none
    | some (m, jpgr) =>
      if m >>> 8 ≠ 0xff then some (false, { jpgr with error := JPGR_EBADDATA })
      else
        some (true, { jpgr with components :=
          (jpgr.components.take jpgr.scan.ncomponents).map (fun c => { c with cofficient := 0 })
            ++ jpgr.components.drop jpgr.scan.ncomponents })

/-- The statements on the restart interval that open the body of the loop over
the blocks in `decodebaseline`, `readfirstDC`, `refineDC`, `readfirstAC` and
`refineAC`: `if (PRVT->rinterval) { if (interval == 0) { if
(checkinterval(jpgr) == 0) return 0; initbitmode(jpgr); interval =
PRVT->rinterval; } interval -= 1; }`. The flag is `false` for `return 0`; the
result holds the local `interval`. -/
def restartinterval (jpgr : TJPGR) (interval : Nat) : Option (Bool × Nat × TJPGR) :=
  if jpgr.scan.rinterval ≠ 0 then
    if interval = 0 then
      match checkinterval jpgr with
      | none => none
      | some (false, jpgr) => some (false, interval, jpgr)
      | some (true, jpgr) =>
        match initbitmode jpgr with
        | none => none
        | some jpgr => some (true, jpgr.scan.rinterval - 1, jpgr)
    else some (true, interval - 1, jpgr)
  else some (true, interval, jpgr)

/-- Function `decodefirstAC(jpgr, c, index)`, `c` being the index of the component. The loop
that decodes the coefficients of the block, with the statement
`PRVT->eobrun = 0` that follows it, is the parameter `coefficients`. -/
def decodefirstAC (coefficients : TJPGR → Nat → Nat → Option (Bool × TJPGR)) (jpgr : TJPGR)
    (c index : Nat) : Option (Bool × TJPGR) :=
  if jpgr.scan.eobrun > 0 then
    some (true, { jpgr with scan := { jpgr.scan with eobrun := jpgr.scan.eobrun - 1 } })
  else coefficients jpgr c index

/-- The loop over `x` of `readfirstAC` (`block` is `decodefirstAC`) and of
`refineAC` (`block` is `decoderefineAC`) for the row `y` of the component
`c`; the result holds `interval`. The first argument counts the iterations
left. -/
def scanrow (block : TJPGR → Nat → Nat → Option (Bool × TJPGR)) (c y icols : Nat) :
    Nat → (x interval : Nat) → TJPGR → Option (Bool × Nat × TJPGR)
  | 0, _, interval, jpgr => some (true, interval, jpgr)
  | n + 1, x, interval, jpgr =>
    match restartinterval jpgr interval with
    | none => none
    | some (false, interval, jpgr) => some (false, interval, jpgr)
    | some (true, interval, jpgr) =>
      match block jpgr c ((y * icols) + x) with
      | none => none
      | some (false, jpgr) => some (false, interval, jpgr)
      | some (true, jpgr) => scanrow block c y icols n (x + 1) interval jpgr

/-- The loop over `y` of `readfirstAC` and `refineAC`; the first argument
counts the iterations left. -/
def scanrows (block : TJPGR → Nat → Nat → Option (Bool × TJPGR)) (c ncols icols : Nat) :
    Nat → (y interval : Nat) → TJPGR → Option (Bool × TJPGR)
  | 0, _, _, jpgr => some (true, jpgr)
  | n + 1, y, interval, jpgr =>
    match scanrow block c y icols ncols 0 interval jpgr with
    | none => none
    | some (false, _, jpgr) => some (false, jpgr)
    | some (true, interval, jpgr) =>
      if overread jpgr = true then some (false, jpgr)
      else scanrows block c ncols icols n (y + 1) interval jpgr

/-- Function `readfirstAC`. The sizes `nrows`, `ncols` and `icols` of the component
are read when the loops start: the decoding of a block does not write them. -/
def readfirstAC (coefficients : TJPGR → Nat → Nat → Option (Bool × TJPGR)) (jpgr : TJPGR) :
    Option (Bool × TJPGR) := do
  let jpgr ← initbitmode jpgr
  let interval := jpgr.scan.rinterval
  let c ← rd jpgr.components jpgr.scan.scancomponent
  let jpgr := { jpgr with scan := { jpgr.scan with eobrun := 0 } }
  scanrows (decodefirstAC coefficients) jpgr.scan.scancomponent c.ncols c.icols c.nrows 0
    interval jpgr

/-- A reader in the middle of an AC scan with restart interval 1: an EOB run of
two blocks is pending, the DC predictor of the component is 5 and the input
holds the marker RST0 followed by two bytes of entropy coded data. -/
def restartReader : TJPGR :=
  { TJPGR.init [] with
    state := 3, sizex := 16, sizey := 8,
    window := [0xff, 0xd0, 0x12, 0x34], room := BUFFERSIZE - 4,
    header := { isprogressive := 1 },
    scan := { ncomponents := 1, nscancomponents := 1, ss := 1, se := 63, eobrun := 2,
              rinterval := 1, npass := 1 },
    components :=
      [{ TJPGComponent.init with id := 1, ysampling := 1, xsampling := 1, qtable := some 0,
                                 nrows := 1, ncols := 2, irows := 1, icols := 2, cofficient := 5 }],
    qtables := List.replicate 4 { defined := 1, values := List.replicate 64 1 } }

/-! ## JPEG reader: examples for the public calls -/

/-- The segment parsers of the examples: `parseAPP0`, `parseDQT` and
`parseSOF0` are the embedded functions; the scan header is taken as read and
marks the scan as interleaved, the other segments are taken as read. -/
def exampleParsers : TSegmentParsers :=
  { parseAPP0 := parseAPP0,
    parseAPP2 := fun jpgr => some (true, jpgr),
    parseDQT := parseDQT,
    parseSOF0 := fun jpgr progressive => parseSOF0 jpgr (if progressive then 1 else 0),
    parseDHT := fun jpgr => some (true, jpgr),
    parseDRI := fun jpgr => some (true, jpgr),
    parseSOS := parseSOS (fun jpgr =>
      some (true, { jpgr with scan := { jpgr.scan with isinterleaved := 1 } })) }

/-- The decoders of the examples: `parsesegments` with `exampleParsers`, scan
decoders that succeed without reading and an `updateimg` that paints nothing. -/
def exampleDecoders : TDecoders :=
  { parsesegments := parsesegments exampleParsers,
    decodebaseline := fun jpgr => some (true, jpgr),
    readfirstDC := fun jpgr => some (true, jpgr),
    refineDC := fun jpgr => some (true, jpgr),
    readfirstAC := fun jpgr => some (true, jpgr),
    refineAC := fun jpgr => some (true, jpgr),
    updateimg := fun jpgr => some (jpgr.components, jpgr.pixels),
    stack := [0, 0, 0, 0] }

/-- The decoders of the examples with a baseline decoder that returns 0
without setting an error, as `decodeblock` does after an over-read. -/
def overreadDecoders : TDecoders :=
  { exampleDecoders with decodebaseline := fun jpgr => some (false, jpgr) }

/-- Body of an APP0 segment (after the marker) with the JFIF signature and the
given version: length 16, no thumbnail. -/
def app0Segment (mayor minor : Nat) : List Nat :=
  [0x00, 0x10, 0x4a, 0x46, 0x49, 0x46, 0x00, mayor, minor, 0x00, 0x00, 0x01, 0x00, 0x01,
    0x00, 0x00]

/-- A baseline file of one 8 x 8 component with a JFIF header of version 2.1:
SOI, APP0, DQT, SOF0, SOS and EOI; the scan header and the entropy coded data
are left out. -/
def version2File : List Nat :=
  [0xff, 0xd8, 0xff, 0xe0] ++ app0Segment 2 1 ++ [0xff, 0xdb] ++ dqtSegment [(0, 1)]
    ++ [0xff, 0xc0] ++ sofSegment 8 8 [(1, 1, 1, 0)] ++ [0xff, 0xda, 0xff, 0xd9]

/-- The reader of `version2File` after `jpgr_initdecoder` and `jpgr_setbuffers`. -/
def version2Ready : Option TJPGR :=
  (jpgr_initdecoder exampleDecoders (jpgr_setinputfn (TJPGR.init []) true version2File)
      { sizex := 0, sizey := 0, colortype := 0, depth := 0, size := 0 }).map
    (fun r => jpgr_setbuffers (fun jpgr => jpgr.components) r.2.1 (some (List.replicate 64 0)))

/-- A baseline reader of three components that is not interleaved, ready to
decode: the table of the first component is defined, the table 1 of the other
two is not. -/
def lateTableReader : TJPGR :=
  { TJPGR.init [] with
    state := 2, sizex := 8, sizey := 8,
    scan := { ncomponents := 3, nscancomponents := 1 },
    components :=
      [{ TJPGComponent.init with id := 1, ysampling := 1, xsampling := 1, qtable := some 0 },
       { TJPGComponent.init with id := 2, ysampling := 1, xsampling := 1, qtable := some 1 },
       { TJPGComponent.init with id := 3, ysampling := 1, xsampling := 1, qtable := some 1 }],
    qtables := { defined := 1, values := List.replicate 64 1 } ::
      List.replicate 3 { defined := 0, values := List.replicate 64 0 } }

/-- A progressive reader that has decoded `JPGR_MAXPASSES` passes and has the
header of one more scan in its input. -/
def passLimitReader : TJPGR :=
  { TJPGR.init [0xff, 0xda] with
    state := 3, sizex := 8, sizey := 8,
    segmentmap := { APP0s := 1, SOFXs := 1, SOSs := 1 },
    header := { isprogressive := 1 },
    scan := { ncomponents := 1, nscancomponents := 1, npass := JPGR_MAXPASSES },
    components :=
      [{ TJPGComponent.init with id := 1, ysampling := 1, xsampling := 1, qtable := some 0 }],
    qtables := List.replicate 4 { defined := 1, values := List.replicate 64 1 } }

/-- An interleaved baseline reader of one component, ready to decode. -/
def baselineReader : TJPGR :=
  { TJPGR.init [0xff, 0xd9] with
    state := 2, sizex := 8, sizey := 8,
    segmentmap := { APP0s := 1, SOFXs := 1, SOSs := 1 },
    scan := { ncomponents := 1, nscancomponents := 1, isinterleaved := 1 },
    components :=
      [{ TJPGComponent.init with id := 1, ysampling := 1, xsampling := 1, qtable := some 0 }],
    qtables := List.replicate 4 { defined := 1, values := List.replicate 64 1 } }

/-- The reader `version2Ready`, when `jpgr_initdecoder` has returned. -/
def version2Reader : TJPGR :=
  version2Ready.getD (TJPGR.init [])

/-! ## PNG reader: example for the replication mode -/

/-- The buffers of the 4 x 4 example in replication mode. -/
def fill4x4 : TPNGRBuffers :=
  { buffers4x4 with interpolate := 1 }

/-! ## JPEG reader: the zig-zag sequence -/

/-- The coefficients of one anti-diagonal of an 8 x 8 block in the order of the
zig-zag sequence of the JPEG standard: the diagonal `d` holds the positions
with `row + col = d`; it is walked with the row rising when `d` is odd and
falling when `d` is even. A position is given as `8 * row + col`. -/
def zigzagDiagonal (d : Nat) : List Nat :=
  let rows := (List.range 8).filter (fun r => decide (r ≤ d ∧ d - r < 8))
  let rows := if d % 2 = 0 then rows.reverse else rows
  rows.map (fun r => 8 * r + (d - r))

/-- The zig-zag sequence of the JPEG standard, written from its definition and
not from the source: entry `k` is the position `8 * row + col` of the `k`-th
coefficient of a block in transmission order. -/
def zigzag : List Nat :=
  (List.range 15).flatMap zigzagDiagonal

/-- The value number `k` of a table in a DQT segment whose values are the
bytes `s`: one byte for precision 0, two bytes with the high byte first
otherwise. -/
def transmitted (s : List Nat) (precision k : Nat) : Nat :=
  if precision = 0 then s.getD k 0 else 256 * s.getD (2 * k) 0 + s.getD (2 * k + 1) 0

/-! ## JPEG reader: `inverseDCT` -/

/-- Conversion to `int32` (two's complement wrap). -/
def toInt32 (v : Int) : Int :=
  (v + 2147483648) % 4294967296 - 2147483648

/-- Conversion to `uint32`. -/
def toUInt32 (v : Int) : Nat :=
  (v % 4294967296).toNat

/-- Constant `C6xSQRT2` of `inverseDCT`, scaled to `2^13` as the ones below. -/
def C6xSQRT2 : Int := 4433
/-- Constant `S6xSQRT2`. -/
def S6xSQRT2 : Int := 10703
/-- Constant `A`. -/
def A : Int := 2446
/-- Constant `B`. -/
def B : Int := 16819
/-- Constant `C`. -/
def C : Int := 25172
/-- Constant `D`. -/
def D : Int := 12299
/-- Constant `E`. -/
def E : Int := -7373
/-- Constant `F`. -/
def F : Int := -20995
/-- Constant `G`. -/
def G : Int := -16069
/-- Constant `H`. -/
def H : Int := -3196
/-- Constant `I`. -/
def I : Int := 9633

/-- The values `l0 .. l7` of `inverseDCT` after an iteration of either loop. -/
structure TDCTStage where
  l0 : Int
  l1 : Int
  l2 : Int
  l3 : Int
  l4 : Int
  l5 : Int
  l6 : Int
  l7 : Int
  deriving DecidableEq

/-- The statements of an iteration of `inverseDCT` from `stage 3` of the even
part to the end of the odd part, the same in both loops; `y7`, `y5`, `y3` and
`y1` are `l4`, `l5`, `l6` and `l7`. Every operation is one of `int32`. -/
def inverseDCTstages (l : TDCTStage) : TDCTStage :=
  let z0 := toInt32 (toInt32 (l.l0 + l.l1) <<< (13 : Int))
  let z1 := toInt32 (toInt32 (l.l0 - l.l1) <<< (13 : Int))
  let z5 := toInt32 (S6xSQRT2 * toInt32 (l.l2 + l.l3))
  let z2 := toInt32 (toInt32 (l.l2 * -(S6xSQRT2 + C6xSQRT2)) + z5)
  let z3 := toInt32 (toInt32 (l.l3 * (C6xSQRT2 - S6xSQRT2)) + z5)
  let l0 := toInt32 (z3 + z0)
  let l1 := toInt32 (z1 - z2)
  let l2 := toInt32 (z2 + z1)
  let l3 := toInt32 (z0 - z3)
  let y7 := l.l4
  let y5 := l.l5
  let y3 := l.l6
  let y1 := l.l7
  let z1 := toInt32 (y7 + y1)
  let z2 := toInt32 (y5 + y3)
  let z3 := toInt32 (y7 + y3)
  let z4 := toInt32 (y5 + y1)
  let z5 := toInt32 (z3 + z4)
  let y7 := toInt32 (y7 * A)
  let y5 := toInt32 (y5 * B)
  let y3 := toInt32 (y3 * C)
  let y1 := toInt32 (y1 * D)
  let z1 := toInt32 (z1 * E)
  let z2 := toInt32 (z2 * F)
  let z3 := toInt32 (z3 * G)
  let z4 := toInt32 (z4 * H)
  let z5 := toInt32 (z5 * I)
  let z4 := toInt32 (z4 + z5)
  let z3 := toInt32 (z3 + z5)
  let y1 := toInt32 (y1 + toInt32 (z1 + z4))
  let y3 := toInt32 (y3 + toInt32 (z2 + z3))
  let y5 := toInt32 (y5 + toInt32 (z2 + z4))
  let y7 := toInt32 (y7 + toInt32 (z1 + z3))
  { l0 := l0, l1 := l1, l2 := l2, l3 := l3, l4 := y7, l5 := y5, l6 := y3, l7 := y1 }

/-- The last stage of an iteration of `inverseDCT`: the eight results in the
order of the indices 0 to 7, each `((a ± b) + round) >> shift`. -/
def inverseDCTlast (l : TDCTStage) (round : Int) (shift : Nat) : List Int :=
  [toInt32 (toInt32 (l.l0 + l.l7) + round) >>> shift,
   toInt32 (toInt32 (l.l1 + l.l6) + round) >>> shift,
   toInt32 (toInt32 (l.l2 + l.l5) + round) >>> shift,
   toInt32 (toInt32 (l.l3 + l.l4) + round) >>> shift,
   toInt32 (toInt32 (l.l3 - l.l4) + round) >>> shift,
   toInt32 (toInt32 (l.l2 - l.l5) + round) >>> shift,
   toInt32 (toInt32 (l.l1 - l.l6) + round) >>> shift,
   toInt32 (toInt32 (l.l0 - l.l7) + round) >>> shift]

/-- The values `l0 .. l7` an iteration of `inverseDCT` loads from `p[0 * 8]`,
`p[4 * 8]`, `p[2 * 8]`, `p[6 * 8]`, `p[7 * 8]`, `p[5 * 8]`, `p[3 * 8]` and
`p[1 * 8]`, where `p` is `block + i`. -/
def inverseDCTload (block : List Int) (i : Nat) : Option TDCTStage := do
  let l0 ← rd block (i + 0 * 8)
  let l1 ← rd block (i + 4 * 8)
  let l2 ← rd block (i + 2 * 8)
  let l3 ← rd block (i + 6 * 8)
  let l4 ← rd block (i + 7 * 8)
  let l5 ← rd block (i + 5 * 8)
  let l6 ← rd block (i + 3 * 8)
  let l7 ← rd block (i + 1 * 8)
  pure { l0 := l0, l1 := l1, l2 := l2, l3 := l3, l4 := l4, l5 := l5, l6 := l6, l7 := l7 }

/-- The branch of the first loop of `inverseDCT` taken when
`(l1 | l2 | l3 | l4 | l5 | l6 | l7) == 0`: eight copies of
`(l0 * qtable[0]) << 1`. -/
def inverseDCTshortcut (l0 q0 : Int) : List Int :=
  List.replicate 8 (toInt32 (toInt32 (l0 * q0) <<< (1 : Int)))

/-- The other branch of the first loop of `inverseDCT`: the values are
multiplied by those of the quantization table, then the stages above with
`((a ± b) + 2048) >> 12` at the end. -/
def inverseDCTgeneral (l q : TDCTStage) : List Int :=
  let l : TDCTStage :=
    { l0 := toInt32 (l.l0 * q.l0), l1 := toInt32 (l.l1 * q.l1), l2 := toInt32 (l.l2 * q.l2),
      l3 := toInt32 (l.l3 * q.l3), l4 := toInt32 (l.l4 * q.l4), l5 := toInt32 (l.l5 * q.l5),
      l6 := toInt32 (l.l6 * q.l6), l7 := toInt32 (l.l7 * q.l7) }
  inverseDCTlast (inverseDCTstages l) 2048 12

/-- The iteration `i` of the first loop of `inverseDCT`: the values stored in
`rr[0] .. rr[7]`. The bitwise or of seven values being 0 is written as each
of them being 0. -/
def inverseDCTcolumn (sblock qtable : List Int) (i : Nat) : Option (List Int) := do
  let l ← inverseDCTload sblock i
  let q ← inverseDCTload qtable i
  if l.l1 = 0 ∧ l.l2 = 0 ∧ l.l3 = 0 ∧ l.l4 = 0 ∧ l.l5 = 0 ∧ l.l6 = 0 ∧ l.l7 = 0 then
    pure (inverseDCTshortcut l.l0 q.l0)
  else pure (inverseDCTgeneral l q)

/-- The first loop of `inverseDCT`: the array `r`. -/
def inverseDCTpass1 (sblock qtable : List Int) : Option (List Int) :=
  (List.range 8).foldlM (fun r i => do
    let rr ← inverseDCTcolumn sblock qtable i
    pure (r ++ rr)) []

/-- The second loop of `inverseDCT`: the iteration `i` stores its eight results,
converted to `int16`, in `rblock[i + 0 * 8] .. rblock[i + 7 * 8]`. -/
def inverseDCTpass2 (r rblock : List Int) : Option (List Int) :=
  (List.range 8).foldlM (fun rblock i => do
    let l ← inverseDCTload r i
    let out := inverseDCTlast (inverseDCTstages l) 65536 17
    (List.range 8).foldlM (fun rblock k => do
      let v ← rd out k
      wr rblock (i + k * 8) (toInt16 v)) rblock) rblock

/-- Function `inverseDCT(sblock, rblock, qtable)`: the block `rblock` afterwards. The
overflow of a signed operation is taken as the two's complement wrap. -/
def inverseDCT (sblock rblock qtable : List Int) : Option (List Int) := do
  let r ← inverseDCTpass1 sblock qtable
  inverseDCTpass2 r rblock

/-! ## JPEG reader: colour conversion -/

/-- Constant `FIXED_1_402`, scaled to `2^12` as the ones below. -/
def FIXED_1_402 : Int := 5743
/-- Constant `FIXED_0_344`. -/
def FIXED_0_344 : Int := 1410
/-- Constant `FIXED_0_714`. -/
def FIXED_0_714 : Int := 2925
/-- Constant `FIXED_1_772`. -/
def FIXED_1_772 : Int := 7258

/-- The clamp of `toRGB` and `setrow3`, `if ((uint32) v > 255) { if (v > 255)
v = 255; else v = 0; }`, and the conversion to `uint8` of the store. -/
def clampbyte (v : Int) : Nat :=
  let v := if toUInt32 v > 255 then (if v > 255 then 255 else 0) else v
  (v % 256).toNat

/-- The values of `r`, `g` and `b` in `toRGB` and `setrow3` before the clamp.
The arguments are of type `int16`, for which no operation of `int32` wraps. -/
def rgbsums (y cb cr : Int) (transform : Nat) : Int × Int × Int :=
  if transform ≠ 0 then
    let r := cr * FIXED_1_402
    let g := cb * -FIXED_0_344 + cr * -FIXED_0_714
    let b := cb * FIXED_1_772
    let m := (y <<< (12 : Int)) + 2048 + 524228
    ((m + r) >>> (12 : Nat), (m + g) >>> (12 : Nat), (m + b) >>> (12 : Nat))
  else (y + 128, cb + 128, cr + 128)

/-- Function `toRGB`. -/
def toRGB (y cb cr : Int) (transform : Nat) : Nat × Nat × Nat :=
  let s := rgbsums y cb cr transform
  (clampbyte s.1, clampbyte s.2.1, clampbyte s.2.2)

/-- Function `setrow3(r1 + ro, r2 + ro, r3 + ro, row + o, transform)`: eight pixels of
three bytes stored in `row` from `o` on. -/
def setrow3 (r1 r2 r3 : List Int) (ro : Nat) (row : List Nat) (o : Nat) (transform : Nat) :
    Option (List Nat) :=
  (List.range 8).foldlM (fun row i => do
    let y ← rd r1 (ro + i)
    let cb ← rd r2 (ro + i)
    let cr ← rd r3 (ro + i)
    let s := rgbsums y cb cr transform
    let row ← wr row (o + 3 * i) (clampbyte s.1)
    let row ← wr row (o + 3 * i + 1) (clampbyte s.2.1)
    wr row (o + 3 * i + 2) (clampbyte s.2.2)) row

/-! ## PNG reader: `parseBKGD` -/

/-- Property bit `PNGR_BKGD`. -/
def PNGR_BKGD : Nat := 0x02

/-- The body size `parseBKGD` expects for a colortype. -/
def bkgdsize (colortype : Nat) : Nat :=
  match colortype with
  | 0 => 2
  | 2 => 6
  | 6 => 6
  | 3 => 1
  | _ => 0

/-- The statements of `parseBKGD` that store the background from the chunk
body `s`: through the palette for a body of one byte, else one or three
values of 16 bits. -/
def bkgdcolor (pngr : TPNGR) (size : Nat) (s : List Nat) : Option (List Nat) :=
  if size = 1 then do
    let p ← rd s 0
    let entry := p * 3
    let entry := if pngr.hasalpha ≠ 0 then entry + p else entry
    let v0 ← rd pngr.palette (entry + 0)
    let background ← wr pngr.background 0 v0
    let v1 ← rd pngr.palette (entry + 1)
    let background ← wr background 1 v1
    let v2 ← rd pngr.palette (entry + 2)
    wr background 2 v2
  else do
    let s0 ← rd s 0
    let s1 ← rd s 1
    let background ← wr pngr.background 0 (TOI16 s0 s1)
    if size > 2 then do
      let s2 ← rd s 2
      let s3 ← rd s 3
      let background ← wr background 1 (TOI16 s2 s3)
      let s4 ← rd s 4
      let s5 ← rd s 5
      wr background 2 (TOI16 s4 s5)
    else pure background

/-- Function `parseBKGD`: the returned flag and the reader afterwards. -/
def parseBKGD (pngr : TPNGR) (head : TChunkHead) : Option (Bool × TPNGR) :=
  if pngr.chunkmap.BKGD then some (false, { pngr with error := PNGR_EDUPLICATEDCHUNK })
  else if pngr.state = 4 then some (false, { pngr with error := PNGR_ECHUNKORDER })
  else if pngr.colortype = 3 ∧ pngr.chunkmap.PLTE = false then
    some (false, { pngr with error := PNGR_ECHUNKORDER })
  else
    let pngr := { pngr with chunkmap := { pngr.chunkmap with BKGD := true } }
    let size := bkgdsize pngr.colortype
    if head.length ≠ size then some (false, pngr)
    else
      match readinput pngr size with
      | (none, pngr) => some (false, pngr)
      | (some s, pngr) =>
        match bkgdcolor pngr size s with
        | none => none
        | some background =>
          let pngr := checkcrc32 { pngr with background := background }
          if pngr.error ≠ 0 then some (false, pngr)
          else some (true, { pngr with properties := pngr.properties ||| PNGR_BKGD })

/-- An indexed reader, 8 bits deep, whose input holds the body of a PLTE chunk
with the entries (10, 20, 30) and (40, 50, 60), then, when `trns` is set, the
body of a tRNS chunk with two alpha values, and then the body of a bKGD chunk
with the palette index 1; each body is followed by four trailer bytes. -/
def bkgdReader (trns : Bool) : TPNGR :=
  { TPNGR.init ([10, 20, 30, 40, 50, 60, 0, 0, 0, 0]
      ++ (if trns then [200, 100, 0, 0, 0, 0] else []) ++ [1, 0, 0, 0, 0])
    with colortype := 3, depth := 8 }

/-- The chunks of `bkgdReader` parsed in order: PLTE, tRNS when present, bKGD.
The result is the flag returned by `parseBKGD` and the reader. -/
def bkgdParsed (trns : Bool) : Option (Bool × TPNGR) := do
  let (r, pngr) ← parsePLTE (bkgdReader trns) { length := 6, fcc := [] }
  if r = false then none
  else do
    let pngr ←
      if trns then do
        let (r, pngr) ← parseTRNS pngr { length := 2, fcc := [] }
        if r = false then none else pure pngr
      else pure pngr
    parseBKGD pngr { length := 1, fcc := [] }

/-! ## JPEG reader: reading bits -/

/-- Error code `JPGR_EBADCODE`. -/
def JPGR_EBADCODE : Nat := 11

/-- The macro `SETERROR`. -/
def SETERROR (jpgr : TJPGR) (e : Nat) : TJPGR :=
  { jpgr with error := e }

/-- The macro `BBFILLBITS` (`CTB_ENV64`). -/
def BBFILLBITS : Nat := 48

/-- Function `ensurebits`. The entries of `bb` are of type `uint16`. -/
def ensurebits (jpgr : TJPGR) (n : Nat) : Option TJPGR :=
  if jpgr.bits.bbcount < n then do
    let jpgr ← if jpgr.bits.bindex ≥ BPREFETCHBZ then fecthbits jpgr else some jpgr
    let w ← rd jpgr.bits.bb jpgr.bits.bindex
    pure { jpgr with bits := { jpgr.bits with
      bbuffer := ((jpgr.bits.bbuffer <<< 16) ||| (w % 65536)) % 2 ^ 64,
      bindex := jpgr.bits.bindex + 1,
      bbcount := jpgr.bits.bbcount + 16 } }
  else some jpgr

/-- Function `getbits`: `bbuffer >> (bbcount - n)`; `none` when `bbcount - n` wraps. -/
def getbits (jpgr : TJPGR) (n : Nat) : Option Nat :=
  if jpgr.bits.bbcount < n then none
  else some (jpgr.bits.bbuffer >>> (jpgr.bits.bbcount - n))

/-- Function `dropbits`; `none` when `bbcount - n` wraps. The mask
`~(((uintxx) -1) << bbcount)` keeps the low `bbcount` bits. -/
def dropbits (jpgr : TJPGR) (n : Nat) : Option TJPGR :=
  if jpgr.bits.bbcount < n then none
  else
    let bbcount := jpgr.bits.bbcount - n
    some { jpgr with bits := { jpgr.bits with
      bbcread := jpgr.bits.bbcread - (n : Int),
      bbcount := bbcount,
      bbuffer := jpgr.bits.bbuffer % 2 ^ bbcount } }

/-- The statements `if (bindex >= BPREFETCHBZ) fecthbits(jpgr); bb = (bb << 16)
| PRVT->bb[PRVT->bindex++];` of `fillbbuffer`. The entries of `PRVT->bb` are of
type `uint16`. -/
def fillword (jpgr : TJPGR) (bb : Nat) : Option (Nat × TJPGR) := do
  let jpgr ← if jpgr.bits.bindex ≥ BPREFETCHBZ then fecthbits jpgr else some jpgr
  let w ← rd jpgr.bits.bb jpgr.bits.bindex
  pure (((bb <<< 16) ||| (w % 65536)) % 2 ^ 64,
    { jpgr with bits := { jpgr.bits with bindex := jpgr.bits.bindex + 1 } })

/-- Function `fillbbuffer` (`CTB_ENV64`): three words are appended to `bb`. -/
def fillbbuffer (jpgr : TJPGR) (bb : Nat) : Option (Nat × TJPGR) := do
  let (bb, jpgr) ← fillword jpgr bb
  let (bb, jpgr) ← fillword jpgr bb
  fillword jpgr bb

/-- The macro `GETBITS(BB, BC, N)`; `none` when `BC - N` wraps. -/
def GETBITS (bb bc n : Nat) : Option Nat :=
  if bc < n then none else some (bb >>> (bc - n))

/-- The macro `DROPBITS(BB, BC, N)`: the new values of `BB` and `BC`; `none`
when `BC - N` wraps. -/
def DROPBITS (bb bc n : Nat) : Option (Nat × Nat) :=
  if bc < n then none else some (bb % 2 ^ (bc - n), bc - n)

/-- The value of `GETSYMBOL(s)` stored in a `uintxx`, for the table entry `s`
held in an `int16` as in `decodeblock`: the shift is that of a signed value. -/
def GETSYMBOL16 (s : Nat) : Nat :=
  ((toInt16 (s : Int) >>> (5 : Nat)) % 2 ^ 64).toNat

/-! ## JPEG reader: `decodeblock` -/

/-- The locals `i`, `bb`, `bc` and `r` of `decodeblock` and the 64 coefficients
that `block` points to. -/
structure TBlockLocals where
  i : Nat
  bb : Nat
  bc : Nat
  r : Nat
  block : List Int
  deriving DecidableEq

/-- The way an iteration of the loop over the AC coefficients in `decodeblock`
ends: at the end of the body or by `continue`, by `break`, or by `return 0`. -/
inductive TBlockStep where
  | next (jpgr : TJPGR) (l : TBlockLocals)
  | stop (jpgr : TJPGR) (l : TBlockLocals)
  | fail (jpgr : TJPGR) (l : TBlockLocals)
  deriving DecidableEq

/-- The statements `if (bc < 16) { bb = fillbbuffer(jpgr, bb); bc +=
BBFILLBITS; }` of `decodeblock`. -/
def refill (jpgr : TJPGR) (l : TBlockLocals) : Option (TJPGR × TBlockLocals) :=
  if l.bc < 16 then
    (fillbbuffer jpgr l.bb).map (fun p => (p.2, { l with bb := p.1, bc := l.bc + BBFILLBITS }))
  else some (jpgr, l)

/-- The statements `DROPBITS(bb, bc, n); r += n;` of `decodeblock`. -/
def takebits (l : TBlockLocals) (n : Nat) : Option TBlockLocals :=
  (DROPBITS l.bb l.bc n).map (fun p => { l with bb := p.1, bc := p.2, r := l.r + n })

/-- The store `block[z] = v` in the locals of `decodeblock`. -/
def setcoef (l : TBlockLocals) (z : Nat) (v : Int) : Option TBlockLocals :=
  (wr l.block z v).map (fun block => { l with block := block })

/-- The fast path of the loop over the AC coefficients in `decodeblock`, taken
when the entry `s` of `sextent` is not 0: `i += (s >> 4) & 0x0f;
block[zzorder[i]] = s >> 8; length = s & 0x0f;`, the bits dropped, `continue`.
The low four bits of a two's complement value are its remainder modulo 16. -/
def decodeblockFast (jpgr : TJPGR) (l : TBlockLocals) (s : Int) : Option TBlockStep := do
  let i := l.i + ((s >>> (4 : Nat)) % 16).toNat
  let z ← rd zzorder i
  let l ← setcoef { l with i := i } z (toInt16 (s >>> (8 : Nat)))
  let l ← takebits l (s % 16).toNat
  pure (TBlockStep.next jpgr l)

/-- The general path of the loop over the AC coefficients in `decodeblock`,
from `s = decodesymbol(ac, GETBITS(bb, bc, 16))` to the end of the body. -/
def decodeblockGeneral (ac : TJPGHmTable) (jpgr : TJPGR) (l : TBlockLocals) :
    Option TBlockStep := do
  let bits ← GETBITS l.bb l.bc 16
  let s ← decodesymbol ac bits
  if s = 0 then pure (TBlockStep.fail (SETERROR jpgr JPGR_EBADCODE) l)
  else do
    let l ← takebits l (GETLENGTH s)
    let symbol := GETSYMBOL16 s
    if symbol = 0 then pure (TBlockStep.stop jpgr l)
    else do
      let i := if symbol > 15 then (l.i + (symbol >>> 4)) % 2 ^ 64 else l.i
      let size := if symbol > 15 then symbol &&& 0x0f else symbol
      if symbol > 15 ∧ i ≥ 64 then do
        let (jpgr, l) ← refill jpgr { l with i := i }
        let l ← takebits l size
        pure (TBlockStep.stop jpgr l)
      else do
        let (jpgr, l) ← refill jpgr { l with i := i }
        let v ← GETBITS l.bb l.bc size
        let z ← rd zzorder i
        let l ← setcoef l z (toInt16 (extend size v))
        let l ← takebits l size
        pure (TBlockStep.next jpgr l)

/-- One iteration of the loop over the AC coefficients in `decodeblock`. -/
def decodeblockStep (ac : TJPGHmTable) (jpgr : TJPGR) (l : TBlockLocals) :
    Option TBlockStep := do
  let (jpgr, l) ← refill jpgr l
  let k ← GETBITS l.bb l.bc ROOTBITS
  let s ← rd ac.sextent k
  if s ≠ 0 then decodeblockFast jpgr l s else decodeblockGeneral ac jpgr l

/-- The loop `for (i = 1; i < 64; i++)` of `decodeblock`; the result is `fail`
for `return 0` and `stop` with the locals after the loop otherwise. Every
iteration increases `i`, so 64 units of fuel are enough. -/
def decodeblockAC (ac : TJPGHmTable) : Nat → TJPGR → TBlockLocals → Option TBlockStep
  | 0, _, _ => none
  | fuel + 1, jpgr, l =>
    if l.i < 64 then
      match decodeblockStep ac jpgr l with
      | none => none
      | some (TBlockStep.next jpgr l) => decodeblockAC ac fuel jpgr { l with i := l.i + 1 }
      | some r => some r
    else some (TBlockStep.stop jpgr l)

/-- The statement `c->cofficient += d` for the component `c`: the new value and
the reader. -/
def addcofficient (jpgr : TJPGR) (c : Nat) (d : Int) : Option (Int × TJPGR) := do
  let comp ← rd jpgr.components c
  let components ← wr jpgr.components c { comp with cofficient := comp.cofficient + d }
  pure (comp.cofficient + d, { jpgr with components := components })

/-- The decoding of the DC coefficient in `decodeblock`, `c` being the index of
the component: `none` inside for `return 0`. -/
def decodeblockDC (dc : TJPGHmTable) (jpgr : TJPGR) (c : Nat) (l : TBlockLocals) :
    Option (TJPGR × Option TBlockLocals) := do
  let (jpgr, l) ← refill jpgr l
  let bits ← GETBITS l.bb l.bc 16
  let s ← decodesymbol dc bits
  if s = 0 then pure (SETERROR jpgr JPGR_EBADCODE, none)
  else do
    let l ← takebits l (GETLENGTH s)
    let symbol := GETSYMBOL16 s
    let (jpgr, l) ← refill jpgr l
    let v ← GETBITS l.bb l.bc symbol
    let (cofficient, jpgr) ← addcofficient jpgr c (extend symbol v)
    let l ← setcoef l 0 (toInt16 cofficient)
    let l ← takebits l symbol
    pure (jpgr, some l)

/-- The statements of `decodeblock` that follow the loop: the bit buffer is
stored back and the over-read is tested. -/
def decodeblockEnd (jpgr : TJPGR) (l : TBlockLocals) : Bool × TJPGR × List Int :=
  let jpgr := { jpgr with bits := { jpgr.bits with
    bbuffer := l.bb, bbcount := l.bc, bbcread := jpgr.bits.bbcread - (l.r : Int) } }
  (decide (overread jpgr = false), jpgr, l.block)

/-- Function `decodeblock(jpgr, c, block)`, `c` being the index of the component and
`block` the 64 coefficients the pointer gives access to: the returned flag,
the reader and the block afterwards. -/
def decodeblock (jpgr : TJPGR) (c : Nat) (block : List Int) :
    Option (Bool × TJPGR × List Int) := do
  let comp ← rd jpgr.components c
  let dc ← comp.dctable.bind (rd jpgr.dctables)
  let ac ← comp.actable.bind (rd jpgr.actables)
  if block.length < 64 then none
  else do
    let l : TBlockLocals :=
      { i := 1, bb := jpgr.bits.bbuffer, bc := jpgr.bits.bbcount, r := 0,
        block := List.replicate 64 0 ++ block.drop 64 }
    match ← decodeblockDC dc jpgr c l with
    | (jpgr, none) => pure (false, jpgr, l.block)
    | (jpgr, some l) =>
      match ← decodeblockAC ac 64 jpgr l with
      | TBlockStep.fail jpgr l => pure (false, jpgr, l.block)
      | TBlockStep.next jpgr l | TBlockStep.stop jpgr l => pure (decodeblockEnd jpgr l)

/-! ## JPEG reader: progressive scans -/

/-- The coefficient `block[i]` of the block `c->scan + (index << 6)` of the
component `c`; `none` outside the memory of the scan. -/
def rdcoef (jpgr : TJPGR) (c index i : Nat) : Option Int := do
  let comp ← rd jpgr.components c
  rd comp.scan ((index <<< 6) + i)

/-- The store `block[i] = v` in the block `c->scan + (index << 6)` of the
component `c`; `none` outside the memory of the scan. -/
def wrcoef (jpgr : TJPGR) (c index i : Nat) (v : Int) : Option TJPGR := do
  let comp ← rd jpgr.components c
  let scan ← wr comp.scan ((index <<< 6) + i) v
  let components ← wr jpgr.components c { comp with scan := scan }
  pure { jpgr with components := components }

/-- The call `memset(block, 0, 64 * sizeof(block[0]))` for the block
`c->scan + (index << 6)` of the component `c`. -/
def clearblock (jpgr : TJPGR) (c index : Nat) : Option TJPGR := do
  let comp ← rd jpgr.components c
  if comp.scan.length < (index <<< 6) + 64 then none
  else do
    let scan := comp.scan.take (index <<< 6) ++ List.replicate 64 (0 : Int)
      ++ comp.scan.drop ((index <<< 6) + 64)
    let components ← wr jpgr.components c { comp with scan := scan }
    pure { jpgr with components := components }

/-- The statements of `decodefirstDC` that follow `s = GETSYMBOL(s)`: the
difference of `s` bits is read and added to the predictor, and the sum,
shifted by `al`, is stored in `block[0]`. -/
def decodefirstDCvalue (jpgr : TJPGR) (c index s : Nat) : Option TJPGR := do
  let jpgr ← ensurebits jpgr 16
  let v ← getbits jpgr s
  let (cofficient, jpgr) ← addcofficient jpgr c (extend s v)
  let jpgr ← dropbits jpgr s
  wrcoef jpgr c index 0 (toInt16 (cofficient * 2 ^ jpgr.scan.al))

/-- Function `decodefirstDC(jpgr, c, index)`, `c` being the index of the component. The
symbol is kept in an `int16`; a negative bit count makes the result `none`. -/
def decodefirstDC (jpgr : TJPGR) (c index : Nat) : Option (Bool × TJPGR) := do
  let comp ← rd jpgr.components c
  let dc ← comp.dctable.bind (rd jpgr.dctables)
  let jpgr ← clearblock jpgr c index
  let jpgr ← ensurebits jpgr 16
  let bits ← getbits jpgr 16
  let s ← decodesymbol dc bits
  if s = 0 then pure (false, SETERROR jpgr JPGR_EBADCODE)
  else do
    let jpgr ← dropbits jpgr (GETLENGTH s)
    let s := toInt16 (toInt16 (s : Int) >>> (5 : Nat))
    if s < 0 then none
    else (decodefirstDCvalue jpgr c index s.toNat).map (fun jpgr => (true, jpgr))

/-- The statements of `refineDC` for one block, `block = c->scan + (index <<
6); ensurebits(jpgr, 1); block[0] |= (int16) (getbits(jpgr, 1) <<
PRVT->al); dropbits(jpgr, 1);`, in the form of a block decoder that never
fails. -/
def refineDCblock (jpgr : TJPGR) (c index : Nat) : Option (Bool × TJPGR) := do
  let jpgr ← ensurebits jpgr 1
  let bit ← getbits jpgr 1
  let v ← rdcoef jpgr c index 0
  let jpgr ← wrcoef jpgr c index 0 (toInt16 (Int.lor v (toInt16 ((bit <<< jpgr.scan.al : Nat) : Int))))
  let jpgr ← dropbits jpgr 1
  pure (true, jpgr)

/-- A list of blocks of the component `c` decoded in order up to the first
failure. -/
def blocksequence (block : TJPGR → Nat → Nat → Option (Bool × TJPGR)) (c : Nat) :
    List Nat → TJPGR → Option (Bool × TJPGR)
  | [], jpgr => some (true, jpgr)
  | index :: rest, jpgr =>
    match block jpgr c index with
    | none => none
    | some (false, jpgr) => some (false, jpgr)
    | some (true, jpgr) => blocksequence block c rest jpgr

/-- The blocks of a component in the MCU `(y, x)` in the order of the loops
over `y2` and `x2` of `readfirstDC`, `refineDC` and `updateimg`: the index
`offsety + x1 + x2` with `offsety = (y1 + y2) * c->icols`. -/
def mcublocks (comp : TJPGComponent) (y x : Nat) : List Nat :=
  (List.range comp.ysampling).flatMap (fun y2 =>
    (List.range comp.xsampling).map (fun x2 =>
      ((y * comp.ysampling + y2) * comp.icols) + x * comp.xsampling + x2))

/-- The loop over the components of an MCU in `readfirstDC` and `refineDC`;
the first argument counts the iterations left. -/
def mcucomponents (block : TJPGR → Nat → Nat → Option (Bool × TJPGR)) (y x : Nat) :
    Nat → Nat → TJPGR → Option (Bool × TJPGR)
  | 0, _, jpgr => some (true, jpgr)
  | n + 1, i, jpgr => do
    let c ← rd jpgr.scan.corder i
    let comp ← rd jpgr.components c
    match ← blocksequence block c (mcublocks comp y x) jpgr with
    | (false, jpgr) => pure (false, jpgr)
    | (true, jpgr) => mcucomponents block y x n (i + 1) jpgr

/-- The loop over `x` of `readfirstDC` for the row `y`; `sc`, `totalx` and `c`
are the locals of that name (`c` as an index), `block` is `decodefirstDC`. The
result holds `interval`; the first argument counts the iterations left. -/
def readfirstDCrow (block : TJPGR → Nat → Nat → Option (Bool × TJPGR)) (sc : Bool)
    (c totalx y : Nat) : Nat → (x interval : Nat) → TJPGR → Option (Bool × Nat × TJPGR)
  | 0, _, interval, jpgr => some (true, interval, jpgr)
  | n + 1, x, interval, jpgr =>
    match restartinterval jpgr interval with
    | none => none
    | some (false, interval, jpgr) => some (false, interval, jpgr)
    | some (true, interval, jpgr) =>
      let r :=
        if sc then block jpgr c ((y * totalx) + x)
        else mcucomponents block y x jpgr.scan.ncomponents 0 jpgr
      match r with
      | none => none
      | some (false, jpgr) => some (false, interval, jpgr)
      | some (true, jpgr) => readfirstDCrow block sc c totalx y n (x + 1) interval jpgr

/-- The loop over `y` of `readfirstDC`; the first argument counts the
iterations left. -/
def readfirstDCrows (block : TJPGR → Nat → Nat → Option (Bool × TJPGR)) (sc : Bool)
    (c totalx : Nat) : Nat → (y interval : Nat) → TJPGR → Option (Bool × TJPGR)
  | 0, _, _, jpgr => some (true, jpgr)
  | n + 1, y, interval, jpgr =>
    match readfirstDCrow block sc c totalx y totalx 0 interval jpgr with
    | none => none
    | some (false, _, jpgr) => some (false, jpgr)
    | some (true, interval, jpgr) =>
      if overread jpgr = true then some (false, jpgr)
      else readfirstDCrows block sc c totalx n (y + 1) interval jpgr

/-- Function `readfirstDC`, with `decodefirstDC` as the argument `block`. The sizes of
the component are read when the loops start: the decoding of a block does
not write them. -/
def readfirstDC (block : TJPGR → Nat → Nat → Option (Bool × TJPGR)) (jpgr : TJPGR) :
    Option (Bool × TJPGR) := do
  let jpgr ← initbitmode jpgr
  let interval := jpgr.scan.rinterval
  let sc := decide (jpgr.scan.nscancomponents = 1)
  let comp ← rd jpgr.components jpgr.scan.scancomponent
  let totaly := if sc then comp.nrows else jpgr.scan.nrows
  let totalx := if sc then comp.ncols else jpgr.scan.ncols
  readfirstDCrows block sc jpgr.scan.scancomponent totalx totaly 0 interval jpgr

/-- The loop over `x` of `refineDC` for the row `y`; `block` is `refineDCblock`
and `icols` is `c->icols`. The result holds `interval`; the first argument
counts the iterations left. -/
def refineDCrow (block : TJPGR → Nat → Nat → Option (Bool × TJPGR)) (sc : Bool)
    (c icols y : Nat) : Nat → (x interval : Nat) → TJPGR → Option (Bool × Nat × TJPGR)
  | 0, _, interval, jpgr => some (true, interval, jpgr)
  | n + 1, x, interval, jpgr =>
    match restartinterval jpgr interval with
    | none => none
    | some (false, interval, jpgr) => some (false, interval, jpgr)
    | some (true, interval, jpgr) =>
      let r :=
        if sc then block jpgr c ((y * icols) + x)
        else mcucomponents block y x jpgr.scan.ncomponents 0 jpgr
      match r with
      | none => none
      | some (false, jpgr) => some (false, interval, jpgr)
      | some (true, jpgr) => refineDCrow block sc c icols y n (x + 1) interval jpgr

/-- The loop over `y` of `refineDC`; the first argument counts the iterations
left. -/
def refineDCrows (block : TJPGR → Nat → Nat → Option (Bool × TJPGR)) (sc : Bool)
    (c icols totalx : Nat) : Nat → (y interval : Nat) → TJPGR → Option (Bool × TJPGR)
  | 0, _, _, jpgr => some (true, jpgr)
  | n + 1, y, interval, jpgr =>
    match refineDCrow block sc c icols y totalx 0 interval jpgr with
    | none => none
    | some (false, _, jpgr) => some (false, jpgr)
    | some (true, interval, jpgr) =>
      if overread jpgr = true then some (false, jpgr)
      else refineDCrows block sc c icols totalx n (y + 1) interval jpgr

/-- Function `refineDC`, with `refineDCblock` as the argument `block`. -/
def refineDC (block : TJPGR → Nat → Nat → Option (Bool × TJPGR)) (jpgr : TJPGR) :
    Option (Bool × TJPGR) := do
  let jpgr ← initbitmode jpgr
  let interval := jpgr.scan.rinterval
  let sc := decide (jpgr.scan.nscancomponents = 1)
  let comp ← rd jpgr.components jpgr.scan.scancomponent
  let totaly := if sc then comp.nrows else jpgr.scan.nrows
  let totalx := if sc then comp.ncols else jpgr.scan.ncols
  refineDCrows block sc jpgr.scan.scancomponent comp.icols totalx totaly 0 interval jpgr

/-- Function `refine`. -/
def refine (approximation : Nat) (value : Int) (nextbit : Nat) : Int :=
  if value > 0 then
    toInt16 (if nextbit = 1 then value + 2 ^ approximation else value)
  else if value < 0 then
    toInt16 (if nextbit = 1 then value - 2 ^ approximation else value)
  else toInt16 value

/-- The statements `if (block[i] != 0) { ensurebits(jpgr, 1); block[i] =
refine(PRVT->al, block[i], getbits(jpgr, 1)); dropbits(jpgr, 1); }` of
`decoderefineAC`; the flag tells whether `block[i]` was not zero. -/
def refinecoef (jpgr : TJPGR) (c index i : Nat) : Option (Bool × TJPGR) := do
  let v ← rdcoef jpgr c index i
  if v ≠ 0 then do
    let jpgr ← ensurebits jpgr 1
    let bit ← getbits jpgr 1
    let jpgr ← wrcoef jpgr c index i (refine jpgr.scan.al v bit)
    let jpgr ← dropbits jpgr 1
    pure (true, jpgr)
  else pure (false, jpgr)

/-- The loop `while (i <= PRVT->se) { if (block[i] != 0) { ... } i++; }` of
`decoderefineAC`; the first argument counts the iterations left. -/
def refinetail (c index : Nat) : Nat → Nat → TJPGR → Option TJPGR
  | 0, _, jpgr => some jpgr
  | n + 1, i, jpgr => do
    let (_, jpgr) ← refinecoef jpgr c index i
    refinetail c index n (i + 1) jpgr

/-- The loops `while (b > 0 || block[i] != 0)` and `while (b >= 0)` of
`decoderefineAC`: coefficients that are not zero are refined and `zeros`
coefficients that are zero are passed; with `last` set the loop goes on over
the coefficients that are not zero behind the last zero passed. The result is
`i` and the reader. The first argument is the fuel: every iteration reads a
coefficient further on in the memory of the scan. -/
def refinerun (c index : Nat) (last : Bool) : Nat → (i zeros : Nat) → TJPGR → Option (Nat × TJPGR)
  | 0, _, _, _ => none
  | fuel + 1, i, zeros, jpgr =>
    if zeros = 0 ∧ last = false then some (i, jpgr)
    else do
      let (nonzero, jpgr) ← refinecoef jpgr c index i
      if nonzero then refinerun c index last fuel (i + 1) zeros jpgr
      else if zeros = 0 then some (i, jpgr)
      else refinerun c index last fuel (i + 1) (zeros - 1) jpgr

/-- The fuel of `refinerun`: the number of coefficients in the memory of the
scan of the component, plus one. -/
def runfuel (jpgr : TJPGR) (c : Nat) : Nat :=
  ((rd jpgr.components c).map (fun comp => comp.scan.length)).getD 0 + 1

/-- The statement `PRVT->eobrun = v`. -/
def seteobrun (jpgr : TJPGR) (v : Int) : TJPGR :=
  { jpgr with scan := { jpgr.scan with eobrun := v } }

/-- The loop `while (i <= PRVT->se)` of `decoderefineAC` that decodes the
symbols, with the statement `PRVT->eobrun = 0` that follows it. Every
iteration increases `i` or returns; the first argument is the fuel. -/
def refinesymbols (ac : TJPGHmTable) (c index : Nat) : Nat → Nat → TJPGR → Option (Bool × TJPGR)
  | 0, _, _ => none
  | fuel + 1, i, jpgr =>
    if i ≤ jpgr.scan.se then do
      let jpgr ← ensurebits jpgr 16
      let bits ← getbits jpgr 16
      let s ← decodesymbol ac bits
      if s = 0 then pure (false, SETERROR jpgr JPGR_EBADCODE)
      else do
        let symbol := GETSYMBOL16 s
        let jpgr ← dropbits jpgr (GETLENGTH s)
        let a := (symbol >>> 0) &&& 0x0f
        let b := symbol >>> 4
        if a = 1 then do
          let jpgr ← ensurebits jpgr 1
          let bit ← getbits jpgr 1
          let n := extend 1 bit * 2 ^ jpgr.scan.al
          let jpgr ← dropbits jpgr 1
          let (i, jpgr) ← refinerun c index true (runfuel jpgr c) i b jpgr
          let jpgr ← wrcoef jpgr c index i (toInt16 n)
          refinesymbols ac c index fuel (i + 1) jpgr
        else if a = 0 then
          if b < 15 then do
            let jpgr ← ensurebits jpgr 16
            let v ← getbits jpgr b
            let jpgr ← dropbits (seteobrun jpgr ((v + (1 <<< b) : Nat) : Int)) b
            let jpgr ← refinetail c index (jpgr.scan.se + 1 - i) i jpgr
            pure (true, seteobrun jpgr (jpgr.scan.eobrun - 1))
          else do
            let (i, jpgr) ← refinerun c index false (runfuel jpgr c) i (b + 1) jpgr
            refinesymbols ac c index fuel i jpgr
        else pure (false, SETERROR jpgr JPGR_EBADDATA)
    else some (true, seteobrun jpgr 0)

/-- Function `decoderefineAC(jpgr, c, index)`, `c` being the index of the component. -/
def decoderefineAC (jpgr : TJPGR) (c index : Nat) : Option (Bool × TJPGR) := do
  let comp ← rd jpgr.components c
  let ac ← comp.actable.bind (rd jpgr.actables)
  let i := jpgr.scan.ss
  if jpgr.scan.eobrun ≠ 0 then do
    let jpgr ← refinetail c index (jpgr.scan.se + 1 - i) i jpgr
    pure (true, seteobrun jpgr (jpgr.scan.eobrun - 1))
  else refinesymbols ac c index (jpgr.scan.se + 1) i jpgr

/-- Function `refineAC`. -/
def refineAC (jpgr : TJPGR) : Option (Bool × TJPGR) := do
  let jpgr ← initbitmode jpgr
  let interval := jpgr.scan.rinterval
  let c ← rd jpgr.components jpgr.scan.scancomponent
  let jpgr := seteobrun jpgr 0
  scanrows decoderefineAC jpgr.scan.scancomponent c.ncols c.icols c.nrows 0 interval jpgr

/-! ## JPEG reader: the working memory -/

/-- The number of blocks of 64 coefficients that `setrequiredmemory` counts for
a component: `c->ucount` in an interleaved image, `c->ucount +
(c->ysampling * c->xsampling)` otherwise. -/
def requiredunits (jpgr : TJPGR) (c : TJPGComponent) : Nat :=
  if jpgr.scan.isinterleaved ≠ 0 then c.ucount
  else c.ucount + (c.ysampling * c.xsampling) % 2 ^ 32

/-- Function `setrequiredmemory`: `total` is a `uint64`; `sizeof(c->units[0][0])` and
`sizeof(c->srow[0])` are 2. The result is `none` when the reader has fewer
components than `ncomponents`. -/
def setrequiredmemory (jpgr : TJPGR) : Option (Bool × TJPGR) :=
  if jpgr.components.length < jpgr.scan.ncomponents then none
  else
    let total := ((jpgr.components.take jpgr.scan.ncomponents).foldl
      (fun total c => (total + requiredunits jpgr c) % 2 ^ 64) 0)
    let total := ((total * 64) * 2 + 16) % 2 ^ 64
    let total :=
      if jpgr.issubsampled ≠ 0 then (total + jpgr.scan.ncomponents * (8 * 2)) % 2 ^ 64
      else total
    if total > MAXSAFESIZE1 then some (false, jpgr)
    else some (true, { jpgr with header := { jpgr.header with requiredmemory := total } })

/-- The memory `jpgr_setbuffers` hands out: the address and the size in bytes
of each piece, in the order of the assignments to `c->scan`, `c->units[j]`
and `c->srow`. -/
structure TJPGRPieces where
  scan : List (Nat × Nat) := []
  units : List (Nat × Nat) := []
  srow : List (Nat × Nat) := []
  deriving DecidableEq

/-- The loop of `jpgr_setbuffers` over the components that sets `c->scan`: the
pieces and the pointer `memory` afterwards. -/
def setbuffersScan : List TJPGComponent → Nat → List (Nat × Nat) × Nat
  | [], memory => ([], memory)
  | c :: rest, memory =>
    let size := (c.ucount * 64) * 2
    let r := setbuffersScan rest (memory + size)
    ((memory, size) :: r.1, r.2)

/-- The loop `for (j = 0; j < n; j++) { c->units[j] = (void*) memory; memory +=
(64 * sizeof(c->units[0][0])); }` of `jpgr_setbuffers`; the array `units` has
eight entries and a store behind them makes the result `none`. The first
argument counts the iterations left. -/
def setbuffersBlocks : Nat → Nat → Nat → Option (List (Nat × Nat) × Nat)
  | 0, _, memory => some ([], memory)
  | n + 1, j, memory =>
    if j ≥ 8 then none
    else
      match setbuffersBlocks n (j + 1) (memory + 64 * 2) with
      | none => none
      | some r => some ((memory, 64 * 2) :: r.1, r.2)

/-- The number `n` of blocks that `jpgr_setbuffers` hands out to `c->units`:
`c->ucount`, or `c->ysampling * c->xsampling` when the image is not
interleaved. -/
def unitblocks (jpgr : TJPGR) (c : TJPGComponent) : Nat :=
  if jpgr.scan.isinterleaved = 0 then (c.ysampling * c.xsampling) % 2 ^ 32 else c.ucount

/-- The loop of `jpgr_setbuffers` over the components that sets `c->units`. -/
def setbuffersUnits (jpgr : TJPGR) : List TJPGComponent → Nat → Option (List (Nat × Nat) × Nat)
  | [], memory => some ([], memory)
  | c :: rest, memory =>
    match setbuffersBlocks (unitblocks jpgr c) 0 memory with
    | none => none
    | some (pieces, memory) =>
      match setbuffersUnits jpgr rest memory with
      | none => none
      | some r => some (pieces ++ r.1, r.2)

/-- The loop of `jpgr_setbuffers` over the components that sets `c->srow`. -/
def setbuffersSrow : List TJPGComponent → Nat → List (Nat × Nat) × Nat
  | [], memory => ([], memory)
  | _ :: rest, memory =>
    let r := setbuffersSrow rest (memory + 8 * 2)
    ((memory, 8 * 2) :: r.1, r.2)

/-- The statements of `jpgr_setbuffers` that hand out the working memory, from
`memory = (uint8*) ((((uintxx) memory) | 15) + 1)` on: the pieces handed out
and the value of `memory` at the end. Addresses are natural numbers. The
result is `none` when the reader has fewer components than `ncomponents` or
a pointer is stored outside `units`. -/
def setbuffersMemory (jpgr : TJPGR) (memory : Nat) : Option (TJPGRPieces × Nat) :=
  if jpgr.components.length < jpgr.scan.ncomponents then none
  else
    let components := jpgr.components.take jpgr.scan.ncomponents
    let memory := (memory ||| 15) + 1
    let scan := if jpgr.scan.isinterleaved = 0 then setbuffersScan components memory
                else ([], memory)
    match setbuffersUnits jpgr components scan.2 with
    | none => none
    | some units =>
      let srow := if jpgr.issubsampled ≠ 0 then setbuffersSrow components units.2
                  else ([], units.2)
      some ({ scan := scan.1, units := units.1, srow := srow.1 }, srow.2)

/-- The pieces of a list lie between the addresses `lo` and `hi`. -/
def Within (pieces : List (Nat × Nat)) (lo hi : Nat) : Prop :=
  ∀ p ∈ pieces, lo ≤ p.1 ∧ p.1 + p.2 ≤ hi

/-! ## JPEG reader: `jpgr_create` -/

/-- Function `jpgr_create`: `memory` is the content of the block that `CTB_MALLOC`
returns, `none` for `NULL`; the block is not initialised. -/
def jpgr_create (memory : Option TJPGR) (flags : Nat) : Option TJPGR :=
  memory.map (fun jpgr => { jpgr_reset { jpgr with iccpmemory := none } with flags := flags })

/-! ## JPEG reader: examples for the progressive scans -/

/-- The counts of a Huffman code with a single codeword, `000000000`, of
length 9. -/
def code9 : List Nat := [0, 0, 0, 0, 0, 0, 0, 0, 1, 0, 0, 0, 0, 0, 0, 0]

/-- The counts of a Huffman code with a single codeword, `00000000`, of
length 8. -/
def code8 : List Nat := [0, 0, 0, 0, 0, 0, 0, 1, 0, 0, 0, 0, 0, 0, 0, 0]

/-- The DC table of the code `code9` for the symbol 1, as `buildtable` fills
it: the root entry 0 holds the symbol and the length 9. -/
def dcOneCode : TJPGHmTable :=
  { defined := 0,
    symbols := ((1 <<< LENGTHBITS) ||| 9) :: List.replicate (ENOUGH_DC - 1) 0,
    sextent := [] }

/-- The AC table of the code `code9` for the symbol 0x21, a run of two zeros
and a coefficient of one bit, as `buildtable` fills it in a progressive
image. -/
def acOneCode : TJPGHmTable :=
  { defined := 0,
    symbols := ((0x21 <<< LENGTHBITS) ||| 9) :: List.replicate (ENOUGH_AC - 1) 0,
    sextent := List.replicate (1 <<< ROOTBITS) 0 }

/-- The AC table of the code `code8` for the symbol 0x21, as `buildtable` fills
it in a baseline image: the root entries 0 and 1 hold the symbol and the
length 8, and their extents hold the coefficients -1 and 1, the run 2 and
the 9 bits of the code and the coefficient. -/
def acExtents : TJPGHmTable :=
  { defined := 0,
    symbols := [(0x21 <<< LENGTHBITS) ||| 8, (0x21 <<< LENGTHBITS) ||| 8]
      ++ List.replicate (ENOUGH_AC - 2) 0,
    sextent := [-1 * 256 + 2 * 16 + 9, 1 * 256 + 2 * 16 + 9]
      ++ List.replicate ((1 <<< ROOTBITS) - 2) 0 }

/-- The reader after the frame header of an image 8 pixels wide and 16 high
with the components Y (2 x 2), Cb and Cr (1 x 1), on which `initcomponents`
has run as in `parseSOS`; `none` when the header is refused. -/
def tallFrame : Option TJPGR :=
  match parseSOF0 (jpgr_setinputfn (TJPGR.init []) true
      (sofSegment 16 8 [(1, 2, 2, 0), (2, 1, 1, 1), (3, 1, 1, 1)])) 1 with
  | some (true, jpgr) => initcomponents jpgr jpgr.ysampling jpgr.xsampling
  | _ => none

/-- The reader `tallFrame` at the start of a scan of the component Y alone:
the memory of the scan holds `ucount` blocks of zeros, the DC table 0 is
`dcOneCode`, the successive approximation is `al`, and the input ends with the
bytes given. -/
def tallScan (al : Nat) (input : List Nat) : Option TJPGR := do
  let jpgr ← tallFrame
  let comp ← rd jpgr.components 0
  let components ← wr jpgr.components 0
    { comp with dctable := some 0, actable := some 0,
                scan := List.replicate (comp.ucount * 64) 0 }
  let dctables ← wr jpgr.dctables 0 dcOneCode
  pure { jpgr with
    state := 3, components := components, dctables := dctables, window := input,
    room := BUFFERSIZE - input.length, endofinput := 1,
    scan := { jpgr.scan with nscancomponents := 1, scancomponent := 0, al := al } }

/-- A progressive reader in an AC refinement scan of the band `ss .. se` of its
only component, whose scan holds `blocks` blocks; the coefficient 0 of every
block is 5 and the others are 0. The AC table 0 is `acOneCode`, and the input
ends with the bytes given. -/
def refineReader (blocks ss se : Nat) (input : List Nat) : TJPGR :=
  { TJPGR.init [] with
    state := 3, sizex := 8 * blocks, sizey := 8, window := input,
    room := BUFFERSIZE - input.length, endofinput := 1,
    header := { isprogressive := 1 },
    actables := [acOneCode, acOneCode, acOneCode, acOneCode],
    scan := { ncomponents := 1, nscancomponents := 1, ss := ss, se := se, ah := 1, npass := 2 },
    components :=
      [{ TJPGComponent.init with
          id := 1, ysampling := 1, xsampling := 1, qtable := some 0, actable := some 0,
          nrows := 1, ncols := blocks, irows := 1, icols := blocks, ucount := blocks,
          scan := (List.range (blocks * 64)).map (fun k => if k % 64 = 0 then 5 else 0) }] }

/-- The reader `jpgr` at the start of the next scan of the same component with
the successive approximation `al`, the input ending with the bytes given. -/
def nextScan (jpgr : TJPGR) (al : Nat) (input : List Nat) : TJPGR :=
  { jpgr with
    window := input, room := BUFFERSIZE - input.length,
    scan := { jpgr.scan with al := al, ah := jpgr.scan.al, npass := jpgr.scan.npass + 1 } }

/-- The reader `tallFrame`, when `parseSOF0` and `initcomponents` have
returned. -/
def tallReader : TJPGR :=
  tallFrame.getD (TJPGR.init [])

/-- The reader after the frame header of a baseline image of 16 x 16 pixels
with the components Y (2 x 2), Cb and Cr (1 x 1), on which `initcomponents`
has run for an interleaved scan as in `parseSOS`. -/
def interleavedReader : TJPGR :=
  ((parseSOF0 (frameReader [(1, 2, 2, 0), (2, 1, 1, 1), (3, 1, 1, 1)]) 0).bind
    (fun r => initcomponents { r.2 with scan := { r.2.scan with isinterleaved := 1 } }
      r.2.ysampling r.2.xsampling)).getD (TJPGR.init [])

/-- The locals of `decodeblock` at the position `i` of a block of zeros, with 32
bits in the bit buffer: the code `00000000` of `acExtents`, the bit 1 of the
coefficient and 23 bits 0. -/
def extentLocals (i : Nat) : TBlockLocals :=
  { i := i, bb := 0x00800000, bc := 32, r := 0, block := List.replicate 64 0 }

/-- A reader in bit mode with the bytes `window` in the input buffer and the
bytes `stream` still to be delivered by the callback; the prefetch buffer
holds 32 words and no marker was seen. -/
def entropyReader (window stream : List Nat) : TJPGR :=
  { TJPGR.init stream with window := window, room := BUFFERSIZE - window.length }

/-! ## JPEG reader: properties of the tables -/

/-- Every entry of the root table is the entry of a symbol of 8 bits, or is 0,
or has the sign bit set. -/
def RootOK (symbols : List Nat) : Prop :=
  ∀ k s, k < 512 → rd symbols k = some s → s < 8192 ∨ 32768 ≤ s

/-! ## JPEG reader: the entropy-coded bytes in the words of `fecthbits` -/

/-- The entropy-coded form of the data bytes `d`, in the words of the
specification: a byte 0x00 is stuffed after every byte 0xff. -/
def stuffed : List Nat → List Nat
  | [] => []
  | b :: d => if b = 0xff then 0xff :: 0 :: stuffed d else b :: stuffed d

/-- The big-endian words of 16 bits of a sequence of bytes, in the words of the
specification. -/
def words : List Nat → List Nat
  | b0 :: b1 :: t => (b0 * 256 + b1) :: words t
  | _ => []

/-- The input a reader has not consumed: the bytes of the input buffer and,
while the end of the input was not seen, the bytes the callback delivers. -/
def upcoming (jpgr : TJPGR) : List Nat :=
  jpgr.window ++ (if jpgr.endofinput = 0 then jpgr.stream else [])

/-- The state of the loop after `L_SLOW` of `fecthbits` when the bytes `out`
have been stored: the first `index` words of `bb` hold the pairs of `out`, and
`buffer` holds the byte left over when `j` is 8. -/
def StoreInv (index j buffer : Nat) (bb out : List Nat) : Prop :=
  bb.length = BPREFETCHBZ ∧
  ((j = 0 ∧ buffer = 0 ∧ out.length = 2 * index ∧ bb.take index = words out) ∨
   (j = 8 ∧ buffer < 256 ∧
      ∃ pre, out = pre ++ [buffer] ∧ pre.length = 2 * index ∧ bb.take index = words pre))

/-! ## Theorems -/

/-! ### Buffers -/

theorem rd_eq_some_of_lt {α : Type} (buf : List α) (i : Nat) (h : i < buf.length) :
    rd buf i = some buf[i] := by
  simp [rd, h]

theorem wr_eq_some_of_lt {α : Type} (buf : List α) (i : Nat) (v : α) (h : i < buf.length) :
    wr buf i v = some (buf.set i v) := by
  simp [wr, h]

/-! ### `setrow` with a tRNS key -/

/-- One pixel of the 8-bit RGB key loop. -/
theorem keyRGB8_spec (kr kg kb : Nat) (row pixels : List Nat) (po ro : Nat)
    (hro : ro + 3 ≤ row.length) (hpo : po + 4 ≤ pixels.length) :
    ∃ out, keyRGB8 [kr, kg, kb] row pixels po ro = some out ∧ out.length = pixels.length ∧
      out[po]? = row[ro]? ∧ out[po + 1]? = row[ro + 1]? ∧ out[po + 2]? = row[ro + 2]? ∧
      out[po + 3]? = some (if row[ro]? = some kr ∧ row[ro + 1]? = some kg ∧
        row[ro + 2]? = some kb then 0x00 else 0xff) ∧
      ∀ j, (j < po ∨ po + 4 ≤ j) → out[j]? = pixels[j]? := by
  have h0 : ro < row.length := by omega
  have h1 : ro + 1 < row.length := by omega
  have h2 : ro + 2 < row.length := by omega
  have e0 : row[ro]? = some row[ro] := List.getElem?_eq_getElem h0
  have e1 : row[ro + 1]? = some row[ro + 1] := List.getElem?_eq_getElem h1
  have e2 : row[ro + 2]? = some row[ro + 2] := List.getElem?_eq_getElem h2
  have q0 : po < pixels.length := by omega
  have q1 : po + 1 < pixels.length := by omega
  have q2 : po + 2 < pixels.length := by omega
  have q3 : po + 3 < pixels.length := by omega
  by_cases hk : row[ro] = kr ∧ row[ro + 1] = kg ∧ row[ro + 2] = kb
  · refine ⟨((((pixels.set po row[ro]).set (po + 1) row[ro + 1]).set (po + 2) row[ro + 2]).set
      (po + 3) 0xff).set (po + 3) 0x00, ?_, ?_, ?_, ?_, ?_, ?_, ?_⟩
    · simp [keyRGB8, rds, rd, wrs, wr, e0, e1, e2, q0, q1, q2, q3, hk, Nat.add_assoc]
    · simp
    · simp [List.getElem?_set, e0, q0]
    · simp [List.getElem?_set, e1, q1]
    · simp [List.getElem?_set, e2, q2]
    · simp [List.getElem?_set, e0, e1, e2, q3, hk]
    · intro j hj
      simp only [List.getElem?_set]
      split_ifs <;> first | rfl | omega
  · refine ⟨(((pixels.set po row[ro]).set (po + 1) row[ro + 1]).set (po + 2) row[ro + 2]).set
      (po + 3) 0xff, ?_, ?_, ?_, ?_, ?_, ?_, ?_⟩
    · simp [keyRGB8, rds, rd, wrs, wr, e0, e1, e2, q0, q1, q2, q3, hk, Nat.add_assoc]
    · simp
    · simp [List.getElem?_set, e0, q0]
    · simp [List.getElem?_set, e1, q1]
    · simp [List.getElem?_set, e2, q2]
    · simp [List.getElem?_set, e0, e1, e2, q3, hk]
    · intro j hj
      simp only [List.getElem?_set]
      split_ifs <;> first | rfl | omega

/-- The 8-bit RGB key loop over `n` pixels. -/
theorem pixelLoop_keyRGB8 (kr kg kb : Nat) (row : List Nat) :
    ∀ (n po ro : Nat) (pixels : List Nat),
      ro + 3 * n ≤ row.length → po + 4 * n ≤ pixels.length →
      ∃ out, pixelLoop (keyRGB8 [kr, kg, kb] row) 4 3 n po ro pixels = some out ∧
        out.length = pixels.length ∧
        (∀ i, i < n →
          out[po + 4 * i]? = row[ro + 3 * i]? ∧ out[po + 4 * i + 1]? = row[ro + 3 * i + 1]? ∧
          out[po + 4 * i + 2]? = row[ro + 3 * i + 2]? ∧
          out[po + 4 * i + 3]? = some (if row[ro + 3 * i]? = some kr ∧
            row[ro + 3 * i + 1]? = some kg ∧ row[ro + 3 * i + 2]? = some kb
            then 0x00 else 0xff)) ∧
        ∀ j, (j < po ∨ po + 4 * n ≤ j) → out[j]? = pixels[j]? := by
  intro n
  induction n with
  | zero =>
    intro po ro pixels _ _
    exact ⟨pixels, rfl, rfl, fun i hi => absurd hi (Nat.not_lt_zero i), fun _ _ => rfl⟩
  | succ n ih =>
    intro po ro pixels hro hpo
    obtain ⟨out1, hb, hl1, b0, b1, b2, b3, brest⟩ :=
      keyRGB8_spec kr kg kb row pixels po ro (by omega) (by omega)
    obtain ⟨out, hloop, hl, hpix, hrest⟩ :=
      ih (po + 4) (ro + 3) out1 (by omega) (by omega)
    refine ⟨out, ?_, by omega, ?_, ?_⟩
    · simp only [pixelLoop, hb, Option.bind_eq_bind, Option.some_bind]
      exact hloop
    · intro i hi
      cases i with
      | zero =>
        simp only [Nat.mul_zero, Nat.add_zero]
        rw [hrest po (by omega), hrest (po + 1) (by omega), hrest (po + 2) (by omega),
          hrest (po + 3) (by omega)]
        exact ⟨b0, b1, b2, b3⟩
      | succ i =>
        have h := hpix i (by omega)
        have e1 : po + 4 * (i + 1) = po + 4 + 4 * i := by omega
        have e2 : ro + 3 * (i + 1) = ro + 3 + 3 * i := by omega
        rw [e1, e2]
        exact h
    · intro j hj
      rw [hrest j (by omega), brest j (by omega)]

/-! ### Paeth predictor -/

theorem toInt16_of_range (v : Int) (h1 : -32768 ≤ v) (h2 : v < 32768) : toInt16 v = v := by
  unfold toInt16
  omega

theorem int_xor_zero (n : Nat) : Int.xor (n : Int) 0 = (n : Int) := by
  show Int.xor (Int.ofNat n) (Int.ofNat 0) = Int.ofNat n
  simp [Int.xor]

theorem int_xor_neg_one (n : Nat) : Int.xor (Int.negSucc n) (-1) = (n : Int) := by
  show Int.xor (Int.negSucc n) (Int.negSucc 0) = Int.ofNat n
  simp [Int.xor]

/-- The branchless absolute value of `paetchfilter` is the absolute value. -/
theorem branchless_abs (x : Int) (h1 : -32768 < x) (h2 : x < 32768) :
    toInt16 (Int.xor x (x >>> (15 : Nat)) - (x >>> (15 : Nat))) = |x| := by
  by_cases hx : 0 ≤ x
  · obtain ⟨n, rfl⟩ := Int.eq_ofNat_of_zero_le hx
    have hs : (n : Int) >>> (15 : Nat) = 0 := by
      rw [Int.shiftRight_eq_div_pow]
      norm_num
      omega
    rw [hs, int_xor_zero, sub_zero, toInt16_of_range _ (by omega) h2, abs_of_nonneg hx]
  · obtain ⟨n, rfl⟩ := Int.eq_negSucc_of_lt_zero (by omega : x < 0)
    have hn : Int.negSucc n = -((n : Int) + 1) := Int.negSucc_eq n
    have hs : (Int.negSucc n) >>> (15 : Nat) = -1 := by
      rw [Int.shiftRight_eq_div_pow, hn]
      rw [hn] at h1
      norm_num
      omega
    rw [hs, int_xor_neg_one, abs_of_neg (Int.negSucc_lt_zero n), hn]
    rw [hn] at h1
    rw [toInt16_of_range _ (by omega) (by omega)]
    omega

/-- On bytes `paetchfilter` is the Paeth predictor. -/
theorem paetchfilter_eq (a b c : Nat) (ha : a < 256) (hb : b < 256) (hc : c < 256) :
    paetchfilter a b c = paethPredictor a b c := by
  unfold paetchfilter paethPredictor
  have hp : toInt16 ((a : Int) + (b : Int) - (c : Int)) = (a : Int) + b - c :=
    toInt16_of_range _ (by omega) (by omega)
  simp only [hp]
  have h1 : toInt16 ((a : Int) + b - c - a) = (a : Int) + b - c - a :=
    toInt16_of_range _ (by omega) (by omega)
  have h2 : toInt16 ((a : Int) + b - c - b) = (a : Int) + b - c - b :=
    toInt16_of_range _ (by omega) (by omega)
  have h3 : toInt16 ((a : Int) + b - c - c) = (a : Int) + b - c - c :=
    toInt16_of_range _ (by omega) (by omega)
  simp only [h1, h2, h3]
  rw [branchless_abs _ (by omega) (by omega), branchless_abs _ (by omega) (by omega),
    branchless_abs _ (by omega) (by omega)]

/-- With nothing to the left the Paeth predictor is the byte above. -/
theorem paethPredictor_left_zero (b : Nat) : paethPredictor 0 b 0 = b := by
  unfold paethPredictor
  simp only [Nat.cast_zero, zero_add, sub_zero, sub_self, abs_zero]
  by_cases hb : b = 0
  · subst hb; simp
  · have : ¬ (|(b : Int)| ≤ 0) := by
      have : (0 : Int) < |(b : Int)| := abs_pos.mpr (by exact_mod_cast hb)
      omega
    rw [if_neg (fun h => this h.1), if_pos (abs_nonneg _)]

/-! ### `unfilter` -/

theorem getD_lt_of_forall (x : List Nat) (hx : ∀ b ∈ x, b < 256) (k : Nat) : x.getD k 0 < 256 := by
  by_cases hk : k < x.length
  · rw [List.getD_eq_getElem _ _ hk]
    exact hx _ (List.getElem_mem _)
  · rw [List.getD_eq_default _ _ (by omega)]
    decide

theorem getElem?_eq_some_getD (x : List Nat) (k : Nat) (hk : k < x.length) :
    x[k]? = some (x.getD k 0) := by
  rw [List.getD_eq_getElem _ _ hk, List.getElem?_eq_getElem hk]

/-- Byte `i` of the filtered row. -/
theorem pngfilter_getD (f psize : Nat) (x prev : List Nat) (i : Nat) (hi : i < x.length) :
    (pngfilter f psize x prev).getD i 0 =
      (x.getD i 0 + 256 -
        (match f with
          | 1 => if i < psize then 0 else x.getD (i - psize) 0
          | 2 => prev.getD i 0
          | 3 => ((if i < psize then 0 else x.getD (i - psize) 0) + prev.getD i 0) / 2
          | 4 => paethPredictor (if i < psize then 0 else x.getD (i - psize) 0) (prev.getD i 0)
              (if i < psize then 0 else prev.getD (i - psize) 0)
          | _ => 0)) % 256 := by
  unfold pngfilter
  rw [List.getD_eq_getElem?_getD, List.getElem?_map, List.getElem?_range hi]
  rfl

theorem pngfilter_length (f psize : Nat) (x prev : List Nat) :
    (pngfilter f psize x prev).length = x.length := by
  simp [pngfilter]

/-- The invariant only looks below `size`. -/
theorem UnfilterInv.of_ge {x flt : List Nat} {size len i j : Nat} {cur : List Nat}
    (h : UnfilterInv x flt size len i cur) (hi : size ≤ i) (hj : size ≤ j) :
    UnfilterInv x flt size len j cur := by
  obtain ⟨h1, h2, _⟩ := h
  exact ⟨h1, fun k _ hk => h2 k (by omega) hk, fun k hk1 hk2 => absurd hk2 (by omega)⟩

/-- One statement `curr[i] += p`. -/
theorem addTo_step {x flt : List Nat} {size len i : Nat} {cur : List Nat} (p : Nat)
    (h : UnfilterInv x flt size len i cur) (hlen : size + 3 ≤ len) (hi : i < size + 3)
    (hp : i < size → (flt.getD i 0 + p) % 256 = x.getD i 0) :
    ∃ c', addTo cur i (some p) = some c' ∧ UnfilterInv x flt size len (i + 1) c' := by
  obtain ⟨h1, h2, h3⟩ := h
  have hic : i < cur.length := by omega
  refine ⟨cur.set i ((cur[i] + p) % 256), ?_, ?_, ?_, ?_⟩
  · simp [addTo, rd, wr, hic]
  · simp [h1]
  · intro k hk hks
    by_cases hki : k = i
    · subst hki
      have hc : cur[k]? = some (flt.getD k 0) := h3 k (le_refl k) hks
      rw [List.getElem?_eq_getElem hic] at hc
      have hc' : cur[k] = flt.getD k 0 := Option.some.inj hc
      rw [List.getElem?_set_self hic, hc', hp hks]
    · rw [List.getElem?_set_ne (fun h => hki h.symm)]
      exact h2 k (by omega) hks
  · intro k hk hks
    rw [List.getElem?_set_ne (by omega)]
    exact h3 k (by omega) hks

/-- One run of a loop body `curr[i] += e`. -/
theorem body_step {x flt : List Nat} {size len lo hi i : Nat} {cur : List Nat}
    {e : List Nat → Nat → Option Nat} (hP : PredOk x flt size lo hi e)
    (h : UnfilterInv x flt size len i cur) (hlen : size + 3 ≤ len) (hlo : lo ≤ i)
    (hi3 : i < size + 3) (hih : i < hi ∨ size ≤ i) :
    ∃ c', addTo cur i (e cur i) = some c' ∧ UnfilterInv x flt size len (i + 1) c' := by
  obtain ⟨p, hp, hq⟩ := hP cur i (by rw [h.1]; exact hlen) hlo hi3 h.2.1
  rw [hp]
  apply addTo_step p h hlen hi3
  intro his
  rcases hih with hih | hih
  · exact hq hih
  · omega

/-- The loop `for (; i < hi; i++) curr[i] += e`. -/
theorem loop1_inv {x flt : List Nat} {size len lo hi : Nat}
    {e : List Nat → Nat → Option Nat} (hP : PredOk x flt size lo hi e) (hhi : hi ≤ size)
    (hlen : size + 3 ≤ len) :
    ∀ (fuel i : Nat) (cur : List Nat), lo ≤ i → i ≤ hi → hi - i < fuel →
      UnfilterInv x flt size len i cur →
      ∃ c', loop1 (fun cur i => addTo cur i (e cur i)) hi fuel i cur = some c' ∧
        UnfilterInv x flt size len hi c' := by
  intro fuel
  induction fuel with
  | zero => intro i cur _ _ hf _; omega
  | succ fuel ih =>
    intro i cur hlo hile hf h
    by_cases hlt : i < hi
    · obtain ⟨c1, hb, h1⟩ := body_step hP h hlen hlo (by omega) (Or.inl hlt)
      obtain ⟨c', hl, h'⟩ := ih (i + 1) c1 (by omega) (by omega) (by omega) h1
      refine ⟨c', ?_, h'⟩
      simp only [loop1, if_pos hlt, hb, Option.bind_eq_bind, Option.some_bind]
      exact hl
    · have : i = hi := by omega
      subst this
      exact ⟨cur, by simp [loop1], h⟩

/-- The loop unrolled four times, which may run up to three bytes past
`size`. -/
theorem loop4_inv {x flt : List Nat} {size len lo : Nat}
    {e : List Nat → Nat → Option Nat} (hP : PredOk x flt size lo size e)
    (hlen : size + 3 ≤ len) :
    ∀ (fuel i : Nat) (cur : List Nat), lo ≤ i → size - i < fuel →
      UnfilterInv x flt size len i cur →
      ∃ c', loop4 (fun cur i => addTo cur i (e cur i)) size fuel i cur = some c' ∧
        UnfilterInv x flt size len size c' := by
  intro fuel
  induction fuel with
  | zero => intro i cur _ hf _; omega
  | succ fuel ih =>
    intro i cur hlo hf h
    by_cases hlt : i < size
    · obtain ⟨c1, hb1, h1⟩ := body_step hP h hlen hlo (by omega) (Or.inl hlt)
      obtain ⟨c2, hb2, h2⟩ := body_step hP h1 hlen (by omega) (by omega)
        (by omega : i + 1 < size ∨ size ≤ i + 1)
      obtain ⟨c3, hb3, h3⟩ := body_step hP h2 hlen (by omega) (by omega)
        (by omega : i + 1 + 1 < size ∨ size ≤ i + 1 + 1)
      obtain ⟨c4, hb4, h4⟩ := body_step hP h3 hlen (by omega) (by omega)
        (by omega : i + 1 + 1 + 1 < size ∨ size ≤ i + 1 + 1 + 1)
      obtain ⟨c', hl, h'⟩ := ih (i + 4) c4 (by omega) (by omega) h4
      refine ⟨c', ?_, h'⟩
      simp only [loop4, if_pos hlt, Option.bind_eq_bind]
      rw [hb1, Option.some_bind, hb2, Option.some_bind, hb3, Option.some_bind, hb4,
        Option.some_bind]
      exact hl
    · exact ⟨cur, by simp [loop4, hlt], h.of_ge (by omega) (le_refl size)⟩

theorem paethPredictor_lt (a b c : Nat) (ha : a < 256) (hb : b < 256) (hc : c < 256) :
    paethPredictor a b c < 256 := by
  unfold paethPredictor
  simp only
  split_ifs <;> assumption

theorem rd_append_left (prev pad : List Nat) (i : Nat) (hi : i < prev.length) :
    rd (prev ++ pad) i = some (prev.getD i 0) := by
  unfold rd
  rw [List.getElem?_append_left hi]
  exact getElem?_eq_some_getD prev i hi

theorem rd_of_lt (buf : List Nat) (i : Nat) (hi : i < buf.length) :
    rd buf i = some (buf.getD i 0) :=
  getElem?_eq_some_getD buf i hi

/-- Filter Sub: `curr[i] += curr[i - psize]`. -/
theorem predOk_sub (psize : Nat) (x prev : List Nat) (hps : 1 ≤ psize)
    (hx : ∀ b ∈ x, b < 256) :
    PredOk x (pngfilter 1 psize x prev) x.length psize x.length
      (fun cur i => rd cur (i - psize)) := by
  intro cur i hlen hlo hi3 hk
  refine ⟨cur.getD (i - psize) 0, rd_of_lt cur _ (by omega), ?_⟩
  intro his
  have h1 := hk (i - psize) (by omega) (by omega)
  rw [getElem?_eq_some_getD cur _ (by omega)] at h1
  rw [Option.some.inj h1, pngfilter_getD _ _ _ _ _ his]
  simp only [if_neg (not_lt.mpr hlo)]
  have := getD_lt_of_forall x hx i
  have := getD_lt_of_forall x hx (i - psize)
  omega

/-- Filter Up: `curr[i] += prev[i]`. -/
theorem predOk_up (psize : Nat) (x prev pad : List Nat) (hprev : prev.length = x.length)
    (hpad : 3 ≤ pad.length) (hx : ∀ b ∈ x, b < 256) (hpv : ∀ b ∈ prev, b < 256) :
    PredOk x (pngfilter 2 psize x prev) x.length 0 x.length
      (fun _ i => rd (prev ++ pad) i) := by
  intro cur i _ _ hi3 _
  by_cases his : i < x.length
  · refine ⟨prev.getD i 0, rd_append_left prev pad i (by omega), ?_⟩
    intro _
    rw [pngfilter_getD _ _ _ _ _ his]
    simp only
    have := getD_lt_of_forall x hx i
    have := getD_lt_of_forall prev hpv i
    omega
  · exact ⟨(prev ++ pad).getD i 0,
      rd_of_lt _ _ (by rw [List.length_append]; omega), fun h => absurd h his⟩

/-- Filter Average, first pixel: `curr[i] += prev[i] >> 1`. -/
theorem predOk_avg_first (psize : Nat) (x prev pad : List Nat) (hprev : prev.length = x.length)
    (hpad : 3 ≤ pad.length) (hsize : psize ≤ x.length)
    (hx : ∀ b ∈ x, b < 256) (hpv : ∀ b ∈ prev, b < 256) :
    PredOk x (pngfilter 3 psize x prev) x.length 0 psize
      (fun _ i => (rd (prev ++ pad) i).map (fun b => b >>> 1)) := by
  intro cur i _ _ hi3 _
  by_cases his : i < x.length
  · refine ⟨prev.getD i 0 >>> 1, by beta_reduce; rw [rd_append_left prev pad i (by omega)]; rfl, ?_⟩
    intro hip
    rw [pngfilter_getD _ _ _ _ _ his]
    simp only [if_pos hip, Nat.zero_add, Nat.shiftRight_eq_div_pow, Nat.pow_one]
    have := getD_lt_of_forall x hx i
    have := getD_lt_of_forall prev hpv i
    omega
  · exact ⟨(prev ++ pad).getD i 0 >>> 1,
      by beta_reduce; rw [rd_of_lt _ _ (by rw [List.length_append]; omega)]; rfl, fun h => by omega⟩

/-- Filter Average: `curr[i] += (curr[i - psize] + prev[i]) >> 1`. -/
theorem predOk_avg (psize : Nat) (x prev pad : List Nat) (hprev : prev.length = x.length)
    (hpad : 3 ≤ pad.length) (hps : 1 ≤ psize)
    (hx : ∀ b ∈ x, b < 256) (hpv : ∀ b ∈ prev, b < 256) :
    PredOk x (pngfilter 3 psize x prev) x.length psize x.length
      (fun cur i => do
        let a ← rd cur (i - psize)
        let b ← rd (prev ++ pad) i
        pure ((a + b) >>> 1)) := by
  intro cur i hlen hlo hi3 hk
  have ha := rd_of_lt cur (i - psize) (by omega)
  by_cases his : i < x.length
  · refine ⟨(cur.getD (i - psize) 0 + prev.getD i 0) >>> 1, ?_, ?_⟩
    · beta_reduce; rw [ha, rd_append_left prev pad i (by omega)]; rfl
    · intro _
      have h1 := hk (i - psize) (by omega) (by omega)
      rw [getElem?_eq_some_getD cur _ (by omega)] at h1
      rw [Option.some.inj h1, pngfilter_getD _ _ _ _ _ his]
      simp only [if_neg (not_lt.mpr hlo), Nat.shiftRight_eq_div_pow, Nat.pow_one]
      have := getD_lt_of_forall x hx i
      have := getD_lt_of_forall x hx (i - psize)
      have := getD_lt_of_forall prev hpv i
      omega
  · refine ⟨(cur.getD (i - psize) 0 + (prev ++ pad).getD i 0) >>> 1, ?_, fun h => absurd h his⟩
    beta_reduce; rw [ha, rd_of_lt (prev ++ pad) i (by rw [List.length_append]; omega)]; rfl

/-- Filter Paeth, first pixel: `curr[i] += prev[i]`. -/
theorem predOk_paeth_first (psize : Nat) (x prev pad : List Nat)
    (hprev : prev.length = x.length) (hpad : 3 ≤ pad.length) (hsize : psize ≤ x.length)
    (hx : ∀ b ∈ x, b < 256) (hpv : ∀ b ∈ prev, b < 256) :
    PredOk x (pngfilter 4 psize x prev) x.length 0 psize
      (fun _ i => rd (prev ++ pad) i) := by
  intro cur i _ _ hi3 _
  by_cases his : i < x.length
  · refine ⟨prev.getD i 0, rd_append_left prev pad i (by omega), ?_⟩
    intro hip
    rw [pngfilter_getD _ _ _ _ _ his]
    simp only [if_pos hip, paethPredictor_left_zero]
    have := getD_lt_of_forall x hx i
    have := getD_lt_of_forall prev hpv i
    omega
  · exact ⟨(prev ++ pad).getD i 0,
      rd_of_lt _ _ (by rw [List.length_append]; omega), fun h => by omega⟩

/-- Filter Paeth: `curr[i] += paetchfilter(curr[i - psize], prev[i],
prev[i - psize])`. -/
theorem predOk_paeth (psize : Nat) (x prev pad : List Nat) (hprev : prev.length = x.length)
    (hpad : 3 ≤ pad.length) (hps : 1 ≤ psize)
    (hx : ∀ b ∈ x, b < 256) (hpv : ∀ b ∈ prev, b < 256) :
    PredOk x (pngfilter 4 psize x prev) x.length psize x.length
      (fun cur i => do
        let a ← rd cur (i - psize)
        let c ← rd (prev ++ pad) (i - psize)
        let b ← rd (prev ++ pad) i
        pure (paetchfilter a b c)) := by
  intro cur i hlen hlo hi3 hk
  have ha := rd_of_lt cur (i - psize) (by omega)
  have hc := rd_of_lt (prev ++ pad) (i - psize) (by rw [List.length_append]; omega)
  by_cases his : i < x.length
  · refine ⟨paetchfilter (cur.getD (i - psize) 0) (prev.getD i 0) (prev.getD (i - psize) 0),
      ?_, ?_⟩
    · beta_reduce; rw [ha, rd_append_left prev pad (i - psize) (by omega),
        rd_append_left prev pad i (by omega)]; rfl
    · intro _
      have h1 := hk (i - psize) (by omega) (by omega)
      rw [getElem?_eq_some_getD cur _ (by omega)] at h1
      have hxi := getD_lt_of_forall x hx i
      have hxa := getD_lt_of_forall x hx (i - psize)
      have hpb := getD_lt_of_forall prev hpv i
      have hpc := getD_lt_of_forall prev hpv (i - psize)
      rw [Option.some.inj h1, pngfilter_getD _ _ _ _ _ his, paetchfilter_eq _ _ _ hxa hpb hpc]
      simp only [if_neg (not_lt.mpr hlo)]
      have := paethPredictor_lt _ _ _ hxa hpb hpc
      omega
  · refine ⟨paetchfilter (cur.getD (i - psize) 0) ((prev ++ pad).getD i 0)
      ((prev ++ pad).getD (i - psize) 0), ?_, fun h => absurd h his⟩
    beta_reduce; rw [ha, hc, rd_of_lt (prev ++ pad) i (by rw [List.length_append]; omega)]; rfl

/-- Before `unfilter` runs the buffer holds the filtered row. -/
theorem unfilterInv_init (x flt pad : List Nat) (hflt : flt.length = x.length) :
    UnfilterInv x flt x.length (flt ++ pad).length 0 (flt ++ pad) := by
  refine ⟨rfl, fun k hk _ => absurd hk (Nat.not_lt_zero k), fun k _ hk => ?_⟩
  rw [List.getElem?_append_left (by omega)]
  exact getElem?_eq_some_getD flt k (by omega)

/-- Once the invariant holds at `size` the row is restored. -/
theorem take_of_unfilterInv (x flt r : List Nat) (len : Nat) (hlen : x.length + 3 ≤ len)
    (h : UnfilterInv x flt x.length len x.length r) : r.take x.length = x := by
  obtain ⟨h1, h2, _⟩ := h
  apply List.ext_getElem?
  intro k
  by_cases hk : k < x.length
  · rw [List.getElem?_take_of_lt hk, h2 k hk hk, getElem?_eq_some_getD x k hk]
  · rw [List.getElem?_eq_none (by rw [List.length_take]; omega),
      List.getElem?_eq_none (by omega)]

/-! ### Header check of `readzlibheader` -/

/-- What the header check of `readzlibheader` accepts: compression method
nibble 0, window nibble at most 7, check value divisible by 31, no preset
dictionary. -/
theorem zlibheadercheck_iff (s0 s1 : Nat) :
    zlibheadercheck s0 s1 = true ↔
      (s0 &&& 0x0f = 0 ∧ (s0 >>> 4) &&& 0x0f ≤ 7 ∧ ((s0 <<< 8) ||| s1) % 31 = 0 ∧
        (s1 >>> 5) &&& 0x01 = 0) := by
  unfold zlibheadercheck
  simp only [Nat.shiftRight_zero]
  split_ifs with h1 h2 h3
  · exact ⟨fun h => absurd h (by simp), fun h => absurd h.2.2.1 h2⟩
  · exact ⟨fun h => absurd h (by simp), fun h => absurd h.2.2.2 h3⟩
  · exact ⟨fun _ => ⟨h1.1, h1.2, not_not.mp h2, not_not.mp h3⟩, fun _ => rfl⟩
  · exact ⟨fun h => absurd h (by simp), fun h => absurd ⟨h.1, h.2.1⟩ h1⟩

/-! ### `setvalues` -/

theorem isvalidmode_cases (d c : Nat) (h : isvalidmode d c = true) :
    (c = 0 ∧ (d = 1 ∨ d = 2 ∨ d = 4 ∨ d = 8 ∨ d = 16)) ∨
    ((c = 2 ∨ c = 4 ∨ c = 6) ∧ (d = 8 ∨ d = 16)) ∨
    (c = 3 ∧ (d = 1 ∨ d = 2 ∨ d = 4 ∨ d = 8)) := by
  unfold isvalidmode at h
  split_ifs at h <;> simp at h <;> omega

theorem checklimits_bound (sizex sizey pelsize : Nat) (hx : sizex < 2 ^ 32) (hy : sizey < 2 ^ 32)
    (hp : pelsize ≤ 8) (h : checklimits sizex sizey pelsize = true) :
    sizex * sizey * pelsize ≤ 2 ^ 32 := by
  unfold checklimits MAXSAFESIZE at h
  have h1 : sizex * sizey < 2 ^ 64 := by
    have : sizex * sizey < 2 ^ 32 * 2 ^ 32 := Nat.mul_lt_mul'' hx hy
    simpa using this
  simp only [Nat.mod_eq_of_lt h1] at h
  split_ifs at h with a b c d
  have hc : sizex * sizey ≤ 0x100000000 := by omega
  have h2 : sizex * sizey * pelsize < 2 ^ 64 := by
    calc sizex * sizey * pelsize ≤ 0x100000000 * 8 := Nat.mul_le_mul hc hp
      _ < 2 ^ 64 := by norm_num
  rw [Nat.mod_eq_of_lt h2] at d
  omega

theorem setvalues_fields (pngr pngr' : TPNGR) (info info' : TImageInfo)
    (hmode : isvalidmode pngr.depth pngr.colortype = true)
    (halpha : pngr.hasalpha ≠ 0 → pngr.colortype = 0 ∨ pngr.colortype = 2 ∨ pngr.colortype = 3)
    (h : setvalues pngr info = some (true, pngr', info')) :
    imginfo_getpelsize info' = pngr'.pelsize ∧ pngr'.pelsize ≤ 8 ∧
    checklimits pngr.sizex pngr.sizey pngr'.pelsize = true ∧
    pngr'.rowsize = (pngr'.pelsize * pngr.sizex) % 2 ^ 64 ∧
    info'.sizex = pngr.sizex ∧
    info'.size = (imginfo_getrowsize info' * pngr.sizey) % 2 ^ 64 := by
  unfold setvalues at h
  by_cases ha : pngr.hasalpha = 0
  · rcases isvalidmode_cases _ _ hmode with ⟨hc, hd⟩ | ⟨hc, hd⟩ | ⟨hc, hd⟩
    · rcases hd with hd | hd | hd | hd | hd <;>
      · simp [rd, cmap, ha, hc, hd] at h
        split_ifs at h with h1
        · simp only [Option.some.injEq, Prod.mk.injEq, true_and] at h
          obtain ⟨h2, h3⟩ := h
          subst h2 h3
          simp [imginfo_getpelsize, imginfo_getrowsize, IMAGE_GRAY, IMAGE_GRAYALPHA, IMAGE_RGB,
            IMAGE_RGBALPHA, IMAGE_YCBCR, h1]
        · simp at h
    · rcases hc with hc | hc | hc <;> rcases hd with hd | hd <;>
      · simp [rd, cmap, ha, hc, hd] at h
        split_ifs at h with h1
        · simp only [Option.some.injEq, Prod.mk.injEq, true_and] at h
          obtain ⟨h2, h3⟩ := h
          subst h2 h3
          simp [imginfo_getpelsize, imginfo_getrowsize, IMAGE_GRAY, IMAGE_GRAYALPHA, IMAGE_RGB,
            IMAGE_RGBALPHA, IMAGE_YCBCR, h1]
        · simp at h
    · rcases hd with hd | hd | hd | hd <;>
      · simp [rd, cmap, ha, hc, hd] at h
        split_ifs at h with h1
        · simp only [Option.some.injEq, Prod.mk.injEq, true_and] at h
          obtain ⟨h2, h3⟩ := h
          subst h2 h3
          simp [imginfo_getpelsize, imginfo_getrowsize, IMAGE_GRAY, IMAGE_GRAYALPHA, IMAGE_RGB,
            IMAGE_RGBALPHA, IMAGE_YCBCR, h1]
        · simp at h
  · rcases isvalidmode_cases _ _ hmode with ⟨hc, hd⟩ | ⟨hc, hd⟩ | ⟨hc, hd⟩
    · rcases hd with hd | hd | hd | hd | hd <;>
      · simp [rd, cmap, ha, hc, hd] at h
        split_ifs at h with h1
        · simp only [Option.some.injEq, Prod.mk.injEq, true_and] at h
          obtain ⟨h2, h3⟩ := h
          subst h2 h3
          simp [imginfo_getpelsize, imginfo_getrowsize, IMAGE_GRAY, IMAGE_GRAYALPHA, IMAGE_RGB,
            IMAGE_RGBALPHA, IMAGE_YCBCR, h1]
        · simp at h
    · rcases halpha ha with h0 | h0 | h0
      · rcases hd with hd | hd <;>
        · simp [rd, cmap, ha, h0, hd] at h
          split_ifs at h with h1
          · simp only [Option.some.injEq, Prod.mk.injEq, true_and] at h
            obtain ⟨h2, h3⟩ := h
            subst h2 h3
            simp [imginfo_getpelsize, imginfo_getrowsize, IMAGE_GRAY, IMAGE_GRAYALPHA, IMAGE_RGB,
              IMAGE_RGBALPHA, IMAGE_YCBCR, h1]
          · simp at h
      · rcases hd with hd | hd <;>
        · simp [rd, cmap, ha, h0, hd] at h
          split_ifs at h with h1
          · simp only [Option.some.injEq, Prod.mk.injEq, true_and] at h
            obtain ⟨h2, h3⟩ := h
            subst h2 h3
            simp [imginfo_getpelsize, imginfo_getrowsize, IMAGE_GRAY, IMAGE_GRAYALPHA, IMAGE_RGB,
              IMAGE_RGBALPHA, IMAGE_YCBCR, h1]
          · simp at h
      · omega
    · rcases hd with hd | hd | hd | hd <;>
      · simp [rd, cmap, ha, hc, hd] at h
        split_ifs at h with h1
        · simp only [Option.some.injEq, Prod.mk.injEq, true_and] at h
          obtain ⟨h2, h3⟩ := h
          subst h2 h3
          simp [imginfo_getpelsize, imginfo_getrowsize, IMAGE_GRAY, IMAGE_GRAYALPHA, IMAGE_RGB,
            IMAGE_RGBALPHA, IMAGE_YCBCR, h1]
        · simp at h

/-! ### `parsePLTE` -/

theorem psize_eq_div (length : Nat) (h : length ≤ 768) (h3 : length % 3 = 0) :
    psize length = length / 3 := by
  unfold psize
  rw [Nat.shiftRight_eq_div_pow]
  omega

theorem wr_some {α : Type} (buf : List α) (i : Nat) (v : α) (h : i < buf.length) :
    wr buf i v = some (buf.set i v) := by
  simp [wr, h]

theorem expandpalette_spec (n : Nat) : ∀ palette : List Nat, 4 * n ≤ palette.length →
    ∃ out, expandpalette n (n * 3) (n * 4) palette = some out ∧ out.length = palette.length ∧
      (∀ k, k < n → out[4 * k]? = palette[3 * k]? ∧ out[4 * k + 1]? = palette[3 * k + 1]? ∧
        out[4 * k + 2]? = palette[3 * k + 2]? ∧ out[4 * k + 3]? = some 0xff) ∧
      (∀ b, 4 * n ≤ b → out[b]? = palette[b]?) := by
  induction n with
  | zero =>
    intro palette _
    exact ⟨palette, rfl, rfl, fun k hk => absurd hk (Nat.not_lt_zero k), fun b _ => rfl⟩
  | succ n ih =>
    intro palette hlen
    have e1 : (n + 1) * 4 - 1 = 4 * n + 3 := by omega
    have e2 : (n + 1) * 4 - 2 = 4 * n + 2 := by omega
    have e3 : (n + 1) * 4 - 3 = 4 * n + 1 := by omega
    have e4 : (n + 1) * 4 - 4 = n * 4 := by omega
    have e4' : n * 4 = 4 * n := by omega
    have f1 : (n + 1) * 3 - 1 = 3 * n + 2 := by omega
    have f2 : (n + 1) * 3 - 2 = 3 * n + 1 := by omega
    have f3 : (n + 1) * 3 - 3 = n * 3 := by omega
    have f3' : n * 3 = 3 * n := by omega
    obtain ⟨b2, hb2⟩ : ∃ v, palette[3 * n + 2]? = some v :=
      ⟨_, List.getElem?_eq_getElem (by omega)⟩
    obtain ⟨b1, hb1⟩ : ∃ v, palette[3 * n + 1]? = some v :=
      ⟨_, List.getElem?_eq_getElem (by omega)⟩
    obtain ⟨b0, hb0⟩ : ∃ v, palette[3 * n]? = some v :=
      ⟨_, List.getElem?_eq_getElem (by omega)⟩
    set p1 := palette.set (4 * n + 3) 0xff with hp1
    set p2 := p1.set (4 * n + 2) b2 with hp2
    set p3 := p2.set (4 * n + 1) b1 with hp3
    set p4 := p3.set (4 * n) b0 with hp4
    have l1 : p1.length = palette.length := by simp [hp1]
    have l2 : p2.length = palette.length := by simp [hp2, l1]
    have l3 : p3.length = palette.length := by simp [hp3, l2]
    have l4 : p4.length = palette.length := by simp [hp4, l3]
    have r2 : rd p1 (3 * n + 2) = some b2 := by
      simp only [rd, hp1]
      rw [List.getElem?_set_ne (by omega)]
      exact hb2
    have r1 : rd p2 (3 * n + 1) = some b1 := by
      simp only [rd, hp2, hp1]
      rw [List.getElem?_set_ne (by omega), List.getElem?_set_ne (by omega)]
      exact hb1
    have r0 : rd p3 (3 * n) = some b0 := by
      simp only [rd, hp3, hp2, hp1]
      rw [List.getElem?_set_ne (by omega), List.getElem?_set_ne (by omega),
        List.getElem?_set_ne (by omega)]
      exact hb0
    obtain ⟨out, ho, hol, hok, hob⟩ := ih p4 (by omega)
    refine ⟨out, ?_, by omega, ?_, ?_⟩
    · rw [expandpalette, e1, e2, e3, e4, f1, f2, f3, e4']
      rw [wr_some _ _ _ (by omega)]
      simp only [Option.bind_eq_bind, Option.some_bind]
      rw [← hp1, r2]
      simp only [Option.some_bind]
      rw [wr_some _ _ _ (by omega), Option.some_bind, ← hp2, r1, Option.some_bind,
        wr_some _ _ _ (by omega), Option.some_bind, ← hp3, f3', r0, Option.some_bind,
        wr_some _ _ _ (by omega), Option.some_bind, ← hp4, ← e4', ← f3']
      exact ho
    · intro k hk
      have get4 : ∀ b, b < 4 * n → p4[b]? = palette[b]? := by
        intro b hb
        simp only [hp4, hp3, hp2, hp1]
        rw [List.getElem?_set_ne (by omega), List.getElem?_set_ne (by omega),
          List.getElem?_set_ne (by omega), List.getElem?_set_ne (by omega)]
      by_cases hkn : k < n
      · obtain ⟨a0, a1, a2, a3⟩ := hok k hkn
        exact ⟨by rw [a0, get4 _ (by omega)], by rw [a1, get4 _ (by omega)],
          by rw [a2, get4 _ (by omega)], a3⟩
      · have hk' : k = n := by omega
        subst hk'
        refine ⟨?_, ?_, ?_, ?_⟩
        · rw [hob _ (by omega), hb0, hp4, List.getElem?_set_self (by omega)]
        · rw [hob _ (by omega), hb1, hp4, List.getElem?_set_ne (by omega), hp3,
            List.getElem?_set_self (by omega)]
        · rw [hob _ (by omega), hb2, hp4, List.getElem?_set_ne (by omega), hp3,
            List.getElem?_set_ne (by omega), hp2, List.getElem?_set_self (by omega)]
        · rw [hob _ (by omega), hp4, List.getElem?_set_ne (by omega), hp3,
            List.getElem?_set_ne (by omega), hp2, List.getElem?_set_ne (by omega), hp1,
            List.getElem?_set_self (by omega)]
    · intro b hb
      rw [hob _ (by omega)]
      simp only [hp4, hp3, hp2, hp1]
      rw [List.getElem?_set_ne (by omega), List.getElem?_set_ne (by omega),
        List.getElem?_set_ne (by omega), List.getElem?_set_ne (by omega)]

theorem checkcrc32_palette (p : TPNGR) :
    (checkcrc32 p).palette = p.palette ∧ (checkcrc32 p).palettesize = p.palettesize := by
  simp only [checkcrc32, readinput]
  split_ifs <;> exact ⟨rfl, rfl⟩

/-! ### Copying one pixel -/

theorem copyidx_spec (s : List Nat) (o : Nat) : ∀ (ks : List Nat) (px : List Nat),
    (∀ k ∈ ks, k < s.length ∧ o + k < px.length) →
    ∃ px', ks.foldlM (fun pixels k => do let b ← rd s k; wr pixels (o + k) b) px = some px' ∧
      px'.length = px.length ∧
      ∀ b, px'[b]? = if o ≤ b ∧ b - o ∈ ks then s[b - o]? else px[b]? := by
  intro ks
  induction ks with
  | nil =>
    intro px _
    exact ⟨px, rfl, rfl, fun b => by simp⟩
  | cons k ks ih =>
    intro px h
    have hk := h k (List.mem_cons_self _ _)
    obtain ⟨px', h1, h2, h3⟩ := ih (px.set (o + k) s[k]) (by
      intro k' hk'
      have := h k' (List.mem_cons_of_mem _ hk')
      simpa using this)
    refine ⟨px', ?_, by simpa using h2, ?_⟩
    · rw [List.foldlM_cons]
      have e1 : rd s k = some s[k] := by
        simp [rd, List.getElem?_eq_getElem hk.1]
      have e2 : wr px (o + k) s[k] = some (px.set (o + k) s[k]) := by
        simp [wr, hk.2]
      simp only [e1, e2, Option.bind_eq_bind, Option.some_bind]
      exact h1
    · intro b
      rw [h3 b]
      by_cases hb : o ≤ b ∧ b - o ∈ ks
      · rw [if_pos hb, if_pos ⟨hb.1, List.mem_cons_of_mem _ hb.2⟩]
      · rw [if_neg hb]
        by_cases hbk : b = o + k
        · subst hbk
          rw [if_pos ⟨by omega, by simp⟩, List.getElem?_set_self hk.2]
          simp [List.getElem?_eq_getElem hk.1]
        · rw [List.getElem?_set_ne (by omega)]
          rw [if_neg]
          rintro ⟨h1', h2'⟩
          rcases List.mem_cons.1 h2' with h' | h'
          · omega
          · exact hb ⟨h1', h'⟩

theorem pelbytes_le (P : Nat) : pelbytes P ≤ P := by
  unfold pelbytes
  split_ifs <;> omega

theorem pelbytes_cases (P : Nat) :
    (pelbytes P = P ∧ (P = 1 ∨ P = 2 ∨ P = 3 ∨ P = 4 ∨ P = 6 ∨ P = 8)) ∨
    (pelbytes P = 0 ∧ ¬ (P = 1 ∨ P = 2 ∨ P = 3 ∨ P = 4 ∨ P = 6 ∨ P = 8)) := by
  unfold pelbytes
  split_ifs with h
  · exact Or.inl ⟨rfl, h⟩
  · exact Or.inr ⟨rfl, h⟩

theorem copyidx_range (s : List Nat) (o : Nat) (ks : List Nat) (px : List Nat) (n : Nat)
    (hmem : ∀ k, k ∈ ks ↔ k < n) (hs : n ≤ s.length) (ho : o + n ≤ px.length) :
    ∃ px', ks.foldlM (fun pixels k => do let b ← rd s k; wr pixels (o + k) b) px = some px' ∧
      px'.length = px.length ∧
      ∀ b, px'[b]? = if o ≤ b ∧ b < o + n then s[b - o]? else px[b]? := by
  obtain ⟨px', h1, h2, h3⟩ := copyidx_spec s o ks px (by
    intro k hk
    have := (hmem k).1 hk
    omega)
  refine ⟨px', h1, h2, ?_⟩
  intro b
  rw [h3 b]
  congr 1
  rw [hmem]
  simp only [eq_iff_iff]
  omega

/-- A pixel copy that stays inside the buffer and finds its sample bytes
succeeds and changes the bytes of the pixel only. -/
theorem copypel_some (P : Nat) (px : List Nat) (o : Nat) (s : List Nat)
    (hs : pelbytes P ≤ s.length) (ho : o + pelbytes P ≤ px.length) :
    ∃ px', copypel P px o s = some px' ∧ px'.length = px.length ∧
      ∀ b, px'[b]? = if o ≤ b ∧ b < o + pelbytes P then s[b - o]? else px[b]? := by
  rcases pelbytes_cases P with ⟨hP, hc⟩ | ⟨hP, hc⟩
  · rw [hP] at hs ho ⊢
    rcases hc with h | h | h | h | h | h <;> subst h
    all_goals
      simp only [copypel]
      refine copyidx_range s o _ px _ ?_ hs ho
      intro k
      simp only [List.mem_cons, List.mem_singleton, List.not_mem_nil, or_false]
      omega
  · rw [hP]
    refine ⟨px, ?_, rfl, fun b => by rw [if_neg (by omega)]⟩
    unfold copypel
    split <;> first | rfl | omega

/-- A pixel copy with too short a sample fails. -/
theorem copypel_none (P : Nat) (px : List Nat) (o : Nat) (s : List Nat)
    (hs : s.length < pelbytes P) : copypel P px o s = none := by
  rcases pelbytes_cases P with ⟨hP, hc⟩ | ⟨hP, hc⟩
  · rw [hP] at hs
    rcases hc with h | h | h | h | h | h <;> subst h
    all_goals
      simp only [copypel, List.foldlM_cons]
      have e : rd s _ = none := List.getElem?_eq_none (Nat.le_of_lt_succ hs)
      rw [e]
      rfl
  · omega

/-! ### The block written by `fill` -/

theorem fillRow_spec (P : Nat) (s : List Nat) (hs : pelbytes P ≤ s.length) :
    ∀ (n pos : Nat) (px : List Nat), pos + n * P ≤ px.length →
    ∃ px', fillRow P s n pos px = some px' ∧ px'.length = px.length ∧
      ∀ b, (px'[b]? = px[b]? ∧ ¬ ∃ dx t, dx < n ∧ t < pelbytes P ∧ b = pos + dx * P + t) ∨
        (∃ dx t, dx < n ∧ t < pelbytes P ∧ b = pos + dx * P + t ∧ px'[b]? = s[t]?) := by
  intro n
  induction n with
  | zero =>
    intro pos px _
    refine ⟨px, rfl, rfl, fun b => Or.inl ⟨rfl, ?_⟩⟩
    rintro ⟨dx, t, h, _⟩
    omega
  | succ n ih =>
    intro pos px hlen
    have hP := pelbytes_le P
    have e : (n + 1) * P = n * P + P := by ring
    obtain ⟨px1, c1, c2, c3⟩ := copypel_some P px pos s hs (by omega)
    obtain ⟨px', f1, f2, f3⟩ := ih (pos + P) px1 (by omega)
    refine ⟨px', ?_, by omega, ?_⟩
    · rw [fillRow, c1]
      exact f1
    · intro b
      rcases f3 b with ⟨g1, g2⟩ | ⟨dx, t, g1, g2, g3, g4⟩
      · by_cases hb : pos ≤ b ∧ b < pos + pelbytes P
        · right
          refine ⟨0, b - pos, by omega, by omega, by omega, ?_⟩
          rw [g1, c3 b, if_pos hb]
        · left
          refine ⟨by rw [g1, c3 b, if_neg hb], ?_⟩
          rintro ⟨dx, t, k1, k2, k3⟩
          rcases Nat.eq_zero_or_pos dx with h0 | h0
          · subst h0
            omega
          · apply g2
            refine ⟨dx - 1, t, by omega, k2, ?_⟩
            have : dx * P = (dx - 1) * P + P := by
              obtain ⟨d, rfl⟩ : ∃ d, dx = d + 1 := ⟨dx - 1, by omega⟩
              simp only [Nat.add_sub_cancel]
              ring
            omega
      · right
        refine ⟨dx + 1, t, by omega, g2, ?_, g4⟩
        have : (dx + 1) * P = dx * P + P := by ring
        omega

theorem fillRow_none (P : Nat) (s : List Nat) (hs : s.length < pelbytes P) (n pos : Nat)
    (px : List Nat) : fillRow P s (n + 1) pos px = none := by
  rw [fillRow, copypel_none P px pos s hs]
  rfl

theorem fillRows_spec (pngr : TPNGR) (offset : Nat) (s : List Nat) (x2 : Nat)
    (hs : pelbytes pngr.pelsize ≤ s.length) :
    ∀ (n y : Nat) (px : List Nat),
    (∀ dy, y ≤ dy → dy < y + n → offset + dy * pngr.rowsize + x2 * pngr.pelsize ≤ px.length) →
    ∃ px', fillRows pngr offset s x2 n y px = some px' ∧ px'.length = px.length ∧
      ∀ b, (px'[b]? = px[b]? ∧ ¬ ∃ dy dx t, y ≤ dy ∧ dy < y + n ∧ dx < x2 ∧
              t < pelbytes pngr.pelsize ∧ b = offset + dy * pngr.rowsize + dx * pngr.pelsize + t) ∨
        (∃ dy dx t, y ≤ dy ∧ dy < y + n ∧ dx < x2 ∧ t < pelbytes pngr.pelsize ∧
              b = offset + dy * pngr.rowsize + dx * pngr.pelsize + t ∧ px'[b]? = s[t]?) := by
  intro n
  induction n with
  | zero =>
    intro y px _
    refine ⟨px, rfl, rfl, fun b => Or.inl ⟨rfl, ?_⟩⟩
    rintro ⟨dy, dx, t, h1, h2, _⟩
    omega
  | succ n ih =>
    intro y px hlen
    obtain ⟨px1, c1, c2, c3⟩ := fillRow_spec pngr.pelsize s hs x2 (offset + y * pngr.rowsize) px
      (hlen y (le_refl _) (by omega))
    obtain ⟨px', f1, f2, f3⟩ := ih (y + 1) px1 (by
      intro dy h1 h2
      rw [c2]
      exact hlen dy (by omega) (by omega))
    refine ⟨px', ?_, by omega, ?_⟩
    · rw [fillRows, c1]
      exact f1
    · intro b
      rcases f3 b with ⟨g1, g2⟩ | ⟨dy, dx, t, g1, g2, g3, g4, g5, g6⟩
      · rcases c3 b with ⟨k1, k2⟩ | ⟨dx, t, k1, k2, k3, k4⟩
        · left
          refine ⟨by rw [g1, k1], ?_⟩
          rintro ⟨dy, dx, t, m1, m2, m3, m4, m5⟩
          by_cases hdy : dy = y
          · subst hdy
            exact k2 ⟨dx, t, m3, m4, m5⟩
          · exact g2 ⟨dy, dx, t, by omega, by omega, m3, m4, m5⟩
        · right
          exact ⟨y, dx, t, le_refl _, by omega, k1, k2, k3, by rw [g1, k4]⟩
      · right
        exact ⟨dy, dx, t, by omega, by omega, g3, g4, g5, g6⟩

theorem fillRows_none (pngr : TPNGR) (offset : Nat) (s : List Nat) (x2 : Nat)
    (hs : s.length < pelbytes pngr.pelsize) (n y : Nat) (px : List Nat) :
    fillRows pngr offset s (x2 + 1) (n + 1) y px = none := by
  rw [fillRows, fillRow_none _ _ hs]
  rfl

/-- A block that lies inside the buffer is filled: every byte either keeps
its value and lies outside the block, or lies in a pixel of the block and
holds the byte of the sample. -/
theorem fill_spec (pngr : TPNGR) (px : List Nat) (offset : Nat) (s : List Nat) (x2 y2 : Nat)
    (hs : pelbytes pngr.pelsize ≤ s.length)
    (hlen : ∀ dy, dy < y2 → offset + dy * pngr.rowsize + x2 * pngr.pelsize ≤ px.length) :
    ∃ px', fill pngr px offset s x2 y2 = some px' ∧ px'.length = px.length ∧
      ∀ b, (px'[b]? = px[b]? ∧ ¬ ∃ dy dx t, dy < y2 ∧ dx < x2 ∧
              t < pelbytes pngr.pelsize ∧ b = offset + dy * pngr.rowsize + dx * pngr.pelsize + t) ∨
        (∃ dy dx t, dy < y2 ∧ dx < x2 ∧ t < pelbytes pngr.pelsize ∧
              b = offset + dy * pngr.rowsize + dx * pngr.pelsize + t ∧ px'[b]? = s[t]?) := by
  obtain ⟨px', f1, f2, f3⟩ := fillRows_spec pngr offset s x2 hs y2 0 px (by
    intro dy _ h
    exact hlen dy (by omega))
  refine ⟨px', f1, f2, ?_⟩
  intro b
  rcases f3 b with ⟨g1, g2⟩ | ⟨dy, dx, t, g1, g2, g3, g4, g5, g6⟩
  · left
    refine ⟨g1, ?_⟩
    rintro ⟨dy, dx, t, m1, m2, m3, m4⟩
    exact g2 ⟨dy, dx, t, Nat.zero_le _, by omega, m2, m3, m4⟩
  · right
    exact ⟨dy, dx, t, by omega, g3, g4, g5, g6⟩

theorem fill_none (pngr : TPNGR) (px : List Nat) (offset : Nat) (s : List Nat) (x2 y2 : Nat)
    (hs : s.length < pelbytes pngr.pelsize) (hx : 0 < x2) (hy : 0 < y2) :
    fill pngr px offset s x2 y2 = none := by
  obtain ⟨x, rfl⟩ : ∃ x, x2 = x + 1 := ⟨x2 - 1, by omega⟩
  obtain ⟨y, rfl⟩ : ∃ y, y2 = y + 1 := ⟨y2 - 1, by omega⟩
  exact fillRows_none pngr offset s x hs y 0 px

/-! ### Arithmetic of the seven passes -/

theorem passinfo_lt {i : Nat} {info : TPassInfo} (h : passinfo[i]? = some info) : i < 7 := by
  have := (List.getElem?_eq_some_iff.1 h).1
  simpa [passinfo] using this

/-- Every pixel lies on the grid of one of the seven passes. -/
theorem ownedBelow_seven (px py : Nat) : ownedBelow 7 px py := by
  simp only [ownedBelow, ownedby, passinfo, owns, List.getElem?_cons_zero, List.getElem?_cons_succ,
    false_or, Nat.sub_zero, Nat.zero_le, true_and]
  omega

theorem painted_block (i : Nat) (info : TPassInfo) (hinfo : passinfo[i]? = some info)
    (wx wy : Nat) (hwx : passsizex[i]? = some wx) (hwy : passsizey[i]? = some wy)
    (x y dx dy : Nat) (hown : owns info x y) (hdx : dx < wx) (hdy : dy < wy)
    (hne : ¬ (dx = 0 ∧ dy = 0)) :
    ¬ Painted i y (x + info.stepx) (x + dx) (y + dy) := by
  have hi := passinfo_lt hinfo
  interval_cases i <;>
    simp only [passinfo, passsizex, passsizey, List.getElem?_cons_zero, List.getElem?_cons_succ,
      Option.some.injEq] at hinfo hwx hwy <;>
    subst hinfo hwx hwy <;>
    simp only [Painted, ownedBelow, ownedby, passinfo, owns, List.getElem?_cons_zero,
      List.getElem?_cons_succ, false_or, Nat.sub_zero, Nat.zero_le, true_and, not_or] at hown ⊢ <;>
    split_ands <;>
    omega

theorem painted_step (i : Nat) (info : TPassInfo) (hinfo : passinfo[i]? = some info)
    (x y px py : Nat) (hown : owns info x y) (h : Painted i y (x + info.stepx) px py) :
    Painted i y x px py ∨ (px = x ∧ py = y) := by
  rcases h with h | ⟨h1, h2⟩
  · exact Or.inl (Or.inl h)
  · have key : (py < y ∨ (py = y ∧ px < x)) ∨ (px = x ∧ py = y) := by
      have hi := passinfo_lt hinfo
      simp only [ownedby, hinfo] at h1
      interval_cases i <;>
        simp only [passinfo, List.getElem?_cons_zero, List.getElem?_cons_succ,
          Option.some.injEq] at hinfo <;>
        subst hinfo <;>
        simp only [owns] at hown h1 h2 <;>
        omega
    rcases key with k | k
    · exact Or.inl (Or.inr ⟨h1, k⟩)
    · exact Or.inr k

theorem painted_nextrow (i : Nat) (info : TPassInfo) (hinfo : passinfo[i]? = some info)
    (y px py : Nat) (hy : info.originy ≤ y ∧ (y - info.originy) % info.stepy = 0)
    (h : Painted i (y + info.stepy) 0 px py) : Painted i (y + 1) 0 px py := by
  rcases h with h | ⟨h1, h2⟩
  · exact Or.inl h
  · refine Or.inr ⟨h1, ?_⟩
    have hi := passinfo_lt hinfo
    simp only [ownedby, hinfo] at h1
    interval_cases i <;>
      simp only [passinfo, List.getElem?_cons_zero, List.getElem?_cons_succ,
        Option.some.injEq] at hinfo <;>
      subst hinfo <;>
      simp only [owns] at hy h1 h2 <;>
      omega

theorem painted_rowstart (i : Nat) (info : TPassInfo) (hinfo : passinfo[i]? = some info)
    (y px py : Nat) (h : Painted i y info.originx px py) : Painted i y 0 px py := by
  rcases h with h | ⟨h1, h2⟩
  · exact Or.inl h
  · right
    refine ⟨h1, ?_⟩
    simp only [ownedby, hinfo, owns] at h1
    omega

theorem painted_rowend (i y x px py : Nat) (hx : px < x) (h : Painted i (y + 1) 0 px py) :
    Painted i y x px py := by
  rcases h with h | ⟨h1, h2⟩
  · exact Or.inl h
  · exact Or.inr ⟨h1, by omega⟩

theorem painted_passstart (i : Nat) (info : TPassInfo) (hinfo : passinfo[i]? = some info)
    (px py : Nat) (h : Painted i info.originy 0 px py) : Painted i 0 0 px py := by
  rcases h with h | ⟨h1, h2⟩
  · exact Or.inl h
  · right
    refine ⟨h1, ?_⟩
    simp only [ownedby, hinfo, owns] at h1
    omega

theorem painted_passend (i y px py : Nat) (hy : py < y) (h : Painted (i + 1) 0 0 px py) :
    Painted i y 0 px py := by
  rcases h with h | ⟨_, h2⟩
  · rcases h with h | h
    · exact Or.inl h
    · exact Or.inr ⟨h, Or.inl hy⟩
  · omega

theorem painted_emptypass (i : Nat) (info : TPassInfo) (hinfo : passinfo[i]? = some info)
    (W H px py : Nat) (hpx : px < W) (hpy : py < H) (hempty : W ≤ info.originx ∨ H ≤ info.originy)
    (h : Painted (i + 1) 0 0 px py) : Painted i 0 0 px py := by
  rcases h with h | ⟨_, h2⟩
  · rcases h with h | h
    · exact Or.inl h
    · simp only [ownedby, hinfo, owns] at h
      omega
  · omega

/-! ### One sample: block against single pixel -/

theorem inimage_bound (W H P R x y : Nat) (hR : R = P * W) (hx : x ≤ W) (hy : y < H) :
    y * R + x * P ≤ H * R := by
  subst hR
  calc y * (P * W) + x * P ≤ y * (P * W) + W * P :=
        Nat.add_le_add_left (Nat.mul_le_mul_right _ hx) _
    _ = (y + 1) * (P * W) := by ring
    _ ≤ H * (P * W) := Nat.mul_le_mul_right _ hy

theorem passsize_pos {i wx wy : Nat} (hwx : passsizex[i]? = some wx)
    (hwy : passsizey[i]? = some wy) : 0 < wx ∧ 0 < wy := by
  have hi : i < 7 := by
    have := (List.getElem?_eq_some_iff.1 hwx).1
    simpa [passsizex] using this
  interval_cases i <;>
    simp only [passsizex, passsizey, List.getElem?_cons_zero, List.getElem?_cons_succ,
      Option.some.injEq] at hwx hwy <;>
    omega

theorem passsize_some {i : Nat} (hi : i < 7) :
    ∃ wx wy, passsizex[i]? = some wx ∧ passsizey[i]? = some wy := by
  interval_cases i <;> exact ⟨_, _, rfl, rfl⟩

theorem paint_sim (pngr : TPNGR) (i : Nat) (info : TPassInfo)
    (hinfo : passinfo[i]? = some info) (x y : Nat) (hx : x < pngr.sizex) (hy : y < pngr.sizey)
    (hown : owns info x y) (hR : pngr.rowsize = pngr.pelsize * pngr.sizex)
    (F E : List Nat) (hlen : pngr.sizey * pngr.rowsize ≤ F.length)
    (hinv : PassInv pngr i y x F E) (row : List Nat) :
    (fillpixel pngr i x y F (y * pngr.rowsize + x * pngr.pelsize) row = none ∧
      passpixel pngr E (y * pngr.rowsize + x * pngr.pelsize) row = none) ∨
    ∃ F' E', fillpixel pngr i x y F (y * pngr.rowsize + x * pngr.pelsize) row = some F' ∧
      passpixel pngr E (y * pngr.rowsize + x * pngr.pelsize) row = some E' ∧
      F'.length = F.length ∧ PassInv pngr i y (x + info.stepx) F' E' := by
  obtain ⟨wx, wy, hwx, hwy⟩ := passsize_some (passinfo_lt hinfo)
  obtain ⟨hwxp, hwyp⟩ := passsize_pos hwx hwy
  have hrx : rd passsizex i = some wx := hwx
  have hry : rd passsizey i = some wy := hwy
  simp only [fillpixel, passpixel, hrx, hry, Option.bind_eq_bind, Option.some_bind]
  cases hg : getsample pngr row (List.replicate 8 0) with
  | none => exact Or.inl ⟨rfl, rfl⟩
  | some s =>
    simp only [Option.some_bind]
    set bw := if pngr.sizex - x > wx then wx else pngr.sizex - x with hbw
    set bh := if pngr.sizey - y > wy then wy else pngr.sizey - y with hbh
    have bw1 : 0 < bw ∧ bw ≤ wx ∧ bw ≤ pngr.sizex - x := by
      rw [hbw]; split_ifs <;> omega
    have bh1 : 0 < bh ∧ bh ≤ wy ∧ bh ≤ pngr.sizey - y := by
      rw [hbh]; split_ifs <;> omega
    by_cases hs : pelbytes pngr.pelsize ≤ s.length
    · right
      have hnb := pelbytes_le pngr.pelsize
      have hEl := hinv.1
      have hb0 : y * pngr.rowsize + (x + 1) * pngr.pelsize ≤ pngr.sizey * pngr.rowsize :=
        inimage_bound pngr.sizex pngr.sizey pngr.pelsize pngr.rowsize (x + 1) y hR (by omega) hy
      have e1 : (x + 1) * pngr.pelsize = x * pngr.pelsize + pngr.pelsize := by ring
      obtain ⟨E', c1, c2, c3⟩ := copypel_some pngr.pelsize E
        (y * pngr.rowsize + x * pngr.pelsize) s hs (by omega)
      obtain ⟨F', f1, f2, f3⟩ := fill_spec pngr F (y * pngr.rowsize + x * pngr.pelsize) s bw bh hs
        (by
          intro dy hdy
          have := inimage_bound pngr.sizex pngr.sizey pngr.pelsize pngr.rowsize (x + bw) (y + dy)
            hR (by omega) (by omega)
          have e2 : (y + dy) * pngr.rowsize = y * pngr.rowsize + dy * pngr.rowsize := by ring
          have e3 : (x + bw) * pngr.pelsize = x * pngr.pelsize + bw * pngr.pelsize := by ring
          omega)
      refine ⟨F', E', f1, c1, f2, by omega, ?_⟩
      intro b hb
      rcases f3 b with ⟨g1, g2⟩ | ⟨dy, dx, t, g1, g2, g3, g4, g5⟩
      · have hout : ¬ (y * pngr.rowsize + x * pngr.pelsize ≤ b ∧
            b < y * pngr.rowsize + x * pngr.pelsize + pelbytes pngr.pelsize) := by
          intro hin
          apply g2
          exact ⟨0, 0, b - (y * pngr.rowsize + x * pngr.pelsize), bh1.1, bw1.1, by omega,
            by simp only [Nat.zero_mul, Nat.add_zero]; omega⟩
        have hE : E'[b]? = E[b]? := by rw [c3 b, if_neg hout]
        obtain ⟨px, py, t, h1, h2, h3, h4, h5⟩ := hinv.2 b (by rw [← g1, ← hE]; exact hb)
        refine ⟨px, py, t, h1, h2, h3, h4, ?_⟩
        intro hp
        rcases painted_step i info hinfo x y px py hown hp with hp | ⟨rfl, rfl⟩
        · exact h5 hp
        · exact hout ⟨by omega, by omega⟩
      · by_cases h0 : dx = 0 ∧ dy = 0
        · exfalso
          obtain ⟨rfl, rfl⟩ := h0
          simp only [Nat.zero_mul, Nat.add_zero] at g4
          apply hb
          rw [g5, c3 b, if_pos ⟨by omega, by omega⟩]
          congr 1
          omega
        · refine ⟨x + dx, y + dy, t, by omega, by omega, g3, ?_, ?_⟩
          · rw [g4]; ring
          · exact painted_block i info hinfo wx wy hwx hwy x y dx dy hown (by omega) (by omega) h0
    · left
      exact ⟨fill_none pngr F _ s bw bh (by omega) bw1.1 bh1.1,
        copypel_none _ _ _ _ (by omega)⟩

/-! ### The loops of a pass, in both modes -/

theorem PassInv.mono {pngr : TPNGR} {i y x j u v : Nat} {F E : List Nat}
    (h : PassInv pngr i y x F E)
    (hp : ∀ px py, px < pngr.sizex → py < pngr.sizey → Painted j u v px py → Painted i y x px py) :
    PassInv pngr j u v F E := by
  refine ⟨h.1, ?_⟩
  intro b hb
  obtain ⟨px, py, t, h1, h2, h3, h4, h5⟩ := h.2 b hb
  exact ⟨px, py, t, h1, h2, h3, h4, fun hq => h5 (hp px py h1 h2 hq)⟩

theorem passLoop_sim (pngr : TPNGR) (i : Nat) (info : TPassInfo)
    (hinfo : passinfo[i]? = some info) (y : Nat) (hy : y < pngr.sizey)
    (hyown : info.originy ≤ y ∧ (y - info.originy) % info.stepy = 0)
    (hR : pngr.rowsize = pngr.pelsize * pngr.sizex) (rowp : List Nat) :
    ∀ (fuel x ro : Nat) (F E : List Nat) (v : List (Nat × Nat × Nat)),
    (info.originx ≤ x ∧ (x - info.originx) % info.stepx = 0) →
    pngr.sizey * pngr.rowsize ≤ F.length → PassInv pngr i y x F E →
    (passLoop pngr info y (info.stepx * pngr.pelsize) rowp
        (fun pixels x offsetx row => fillpixel pngr i x y pixels offsetx row)
        fuel x ro (y * pngr.rowsize + x * pngr.pelsize) F v = none ∧
      passLoop pngr info y (info.stepx * pngr.pelsize) rowp
        (fun pixels _ offsetx row => passpixel pngr pixels offsetx row)
        fuel x ro (y * pngr.rowsize + x * pngr.pelsize) E v = none) ∨
    ∃ F' E' v', passLoop pngr info y (info.stepx * pngr.pelsize) rowp
        (fun pixels x offsetx row => fillpixel pngr i x y pixels offsetx row)
        fuel x ro (y * pngr.rowsize + x * pngr.pelsize) F v = some (F', v') ∧
      passLoop pngr info y (info.stepx * pngr.pelsize) rowp
        (fun pixels _ offsetx row => passpixel pngr pixels offsetx row)
        fuel x ro (y * pngr.rowsize + x * pngr.pelsize) E v = some (E', v') ∧
      F'.length = F.length ∧ PassInv pngr i (y + 1) 0 F' E' := by
  intro fuel
  induction fuel with
  | zero =>
    intro x ro F E v _ _ _
    exact Or.inl ⟨rfl, rfl⟩
  | succ fuel ih =>
    intro x ro F E v hx hlen hinv
    by_cases hxW : x < pngr.sizex
    · simp only [passLoop, if_pos hxW]
      rcases paint_sim pngr i info hinfo x y hxW hy ⟨hx.1, hx.2, hyown.1, hyown.2⟩ hR F E hlen hinv
          (rowp.drop ro) with ⟨h1, h2⟩ | ⟨F1, E1, h1, h2, h3, h4⟩
      · left
        rw [h1, h2]
        exact ⟨rfl, rfl⟩
      · rw [h1, h2]
        simp only
        have eo : y * pngr.rowsize + x * pngr.pelsize + info.stepx * pngr.pelsize
            = y * pngr.rowsize + (x + info.stepx) * pngr.pelsize := by ring
        rw [eo]
        have hx' : info.originx ≤ x + info.stepx ∧
            (x + info.stepx - info.originx) % info.stepx = 0 := by
          refine ⟨by omega, ?_⟩
          have : x + info.stepx - info.originx = (x - info.originx) + info.stepx := by omega
          rw [this, Nat.add_mod_right]
          exact hx.2
        rcases ih (x + info.stepx) (ro + pngr.rawpelsize) F1 E1 (v ++ [(x, y,
            y * pngr.rowsize + x * pngr.pelsize)]) hx' (by omega) h4 with ⟨k1, k2⟩ |
            ⟨F', E', v', k1, k2, k3, k4⟩
        · exact Or.inl ⟨k1, k2⟩
        · exact Or.inr ⟨F', E', v', k1, k2, by omega, k4⟩
    · right
      simp only [passLoop, if_neg hxW]
      refine ⟨F, E, v, rfl, rfl, rfl, ?_⟩
      exact hinv.mono (fun px py h1 _ hp => painted_rowend i y x px py (by omega) hp)

theorem passrow_sim (pngr : TPNGR) (i : Nat) (info : TPassInfo)
    (hinfo : passinfo[i]? = some info) (y : Nat) (hy : y < pngr.sizey)
    (hyown : info.originy ≤ y ∧ (y - info.originy) % info.stepy = 0)
    (hR : pngr.rowsize = pngr.pelsize * pngr.sizex) (rowp : List Nat) (idxoffsety : Nat)
    (bf be : TPNGRBuffers) (h : BufSim pngr i y 0 bf be) :
    (passrow pngr info i y (info.stepx * pngr.pelsize)
        (y * pngr.rowsize + info.originx * pngr.pelsize) idxoffsety rowp bf = none ∧
      passrow pngr info i y (info.stepx * pngr.pelsize)
        (y * pngr.rowsize + info.originx * pngr.pelsize) idxoffsety rowp be = none) ∨
    ∃ bf' be', passrow pngr info i y (info.stepx * pngr.pelsize)
        (y * pngr.rowsize + info.originx * pngr.pelsize) idxoffsety rowp bf = some bf' ∧
      passrow pngr info i y (info.stepx * pngr.pelsize)
        (y * pngr.rowsize + info.originx * pngr.pelsize) idxoffsety rowp be = some be' ∧
      BufSim pngr i (y + 1) 0 bf' be' := by
  obtain ⟨h1, h2, h3, h4, h5, F, E, h6, h7, h8, h9⟩ := h
  have hinv : PassInv pngr i y info.originx F E :=
    h9.mono (fun px py _ _ hp => painted_rowstart i info hinfo y px py hp)
  have hmod : (info.originx - info.originx) % info.stepx = 0 := by simp
  simp only [passrow, h6, h7, if_pos h1, h2, ne_eq, not_true_eq_false, if_false]
  rcases passLoop_sim pngr i info hinfo y hy hyown hR rowp (pngr.sizex + 1) info.originx 0 F E
      be.visited ⟨le_refl _, hmod⟩ h8 hinv with ⟨k1, k2⟩ | ⟨F', E', v', k1, k2, k3, k4⟩
  · left
    rw [h5, k1, k2]
    exact ⟨rfl, rfl⟩
  · rw [h5, k1, k2, h3]
    simp only [Option.map_some']
    cases hidx : be.idxs with
    | none =>
      right
      exact ⟨_, _, rfl, rfl, h1, rfl, rfl, h4, rfl, F', E', rfl, rfl, by omega, k4⟩
    | some idxs =>
      simp only
      cases hl : idxLoop pngr info rowp (pngr.sizex + 1) info.originx 0 idxoffsety idxs with
      | none => exact Or.inl ⟨rfl, rfl⟩
      | some idxs' =>
        right
        exact ⟨_, _, rfl, rfl, h1, rfl, rfl, h4, rfl, F', E', rfl, rfl, by omega, k4⟩

theorem rowLoop_sim (pngr : TPNGR) (i : Nat) (info : TPassInfo)
    (hinfo : passinfo[i]? = some info)
    (hR : pngr.rowsize = pngr.pelsize * pngr.sizex) :
    ∀ (fuel y idxoffsety : Nat) (bf be : TPNGRBuffers),
    (info.originy ≤ y ∧ (y - info.originy) % info.stepy = 0) →
    BufSim pngr i y 0 bf be →
    (rowLoop pngr info i (info.stepx * pngr.pelsize) (info.stepy * pngr.rowsize) fuel y
        (y * pngr.rowsize + info.originx * pngr.pelsize) idxoffsety bf = none ∧
      rowLoop pngr info i (info.stepx * pngr.pelsize) (info.stepy * pngr.rowsize) fuel y
        (y * pngr.rowsize + info.originx * pngr.pelsize) idxoffsety be = none) ∨
    ∃ ok bf' be',
      rowLoop pngr info i (info.stepx * pngr.pelsize) (info.stepy * pngr.rowsize) fuel y
        (y * pngr.rowsize + info.originx * pngr.pelsize) idxoffsety bf = some (ok, bf') ∧
      rowLoop pngr info i (info.stepx * pngr.pelsize) (info.stepy * pngr.rowsize) fuel y
        (y * pngr.rowsize + info.originx * pngr.pelsize) idxoffsety be = some (ok, be') ∧
      (ok = true → BufSim pngr (i + 1) 0 0 bf' be') := by
  intro fuel
  induction fuel with
  | zero =>
    intro y idxoffsety bf be _ _
    exact Or.inl ⟨rfl, rfl⟩
  | succ fuel ih =>
    intro y idxoffsety bf be hyown h
    by_cases hy : y < pngr.sizey
    · simp only [rowLoop, if_pos hy]
      have hrows := h.2.2.2.1
      rw [hrows]
      cases hr : be.rows with
      | nil =>
        right
        exact ⟨false, bf, be, rfl, rfl, fun hf => absurd hf (by simp)⟩
      | cons rowp rows =>
        simp only
        have h' : BufSim pngr i y 0 { bf with rows := rows } { be with rows := rows } := by
          obtain ⟨h1, h2, h3, h4, h5, h6⟩ := h
          exact ⟨h1, h2, h3, rfl, h5, h6⟩
        rcases passrow_sim pngr i info hinfo y hy hyown hR rowp idxoffsety _ _ h' with
          ⟨k1, k2⟩ | ⟨bf1, be1, k1, k2, k3⟩
        · left
          rw [k1, k2]
          exact ⟨rfl, rfl⟩
        · rw [k1, k2]
          simp only
          obtain ⟨F, E, p1, p2, _, _⟩ := k3.2.2.2.2.2
          have e1 : bf1.pixels.isSome = true := by rw [p1]; rfl
          have e2 : be1.pixels.isSome = true := by rw [p2]; rfl
          have e3 : bf1.idxs = be1.idxs := k3.2.2.1
          rw [e1, e2, e3]
          simp only [if_true]
          have eo : y * pngr.rowsize + info.originx * pngr.pelsize + info.stepy * pngr.rowsize
              = (y + info.stepy) * pngr.rowsize + info.originx * pngr.pelsize := by ring
          rw [eo]
          have hyown' : info.originy ≤ y + info.stepy ∧
              (y + info.stepy - info.originy) % info.stepy = 0 := by
            refine ⟨by omega, ?_⟩
            have : y + info.stepy - info.originy = (y - info.originy) + info.stepy := by omega
            rw [this, Nat.add_mod_right]
            exact hyown.2
          have k4 : BufSim pngr i (y + info.stepy) 0 bf1 be1 := by
            obtain ⟨a1, a2, a3, a4, a5, F, E, a6, a7, a8, a9⟩ := k3
            exact ⟨a1, a2, a3, a4, a5, F, E, a6, a7, a8,
              a9.mono (fun px py _ _ hp => painted_nextrow i info hinfo y px py hyown hp)⟩
          exact ih (y + info.stepy) _ bf1 be1 hyown' k4
    · right
      simp only [rowLoop, if_neg hy]
      refine ⟨true, bf, be, rfl, rfl, fun _ => ?_⟩
      obtain ⟨a1, a2, a3, a4, a5, F, E, a6, a7, a8, a9⟩ := h
      exact ⟨a1, a2, a3, a4, a5, F, E, a6, a7, a8,
        a9.mono (fun px py _ hpy hp => painted_passend i y px py (by omega) hp)⟩

/-! ### `setuppasses` -/

theorem shift_some {i : Nat} {info : TPassInfo} (hinfo : passinfo[i]? = some info) :
    ∃ shx shy, shiftx[i]? = some shx ∧ shifty[i]? = some shy ∧
      2 ^ shx = info.stepx ∧ 2 ^ shy = info.stepy ∧ info.originx < info.stepx ∧
      info.originy < info.stepy ∧ info.stepx ≤ 8 ∧ info.stepy ≤ 8 := by
  have hi := passinfo_lt hinfo
  interval_cases i <;>
    simp only [passinfo, List.getElem?_cons_zero, List.getElem?_cons_succ,
      Option.some.injEq] at hinfo <;>
    subst hinfo <;>
    exact ⟨_, _, rfl, rfl, by decide, by decide, by decide, by decide, by decide,
      by decide⟩

/-- The number of columns (`size` the width) or rows (`size` the height) of
the image that fall on the grid of a pass with the given origin and step. -/
theorem passcount_zero (size origin step : Nat) (hs : origin < step) :
    (size + step - origin - 1) / step = 0 ↔ size ≤ origin := by
  rw [Nat.div_eq_zero_iff (by omega)]
  omega

theorem setuppassesLoop_spec : ∀ (n i : Nat) (pngr p' : TPNGR),
    pngr.sizex ≤ 0x7fffffff → pngr.sizey ≤ 0x7fffffff →
    setuppassesLoop n i pngr = some p' →
    p'.sizex = pngr.sizex ∧ p'.sizey = pngr.sizey ∧
    (∀ k, k < i → p'.passrowsize[k]? = pngr.passrowsize[k]?) ∧
    (∀ k info, i ≤ k → k < i + n → passinfo[k]? = some info →
      p'.passrowsize[k]? = some
        (if pngr.sizex ≤ info.originx ∨ pngr.sizey ≤ info.originy then 0
         else (pngr.sizex + info.stepx - info.originx - 1) / info.stepx)) := by
  intro n
  induction n with
  | zero =>
    intro i pngr p' _ _ h
    simp only [setuppassesLoop, Option.some.injEq] at h
    subst h
    exact ⟨rfl, rfl, fun _ _ => rfl, fun k info h1 h2 => by omega⟩
  | succ n ih =>
    intro i pngr p' hW hH h
    rw [setuppassesLoop] at h
    cases hinfo : rd passinfo i with
    | none => simp [hinfo] at h
    | some info =>
      obtain ⟨shx, shy, e1, e2, e3, e4, e5, e6, e7, e8⟩ := shift_some hinfo
      have r1 : rd shiftx i = some shx := e1
      have r2 : rd shifty i = some shy := e2
      simp only [hinfo, r1, r2, Option.bind_eq_bind, Option.some_bind] at h
      have m1 : (pngr.sizex + info.stepx - info.originx - 1) % 2 ^ 32
          = pngr.sizex + info.stepx - info.originx - 1 := Nat.mod_eq_of_lt (by omega)
      have m2 : (pngr.sizey + info.stepy - info.originy - 1) % 2 ^ 32
          = pngr.sizey + info.stepy - info.originy - 1 := Nat.mod_eq_of_lt (by omega)
      rw [m1, m2, Nat.shiftRight_eq_div_pow, Nat.shiftRight_eq_div_pow, e3, e4] at h
      simp only [passcount_zero _ _ _ e5, passcount_zero _ _ _ e6] at h
      have fin : ∀ (v : Nat) (q : TPNGR) (rs : List Nat),
          wr pngr.passrowsize i v = some rs →
          q.sizex = pngr.sizex → q.sizey = pngr.sizey → q.passrowsize = rs →
          setuppassesLoop n (i + 1) q = some p' →
          v = (if pngr.sizex ≤ info.originx ∨ pngr.sizey ≤ info.originy then 0
            else (pngr.sizex + info.stepx - info.originx - 1) / info.stepx) →
          p'.sizex = pngr.sizex ∧ p'.sizey = pngr.sizey ∧
          (∀ k, k < i → p'.passrowsize[k]? = pngr.passrowsize[k]?) ∧
          (∀ k info, i ≤ k → k < i + (n + 1) → passinfo[k]? = some info →
            p'.passrowsize[k]? = some
              (if pngr.sizex ≤ info.originx ∨ pngr.sizey ≤ info.originy then 0
               else (pngr.sizex + info.stepx - info.originx - 1) / info.stepx)) := by
        intro v q rs hw hq1 hq2 hq3 hloop hv
        obtain ⟨a0, a1, a2, a3⟩ := ih (i + 1) q p' (by omega) (by omega) hloop
        have hrs : i < pngr.passrowsize.length ∧ rs = pngr.passrowsize.set i v := by
          unfold wr at hw
          split_ifs at hw with hlt
          · exact ⟨hlt, (Option.some.inj hw).symm⟩
        refine ⟨by omega, by omega, ?_, ?_⟩
        · intro k hk
          rw [a2 k (by omega), hq3, hrs.2, List.getElem?_set_ne (by omega)]
        · intro k info' h1 h2 h3
          by_cases hk : k = i
          · subst hk
            rw [a2 k (by omega), hq3, hrs.2, List.getElem?_set_self hrs.1, hv]
            have : info' = info := by
              have := h3.symm.trans hinfo
              exact Option.some.inj this
            rw [this]
          · have := a3 k info' (by omega) (by omega) h3
            rw [hq1, hq2] at this
            exact this
      by_cases hz : pngr.sizex ≤ info.originx ∨ pngr.sizey ≤ info.originy
      · rw [if_pos hz] at h
        obtain ⟨rs, hw, hloop⟩ := Option.bind_eq_some.1 h
        exact fin 0 { pngr with passrowsize := rs } rs hw rfl rfl rfl hloop (by rw [if_pos hz])
      · rw [if_neg hz] at h
        obtain ⟨rs, hw, h2⟩ := Option.bind_eq_some.1 h
        obtain ⟨ms, _, hloop⟩ := Option.bind_eq_some.1 h2
        exact fin _ { pngr with passrowsize := rs, passmemsize := ms } rs hw rfl rfl rfl hloop
          (by rw [if_neg hz])

/-! ### A pass, and the seven passes -/

theorem enterdecoding_three (p : TPNGR) (h : p.state = 3) : enterdecoding p = (p, true) := by
  simp [enterdecoding, h]

theorem enterdecoding_two (p : TPNGR) (h : p.state = 2) :
    enterdecoding p = ({ p with state := 3 }, true) := by
  simp [enterdecoding, h]

theorem enterdecoding_bad (p : TPNGR) (h : p.state = PNGR_BADSTATE) :
    ∃ p', enterdecoding p = (p', false) ∧ p'.state = PNGR_BADSTATE := by
  have e : p.state ^^^ 3 ≠ 0 ∧ p.state ≠ 2 := by
    rw [h]
    decide
  unfold enterdecoding
  rw [if_pos e.1, if_neg e.2]
  exact ⟨_, rfl, rfl⟩

theorem PassInv.seven {pngr : TPNGR} {F E : List Nat} (h : PassInv pngr 7 0 0 F E) : F = E := by
  apply List.ext_getElem?
  intro b
  by_contra hb
  obtain ⟨px, py, t, _, _, _, _, h5⟩ := h.2 b hb
  exact h5 (Or.inl (ownedBelow_seven px py))

theorem pngr_decodepass_two (checktail parsechunks : TPNGR → Option (Bool × TPNGR))
    (p : TPNGR) (b : TPNGRBuffers) (h : p.state = 2) :
    pngr_decodepass checktail parsechunks p b
      = pngr_decodepass checktail parsechunks { p with state := 3 } b := by
  simp only [pngr_decodepass, enterdecoding_two p h,
    enterdecoding_three { p with state := 3 } rfl]

theorem pngr_decodepass_bad (checktail parsechunks : TPNGR → Option (Bool × TPNGR))
    (p : TPNGR) (b : TPNGRBuffers) (h : p.state = PNGR_BADSTATE) :
    ∃ p', pngr_decodepass checktail parsechunks p b = some (0, p', b) ∧
      p'.state = PNGR_BADSTATE := by
  obtain ⟨p', h1, h2⟩ := enterdecoding_bad p h
  simp only [pngr_decodepass, h1]
  exact ⟨p', rfl, h2⟩

theorem passes_bad (checktail parsechunks : TPNGR → Option (Bool × TPNGR)) :
    ∀ (n : Nat) (p : TPNGR) (b : TPNGRBuffers), p.state = PNGR_BADSTATE →
    ∃ p', passes checktail parsechunks n p b = some (p', b) ∧ p'.state = PNGR_BADSTATE := by
  intro n
  induction n with
  | zero => intro p b h; exact ⟨p, rfl, h⟩
  | succ n ih =>
    intro p b h
    obtain ⟨p1, h1, h2⟩ := pngr_decodepass_bad checktail parsechunks p b h
    obtain ⟨p2, h3, h4⟩ := ih p1 b h2
    exact ⟨p2, by rw [passes, h1]; exact h3, h4⟩

theorem decodepass_sim (checktail parsechunks : TPNGR → Option (Bool × TPNGR))
    (pngr : TPNGR) (hst : pngr.state = 3) (hi7 : pngr.pass < 7)
    (hR : pngr.rowsize = pngr.pelsize * pngr.sizex) (hprs : EmptyKnown pngr)
    (bf be : TPNGRBuffers) (h : BufSim pngr pngr.pass 0 0 bf be) :
    (pngr_decodepass checktail parsechunks pngr bf = none ∧
      pngr_decodepass checktail parsechunks pngr be = none) ∨
    ∃ r p' bf' be', pngr_decodepass checktail parsechunks pngr bf = some (r, p', bf') ∧
      pngr_decodepass checktail parsechunks pngr be = some (r, p', be') ∧
      ((r ≠ 0 ∧ pngr.pass + 1 < 7 ∧ p' = { pngr with pass := pngr.pass + 1 } ∧
          BufSim pngr (pngr.pass + 1) 0 0 bf' be') ∨
        (r = 0 ∧ p'.state = PNGR_BADSTATE) ∨
        (r = 0 ∧ pngr.pass + 1 = 7 ∧ bf'.pixels = be'.pixels)) := by
  obtain ⟨info, hinfo⟩ : ∃ info, passinfo[pngr.pass]? = some info := by
    have : pngr.pass < passinfo.length := by simpa [passinfo] using hi7
    exact ⟨_, List.getElem?_eq_getElem this⟩
  have hrinfo : rd passinfo pngr.pass = some info := hinfo
  have hprs' := hprs
  unfold EmptyKnown at hprs'
  -- the part of the function after the rows of the pass
  have tail : ∀ (ok : Bool) (bf' be' : TPNGRBuffers),
      (ok = true → BufSim pngr (pngr.pass + 1) 0 0 bf' be') →
      ((match (some (ok, bf') : Option (Bool × TPNGRBuffers)) with
        | none => none
        | some (false, b) => some (0, { pngr with state := PNGR_BADSTATE }, b)
        | some (true, b) =>
          if pngr.pass + 1 = ADAM7PASSES then
            (finishdecoding checktail parsechunks { pngr with pass := pngr.pass + 1 }).map
              (fun pngr => (0, pngr, b))
          else some (pngr.pass + 1, { pngr with pass := pngr.pass + 1 }, b)) = none ∧
       (match (some (ok, be') : Option (Bool × TPNGRBuffers)) with
        | none => none
        | some (false, b) => some (0, { pngr with state := PNGR_BADSTATE }, b)
        | some (true, b) =>
          if pngr.pass + 1 = ADAM7PASSES then
            (finishdecoding checktail parsechunks { pngr with pass := pngr.pass + 1 }).map
              (fun pngr => (0, pngr, b))
          else some (pngr.pass + 1, { pngr with pass := pngr.pass + 1 }, b)) = none) ∨
      ∃ r p' bf'' be'',
       (match (some (ok, bf') : Option (Bool × TPNGRBuffers)) with
        | none => none
        | some (false, b) => some (0, { pngr with state := PNGR_BADSTATE }, b)
        | some (true, b) =>
          if pngr.pass + 1 = ADAM7PASSES then
            (finishdecoding checktail parsechunks { pngr with pass := pngr.pass + 1 }).map
              (fun pngr => (0, pngr, b))
          else some (pngr.pass + 1, { pngr with pass := pngr.pass + 1 }, b))
          = some (r, p', bf'') ∧
       (match (some (ok, be') : Option (Bool × TPNGRBuffers)) with
        | none => none
        | some (false, b) => some (0, { pngr with state := PNGR_BADSTATE }, b)
        | some (true, b) =>
          if pngr.pass + 1 = ADAM7PASSES then
            (finishdecoding checktail parsechunks { pngr with pass := pngr.pass + 1 }).map
              (fun pngr => (0, pngr, b))
          else some (pngr.pass + 1, { pngr with pass := pngr.pass + 1 }, b))
          = some (r, p', be'') ∧
       ((r ≠ 0 ∧ pngr.pass + 1 < 7 ∧ p' = { pngr with pass := pngr.pass + 1 } ∧
          BufSim pngr (pngr.pass + 1) 0 0 bf'' be'') ∨
        (r = 0 ∧ p'.state = PNGR_BADSTATE) ∨
        (r = 0 ∧ pngr.pass + 1 = 7 ∧ bf''.pixels = be''.pixels)) := by
    intro ok bf' be' hsim
    cases ok with
    | false =>
      right
      exact ⟨0, _, bf', be', rfl, rfl, Or.inr (Or.inl ⟨rfl, rfl⟩)⟩
    | true =>
      have hs := hsim rfl
      by_cases h7 : pngr.pass + 1 = ADAM7PASSES
      · simp only [if_pos h7]
        cases hf : finishdecoding checktail parsechunks { pngr with pass := pngr.pass + 1 } with
        | none => exact Or.inl ⟨rfl, rfl⟩
        | some p' =>
          right
          refine ⟨0, p', bf', be', rfl, rfl, Or.inr (Or.inr ⟨rfl, h7, ?_⟩)⟩
          obtain ⟨_, _, _, _, _, F, E, a6, a7, _, a9⟩ := hs
          rw [h7] at a9
          rw [a6, a7, a9.seven]
      · simp only [if_neg h7]
        right
        refine ⟨_, _, bf', be', rfl, rfl, Or.inl ⟨by omega, ?_, rfl, hs⟩⟩
        unfold ADAM7PASSES at h7
        omega
  simp only [pngr_decodepass, enterdecoding_three pngr hst]
  cases hr1 : rd pngr.passrowsize pngr.pass with
  | none => exact Or.inl ⟨rfl, rfl⟩
  | some rowsize =>
    cases hr2 : rd pngr.passmemsize pngr.pass with
    | none => exact Or.inl ⟨rfl, rfl⟩
    | some memsize =>
      simp only
      by_cases hz : rowsize = 0
      · simp only [if_pos hz]
        apply tail true bf be
        intro _
        subst hz
        obtain ⟨a1, a2, a3, a4, a5, F, E, a6, a7, a8, a9⟩ := h
        refine ⟨a1, a2, a3, a4, a5, F, E, a6, a7, a8, a9.mono ?_⟩
        intro px py hpx hpy hp
        exact painted_emptypass pngr.pass info hinfo _ _ px py hpx hpy
          (hprs' pngr.pass info hinfo hr1) hp
      · simp only [if_neg hz, hrinfo]
        have hstart : BufSim pngr pngr.pass info.originy 0 bf be := by
          obtain ⟨a1, a2, a3, a4, a5, F, E, a6, a7, a8, a9⟩ := h
          exact ⟨a1, a2, a3, a4, a5, F, E, a6, a7, a8,
            a9.mono (fun px py _ _ hp => painted_passstart pngr.pass info hinfo px py hp)⟩
        have eo : info.originx * pngr.pelsize + info.originy * pngr.rowsize
            = info.originy * pngr.rowsize + info.originx * pngr.pelsize := Nat.add_comm _ _
        rw [eo]
        rcases rowLoop_sim pngr pngr.pass info hinfo hR (pngr.sizey + 1) info.originy
            (info.originx + info.originy * pngr.sizex) bf be ⟨le_refl _, by simp⟩ hstart with
          ⟨k1, k2⟩ | ⟨ok, bf', be', k1, k2, k3⟩
        · rw [k1, k2]
          exact Or.inl ⟨rfl, rfl⟩
        · rw [k1, k2]
          exact tail ok bf' be' k3

theorem drivers_agree (checktail parsechunks : TPNGR → Option (Bool × TPNGR)) :
    ∀ (n : Nat) (pngr : TPNGR) (bf be : TPNGRBuffers),
    pngr.pass + n = 7 → 1 ≤ n → pngr.state = 3 →
    pngr.rowsize = pngr.pelsize * pngr.sizex → EmptyKnown pngr →
    BufSim pngr pngr.pass 0 0 bf be →
    ∀ (pe : TPNGR) (be' : TPNGRBuffers),
      passes checktail parsechunks n pngr be = some (pe, be') →
      (pe.state = 4 ∨ pe.state = 5) →
      ∃ bf', decodepasses checktail parsechunks n pngr bf = some (pe, bf') ∧
        bf'.pixels = be'.pixels := by
  intro n
  induction n with
  | zero => intro pngr bf be _ h; omega
  | succ n ih =>
    intro pngr bf be hn _ hst hR hprs hsim pe be' hrun hok
    rcases decodepass_sim checktail parsechunks pngr hst (by omega) hR hprs bf be hsim with
      ⟨_, k2⟩ | ⟨r, p', bf1, be1, k1, k2, k3⟩
    · rw [passes, k2] at hrun
      simp at hrun
    · rw [passes, k2] at hrun
      simp only at hrun
      rw [decodepasses, k1]
      simp only
      rcases k3 with ⟨c1, c2, c3, c4⟩ | ⟨c1, c2⟩ | ⟨c1, c2, c3⟩
      · rw [if_neg c1]
        subst c3
        exact ih { pngr with pass := pngr.pass + 1 } bf1 be1 (by show pngr.pass + 1 + n = 7; omega)
          (by omega) hst hR hprs c4 pe be' hrun hok
      · exfalso
        obtain ⟨p2, h1, h2⟩ := passes_bad checktail parsechunks n p' be1 c2
        rw [h1] at hrun
        simp only [Option.some.injEq, Prod.mk.injEq] at hrun
        rw [← hrun.1, h2] at hok
        revert hok
        decide
      · have hn0 : n = 0 := by omega
        subst hn0
        rw [if_pos c1]
        simp only [passes, Option.some.injEq, Prod.mk.injEq] at hrun
        obtain ⟨rfl, rfl⟩ := hrun
        exact ⟨bf1, rfl, c3⟩

theorem decodepasses_two (checktail parsechunks : TPNGR → Option (Bool × TPNGR))
    (n : Nat) (p : TPNGR) (b : TPNGRBuffers) (h : p.state = 2) :
    decodepasses checktail parsechunks n p b
      = decodepasses checktail parsechunks n { p with state := 3 } b := by
  cases n with
  | zero => rfl
  | succ n => rw [decodepasses, decodepasses, pngr_decodepass_two _ _ p b h]

theorem emptyKnown_of_setuppasses (pngr : TPNGR) (b : TPNGRBuffers)
    (hW : pngr.sizex ≤ 0x7fffffff) (hH : pngr.sizey ≤ 0x7fffffff)
    (hsetup : (setuppasses pngr b).map (fun r => (r.1.passrowsize, r.2.interpolate))
      = some (pngr.passrowsize, b.interpolate)) :
    EmptyKnown pngr ∧ b.interpolate = 1 := by
  unfold setuppasses at hsetup
  cases hl : setuppassesLoop ADAM7PASSES 0 pngr with
  | none => simp [hl] at hsetup
  | some p' =>
    simp only [hl, Option.map_some', Option.some.injEq, Prod.mk.injEq] at hsetup
    obtain ⟨_, _, _, a3⟩ := setuppassesLoop_spec ADAM7PASSES 0 pngr p' hW hH hl
    refine ⟨?_, hsetup.2.symm⟩
    intro k info hinfo hz
    have hk := passinfo_lt hinfo
    have := a3 k info (Nat.zero_le _) (by unfold ADAM7PASSES; omega) hinfo
    rw [hsetup.1, hz] at this
    obtain ⟨_, _, _, _, _, _, e5, _, _, _⟩ := shift_some hinfo
    by_cases hc : pngr.sizex ≤ info.originx ∨ pngr.sizey ≤ info.originy
    · exact hc
    · rw [if_neg hc] at this
      have := (passcount_zero pngr.sizex info.originx info.stepx e5).1
        (Option.some.inj this).symm
      exact Or.inl this

theorem decodepasses_eq_decodeimg (checktail parsechunks : TPNGR → Option (Bool × TPNGR))
    (pngr : TPNGR) (b : TPNGRBuffers) (px : List Nat)
    (hstate : pngr.state = 2) (hlace : pngr.interlace ≠ 0) (hpass : pngr.pass = 0)
    (hW : pngr.sizex ≤ 0x7fffffff) (hH : pngr.sizey ≤ 0x7fffffff)
    (hR : pngr.rowsize = pngr.pelsize * pngr.sizex)
    (hsetup : (setuppasses pngr b).map (fun r => (r.1.passrowsize, r.2.interpolate))
      = some (pngr.passrowsize, b.interpolate))
    (hpix : b.pixels = some px) (hlen : pngr.sizey * pngr.rowsize ≤ px.length)
    (pe : TPNGR) (be : TPNGRBuffers)
    (hdec : pngr_decodeimg checktail parsechunks pngr b = some (1, pe, be)) :
    ∃ bf, decodepasses checktail parsechunks 7 pngr b = some (pe, bf) ∧
      bf.pixels = be.pixels := by
  obtain ⟨hprs, hint⟩ := emptyKnown_of_setuppasses pngr b hW hH hsetup
  rw [decodepasses_two _ _ _ _ _ hstate]
  simp only [pngr_decodeimg, enterdecoding_two pngr hstate, if_pos hlace] at hdec
  rw [show ADAM7PASSES - pngr.pass = 7 from by rw [hpass]; rfl] at hdec
  cases hrun : passes checktail parsechunks 7 { pngr with state := 3 }
      { b with interpolate := 0 } with
  | none => simp [hrun] at hdec
  | some r =>
    obtain ⟨pe0, be0⟩ := r
    simp only [hrun] at hdec
    split_ifs at hdec with hok
    · simp only [Option.some.injEq, Prod.mk.injEq, true_and] at hdec
      obtain ⟨rfl, rfl⟩ := hdec
      have hsim : BufSim { pngr with state := 3 } 0 0 0 b { b with interpolate := 0 } :=
        ⟨by rw [hint]; decide, rfl, rfl, rfl, rfl, px, px, hpix, hpix, hlen,
          rfl, fun b hb => absurd rfl hb⟩
      exact drivers_agree checktail parsechunks 7 { pngr with state := 3 } b
        { b with interpolate := 0 } (by simp only; omega) (by omega) rfl hR hprs
        (by rw [show ({ pngr with state := 3 } : TPNGR).pass = 0 from hpass]; exact hsim)
        pe0 be0 hrun hok
    · simp at hdec

/-! ### The samples a pass visits -/

theorem passLoop_visited (pngr : TPNGR) (info : TPassInfo) (y stepx : Nat) (rowp : List Nat)
    (paint : List Nat → Nat → Nat → List Nat → Option (List Nat)) :
    ∀ (fuel n x ro off : Nat) (px : List Nat) (v : List (Nat × Nat × Nat))
      (px' : List Nat) (v' : List (Nat × Nat × Nat)),
    pngr.sizex ≤ x + n * info.stepx → (n = 0 ∨ x + (n - 1) * info.stepx < pngr.sizex) →
    passLoop pngr info y stepx rowp paint fuel x ro off px v = some (px', v') →
    v' = v ++ (List.range n).map (fun k => (x + k * info.stepx, y, off + k * stepx)) := by
  intro fuel
  induction fuel with
  | zero =>
    intro n x ro off px v px' v' _ _ h
    simp [passLoop] at h
  | succ fuel ih =>
    intro n x ro off px v px' v' h1 h2 h
    rw [passLoop] at h
    by_cases hx : x < pngr.sizex
    · rw [if_pos hx] at h
      cases hp : paint px x off (rowp.drop ro) with
      | none => simp [hp] at h
      | some px1 =>
        simp only [hp] at h
        obtain ⟨m, rfl⟩ : ∃ m, n = m + 1 := by
          rcases Nat.eq_zero_or_pos n with h0 | h0
          · subst h0
            simp at h1
            omega
          · exact ⟨n - 1, by omega⟩
        have e1 : (m + 1) * info.stepx = m * info.stepx + info.stepx := by ring
        have := ih m (x + info.stepx) (ro + pngr.rawpelsize) (off + stepx) px1
          (v ++ [(x, y, off)]) px' v' (by omega) (by
            rcases Nat.eq_zero_or_pos m with h0 | h0
            · exact Or.inl h0
            · right
              obtain ⟨m', rfl⟩ : ∃ m', m = m' + 1 := ⟨m - 1, by omega⟩
              have e2 : (m' + 1) * info.stepx = m' * info.stepx + info.stepx := by ring
              simp only [Nat.add_sub_cancel] at h2 ⊢
              omega) h
        rw [this, List.range_succ_eq_map, List.map_cons, List.map_map, List.append_assoc]
        simp only [List.singleton_append, Nat.zero_mul, Nat.add_zero]
        congr 2
        apply List.map_congr_left
        intro k _
        simp only [Function.comp, Nat.succ_eq_add_one]
        have e3 : (k + 1) * info.stepx = k * info.stepx + info.stepx := by ring
        have e4 : (k + 1) * stepx = k * stepx + stepx := by ring
        rw [e3, e4]
        simp only [Prod.mk.injEq, true_and]
        omega
    · rw [if_neg hx] at h
      simp only [Option.some.injEq, Prod.mk.injEq] at h
      have hn : n = 0 := by
        rcases h2 with h2 | h2
        · exact h2
        · omega
      subst hn
      simp [h.2]

theorem passrow_visited (pngr : TPNGR) (info : TPassInfo) (i y stepx pel idx : Nat)
    (rowp : List Nat) (b b' : TPNGRBuffers) (ncols : Nat)
    (hc1 : pngr.sizex ≤ info.originx + ncols * info.stepx)
    (hc2 : ncols = 0 ∨ info.originx + (ncols - 1) * info.stepx < pngr.sizex)
    (hpx : b.pixels.isSome = true)
    (h : passrow pngr info i y stepx pel idx rowp b = some b') :
    b'.rows = b.rows ∧
    b'.visited = b.visited ++
      (List.range ncols).map (fun k => (info.originx + k * info.stepx, y, pel + k * stepx)) ∧
    b'.pixels.isSome = true := by
  obtain ⟨px, hpx'⟩ := Option.isSome_iff_exists.1 hpx
  simp only [passrow, hpx'] at h
  generalize hpaint : (if b.interpolate ≠ 0 then
      fun pixels x offsetx row => fillpixel pngr i x y pixels offsetx row
    else fun pixels _ offsetx row => passpixel pngr pixels offsetx row) = paint at h
  cases hl : passLoop pngr info y stepx rowp paint (pngr.sizex + 1) info.originx 0 pel px
      b.visited with
  | none => simp [hl] at h
  | some r =>
    obtain ⟨px1, v1⟩ := r
    have hv := passLoop_visited pngr info y stepx rowp paint _ ncols _ _ _ _ _ _ _ hc1 hc2 hl
    simp only [hl, Option.map_some'] at h
    cases hi : b.idxs with
    | none =>
      simp only [hi, Option.some.injEq] at h
      subst h
      exact ⟨rfl, hv, rfl⟩
    | some idxs =>
      simp only [hi] at h
      cases hx : idxLoop pngr info rowp (pngr.sizex + 1) info.originx 0 idx idxs with
      | none => simp [hx] at h
      | some idxs' =>
        simp only [hx, Option.map_some', Option.some.injEq] at h
        subst h
        exact ⟨rfl, hv, rfl⟩

theorem rowLoop_visited (pngr : TPNGR) (info : TPassInfo) (i stepx stepy ncols : Nat)
    (hc1 : pngr.sizex ≤ info.originx + ncols * info.stepx)
    (hc2 : ncols = 0 ∨ info.originx + (ncols - 1) * info.stepx < pngr.sizex) :
    ∀ (fuel n y pel idx : Nat) (b b' : TPNGRBuffers),
    b.pixels.isSome = true →
    pngr.sizey ≤ y + n * info.stepy → (n = 0 ∨ y + (n - 1) * info.stepy < pngr.sizey) →
    rowLoop pngr info i stepx stepy fuel y pel idx b = some (true, b') →
    b'.rows = b.rows.drop n ∧
    b'.visited = b.visited ++ (List.range n).flatMap (fun ky =>
      (List.range ncols).map (fun kx =>
        (info.originx + kx * info.stepx, y + ky * info.stepy, pel + ky * stepy + kx * stepx))) ∧
    b'.pixels.isSome = true := by
  intro fuel
  induction fuel with
  | zero =>
    intro n y pel idx b b' _ _ _ h
    simp [rowLoop] at h
  | succ fuel ih =>
    intro n y pel idx b b' hpx h1 h2 h
    rw [rowLoop] at h
    by_cases hy : y < pngr.sizey
    · rw [if_pos hy] at h
      cases hr : b.rows with
      | nil => simp [hr] at h
      | cons rowp rows =>
        simp only [hr] at h
        cases hp : passrow pngr info i y stepx pel idx rowp { b with rows := rows } with
        | none => simp [hp] at h
        | some b1 =>
          simp only [hp] at h
          obtain ⟨a1, a2, a3⟩ := passrow_visited pngr info i y stepx pel idx rowp
            { b with rows := rows } b1 ncols hc1 hc2 hpx hp
          simp only at a1 a2
          rw [a3, if_pos rfl] at h
          obtain ⟨m, rfl⟩ : ∃ m, n = m + 1 := by
            rcases Nat.eq_zero_or_pos n with h0 | h0
            · subst h0
              simp at h1
              omega
            · exact ⟨n - 1, by omega⟩
          have e1 : (m + 1) * info.stepy = m * info.stepy + info.stepy := by ring
          obtain ⟨c1, c2, c3⟩ := ih m (y + info.stepy) (pel + stepy) _ b1 b' a3 (by omega) (by
            rcases Nat.eq_zero_or_pos m with h0 | h0
            · exact Or.inl h0
            · right
              obtain ⟨m', rfl⟩ : ∃ m', m = m' + 1 := ⟨m - 1, by omega⟩
              have e2 : (m' + 1) * info.stepy = m' * info.stepy + info.stepy := by ring
              simp only [Nat.add_sub_cancel] at h2 ⊢
              omega) h
          refine ⟨?_, ?_, c3⟩
          · rw [c1, a1]
            rfl
          · rw [c2, a2, List.range_succ_eq_map, List.flatMap_cons, List.flatMap_map,
              List.append_assoc]
            simp only [Nat.zero_mul, Nat.add_zero]
            congr 2
            apply List.flatMap_congr
            intro ky _
            apply List.map_congr_left
            intro kx _
            simp only [Function.comp, Nat.succ_eq_add_one]
            have e3 : (ky + 1) * info.stepy = ky * info.stepy + info.stepy := by ring
            have e4 : (ky + 1) * stepy = ky * stepy + stepy := by ring
            rw [e3, e4]
            simp only [Prod.mk.injEq, true_and]
            omega
    · rw [if_neg hy] at h
      simp only [Option.some.injEq, Prod.mk.injEq, true_and] at h
      have hn : n = 0 := by
        rcases h2 with h2 | h2
        · exact h2
        · omega
      subst hn h
      simp [hpx]

/-! ### The grid of a pass -/

theorem passcount_spec (size origin step : Nat) (hs : origin < step) :
    size ≤ origin + (size + step - origin - 1) / step * step ∧
    ((size + step - origin - 1) / step = 0 ∨
      origin + ((size + step - origin - 1) / step - 1) * step < size) := by
  have h1 := Nat.div_add_mod (size + step - origin - 1) step
  have h2 := Nat.mod_lt (size + step - origin - 1) (show 0 < step by omega)
  generalize (size + step - origin - 1) / step = q at h1 ⊢
  generalize (size + step - origin - 1) % step = r at h1 h2
  have e : step * q = q * step := Nat.mul_comm _ _
  constructor
  · omega
  · rcases Nat.eq_zero_or_pos q with h0 | h0
    · exact Or.inl h0
    · right
      obtain ⟨m, rfl⟩ : ∃ m, q = m + 1 := ⟨q - 1, by omega⟩
      have e2 : (m + 1) * step = m * step + step := by ring
      simp only [Nat.add_sub_cancel]
      omega

theorem mem_passgrid (pngr : TPNGR) (info : TPassInfo) (ncols nrows x y o : Nat) :
    (x, y, o) ∈ passgrid pngr info ncols nrows ↔
      ∃ ky, ky < nrows ∧ ∃ kx, kx < ncols ∧ x = info.originx + kx * info.stepx ∧
        y = info.originy + ky * info.stepy ∧ o = y * pngr.rowsize + x * pngr.pelsize := by
  simp only [passgrid, List.mem_flatMap, List.mem_map, List.mem_range, Prod.mk.injEq]
  constructor
  · rintro ⟨ky, hky, kx, hkx, h1, h2, h3⟩
    exact ⟨ky, hky, kx, hkx, h1.symm, h2.symm, by rw [← h1, ← h2, h3]⟩
  · rintro ⟨ky, hky, kx, hkx, h1, h2, h3⟩
    exact ⟨ky, hky, kx, hkx, h1.symm, h2.symm, by rw [h3, h1, h2]⟩

theorem nodup_passgrid (pngr : TPNGR) (info : TPassInfo) (ncols nrows : Nat)
    (hx : 0 < info.stepx) (hy : 0 < info.stepy) : (passgrid pngr info ncols nrows).Nodup := by
  unfold passgrid
  rw [List.nodup_flatMap]
  constructor
  · intro ky _
    apply List.Nodup.map_on _ (List.nodup_range _)
    intro a _ b _ hab
    simp only [Prod.mk.injEq, add_right_inj] at hab
    exact Nat.eq_of_mul_eq_mul_right hx hab.1
  · apply (List.pairwise_lt_range nrows).imp
    intro a b hab
    simp only [Function.onFun]
    rw [List.disjoint_left]
    intro e h1 h2
    simp only [List.mem_map, List.mem_range] at h1 h2
    obtain ⟨k1, _, rfl⟩ := h1
    obtain ⟨k2, _, h3⟩ := h2
    simp only [Prod.mk.injEq, add_right_inj] at h3
    have := Nat.eq_of_mul_eq_mul_right hy h3.2.1
    omega

theorem ownedby_not_below (k x y : Nat) (h : ownedby k x y) : ¬ ownedBelow k x y := by
  by_cases hk : k < 7
  · interval_cases k <;>
      simp only [ownedBelow, ownedby, passinfo, owns, List.getElem?_cons_zero,
        List.getElem?_cons_succ, false_or, Nat.sub_zero, Nat.zero_le, true_and, not_or,
        not_false_eq_true] at h ⊢ <;>
      split_ands <;>
      omega
  · exfalso
    have : passinfo[k]? = none := List.getElem?_eq_none (by simp [passinfo]; omega)
    simp [ownedby, this] at h

/-- Each pixel lies on the grid of exactly one pass. -/
theorem ownedby_unique (x y : Nat) : ∃! i, i < 7 ∧ ownedby i x y := by
  have hex : ∀ k, ownedBelow k x y → ∃ i, i < k ∧ ownedby i x y := by
    intro k
    induction k with
    | zero => intro h; exact absurd h (by simp [ownedBelow])
    | succ k ih =>
      intro h
      rcases h with h | h
      · obtain ⟨i, hi, ho⟩ := ih h
        exact ⟨i, by omega, ho⟩
      · exact ⟨k, by omega, h⟩
  have hbelow : ∀ k i, i < k → ownedby i x y → ownedBelow k x y := by
    intro k
    induction k with
    | zero => intro i hi; omega
    | succ k ih =>
      intro i hi ho
      by_cases hik : i = k
      · subst hik
        exact Or.inr ho
      · exact Or.inl (ih i (by omega) ho)
  obtain ⟨i, hi, ho⟩ := hex 7 (ownedBelow_seven x y)
  refine ⟨i, ⟨hi, ho⟩, ?_⟩
  rintro j ⟨_, hj⟩
  by_contra hne
  rcases Nat.lt_or_gt_of_ne hne with hlt | hlt
  · exact ownedby_not_below i x y ho (hbelow i j hlt hj)
  · exact ownedby_not_below j x y hj (hbelow j i hlt ho)

theorem mem_passgrid_owns (pngr : TPNGR) (info : TPassInfo)
    (hsx : info.originx < info.stepx) (hsy : info.originy < info.stepy)
    (hne : ¬ (pngr.sizex ≤ info.originx ∨ pngr.sizey ≤ info.originy)) (x y o : Nat) :
    (x, y, o) ∈ passgrid pngr info
        ((pngr.sizex + info.stepx - info.originx - 1) / info.stepx)
        ((pngr.sizey - info.originy + info.stepy - 1) / info.stepy) ↔
      owns info x y ∧ x < pngr.sizex ∧ y < pngr.sizey ∧
        o = y * pngr.rowsize + x * pngr.pelsize := by
  have hy' : pngr.sizey - info.originy + info.stepy - 1
      = pngr.sizey + info.stepy - info.originy - 1 := by omega
  rw [hy', mem_passgrid]
  obtain ⟨cx1, cx2⟩ := passcount_spec pngr.sizex info.originx info.stepx hsx
  obtain ⟨cy1, cy2⟩ := passcount_spec pngr.sizey info.originy info.stepy hsy
  generalize (pngr.sizex + info.stepx - info.originx - 1) / info.stepx = nx at cx1 cx2 ⊢
  generalize (pngr.sizey + info.stepy - info.originy - 1) / info.stepy = ny at cy1 cy2 ⊢
  have bound : ∀ (k n o s size : Nat), k < n → (n = 0 ∨ o + (n - 1) * s < size) →
      o + k * s < size := by
    intro k n o s size hk hn
    rcases hn with hn | hn
    · omega
    · have : k * s ≤ (n - 1) * s := Nat.mul_le_mul_right _ (by omega)
      omega
  have index : ∀ (v n o s size : Nat), 0 < s → o ≤ v → (v - o) % s = 0 → v < size →
      size ≤ o + n * s → ∃ k, k < n ∧ v = o + k * s := by
    intro v n o s size hs hov hmod hv hsize
    refine ⟨(v - o) / s, ?_, ?_⟩
    · have h1 := Nat.div_add_mod (v - o) s
      rw [hmod, Nat.add_zero] at h1
      by_contra hk
      have : n * s ≤ (v - o) / s * s := Nat.mul_le_mul_right _ (by omega)
      have e : s * ((v - o) / s) = (v - o) / s * s := Nat.mul_comm _ _
      omega
    · have h1 := Nat.div_add_mod (v - o) s
      rw [hmod, Nat.add_zero] at h1
      have e : s * ((v - o) / s) = (v - o) / s * s := Nat.mul_comm _ _
      omega
  constructor
  · rintro ⟨ky, hky, kx, hkx, rfl, rfl, rfl⟩
    refine ⟨⟨by omega, ?_, by omega, ?_⟩, bound kx nx _ _ _ hkx cx2, bound ky ny _ _ _ hky cy2, rfl⟩
    · rw [Nat.add_sub_cancel_left, Nat.mul_mod_left]
    · rw [Nat.add_sub_cancel_left, Nat.mul_mod_left]
  · rintro ⟨⟨h1, h2, h3, h4⟩, hx, hy, rfl⟩
    obtain ⟨kx, hkx, ex⟩ := index x nx info.originx info.stepx pngr.sizex (by omega) h1 h2 hx cx1
    obtain ⟨ky, hky, ey⟩ := index y ny info.originy info.stepy pngr.sizey (by omega) h3 h4 hy cy1
    exact ⟨ky, hky, kx, hkx, ex, ey, rfl⟩

/-! ### A pass in closed form -/

theorem decodepass_visited (checktail parsechunks : TPNGR → Option (Bool × TPNGR))
    (pngr : TPNGR) (hst : pngr.state = 3) (info : TPassInfo)
    (hinfo : passinfo[pngr.pass]? = some info)
    (hprs : ∀ (k : Nat) (info : TPassInfo), passinfo[k]? = some info →
      pngr.passrowsize[k]? = some
        (if pngr.sizex ≤ info.originx ∨ pngr.sizey ≤ info.originy then 0
         else (pngr.sizex + info.stepx - info.originx - 1) / info.stepx))
    (b : TPNGRBuffers) (hpx : b.pixels.isSome = true)
    (r : Nat) (p' : TPNGR) (b' : TPNGRBuffers)
    (h : pngr_decodepass checktail parsechunks pngr b = some (r, p', b')) :
    (r = 0 ∧ p'.state = PNGR_BADSTATE) ∨
    (∃ prs, pngr.passrowsize[pngr.pass]? = some prs ∧
      b'.rows = b.rows.drop (passrows pngr info prs) ∧
      b'.visited = b.visited ++ passgrid pngr info prs (passrows pngr info prs) ∧
      b'.pixels.isSome = true ∧
      ((r ≠ 0 ∧ pngr.pass + 1 < 7 ∧ p' = { pngr with pass := pngr.pass + 1 }) ∨
        (r = 0 ∧ pngr.pass + 1 = 7))) := by
  have hrinfo : rd passinfo pngr.pass = some info := hinfo
  have hi7 := passinfo_lt hinfo
  have hp := hprs pngr.pass info hinfo
  have hrp : rd pngr.passrowsize pngr.pass = some
      (if pngr.sizex ≤ info.originx ∨ pngr.sizey ≤ info.originy then 0
         else (pngr.sizex + info.stepx - info.originx - 1) / info.stepx) := hp
  obtain ⟨_, _, _, _, _, _, e5, e6, _, _⟩ := shift_some hinfo
  -- the part of the function after the rows of the pass
  have tail : ∀ (b1 : TPNGRBuffers),
      (if pngr.pass + 1 = ADAM7PASSES then
          (finishdecoding checktail parsechunks { pngr with pass := pngr.pass + 1 }).map
            (fun pngr => (0, pngr, b1))
        else some (pngr.pass + 1, { pngr with pass := pngr.pass + 1 }, b1)) = some (r, p', b') →
      b' = b1 ∧ ((r ≠ 0 ∧ pngr.pass + 1 < 7 ∧ p' = { pngr with pass := pngr.pass + 1 }) ∨
        (r = 0 ∧ pngr.pass + 1 = 7)) := by
    intro b1 ht
    by_cases h7 : pngr.pass + 1 = ADAM7PASSES
    · rw [if_pos h7] at ht
      cases hf : finishdecoding checktail parsechunks { pngr with pass := pngr.pass + 1 } with
      | none => simp [hf] at ht
      | some q =>
        simp only [hf, Option.map_some', Option.some.injEq, Prod.mk.injEq] at ht
        exact ⟨ht.2.2.symm, Or.inr ⟨ht.1.symm, h7⟩⟩
    · rw [if_neg h7] at ht
      simp only [Option.some.injEq, Prod.mk.injEq] at ht
      unfold ADAM7PASSES at h7
      exact ⟨ht.2.2.symm, Or.inl ⟨by omega, by omega, ht.2.1.symm⟩⟩
  simp only [pngr_decodepass, enterdecoding_three pngr hst, hrp] at h
  cases hm : rd pngr.passmemsize pngr.pass with
  | none => simp [hm] at h
  | some memsize =>
    simp only [hm] at h
    by_cases hc : pngr.sizex ≤ info.originx ∨ pngr.sizey ≤ info.originy
    · right
      simp only [if_pos hc, if_true] at h
      obtain ⟨rfl, ht⟩ := tail b h
      refine ⟨0, by rw [hp, if_pos hc], ?_, ?_, hpx, ht⟩
      · simp [passrows]
      · simp [passrows, passgrid]
    · have hne : (pngr.sizex + info.stepx - info.originx - 1) / info.stepx ≠ 0 := by
        rw [Ne, passcount_zero _ _ _ e5]
        omega
      simp only [if_neg hc, if_neg hne, hrinfo] at h
      obtain ⟨cx1, cx2⟩ := passcount_spec pngr.sizex info.originx info.stepx e5
      obtain ⟨cy1, cy2⟩ := passcount_spec pngr.sizey info.originy info.stepy e6
      have hy' : pngr.sizey - info.originy + info.stepy - 1
          = pngr.sizey + info.stepy - info.originy - 1 := by omega
      cases hl : rowLoop pngr info pngr.pass (info.stepx * pngr.pelsize)
          (info.stepy * pngr.rowsize) (pngr.sizey + 1) info.originy
          (info.originx * pngr.pelsize + info.originy * pngr.rowsize)
          (info.originx + info.originy * pngr.sizex) b with
      | none => simp [hl] at h
      | some res =>
        obtain ⟨ok, b1⟩ := res
        simp only [hl] at h
        cases ok with
        | false =>
          left
          simp only [Option.some.injEq, Prod.mk.injEq] at h
          exact ⟨h.1.symm, by rw [← h.2.1]⟩
        | true =>
          right
          simp only at h
          obtain ⟨rfl, ht⟩ := tail b1 h
          obtain ⟨a1, a2, a3⟩ := rowLoop_visited pngr info pngr.pass _ _ _ cx1 cx2 _
            ((pngr.sizey + info.stepy - info.originy - 1) / info.stepy) _ _ _ b b' hpx cy1 cy2 hl
          refine ⟨_, by rw [hp, if_neg hc], ?_, ?_, a3, ht⟩
          · rw [a1, passrows, if_neg hne, hy']
          · rw [a2, passrows, if_neg hne, hy', passgrid]
            congr 1
            apply List.flatMap_congr
            intro ky _
            apply List.map_congr_left
            intro kx _
            simp only [Prod.mk.injEq, true_and]
            ring

theorem VisitedInv.step (pngr : TPNGR) (k : Nat) (info : TPassInfo)
    (hinfo : passinfo[k]? = some info) (v : List (Nat × Nat × Nat)) (h : VisitedInv pngr k v) :
    VisitedInv pngr (k + 1) (v ++ passgrid pngr info
      (if pngr.sizex ≤ info.originx ∨ pngr.sizey ≤ info.originy then 0
         else (pngr.sizex + info.stepx - info.originx - 1) / info.stepx)
      (passrows pngr info
        (if pngr.sizex ≤ info.originx ∨ pngr.sizey ≤ info.originy then 0
         else (pngr.sizex + info.stepx - info.originx - 1) / info.stepx))) := by
  obtain ⟨_, _, _, _, _, _, e5, e6, _, _⟩ := shift_some hinfo
  have hown : ∀ x y, ownedby k x y ↔ owns info x y := by
    intro x y
    simp only [ownedby, hinfo]
  by_cases hc : pngr.sizex ≤ info.originx ∨ pngr.sizey ≤ info.originy
  · have e : passgrid pngr info 0 (passrows pngr info 0) = [] := by simp [passgrid, passrows]
    rw [if_pos hc, e, List.append_nil]
    refine ⟨h.1, ?_⟩
    intro x y o
    rw [h.2 x y o]
    constructor
    · rintro ⟨h1, h2, h3, h4⟩
      exact ⟨h1, h2, h3, Or.inl h4⟩
    · rintro ⟨h1, h2, h3, h4 | h4⟩
      · exact ⟨h1, h2, h3, h4⟩
      · rw [hown] at h4
        unfold owns at h4
        omega
  · have hne : (pngr.sizex + info.stepx - info.originx - 1) / info.stepx ≠ 0 := by
      rw [Ne, passcount_zero _ _ _ e5]
      omega
    rw [if_neg hc, passrows, if_neg hne]
    have hmem := mem_passgrid_owns pngr info e5 e6 hc
    refine ⟨?_, ?_⟩
    · rw [List.nodup_append]
      refine ⟨h.1, nodup_passgrid pngr info _ _ (by omega) (by omega), ?_⟩
      rw [List.disjoint_left]
      rintro ⟨x, y, o⟩ h1 h2
      have a := (h.2 x y o).1 h1
      have c := (hmem x y o).1 h2
      exact ownedby_not_below k x y ((hown x y).2 c.1) a.2.2.2
    · intro x y o
      rw [List.mem_append, h.2 x y o, hmem x y o]
      constructor
      · rintro (⟨h1, h2, h3, h4⟩ | ⟨h1, h2, h3, h4⟩)
        · exact ⟨h1, h2, h3, Or.inl h4⟩
        · exact ⟨h2, h3, h4, Or.inr ((hown x y).2 h1)⟩
      · rintro ⟨h1, h2, h3, h4 | h4⟩
        · exact Or.inl ⟨h1, h2, h3, h4⟩
        · exact Or.inr ⟨(hown x y).1 h4, h1, h2, h3⟩

theorem passes_visited (checktail parsechunks : TPNGR → Option (Bool × TPNGR)) :
    ∀ (n : Nat) (pngr : TPNGR) (b : TPNGRBuffers),
    pngr.pass + n = 7 → pngr.state = 3 →
    (∀ (k : Nat) (info : TPassInfo), passinfo[k]? = some info →
      pngr.passrowsize[k]? = some
        (if pngr.sizex ≤ info.originx ∨ pngr.sizey ≤ info.originy then 0
         else (pngr.sizex + info.stepx - info.originx - 1) / info.stepx)) →
    b.pixels.isSome = true → VisitedInv pngr pngr.pass b.visited →
    ∀ (pe : TPNGR) (be : TPNGRBuffers),
      passes checktail parsechunks n pngr b = some (pe, be) →
      (pe.state = 4 ∨ pe.state = 5) → VisitedInv pngr 7 be.visited := by
  intro n
  induction n with
  | zero =>
    intro pngr b hn _ _ _ hv pe be hrun _
    simp only [passes, Option.some.injEq, Prod.mk.injEq] at hrun
    rw [← hrun.2]
    have : pngr.pass = 7 := by omega
    rw [this] at hv
    exact hv
  | succ n ih =>
    intro pngr b hn hst hprs hpx hv pe be hrun hok
    rw [passes] at hrun
    cases hd : pngr_decodepass checktail parsechunks pngr b with
    | none => simp [hd] at hrun
    | some res =>
      obtain ⟨r, p', b1⟩ := res
      simp only [hd] at hrun
      obtain ⟨info, hinfo⟩ : ∃ info, passinfo[pngr.pass]? = some info := by
        have : pngr.pass < passinfo.length := by simp [passinfo]; omega
        exact ⟨_, List.getElem?_eq_getElem this⟩
      rcases decodepass_visited checktail parsechunks pngr hst info hinfo hprs b hpx r p' b1 hd
        with ⟨_, c2⟩ | ⟨prs, c1, c2, c3, c4, c5⟩
      · exfalso
        obtain ⟨p2, h1, h2⟩ := passes_bad checktail parsechunks n p' b1 c2
        rw [h1] at hrun
        simp only [Option.some.injEq, Prod.mk.injEq] at hrun
        rw [← hrun.1, h2] at hok
        revert hok
        decide
      · have hprs' := hprs pngr.pass info hinfo
        rw [c1] at hprs'
        have hprs'' := Option.some.inj hprs'
        have hv1 : VisitedInv pngr (pngr.pass + 1) b1.visited := by
          rw [c3, hprs'']
          exact VisitedInv.step pngr pngr.pass info hinfo b.visited hv
        rcases c5 with ⟨_, d2, d3⟩ | ⟨_, d2⟩
        · subst d3
          exact ih { pngr with pass := pngr.pass + 1 } b1 (by show pngr.pass + 1 + n = 7; omega)
            hst hprs c4 hv1 pe be hrun hok
        · have hn0 : n = 0 := by omega
          subst hn0
          simp only [passes, Option.some.injEq, Prod.mk.injEq] at hrun
          rw [← hrun.2, ← d2]
          exact hv1

/-! ### The bytes a pass writes in exact-placement mode -/

theorem copyidx_frame (s : List Nat) (o n : Nat) : ∀ (ks : List Nat) (px px' : List Nat),
    (∀ k ∈ ks, k < n) →
    ks.foldlM (fun pixels k => do let b ← rd s k; wr pixels (o + k) b) px = some px' →
    px'.length = px.length ∧ ∀ j, (j < o ∨ o + n ≤ j) → px'[j]? = px[j]? := by
  intro ks
  induction ks with
  | nil =>
    intro px px' _ h
    simp only [List.foldlM_nil, Option.pure_def, Option.some.injEq] at h
    subst h
    exact ⟨rfl, fun _ _ => rfl⟩
  | cons k ks ih =>
    intro px px' hk h
    rw [List.foldlM_cons] at h
    cases hb : rd s k with
    | none => simp [hb] at h
    | some v =>
      simp only [hb, Option.bind_eq_bind, Option.some_bind] at h
      by_cases hin : o + k < px.length
      · have hw : wr px (o + k) v = some (px.set (o + k) v) := by simp [wr, hin]
        rw [hw, Option.some_bind] at h
        obtain ⟨h1, h2⟩ := ih (px.set (o + k) v) px'
          (fun k' hk' => hk k' (List.mem_cons_of_mem _ hk')) h
        refine ⟨by rw [h1, List.length_set], ?_⟩
        intro j hj
        have := hk k (List.mem_cons_self _ _)
        rw [h2 j hj, List.getElem?_set_ne (by omega)]
      · have hw : wr px (o + k) v = none := by simp [wr, hin]
        rw [hw] at h
        simp at h

/-- The pixel copy changes no byte outside the pixel. -/
theorem copypel_frame (P : Nat) (px px' : List Nat) (o : Nat) (s : List Nat)
    (h : copypel P px o s = some px') :
    px'.length = px.length ∧ ∀ j, (j < o ∨ o + pelbytes P ≤ j) → px'[j]? = px[j]? := by
  rcases pelbytes_cases P with ⟨hP, hc⟩ | ⟨hP, hc⟩
  · rw [hP]
    rcases hc with h' | h' | h' | h' | h' | h' <;> subst h'
    all_goals
      simp only [copypel] at h
      refine copyidx_frame s o _ _ px px' ?_ h
      intro k hk
      simp only [List.mem_cons, List.mem_singleton, List.not_mem_nil, or_false] at hk
      omega
  · have : copypel P px o s = some px := by
      unfold copypel
      split <;> first | rfl | omega
    rw [this] at h
    simp only [Option.some.injEq] at h
    subst h
    exact ⟨rfl, fun _ _ => rfl⟩

theorem passpixel_frame (pngr : TPNGR) (px px' : List Nat) (o : Nat) (row : List Nat)
    (h : passpixel pngr px o row = some px') :
    px'.length = px.length ∧
      ∀ j, (j < o ∨ o + pelbytes pngr.pelsize ≤ j) → px'[j]? = px[j]? := by
  unfold passpixel at h
  obtain ⟨s, _, hc⟩ := Option.bind_eq_some.1 h
  exact copypel_frame _ _ _ _ _ hc

theorem passLoop_frame (pngr : TPNGR) (info : TPassInfo) (y stepx nb : Nat) (rowp : List Nat)
    (paint : List Nat → Nat → Nat → List Nat → Option (List Nat))
    (hpaint : ∀ px x off row px', paint px x off row = some px' →
      px'.length = px.length ∧ ∀ j, (j < off ∨ off + nb ≤ j) → px'[j]? = px[j]?) :
    ∀ (fuel x ro off : Nat) (px : List Nat) (v : List (Nat × Nat × Nat))
      (px' : List Nat) (v' : List (Nat × Nat × Nat)),
    passLoop pngr info y stepx rowp paint fuel x ro off px v = some (px', v') →
    ∃ new, v' = v ++ new ∧ px'.length = px.length ∧
      ∀ j, (∀ e ∈ new, j < e.2.2 ∨ e.2.2 + nb ≤ j) → px'[j]? = px[j]? := by
  intro fuel
  induction fuel with
  | zero =>
    intro x ro off px v px' v' h
    simp [passLoop] at h
  | succ fuel ih =>
    intro x ro off px v px' v' h
    rw [passLoop] at h
    by_cases hx : x < pngr.sizex
    · rw [if_pos hx] at h
      cases hp : paint px x off (rowp.drop ro) with
      | none => simp [hp] at h
      | some px1 =>
        simp only [hp] at h
        obtain ⟨new, h1, h2, h3⟩ := ih _ _ _ px1 (v ++ [(x, y, off)]) px' v' h
        obtain ⟨p1, p2⟩ := hpaint _ _ _ _ _ hp
        refine ⟨(x, y, off) :: new, by rw [h1, List.append_assoc]; rfl, by rw [h2, p1], ?_⟩
        intro j hj
        rw [h3 j (fun e he => hj e (List.mem_cons_of_mem _ he)),
          p2 j (hj (x, y, off) (List.mem_cons_self _ _))]
    · rw [if_neg hx] at h
      simp only [Option.some.injEq, Prod.mk.injEq] at h
      refine ⟨[], by rw [← h.2, List.append_nil], by rw [h.1], ?_⟩
      intro j _
      rw [h.1]

theorem passrow_frame (pngr : TPNGR) (info : TPassInfo) (i y stepx pel idx : Nat)
    (rowp : List Nat) (b b' : TPNGRBuffers) (px : List Nat)
    (hmode : b.interpolate = 0) (hpx : b.pixels = some px)
    (h : passrow pngr info i y stepx pel idx rowp b = some b') :
    b'.interpolate = 0 ∧ b'.rows = b.rows ∧
    ∃ px' new, b'.pixels = some px' ∧ b'.visited = b.visited ++ new ∧
      px'.length = px.length ∧
      ∀ j, (∀ e ∈ new, j < e.2.2 ∨ e.2.2 + pelbytes pngr.pelsize ≤ j) → px'[j]? = px[j]? := by
  simp only [passrow, hpx, hmode, ne_eq, not_true_eq_false, if_false] at h
  cases hl : passLoop pngr info y stepx rowp
      (fun pixels _ offsetx row => passpixel pngr pixels offsetx row)
      (pngr.sizex + 1) info.originx 0 pel px b.visited with
  | none => simp [hl] at h
  | some r =>
    obtain ⟨px1, v1⟩ := r
    obtain ⟨new, f1, f2, f3⟩ := passLoop_frame pngr info y stepx (pelbytes pngr.pelsize) rowp _
      (fun px x off row px' hp => passpixel_frame pngr px px' off row hp) _ _ _ _ _ _ _ _ hl
    simp only [hl, Option.map_some'] at h
    cases hi : b.idxs with
    | none =>
      simp only [hi, Option.some.injEq] at h
      subst h
      exact ⟨rfl, rfl, px1, new, rfl, f1, f2, f3⟩
    | some idxs =>
      simp only [hi] at h
      cases hx : idxLoop pngr info rowp (pngr.sizex + 1) info.originx 0 idx idxs with
      | none => simp [hx] at h
      | some idxs' =>
        simp only [hx, Option.map_some', Option.some.injEq] at h
        subst h
        exact ⟨rfl, rfl, px1, new, rfl, f1, f2, f3⟩

theorem rowLoop_frame (pngr : TPNGR) (info : TPassInfo) (i stepx stepy : Nat) :
    ∀ (fuel y pel idx : Nat) (b b' : TPNGRBuffers) (px : List Nat) (ok : Bool),
    b.interpolate = 0 → b.pixels = some px →
    rowLoop pngr info i stepx stepy fuel y pel idx b = some (ok, b') →
    b'.interpolate = 0 ∧
    ∃ px' new, b'.pixels = some px' ∧ b'.visited = b.visited ++ new ∧
      px'.length = px.length ∧
      ∀ j, (∀ e ∈ new, j < e.2.2 ∨ e.2.2 + pelbytes pngr.pelsize ≤ j) → px'[j]? = px[j]? := by
  intro fuel
  induction fuel with
  | zero =>
    intro y pel idx b b' px ok _ _ h
    simp [rowLoop] at h
  | succ fuel ih =>
    intro y pel idx b b' px ok hmode hpx h
    rw [rowLoop] at h
    by_cases hy : y < pngr.sizey
    · rw [if_pos hy] at h
      cases hr : b.rows with
      | nil =>
        simp only [hr, Option.some.injEq, Prod.mk.injEq] at h
        rw [← h.2]
        exact ⟨hmode, px, [], hpx, by rw [List.append_nil], rfl, fun _ _ => rfl⟩
      | cons rowp rows =>
        simp only [hr] at h
        cases hp : passrow pngr info i y stepx pel idx rowp { b with rows := rows } with
        | none => simp [hp] at h
        | some b1 =>
          simp only [hp] at h
          obtain ⟨m1, _, px1, new1, a1, a2, a3, a4⟩ := passrow_frame pngr info i y stepx pel idx
            rowp { b with rows := rows } b1 px hmode hpx hp
          obtain ⟨m2, px2, new2, c1, c2, c3, c4⟩ := ih _ _ _ b1 b' px1 ok m1 a1 h
          refine ⟨m2, px2, new1 ++ new2, c1, ?_, by rw [c3, a3], ?_⟩
          · rw [c2, a2, List.append_assoc]
          · intro j hj
            rw [c4 j (fun e he => hj e (List.mem_append_right _ he)),
              a4 j (fun e he => hj e (List.mem_append_left _ he))]
    · rw [if_neg hy] at h
      simp only [Option.some.injEq, Prod.mk.injEq] at h
      rw [← h.2]
      exact ⟨hmode, px, [], hpx, by rw [List.append_nil], rfl, fun _ _ => rfl⟩

/-- In exact-placement mode a call of `pngr_decodepass` changes no byte of the
pixel buffer outside the pixels at which it places a sample. -/
theorem decodepass_frame (checktail parsechunks : TPNGR → Option (Bool × TPNGR))
    (pngr : TPNGR) (hst : pngr.state = 3) (b : TPNGRBuffers) (px : List Nat)
    (hmode : b.interpolate = 0) (hpx : b.pixels = some px)
    (r : Nat) (p' : TPNGR) (b' : TPNGRBuffers)
    (h : pngr_decodepass checktail parsechunks pngr b = some (r, p', b')) :
    b'.interpolate = 0 ∧
    ∃ px' new, b'.pixels = some px' ∧ b'.visited = b.visited ++ new ∧
      px'.length = px.length ∧
      ∀ j, (∀ e ∈ new, j < e.2.2 ∨ e.2.2 + pelbytes pngr.pelsize ≤ j) → px'[j]? = px[j]? := by
  have same : b'.interpolate = b.interpolate → b'.pixels = b.pixels → b'.visited = b.visited →
      b'.interpolate = 0 ∧
      ∃ px' new, b'.pixels = some px' ∧ b'.visited = b.visited ++ new ∧
        px'.length = px.length ∧
        ∀ j, (∀ e ∈ new, j < e.2.2 ∨ e.2.2 + pelbytes pngr.pelsize ≤ j) → px'[j]? = px[j]? :=
    fun h1 h2 h3 => ⟨h1.trans hmode, px, [], h2.trans hpx, by rw [h3, List.append_nil], rfl,
      fun _ _ => rfl⟩
  unfold pngr_decodepass at h
  rw [enterdecoding_three pngr hst] at h
  dsimp only at h
  cases hr1 : rd pngr.passrowsize pngr.pass with
  | none => simp [hr1] at h
  | some rowsize =>
    cases hr2 : rd pngr.passmemsize pngr.pass with
    | none => simp [hr1, hr2] at h
    | some m =>
      simp only [hr1, hr2] at h
      by_cases hz : rowsize = 0
      · rw [if_pos hz] at h
        dsimp only at h
        split_ifs at h
        · cases hf : finishdecoding checktail parsechunks { pngr with pass := pngr.pass + 1 } with
          | none => simp [hf] at h
          | some q =>
            simp only [hf, Option.map_some', Option.some.injEq, Prod.mk.injEq] at h
            have hb := h.2.2
            exact same (by rw [← hb]) (by rw [← hb]) (by rw [← hb])
        · simp only [Option.some.injEq, Prod.mk.injEq] at h
          have hb := h.2.2
          exact same (by rw [← hb]) (by rw [← hb]) (by rw [← hb])
      · rw [if_neg hz] at h
        cases hinfo : rd passinfo pngr.pass with
        | none => simp [hinfo] at h
        | some info =>
          simp only [hinfo] at h
          cases hl : rowLoop pngr info pngr.pass (info.stepx * pngr.pelsize)
              (info.stepy * pngr.rowsize) (pngr.sizey + 1) info.originy
              (info.originx * pngr.pelsize + info.originy * pngr.rowsize)
              (info.originx + info.originy * pngr.sizex) b with
          | none => simp [hl] at h
          | some res =>
            obtain ⟨ok, b1⟩ := res
            have hf := rowLoop_frame pngr info pngr.pass _ _ _ _ _ _ b b1 px ok hmode hpx hl
            simp only [hl] at h
            cases ok with
            | false =>
              simp only [Option.some.injEq, Prod.mk.injEq] at h
              rw [← h.2.2]
              exact hf
            | true =>
              dsimp only at h
              split_ifs at h
              · cases hfin : finishdecoding checktail parsechunks
                    { pngr with pass := pngr.pass + 1 } with
                | none => simp [hfin] at h
                | some q =>
                  simp only [hfin, Option.map_some', Option.some.injEq, Prod.mk.injEq] at h
                  rw [← h.2.2]
                  exact hf
              · simp only [Option.some.injEq, Prod.mk.injEq] at h
                rw [← h.2.2]
                exact hf

/-- In exact-placement mode the passes change no byte of the pixel buffer
outside the pixels at which they place a sample. -/
theorem passes_frame (checktail parsechunks : TPNGR → Option (Bool × TPNGR)) :
    ∀ (n : Nat) (pngr : TPNGR) (b : TPNGRBuffers) (px : List Nat),
    pngr.pass + n = 7 → pngr.state = 3 →
    (∀ (k : Nat) (info : TPassInfo), passinfo[k]? = some info →
      pngr.passrowsize[k]? = some
        (if pngr.sizex ≤ info.originx ∨ pngr.sizey ≤ info.originy then 0
         else (pngr.sizex + info.stepx - info.originx - 1) / info.stepx)) →
    b.interpolate = 0 → b.pixels = some px →
    ∀ (pe : TPNGR) (be : TPNGRBuffers),
      passes checktail parsechunks n pngr b = some (pe, be) →
      ∃ px' new, be.pixels = some px' ∧ be.visited = b.visited ++ new ∧
        px'.length = px.length ∧
        ∀ j, (∀ e ∈ new, j < e.2.2 ∨ e.2.2 + pelbytes pngr.pelsize ≤ j) →
          px'[j]? = px[j]? := by
  intro n
  induction n with
  | zero =>
    intro pngr b px _ _ _ _ hpx pe be hrun
    simp only [passes, Option.some.injEq, Prod.mk.injEq] at hrun
    rw [← hrun.2]
    exact ⟨px, [], hpx, by rw [List.append_nil], rfl, fun _ _ => rfl⟩
  | succ n ih =>
    intro pngr b px hn hst hprs hmode hpx pe be hrun
    rw [passes] at hrun
    cases hd : pngr_decodepass checktail parsechunks pngr b with
    | none => simp [hd] at hrun
    | some res =>
      obtain ⟨r, p', b1⟩ := res
      simp only [hd] at hrun
      obtain ⟨info, hinfo⟩ : ∃ info, passinfo[pngr.pass]? = some info := by
        have : pngr.pass < passinfo.length := by simp [passinfo]; omega
        exact ⟨_, List.getElem?_eq_getElem this⟩
      obtain ⟨m1, px1, new1, a1, a2, a3, a4⟩ := decodepass_frame checktail parsechunks pngr hst b
        px hmode hpx r p' b1 hd
      rcases decodepass_visited checktail parsechunks pngr hst info hinfo hprs b
          (by rw [hpx]; rfl) r p' b1 hd
        with ⟨_, c2⟩ | ⟨prs, _, _, _, _, c5⟩
      · obtain ⟨p2, h1, _⟩ := passes_bad checktail parsechunks n p' b1 c2
        rw [h1] at hrun
        simp only [Option.some.injEq, Prod.mk.injEq] at hrun
        rw [← hrun.2]
        exact ⟨px1, new1, a1, a2, a3, a4⟩
      · rcases c5 with ⟨_, _, d3⟩ | ⟨_, d2⟩
        · subst d3
          obtain ⟨px2, new2, e1, e2, e3, e4⟩ := ih { pngr with pass := pngr.pass + 1 } b1 px1
            (by show pngr.pass + 1 + n = 7; omega) hst hprs m1 a1 pe be hrun
          refine ⟨px2, new1 ++ new2, e1, by rw [e2, a2, List.append_assoc], by rw [e3, a3], ?_⟩
          intro j hj
          rw [e4 j (fun e he => hj e (List.mem_append_right _ he)),
            a4 j (fun e he => hj e (List.mem_append_left _ he))]
        · have hn0 : n = 0 := by omega
          subst hn0
          simp only [passes, Option.some.injEq, Prod.mk.injEq] at hrun
          rw [← hrun.2]
          exact ⟨px1, new1, a1, a2, a3, a4⟩

theorem passrowsize_of_setuppasses (pngr : TPNGR) (b : TPNGRBuffers)
    (hW : pngr.sizex ≤ 0x7fffffff) (hH : pngr.sizey ≤ 0x7fffffff)
    (hsetup : (setuppasses pngr b).map (fun r => r.1.passrowsize) = some pngr.passrowsize) :
    ∀ (k : Nat) (info : TPassInfo), passinfo[k]? = some info →
      pngr.passrowsize[k]? = some
        (if pngr.sizex ≤ info.originx ∨ pngr.sizey ≤ info.originy then 0
         else (pngr.sizex + info.stepx - info.originx - 1) / info.stepx) := by
  unfold setuppasses at hsetup
  cases hl : setuppassesLoop ADAM7PASSES 0 pngr with
  | none => simp [hl] at hsetup
  | some p' =>
    simp only [hl, Option.map_some', Option.some.injEq] at hsetup
    obtain ⟨_, _, _, a3⟩ := setuppassesLoop_spec ADAM7PASSES 0 pngr p' hW hH hl
    intro k info hinfo
    have hk := passinfo_lt hinfo
    have := a3 k info (Nat.zero_le _) (by unfold ADAM7PASSES; omega) hinfo
    rw [hsetup] at this
    exact this

/-! ### The bytes a pass places in exact-placement mode -/

theorem copyidx_bounds (s : List Nat) (o : Nat) : ∀ (ks : List Nat) (px px' : List Nat),
    ks.foldlM (fun pixels k => do let b ← rd s k; wr pixels (o + k) b) px = some px' →
    ∀ k ∈ ks, k < s.length ∧ o + k < px.length := by
  intro ks
  induction ks with
  | nil =>
    intro px px' _ k hk
    simp at hk
  | cons k ks ih =>
    intro px px' h k' hk'
    rw [List.foldlM_cons] at h
    cases hb : rd s k with
    | none => simp [hb] at h
    | some v =>
      simp only [hb, Option.bind_eq_bind, Option.some_bind] at h
      by_cases hin : o + k < px.length
      · have hw : wr px (o + k) v = some (px.set (o + k) v) := by simp [wr, hin]
        rw [hw, Option.some_bind] at h
        have hrest := ih _ _ h
        rcases List.mem_cons.1 hk' with rfl | hm
        · refine ⟨?_, hin⟩
          unfold rd at hb
          obtain ⟨hlt, _⟩ := List.getElem?_eq_some_iff.1 hb
          exact hlt
        · have := hrest k' hm
          simpa using this
      · have hw : wr px (o + k) v = none := by simp [wr, hin]
        rw [hw] at h
        simp at h

/-- A pixel copy that succeeds leaves the sample in the pixel and changes no
other byte. -/
theorem copypel_content (P : Nat) (px px' : List Nat) (o : Nat) (s : List Nat)
    (h : copypel P px o s = some px') :
    px'.length = px.length ∧ holdsSample P px' o s ∧
    ∀ j, outsidePixel P o j → px'[j]? = px[j]? := by
  obtain ⟨f1, f2⟩ := copypel_frame P px px' o s h
  refine ⟨f1, ?_, f2⟩
  have hs : pelbytes P ≤ s.length := by
    by_contra hc
    rw [copypel_none P px o s (by omega)] at h
    simp at h
  rcases pelbytes_cases P with ⟨hP, hc⟩ | ⟨hP, hc⟩
  · have ho : o + pelbytes P ≤ px.length := by
      rw [hP]
      rcases hc with h' | h' | h' | h' | h' | h' <;> subst h'
      all_goals
        simp only [copypel] at h
        have := (copyidx_bounds s o _ px px' h _ (List.mem_cons_self _ _)).2
        omega
    obtain ⟨px'', e1, _, e3⟩ := copypel_some P px o s hs ho
    rw [h] at e1
    simp only [Option.some.injEq] at e1
    subst e1
    intro t ht
    refine ⟨by omega, ?_⟩
    rw [e3 (o + t), if_pos ⟨by omega, by omega⟩, Nat.add_sub_cancel_left]
  · intro t ht
    omega

theorem passpixel_content (pngr : TPNGR) (px px' : List Nat) (o : Nat) (row : List Nat)
    (h : passpixel pngr px o row = some px') :
    ∃ s, getsample pngr row (List.replicate 8 0) = some s ∧ px'.length = px.length ∧
      holdsSample pngr.pelsize px' o s ∧
      ∀ j, outsidePixel pngr.pelsize o j → px'[j]? = px[j]? := by
  unfold passpixel at h
  obtain ⟨s, hs, hc⟩ := Option.bind_eq_some.1 h
  exact ⟨s, hs, copypel_content _ _ _ _ _ hc⟩

theorem passLoop_content (pngr : TPNGR) (info : TPassInfo) (y stepx : Nat) (rowp : List Nat)
    (hstep : pelbytes pngr.pelsize ≤ stepx) :
    ∀ (fuel n x ro off : Nat) (px : List Nat) (v : List (Nat × Nat × Nat))
      (px' : List Nat) (v' : List (Nat × Nat × Nat)),
    pngr.sizex ≤ x + n * info.stepx → (n = 0 ∨ x + (n - 1) * info.stepx < pngr.sizex) →
    passLoop pngr info y stepx rowp
      (fun pixels _ offsetx row => passpixel pngr pixels offsetx row)
      fuel x ro off px v = some (px', v') →
    px'.length = px.length ∧
    (∀ k, k < n → ∃ s,
      getsample pngr (rowp.drop (ro + k * pngr.rawpelsize)) (List.replicate 8 0) = some s ∧
      holdsSample pngr.pelsize px' (off + k * stepx) s) ∧
    ∀ j, (∀ k, k < n → outsidePixel pngr.pelsize (off + k * stepx) j) → px'[j]? = px[j]? := by
  intro fuel
  induction fuel with
  | zero =>
    intro n x ro off px v px' v' _ _ h
    simp [passLoop] at h
  | succ fuel ih =>
    intro n x ro off px v px' v' h1 h2 h
    rw [passLoop] at h
    by_cases hx : x < pngr.sizex
    · rw [if_pos hx] at h
      cases hp : passpixel pngr px off (rowp.drop ro) with
      | none => simp [hp] at h
      | some px1 =>
        simp only [hp] at h
        obtain ⟨m, rfl⟩ : ∃ m, n = m + 1 := by
          rcases Nat.eq_zero_or_pos n with h0 | h0
          · subst h0
            simp at h1
            omega
          · exact ⟨n - 1, by omega⟩
        have e1 : (m + 1) * info.stepx = m * info.stepx + info.stepx := by ring
        obtain ⟨c1, c2, c3⟩ := ih m (x + info.stepx) (ro + pngr.rawpelsize) (off + stepx) px1
          (v ++ [(x, y, off)]) px' v' (by omega) (by
            rcases Nat.eq_zero_or_pos m with h0 | h0
            · exact Or.inl h0
            · right
              obtain ⟨m', rfl⟩ : ∃ m', m = m' + 1 := ⟨m - 1, by omega⟩
              have e2 : (m' + 1) * info.stepx = m' * info.stepx + info.stepx := by ring
              simp only [Nat.add_sub_cancel] at h2 ⊢
              omega) h
        obtain ⟨s0, p0, p1, p2, p3⟩ := passpixel_content pngr px px1 off _ hp
        refine ⟨c1.trans p1, ?_, ?_⟩
        · intro k hk
          rcases Nat.eq_zero_or_pos k with h0 | h0
          · subst h0
            refine ⟨s0, by simpa using p0, ?_⟩
            intro t ht
            refine ⟨(p2 t ht).1, ?_⟩
            rw [Nat.zero_mul, Nat.add_zero, c3 (off + t), (p2 t ht).2]
            intro k' _
            left
            have := Nat.zero_le (k' * stepx)
            omega
          · obtain ⟨k', rfl⟩ : ∃ k', k = k' + 1 := ⟨k - 1, by omega⟩
            obtain ⟨s, q1, q2⟩ := c2 k' (by omega)
            have e3 : ro + (k' + 1) * pngr.rawpelsize
                = ro + pngr.rawpelsize + k' * pngr.rawpelsize := by ring
            have e4 : off + (k' + 1) * stepx = off + stepx + k' * stepx := by ring
            rw [e3, e4]
            exact ⟨s, q1, q2⟩
        · intro j hj
          rw [c3 j, p3 j]
          · have := hj 0 (by omega)
            rwa [Nat.zero_mul, Nat.add_zero] at this
          · intro k hk
            have := hj (k + 1) (by omega)
            have e4 : off + (k + 1) * stepx = off + stepx + k * stepx := by ring
            rwa [e4] at this
    · rw [if_neg hx] at h
      simp only [Option.some.injEq, Prod.mk.injEq] at h
      have hn : n = 0 := by
        rcases h2 with h2 | h2
        · exact h2
        · omega
      subst hn
      rw [← h.1]
      exact ⟨rfl, fun k hk => absurd hk (by omega), fun _ _ => rfl⟩

theorem passrow_content (pngr : TPNGR) (info : TPassInfo) (i y stepx pel idx : Nat)
    (rowp : List Nat) (b b' : TPNGRBuffers) (px : List Nat) (ncols : Nat)
    (hstep : pelbytes pngr.pelsize ≤ stepx)
    (hc1 : pngr.sizex ≤ info.originx + ncols * info.stepx)
    (hc2 : ncols = 0 ∨ info.originx + (ncols - 1) * info.stepx < pngr.sizex)
    (hmode : b.interpolate = 0) (hpx : b.pixels = some px)
    (h : passrow pngr info i y stepx pel idx rowp b = some b') :
    b'.interpolate = 0 ∧ b'.rows = b.rows ∧
    ∃ px', b'.pixels = some px' ∧ px'.length = px.length ∧
      (∀ k, k < ncols → ∃ s,
        getsample pngr (rowp.drop (k * pngr.rawpelsize)) (List.replicate 8 0) = some s ∧
        holdsSample pngr.pelsize px' (pel + k * stepx) s) ∧
      ∀ j, (∀ k, k < ncols → outsidePixel pngr.pelsize (pel + k * stepx) j) →
        px'[j]? = px[j]? := by
  simp only [passrow, hpx, hmode, ne_eq, not_true_eq_false, if_false] at h
  cases hl : passLoop pngr info y stepx rowp
      (fun pixels _ offsetx row => passpixel pngr pixels offsetx row)
      (pngr.sizex + 1) info.originx 0 pel px b.visited with
  | none => simp [hl] at h
  | some r =>
    obtain ⟨px1, v1⟩ := r
    obtain ⟨f1, f2, f3⟩ := passLoop_content pngr info y stepx rowp hstep _ ncols _ _ _ _ _ _ _
      hc1 hc2 hl
    have f2' : ∀ k, k < ncols → ∃ s,
        getsample pngr (rowp.drop (k * pngr.rawpelsize)) (List.replicate 8 0) = some s ∧
        holdsSample pngr.pelsize px1 (pel + k * stepx) s := by
      intro k hk
      obtain ⟨s, q1, q2⟩ := f2 k hk
      rw [Nat.zero_add] at q1
      exact ⟨s, q1, q2⟩
    simp only [hl, Option.map_some'] at h
    cases hi : b.idxs with
    | none =>
      simp only [hi, Option.some.injEq] at h
      subst h
      exact ⟨rfl, rfl, px1, rfl, f1, f2', f3⟩
    | some idxs =>
      simp only [hi] at h
      cases hx : idxLoop pngr info rowp (pngr.sizex + 1) info.originx 0 idx idxs with
      | none => simp [hx] at h
      | some idxs' =>
        simp only [hx, Option.map_some', Option.some.injEq] at h
        subst h
        exact ⟨rfl, rfl, px1, rfl, f1, f2', f3⟩

theorem rowLoop_content (pngr : TPNGR) (info : TPassInfo) (i stepx stepy ncols : Nat)
    (hc1 : pngr.sizex ≤ info.originx + ncols * info.stepx)
    (hc2 : ncols = 0 ∨ info.originx + (ncols - 1) * info.stepx < pngr.sizex)
    (hstep : pelbytes pngr.pelsize ≤ stepx)
    (hrow : ∀ kx, kx < ncols → kx * stepx + pelbytes pngr.pelsize ≤ stepy) :
    ∀ (fuel n y pel idx : Nat) (b b' : TPNGRBuffers) (px : List Nat),
    b.interpolate = 0 → b.pixels = some px →
    pngr.sizey ≤ y + n * info.stepy → (n = 0 ∨ y + (n - 1) * info.stepy < pngr.sizey) →
    rowLoop pngr info i stepx stepy fuel y pel idx b = some (true, b') →
    ∃ px', b'.pixels = some px' ∧ px'.length = px.length ∧
      (∀ ky kx, ky < n → kx < ncols → ∃ rowp s, b.rows[ky]? = some rowp ∧
        getsample pngr (rowp.drop (kx * pngr.rawpelsize)) (List.replicate 8 0) = some s ∧
        holdsSample pngr.pelsize px' (pel + ky * stepy + kx * stepx) s) ∧
      ∀ j, (∀ ky kx, ky < n → kx < ncols →
          outsidePixel pngr.pelsize (pel + ky * stepy + kx * stepx) j) →
        px'[j]? = px[j]? := by
  intro fuel
  induction fuel with
  | zero =>
    intro n y pel idx b b' px _ _ _ _ h
    simp [rowLoop] at h
  | succ fuel ih =>
    intro n y pel idx b b' px hmode hpx h1 h2 h
    rw [rowLoop] at h
    by_cases hy : y < pngr.sizey
    · rw [if_pos hy] at h
      cases hr : b.rows with
      | nil => simp [hr] at h
      | cons rowp rows =>
        simp only [hr] at h
        cases hp : passrow pngr info i y stepx pel idx rowp { b with rows := rows } with
        | none => simp [hp] at h
        | some b1 =>
          simp only [hp] at h
          obtain ⟨m1, a0, px1, a1, a2, a3, a4⟩ := passrow_content pngr info i y stepx pel idx
            rowp { b with rows := rows } b1 px ncols hstep hc1 hc2 hmode hpx hp
          simp only at a0
          rw [a1] at h
          simp only [Option.isSome_some, if_true] at h
          obtain ⟨m, rfl⟩ : ∃ m, n = m + 1 := by
            rcases Nat.eq_zero_or_pos n with h0 | h0
            · subst h0
              simp at h1
              omega
            · exact ⟨n - 1, by omega⟩
          have e1 : (m + 1) * info.stepy = m * info.stepy + info.stepy := by ring
          obtain ⟨px2, c1, c2, c3, c4⟩ := ih m (y + info.stepy) (pel + stepy) _ b1 b' px1 m1 a1
            (by omega) (by
              rcases Nat.eq_zero_or_pos m with h0 | h0
              · exact Or.inl h0
              · right
                obtain ⟨m', rfl⟩ : ∃ m', m = m' + 1 := ⟨m - 1, by omega⟩
                have e2 : (m' + 1) * info.stepy = m' * info.stepy + info.stepy := by ring
                simp only [Nat.add_sub_cancel] at h2 ⊢
                omega) h
          refine ⟨px2, c1, c2.trans a2, ?_, ?_⟩
          · intro ky kx hky hkx
            rcases Nat.eq_zero_or_pos ky with h0 | h0
            · subst h0
              obtain ⟨s, q1, q2⟩ := a3 kx hkx
              refine ⟨rowp, s, List.getElem?_cons_zero, q1, ?_⟩
              intro t ht
              refine ⟨(q2 t ht).1, ?_⟩
              rw [Nat.zero_mul, Nat.add_zero, c4 (pel + kx * stepx + t), (q2 t ht).2]
              intro ky' kx' _ _
              left
              have := hrow kx hkx
              have := Nat.zero_le (ky' * stepy)
              have := Nat.zero_le (kx' * stepx)
              omega
            · obtain ⟨ky', rfl⟩ : ∃ ky', ky = ky' + 1 := ⟨ky - 1, by omega⟩
              obtain ⟨rowq, s, q0, q1, q2⟩ := c3 ky' kx (by omega) hkx
              have e4 : pel + (ky' + 1) * stepy + kx * stepx
                  = pel + stepy + ky' * stepy + kx * stepx := by ring
              rw [e4]
              refine ⟨rowq, s, ?_, q1, q2⟩
              rw [a0] at q0
              simpa using q0
          · intro j hj
            rw [c4 j, a4 j]
            · intro k hk
              have := hj 0 k (by omega) hk
              rwa [Nat.zero_mul, Nat.add_zero] at this
            · intro ky kx hky hkx
              have := hj (ky + 1) kx (by omega) hkx
              have e4 : pel + (ky + 1) * stepy + kx * stepx
                  = pel + stepy + ky * stepy + kx * stepx := by ring
              rwa [e4] at this
    · rw [if_neg hy] at h
      simp only [Option.some.injEq, Prod.mk.injEq, true_and] at h
      have hn : n = 0 := by
        rcases h2 with h2 | h2
        · exact h2
        · omega
      subst hn h
      exact ⟨px, hpx, rfl, fun ky kx hky _ => absurd hky (by omega), fun _ _ => rfl⟩

theorem ownedBelow_of_lt (x y : Nat) : ∀ k i, i < k → ownedby i x y → ownedBelow k x y := by
  intro k
  induction k with
  | zero => intro i hi; omega
  | succ k ih =>
    intro i hi ho
    rcases Nat.lt_or_ge i k with h | h
    · exact Or.inl (ih i h ho)
    · have : i = k := by omega
      subst this
      exact Or.inr ho

/-- Two pixels of the image do not share a byte. -/
theorem pixel_disjoint (W P R x y x' y' : Nat) (hR : R = P * W)
    (hx : x < W) (hx' : x' < W) (hne : ¬ (x = x' ∧ y = y')) (t : Nat)
    (ht : t < pelbytes P) :
    outsidePixel P (y' * R + x' * P) (y * R + x * P + t) := by
  subst hR
  have hp := pelbytes_le P
  have a1 : (x + 1) * P ≤ W * P := Nat.mul_le_mul_right _ hx
  have a2 : (x' + 1) * P ≤ W * P := Nat.mul_le_mul_right _ hx'
  have e1 : (x + 1) * P = x * P + P := by ring
  have e2 : (x' + 1) * P = x' * P + P := by ring
  have e3 : P * W = W * P := Nat.mul_comm _ _
  unfold outsidePixel
  rcases Nat.lt_trichotomy y y' with hy | hy | hy
  · left
    have b1 : (y + 1) * (P * W) ≤ y' * (P * W) := Nat.mul_le_mul_right _ hy
    have e4 : (y + 1) * (P * W) = y * (P * W) + P * W := by ring
    omega
  · subst hy
    rcases Nat.lt_trichotomy x x' with hxx | hxx | hxx
    · left
      have b1 : (x + 1) * P ≤ x' * P := Nat.mul_le_mul_right _ hxx
      omega
    · exact absurd ⟨hxx, rfl⟩ hne
    · right
      have b1 : (x' + 1) * P ≤ x * P := Nat.mul_le_mul_right _ hxx
      omega
  · right
    have b1 : (y' + 1) * (P * W) ≤ y * (P * W) := Nat.mul_le_mul_right _ hy
    have e4 : (y' + 1) * (P * W) = y' * (P * W) + P * W := by ring
    omega

/-- In exact-placement mode a call of `pngr_decodepass` that finds its rows
leaves in each pixel of the grid of the pass the sample of that pixel, and
changes no byte outside these pixels. -/
theorem decodepass_content (checktail parsechunks : TPNGR → Option (Bool × TPNGR))
    (pngr : TPNGR) (hst : pngr.state = 3) (info : TPassInfo)
    (hinfo : passinfo[pngr.pass]? = some info)
    (hprs : ∀ (k : Nat) (info : TPassInfo), passinfo[k]? = some info →
      pngr.passrowsize[k]? = some
        (if pngr.sizex ≤ info.originx ∨ pngr.sizey ≤ info.originy then 0
         else (pngr.sizex + info.stepx - info.originx - 1) / info.stepx))
    (hR : pngr.rowsize = pngr.pelsize * pngr.sizex)
    (b : TPNGRBuffers) (px : List Nat) (hmode : b.interpolate = 0) (hpx : b.pixels = some px)
    (r : Nat) (p' : TPNGR) (b' : TPNGRBuffers)
    (h : pngr_decodepass checktail parsechunks pngr b = some (r, p', b'))
    (hok : p'.state ≠ PNGR_BADSTATE) :
    ∃ px', b'.pixels = some px' ∧ px'.length = px.length ∧
      (∀ x y, x < pngr.sizex → y < pngr.sizey → owns info x y →
        ∃ rowp s, b.rows[(y - info.originy) / info.stepy]? = some rowp ∧
          getsample pngr (rowp.drop ((x - info.originx) / info.stepx * pngr.rawpelsize))
            (List.replicate 8 0) = some s ∧
          holdsSample pngr.pelsize px' (y * pngr.rowsize + x * pngr.pelsize) s) ∧
      ∀ j, (∀ x y, x < pngr.sizex → y < pngr.sizey → owns info x y →
          outsidePixel pngr.pelsize (y * pngr.rowsize + x * pngr.pelsize) j) →
        px'[j]? = px[j]? := by
  have hrinfo : rd passinfo pngr.pass = some info := hinfo
  have hp := hprs pngr.pass info hinfo
  have hrp : rd pngr.passrowsize pngr.pass = some
      (if pngr.sizex ≤ info.originx ∨ pngr.sizey ≤ info.originy then 0
         else (pngr.sizex + info.stepx - info.originx - 1) / info.stepx) := hp
  obtain ⟨_, _, _, _, _, _, e5, e6, _, _⟩ := shift_some hinfo
  have tail : ∀ (b1 : TPNGRBuffers),
      (if pngr.pass + 1 = ADAM7PASSES then
          (finishdecoding checktail parsechunks { pngr with pass := pngr.pass + 1 }).map
            (fun pngr => (0, pngr, b1))
        else some (pngr.pass + 1, { pngr with pass := pngr.pass + 1 }, b1)) = some (r, p', b') →
      b' = b1 := by
    intro b1 ht
    by_cases h7 : pngr.pass + 1 = ADAM7PASSES
    · rw [if_pos h7] at ht
      cases hf : finishdecoding checktail parsechunks { pngr with pass := pngr.pass + 1 } with
      | none => simp [hf] at ht
      | some q =>
        simp only [hf, Option.map_some', Option.some.injEq, Prod.mk.injEq] at ht
        exact ht.2.2.symm
    · rw [if_neg h7] at ht
      simp only [Option.some.injEq, Prod.mk.injEq] at ht
      exact ht.2.2.symm
  simp only [pngr_decodepass, enterdecoding_three pngr hst, hrp] at h
  cases hm : rd pngr.passmemsize pngr.pass with
  | none => simp [hm] at h
  | some memsize =>
    simp only [hm] at h
    by_cases hc : pngr.sizex ≤ info.originx ∨ pngr.sizey ≤ info.originy
    · simp only [if_pos hc, if_true] at h
      have hb := tail b h
      subst hb
      refine ⟨px, hpx, rfl, ?_, fun _ _ => rfl⟩
      intro x y hx hy ho
      unfold owns at ho
      omega
    · have hne : (pngr.sizex + info.stepx - info.originx - 1) / info.stepx ≠ 0 := by
        rw [Ne, passcount_zero _ _ _ e5]
        omega
      simp only [if_neg hc, if_neg hne, hrinfo] at h
      obtain ⟨cx1, cx2⟩ := passcount_spec pngr.sizex info.originx info.stepx e5
      obtain ⟨cy1, cy2⟩ := passcount_spec pngr.sizey info.originy info.stepy e6
      have hy' : pngr.sizey - info.originy + info.stepy - 1
          = pngr.sizey + info.stepy - info.originy - 1 := by omega
      have hgrid := mem_passgrid_owns pngr info e5 e6 hc
      rw [hy'] at hgrid
      generalize hnx : (pngr.sizex + info.stepx - info.originx - 1) / info.stepx = nx
        at cx1 cx2 hgrid h
      generalize hny : (pngr.sizey + info.stepy - info.originy - 1) / info.stepy = ny
        at cy1 cy2 hgrid
      have hsx : 0 < info.stepx := by omega
      have hsy : 0 < info.stepy := by omega
      have hpb := pelbytes_le pngr.pelsize
      have hstep : pelbytes pngr.pelsize ≤ info.stepx * pngr.pelsize :=
        Nat.le_trans hpb (Nat.le_mul_of_pos_left _ hsx)
      have hrow : ∀ kx, kx < nx →
          kx * (info.stepx * pngr.pelsize) + pelbytes pngr.pelsize
            ≤ info.stepy * pngr.rowsize := by
        intro kx hkx
        have hlt : kx * info.stepx < pngr.sizex := by
          rcases cx2 with h0 | h0
          · omega
          · have : kx * info.stepx ≤ (nx - 1) * info.stepx :=
              Nat.mul_le_mul_right _ (by omega)
            omega
        have a1 : (kx * info.stepx + 1) * pngr.pelsize ≤ pngr.sizex * pngr.pelsize :=
          Nat.mul_le_mul_right _ hlt
        have a2 : 1 * pngr.rowsize ≤ info.stepy * pngr.rowsize :=
          Nat.mul_le_mul_right _ hsy
        have e1 : (kx * info.stepx + 1) * pngr.pelsize
            = kx * (info.stepx * pngr.pelsize) + pngr.pelsize := by ring
        have e2 : pngr.pelsize * pngr.sizex = pngr.sizex * pngr.pelsize := Nat.mul_comm _ _
        omega
      cases hl : rowLoop pngr info pngr.pass (info.stepx * pngr.pelsize)
          (info.stepy * pngr.rowsize) (pngr.sizey + 1) info.originy
          (info.originx * pngr.pelsize + info.originy * pngr.rowsize)
          (info.originx + info.originy * pngr.sizex) b with
      | none => simp [hl] at h
      | some res =>
        obtain ⟨ok, b1⟩ := res
        simp only [hl] at h
        cases ok with
        | false =>
          exfalso
          simp only [Option.some.injEq, Prod.mk.injEq] at h
          exact hok (by rw [← h.2.1])
        | true =>
          simp only at h
          have hb := tail b1 h
          subst hb
          obtain ⟨px', a1, a2, a3, a4⟩ := rowLoop_content pngr info pngr.pass _ _ nx cx1 cx2
            hstep hrow _ ny _ _ _ b b' px hmode hpx cy1 cy2 hl
          have hoff : ∀ ky kx, info.originx * pngr.pelsize + info.originy * pngr.rowsize
              + ky * (info.stepy * pngr.rowsize) + kx * (info.stepx * pngr.pelsize)
              = (info.originy + ky * info.stepy) * pngr.rowsize
                + (info.originx + kx * info.stepx) * pngr.pelsize := by
            intro ky kx
            ring
          refine ⟨px', a1, a2, ?_, ?_⟩
          · intro x y hx hy ho
            obtain ⟨ky, hky, kx, hkx, ex, ey, _⟩ :=
              (mem_passgrid pngr info nx ny x y _).1 ((hgrid x y _).2 ⟨ho, hx, hy, rfl⟩)
            subst ex ey
            obtain ⟨rowp, s, q0, q1, q2⟩ := a3 ky kx hky hkx
            rw [hoff] at q2
            rw [Nat.add_sub_cancel_left, Nat.add_sub_cancel_left, Nat.mul_div_cancel _ hsx,
              Nat.mul_div_cancel _ hsy]
            exact ⟨rowp, s, q0, q1, q2⟩
          · intro j hj
            apply a4
            intro ky kx hky hkx
            rw [hoff]
            obtain ⟨ho, hx, hy, _⟩ := (hgrid _ _ _).1
              ((mem_passgrid pngr info nx ny _ _ _).2 ⟨ky, hky, kx, hkx, rfl, rfl, rfl⟩)
            exact hj _ _ hx hy ho

theorem rowstart_succ (pngr : TPNGR) (i : Nat) (info : TPassInfo) (prs : Nat)
    (hinfo : passinfo[i]? = some info) (hp : pngr.passrowsize[i]? = some prs) :
    rowstart pngr (i + 1) = rowstart pngr i + passrows pngr info prs := by
  rw [rowstart, hinfo, hp]

theorem rowstart_pass (pngr : TPNGR) (p : Nat) :
    ∀ i, rowstart { pngr with pass := p } i = rowstart pngr i := by
  intro i
  induction i with
  | zero => rfl
  | succ i ih =>
    rw [rowstart, rowstart, ih]
    rfl

theorem SamplesPlaced_pass (pngr : TPNGR) (p : Nat) (rows : List (List Nat)) (k : Nat)
    (px : List Nat) :
    SamplesPlaced { pngr with pass := p } rows k px ↔ SamplesPlaced pngr rows k px := by
  unfold SamplesPlaced
  simp only [rowstart_pass]
  exact Iff.rfl

/-- The pixels of the passes already run keep their samples through the
passes that follow. -/
theorem passes_content (checktail parsechunks : TPNGR → Option (Bool × TPNGR))
    (rows0 : List (List Nat)) :
    ∀ (n : Nat) (pngr : TPNGR) (b : TPNGRBuffers) (px : List Nat),
    pngr.pass + n = 7 → pngr.state = 3 →
    (∀ (k : Nat) (info : TPassInfo), passinfo[k]? = some info →
      pngr.passrowsize[k]? = some
        (if pngr.sizex ≤ info.originx ∨ pngr.sizey ≤ info.originy then 0
         else (pngr.sizex + info.stepx - info.originx - 1) / info.stepx)) →
    pngr.rowsize = pngr.pelsize * pngr.sizex →
    b.interpolate = 0 → b.pixels = some px →
    b.rows = rows0.drop (rowstart pngr pngr.pass) →
    SamplesPlaced pngr rows0 pngr.pass px →
    ∀ (pe : TPNGR) (be : TPNGRBuffers),
      passes checktail parsechunks n pngr b = some (pe, be) →
      (pe.state = 4 ∨ pe.state = 5) →
      ∃ px', be.pixels = some px' ∧ px'.length = px.length ∧ SamplesPlaced pngr rows0 7 px' := by
  intro n
  induction n with
  | zero =>
    intro pngr b px hn _ _ _ _ hpx _ hinv pe be hrun _
    simp only [passes, Option.some.injEq, Prod.mk.injEq] at hrun
    rw [← hrun.2]
    have h7 : pngr.pass = 7 := by omega
    rw [h7] at hinv
    exact ⟨px, hpx, rfl, hinv⟩
  | succ n ih =>
    intro pngr b px hn hst hprs hR hmode hpx hrows hinv pe be hrun hfin
    rw [passes] at hrun
    cases hd : pngr_decodepass checktail parsechunks pngr b with
    | none => simp [hd] at hrun
    | some res =>
      obtain ⟨r, p', b1⟩ := res
      simp only [hd] at hrun
      obtain ⟨info, hinfo⟩ : ∃ info, passinfo[pngr.pass]? = some info := by
        have : pngr.pass < passinfo.length := by simp [passinfo]; omega
        exact ⟨_, List.getElem?_eq_getElem this⟩
      have hbad : PNGR_BADSTATE ≠ 4 ∧ PNGR_BADSTATE ≠ 5 := by decide
      rcases decodepass_visited checktail parsechunks pngr hst info hinfo hprs b
          (by rw [hpx]; rfl) r p' b1 hd
        with ⟨_, c2⟩ | ⟨prs, c1, c2, _, _, c5⟩
      · exfalso
        obtain ⟨p2, h1, h2⟩ := passes_bad checktail parsechunks n p' b1 c2
        rw [h1] at hrun
        simp only [Option.some.injEq, Prod.mk.injEq] at hrun
        rw [← hrun.1, h2] at hfin
        rcases hfin with hfin | hfin
        · exact hbad.1 hfin
        · exact hbad.2 hfin
      · have hok : p'.state ≠ PNGR_BADSTATE := by
          rcases c5 with ⟨_, _, d3⟩ | ⟨_, d2⟩
          · rw [d3]
            show pngr.state ≠ PNGR_BADSTATE
            rw [hst]
            decide
          · have hn0 : n = 0 := by omega
            subst hn0
            simp only [passes, Option.some.injEq, Prod.mk.injEq] at hrun
            rw [hrun.1]
            rcases hfin with hfin | hfin <;> rw [hfin] <;> decide
        obtain ⟨px1, a1, a2, a3, a4⟩ := decodepass_content checktail parsechunks pngr hst info
          hinfo hprs hR b px hmode hpx r p' b1 hd hok
        obtain ⟨m1, _⟩ := decodepass_frame checktail parsechunks pngr hst b px hmode hpx r p' b1 hd
        have hrows1 : b1.rows = rows0.drop (rowstart pngr (pngr.pass + 1)) := by
          rw [c2, hrows, List.drop_drop, rowstart_succ pngr pngr.pass info prs hinfo c1]
        have hinv1 : SamplesPlaced pngr rows0 (pngr.pass + 1) px1 := by
          intro i info' x y hi hinfo' hx hy hown
          rcases Nat.lt_or_ge i pngr.pass with hlt | hge
          · obtain ⟨rowp, s, q0, q1, q2⟩ := hinv i info' x y hlt hinfo' hx hy hown
            refine ⟨rowp, s, q0, q1, ?_⟩
            intro t ht
            refine ⟨(q2 t ht).1, ?_⟩
            rw [a4, (q2 t ht).2]
            intro x' y' hx' hy' hown'
            apply pixel_disjoint pngr.sizex pngr.pelsize pngr.rowsize x y x' y' hR hx hx' _ t ht
            rintro ⟨rfl, rfl⟩
            have o1 : ownedby i x y := by
              simp only [ownedby, hinfo']
              exact hown
            have o2 : ownedby pngr.pass x y := by
              simp only [ownedby, hinfo]
              exact hown'
            exact ownedby_not_below pngr.pass x y o2 (ownedBelow_of_lt x y pngr.pass i hlt o1)
          · have hi' : i = pngr.pass := by omega
            subst hi'
            rw [hinfo] at hinfo'
            simp only [Option.some.injEq] at hinfo'
            subst hinfo'
            obtain ⟨rowp, s, q0, q1, q2⟩ := a3 x y hx hy hown
            refine ⟨rowp, s, ?_, q1, q2⟩
            rw [hrows, List.getElem?_drop] at q0
            exact q0
        rcases c5 with ⟨_, _, d3⟩ | ⟨_, d2⟩
        · subst d3
          obtain ⟨px2, e1, e2, e3⟩ := ih { pngr with pass := pngr.pass + 1 } b1 px1
            (by show pngr.pass + 1 + n = 7; omega) hst hprs hR m1 a1
            (by rw [rowstart_pass]; exact hrows1)
            ((SamplesPlaced_pass pngr _ rows0 _ px1).2 hinv1) pe be hrun hfin
          exact ⟨px2, e1, e2.trans a2, (SamplesPlaced_pass pngr _ rows0 7 px2).1 e3⟩
        · have hn0 : n = 0 := by omega
          subst hn0
          simp only [passes, Option.some.injEq, Prod.mk.injEq] at hrun
          rw [← hrun.2]
          have h7 : pngr.pass + 1 = 7 := by omega
          rw [h7] at hinv1
          exact ⟨px1, a1, a2, hinv1⟩

/-! ### The input buffer of the JPEG reader -/

theorem readmore_ok (j : TJPGR) (n : Nat) (hend : j.endofinput = 0) (hn : n ≤ BUFFERSIZE)
    (hav : j.window.length < n) (hlen : n ≤ j.window.length + j.stream.length) :
    ∃ w rm st, readmore j j.window.length n
        = (w.length, { j with window := w, room := rm, stream := st }) ∧
      w ++ st = j.window ++ j.stream ∧ n ≤ w.length := by
  unfold readmore
  simp only [hend, ne_eq, not_true_eq_false, if_false]
  have hrem : n ≤ j.window.length +
      (if j.room + j.window.length < n then BUFFERSIZE - j.window.length else j.room) := by
    split_ifs <;> omega
  generalize (if j.room + j.window.length < n then BUFFERSIZE - j.window.length else j.room)
    = remaining at hrem
  have hr : min remaining j.stream.length > 0 := by
    simp only [gt_iff_lt, lt_min_iff]
    omega
  have hm : n ≤ j.window.length + min remaining j.stream.length := by
    rcases Nat.le_total remaining j.stream.length with h1 | h1
    · rw [Nat.min_eq_left h1]; omega
    · rw [Nat.min_eq_right h1]; omega
  rw [if_pos hr]
  have hl : (j.window ++ j.stream.take (min remaining j.stream.length)).length
      = j.window.length + min remaining j.stream.length := by
    rw [List.length_append, List.length_take, Nat.min_assoc, Nat.min_self]
  refine ⟨j.window ++ j.stream.take (min remaining j.stream.length),
    remaining - min remaining j.stream.length,
    j.stream.drop (min remaining j.stream.length), ?_, ?_, ?_⟩
  · rw [hl]
  · rw [List.append_assoc, List.take_append_drop]
  · rw [hl]
    exact hm

/-- With the input still open, `ensurebytes` finds any amount that fits the
buffer and that the bytes left can cover; the bytes left stay the same. -/
theorem ensurebytes_ok (j : TJPGR) (n : Nat) (hend : j.endofinput = 0) (hn : n ≤ BUFFERSIZE)
    (hlen : n ≤ (j.window ++ j.stream).length) :
    ∃ w rm st, ensurebytes j n = (true, { j with window := w, room := rm, stream := st }) ∧
      w ++ st = j.window ++ j.stream ∧ n ≤ w.length := by
  unfold ensurebytes
  rw [List.length_append] at hlen
  by_cases h : j.window.length < n
  · obtain ⟨w, rm, st, h1, h2, h3⟩ := readmore_ok j n hend hn h hlen
    simp only [h, if_true, h1]
    refine ⟨w, rm, st, ?_, h2, h3⟩
    simp only [ge_iff_le, Prod.mk.injEq, decide_eq_true_eq, and_true]
    exact h3
  · simp only [h, if_false]
    refine ⟨j.window, j.room, j.stream, ?_, rfl, by omega⟩
    simp only [ge_iff_le, Prod.mk.injEq, decide_eq_true_eq, and_true]
    omega

/-- With the input still open, `readinput` gives the next bytes. -/
theorem jreadinput_ok (j : TJPGR) (n : Nat) (hend : j.endofinput = 0) (hn : n ≤ BUFFERSIZE)
    (hlen : n ≤ (j.window ++ j.stream).length) :
    ∃ w rm st, jreadinput j n = (some ((j.window ++ j.stream).take n),
        { j with window := w, room := rm, stream := st }) ∧
      w ++ st = (j.window ++ j.stream).drop n := by
  obtain ⟨w, rm, st, h1, h2, h3⟩ := ensurebytes_ok j n hend hn hlen
  unfold jreadinput
  rw [h1]
  refine ⟨w.drop n, rm, st, ?_, ?_⟩
  · simp only [consumebytes, Prod.mk.injEq, Option.some.injEq, and_true]
    rw [← h2, List.take_append_of_le_length h3]
  · rw [← h2, List.drop_append_of_le_length h3]

/-- With the input still open, `skipbytes` drops the next `amount` bytes and
changes nothing else. -/
theorem skipbytesLoop_ok : ∀ (fuel amount : Nat) (j : TJPGR), j.endofinput = 0 →
    amount ≤ (j.window ++ j.stream).length → (amount + 255) / 256 + 1 ≤ fuel →
    ∃ w rm st, skipbytesLoop fuel j amount = some { j with window := w, room := rm, stream := st } ∧
      w ++ st = (j.window ++ j.stream).drop amount := by
  intro fuel
  induction fuel with
  | zero =>
    intro amount j _ _ h
    omega
  | succ fuel ih =>
    intro amount j hend hlen hfuel
    rw [skipbytesLoop]
    by_cases h0 : amount = 0
    · subst h0
      simp only [ne_eq, not_true_eq_false, if_false, List.drop_zero]
      exact ⟨j.window, j.room, j.stream, rfl, rfl⟩
    · simp only [ne_eq, h0, not_false_eq_true, if_true]
      have hr : (amount ≤ 256 ∧ (if amount > 256 then 256 else amount) = amount) ∨
          (amount > 256 ∧ (if amount > 256 then 256 else amount) = 256) := by
        split_ifs <;> omega
      generalize (if amount > 256 then 256 else amount) = r at hr
      obtain ⟨w, rm, st, h1, h2, h3⟩ := ensurebytes_ok j r hend
        (by unfold BUFFERSIZE; omega) (by omega)
      rw [h1]
      simp only
      have hL : ((consumebytes { j with window := w, room := rm, stream := st } r).window ++
          (consumebytes { j with window := w, room := rm, stream := st } r).stream)
          = (j.window ++ j.stream).drop r := by
        simp only [consumebytes]
        rw [← h2, List.drop_append_of_le_length h3]
      obtain ⟨w', rm', st', e1, e2⟩ := ih (amount - r)
        (consumebytes { j with window := w, room := rm, stream := st } r) hend
        (by rw [hL, List.length_drop]; omega)
        (by
          rcases hr with ⟨hr1, hr2⟩ | ⟨hr1, hr2⟩
          · subst hr2
            simp only [Nat.sub_self]
            omega
          · subst hr2
            omega)
      refine ⟨w', rm', st', ?_, ?_⟩
      · rw [e1]
        rfl
      · rw [e2, hL, List.drop_drop]
        congr 1
        omega

theorem skipbytes_ok (j : TJPGR) (amount : Nat) (hend : j.endofinput = 0)
    (hlen : amount ≤ (j.window ++ j.stream).length) :
    ∃ w rm st, skipbytes j amount = some { j with window := w, room := rm, stream := st } ∧
      w ++ st = (j.window ++ j.stream).drop amount :=
  skipbytesLoop_ok _ amount j hend hlen (by omega)

/-! ### The segments of an ICC profile -/

theorem wrs_ok : ∀ (vs : List Nat) (buf : List Nat) (o : Nat), o + vs.length ≤ buf.length →
    ∃ out, wrs buf o vs = some out ∧ out.length = buf.length := by
  intro vs
  induction vs with
  | nil =>
    intro buf o _
    exact ⟨buf, rfl, rfl⟩
  | cons v vs ih =>
    intro buf o h
    simp only [List.length_cons] at h
    obtain ⟨out, h1, h2⟩ := ih (buf.set o v) (o + 1) (by rw [List.length_set]; omega)
    refine ⟨out, ?_, by rw [h2, List.length_set]⟩
    have : wr buf o v = some (buf.set o v) := by
      simp only [wr, ite_eq_left_iff, not_lt, reduceCtorEq, imp_false, not_le]
      omega
    simp only [wrs, this, Option.bind_eq_bind, Option.some_bind]
    exact h1

/-- With the input still open and the profile memory in place, `readiccp`
copies some of the next `r` bytes, returns the number `r'` of those it left
and changes nothing but the input buffer and the profile memory. -/
theorem readiccpLoop_ok : ∀ (fuel r bgn : Nat) (j : TJPGR) (mem : List Nat),
    j.endofinput = 0 → j.iccpmemory = some mem → j.iccptotal ≤ mem.length →
    r ≤ (j.window ++ j.stream).length →
    ((r + 255) / 256 + 1 ≤ fuel ∨ (j.iccptotal - bgn + 255) / 256 + 1 ≤ fuel) →
    ∃ r' w rm st mem', readiccpLoop fuel j r bgn
        = some (r', { j with window := w, room := rm, stream := st, iccpmemory := some mem' }) ∧
      mem'.length = mem.length ∧ r' ≤ r ∧ w ++ st = (j.window ++ j.stream).drop (r - r') := by
  intro fuel
  induction fuel with
  | zero =>
    intro r bgn j mem _ _ _ _ h
    omega
  | succ fuel ih =>
    intro r bgn j mem hend hmem htot hlen hfuel
    rw [readiccpLoop]
    by_cases h0 : r = 0
    · subst h0
      simp only [ne_eq, not_true_eq_false, if_false]
      refine ⟨0, j.window, j.room, j.stream, mem, ?_, rfl, Nat.le_refl _, rfl⟩
      rw [← hmem]
    · simp only [ne_eq, h0, not_false_eq_true, if_true]
      have ht : ∃ total, (if (if j.iccptotal - bgn > r then r else j.iccptotal - bgn) > 256 then 256
            else (if j.iccptotal - bgn > r then r else j.iccptotal - bgn)) = total ∧
          total ≤ 256 ∧ total ≤ r ∧ total ≤ j.iccptotal - bgn ∧ (r ≤ 256 ∨ 0 < total → True) ∧
          (total = 0 ∨ (r - total + 255) / 256 + 1 ≤ fuel ∨
            (j.iccptotal - (bgn + total) + 255) / 256 + 1 ≤ fuel) := by
        refine ⟨_, rfl, ?_, ?_, ?_, fun _ => trivial, ?_⟩
        · split_ifs <;> omega
        · split_ifs <;> omega
        · split_ifs <;> omega
        · split_ifs <;> omega
      obtain ⟨total, e, t1, t2, t3, _, t4⟩ := ht
      rw [e]
      by_cases hz : total = 0
      · rw [if_pos hz]
        refine ⟨r, j.window, j.room, j.stream, mem, ?_, rfl, Nat.le_refl _, ?_⟩
        · rw [← hmem]
        · rw [Nat.sub_self, List.drop_zero]
      · rw [if_neg hz]
        obtain ⟨w, rm, st, h1, h2⟩ := jreadinput_ok j total hend (by unfold BUFFERSIZE; omega)
          (by omega)
        rw [h1]
        simp only [hmem, Option.some_bind]
        have hsl : ((j.window ++ j.stream).take total).length = total := by
          rw [List.length_take]; omega
        obtain ⟨mem1, m1, m2⟩ := wrs_ok ((j.window ++ j.stream).take total) mem bgn
          (by rw [hsl]; omega)
        rw [m1]
        simp only
        obtain ⟨r', w', rm', st', mem', e1, e2, e3, e4⟩ := ih (r - total) (bgn + total)
          { j with window := w, room := rm, stream := st, iccpmemory := some mem1 } mem1
          hend rfl (by rw [m2]; exact htot)
          (by
            show r - total ≤ (w ++ st).length
            rw [h2, List.length_drop]; omega)
          (by
            show (r - total + 255) / 256 + 1 ≤ fuel ∨
              (j.iccptotal - (bgn + total) + 255) / 256 + 1 ≤ fuel
            omega)
        refine ⟨r', w', rm', st', mem', ?_, by rw [e2, m2], by omega, ?_⟩
        · rw [e1]
        · rw [e4]
          show List.drop (r - total - r') (w ++ st) = _
          rw [h2, List.drop_drop]
          congr 1
          omega

theorem readiccp_ok (r : Nat) (j : TJPGR) (mem : List Nat)
    (hend : j.endofinput = 0) (hmem : j.iccpmemory = some mem) (htot : j.iccptotal ≤ mem.length)
    (hlen : r ≤ (j.window ++ j.stream).length) :
    ∃ r' w rm st mem', readiccp j r
        = some (r', { j with window := w, room := rm, stream := st, iccpmemory := some mem' }) ∧
      mem'.length = mem.length ∧ r' ≤ r ∧ w ++ st = (j.window ++ j.stream).drop (r - r') :=
  readiccpLoop_ok _ r j.iccpappend j mem hend hmem htot hlen (Or.inl (by omega))

/-- The end of `parseAPP2` on a segment that is wholly in the input: the
function returns 1, the rest of the segment is consumed, and the profile is
spoilt, completed or left open according to the numbers of the segment. -/
theorem appendiccp_ok (j : TJPGR) (r s1 s2 : Nat) (mem : List Nat)
    (hend : j.endofinput = 0) (herr : j.error = 0) (hmem : j.iccpmemory = some mem)
    (htot : j.iccptotal ≤ mem.length) (hlen : r ≤ (j.window ++ j.stream).length) :
    ∃ j', appendiccp j r s1 s2 = some (true, j') ∧ j'.endofinput = 0 ∧ j'.error = 0 ∧
      j'.window ++ j'.stream = (j.window ++ j.stream).drop r ∧
      j'.iccps2 = j.iccps2 ∧ j'.iccptotal = j.iccptotal ∧
      (∃ mem', j'.iccpmemory = some mem' ∧ mem'.length = mem.length) ∧
      (if s2 ≠ j.iccps2 ∨ s1 ≠ j.iccps1 then
        j'.iccpmode = 2 ∧ j'.warnings = j.warnings ||| JPGR_BADICCP ∧
          j'.iccprofile = j.iccprofile ∧ j'.iccpsize = j.iccpsize
       else if s1 = s2 then
        j'.iccpmode = 2 ∧ j'.warnings = j.warnings ∧ j'.iccprofile = true ∧
          j'.iccpsize = j.iccptotal
       else
        j'.iccpmode = j.iccpmode ∧ j'.iccps1 = (j.iccps1 + 1) % 256 ∧
          j'.warnings = j.warnings ∧ j'.iccprofile = j.iccprofile ∧
          j'.iccpsize = j.iccpsize) := by
  have herr' : ¬ (j.error ≠ 0) := by simp [herr]
  have hd : decide (j.error = 0) = true := by simp [herr]
  unfold appendiccp
  by_cases hbad : s2 ≠ j.iccps2 ∨ s1 ≠ j.iccps1
  · simp only [if_pos hbad]
    obtain ⟨w, rm, st, h1, h2⟩ := skipbytes_ok j r hend hlen
    rw [h1]
    dsimp only
    rw [if_neg herr']
    exact ⟨_, rfl, hend, herr, h2, rfl, rfl, ⟨mem, hmem, rfl⟩, rfl, rfl, rfl, rfl⟩
  · simp only [if_neg hbad]
    obtain ⟨r', w, rm, st, mem', h1, h2, h3, h4⟩ := readiccp_ok r
      { j with iccps1 := (j.iccps1 + 1) % 256 } mem hend hmem htot hlen
    rw [h1]
    dsimp only
    rw [if_neg (by rintro ⟨_, h⟩; exact h herr)]
    have hl' : r' ≤ (w ++ st).length := by
      rw [h4, List.length_drop]
      show r' ≤ (j.window ++ j.stream).length - (r - r')
      omega
    have hdrop : List.drop r' (w ++ st) = List.drop r (j.window ++ j.stream) := by
      rw [h4]
      show List.drop r' (List.drop (r - r') (j.window ++ j.stream)) = _
      rw [List.drop_drop]
      congr 1
      omega
    by_cases hlast : s1 = s2
    · simp only [if_pos hlast, Option.isSome_some]
      by_cases hr : r' = 0
      · subst hr
        rw [if_neg (by simp)]
        exact ⟨_, rfl, hend, herr, h4, rfl, rfl, ⟨mem', rfl, h2⟩, rfl, rfl, rfl, rfl⟩
      · rw [if_pos hr]
        obtain ⟨w', rm', st', e1, e2⟩ := skipbytes_ok
          { j with iccps1 := (j.iccps1 + 1) % 256, window := w, room := rm, stream := st,
                   iccpmemory := some mem', iccprofile := true, iccpsize := j.iccptotal,
                   iccpmode := 2 } r' hend hl'
        rw [e1]
        dsimp only
        rw [hd]
        exact ⟨_, rfl, hend, herr, e2.trans hdrop, rfl, rfl, ⟨mem', rfl, h2⟩, rfl, rfl, rfl, rfl⟩
    · simp only [if_neg hlast]
      by_cases hr : r' = 0
      · subst hr
        rw [if_neg (by simp)]
        exact ⟨_, rfl, hend, herr, h4, rfl, rfl, ⟨mem', rfl, h2⟩, rfl, rfl, rfl, rfl, rfl⟩
      · rw [if_pos hr]
        obtain ⟨w', rm', st', e1, e2⟩ := skipbytes_ok
          { j with iccps1 := (j.iccps1 + 1) % 256, window := w, room := rm, stream := st,
                   iccpmemory := some mem' } r' hend hl'
        rw [e1]
        dsimp only
        rw [hd]
        exact ⟨_, rfl, hend, herr, e2.trans hdrop, rfl, rfl, ⟨mem', rfl, h2⟩, rfl, rfl, rfl, rfl,
          rfl⟩

theorem TOI16_split (n : Nat) : TOI16 (n / 256) (n % 256) = n := by
  unfold TOI16
  show (n / 256) <<< 8 ||| n % 256 = n
  have h := Nat.mul_add_lt_is_or (Nat.mod_lt n (by decide : 0 < 2 ^ 8)) (n / 256)
  rw [Nat.shiftLeft_eq, Nat.mul_comm, ← h]
  omega

/-- The start of `parseAPP2` on an ICC segment that is wholly in the input:
length and signature are consumed and the rest is left to `iccpchunk`. -/
theorem parseAPP2_prefix (j : TJPGR) (seq tot : Nat) (body rest : List Nat)
    (hend : j.endofinput = 0) (hlen : body.length ≤ 65519)
    (hL : j.window ++ j.stream = iccSegment seq tot body ++ rest) :
    ∃ w rm st, parseAPP2 j
        = iccpchunk { j with window := w, room := rm, stream := st } (body.length + 2) ∧
      w ++ st = seq :: tot :: (body ++ rest) := by
  have hL' : j.window ++ j.stream = (body.length + 16) / 256 :: (body.length + 16) % 256 ::
      (signature ++ (seq :: tot :: (body ++ rest))) := by
    rw [hL]
    simp [iccSegment]
  obtain ⟨w1, rm1, st1, h1, h2⟩ := jreadinput_ok j 2 hend (by decide) (by rw [hL']; simp)
  rw [hL'] at h1 h2
  simp only [List.take_succ_cons, List.take_zero, List.drop_succ_cons, List.drop_zero] at h1 h2
  unfold parseAPP2 read16
  rw [h1]
  dsimp only
  have g0 : [(body.length + 16) / 256, (body.length + 16) % 256].getD 0 0
      = (body.length + 16) / 256 := rfl
  have g1 : [(body.length + 16) / 256, (body.length + 16) % 256].getD 1 0
      = (body.length + 16) % 256 := rfl
  rw [g0, g1, TOI16_split]
  rw [if_neg (by omega)]
  have hr : (body.length + 16 + 2 ^ 64 - 2) % 2 ^ 64 = body.length + 14 := by omega
  rw [hr]
  unfold checkiccpsignature
  rw [if_neg (by omega)]
  obtain ⟨w2, rm2, st2, e1, e2, e3⟩ := ensurebytes_ok
    { j with window := w1, room := rm1, stream := st1 } 12 hend (by decide)
    (by
      show 12 ≤ (w1 ++ st1).length
      rw [h2]
      simp [signature])
  rw [e1]
  dsimp only
  have e2' : w2 ++ st2 = signature ++ (seq :: tot :: (body ++ rest)) := e2.trans h2
  have hsig : w2.take 12 = signature := by
    have := congrArg (List.take 12) e2'
    rw [List.take_append_of_le_length e3] at this
    rw [this]
    simp [signature]
  rw [hsig]
  simp only [decide_True]
  refine ⟨w2.drop 12, rm2, st2, ?_, ?_⟩
  · have : body.length + 14 - 12 = body.length + 2 := by omega
    rw [this]
    rfl
  · have := congrArg (List.drop 12) e2'
    rw [List.drop_append_of_le_length e3] at this
    rw [this]
    simp [signature]

/-- A header that `checkiccheader` accepts for one reader is accepted for
every reader, which it leaves as it is. -/
theorem jcheckiccheader_accepts (j j0 : TJPGR) (s : List Nat) (size : Nat)
    (h : (jcheckiccheader j0 s).map (fun r => r.1) = some size) (hs : size ≠ 0) :
    jcheckiccheader j s = some (size, j) ∧ 0x80 ≤ size := by
  unfold jcheckiccheader at h ⊢
  cases hb : rds s 0 [0, 1, 2, 3] with
  | none => simp [hb] at h
  | some b =>
    cases hd : alldiffer s 36 [0x61, 0x63, 0x73, 0x70] with
    | none => simp [hb, hd] at h
    | some d =>
      simp only [hb, hd, Option.bind_eq_bind, Option.some_bind] at h ⊢
      by_cases hdd : d = true
      · simp only [hdd, if_true, Option.pure_def, Option.map_some', Option.some.injEq] at h
        exact absurd h.symm hs
      · simp only [hdd, Bool.false_eq_true, if_false] at h ⊢
        split_ifs at h ⊢ with hc
        · simp only [Option.pure_def, Option.map_some', Option.some.injEq] at h
          exact absurd h.symm hs
        · simp only [Option.pure_def, Option.map_some', Option.some.injEq] at h
          subst h
          exact ⟨rfl, by omega⟩

/-- The part of `parseAPP2` after the signature, once the profile is complete
or spoilt: the segment is skipped. -/
theorem iccpchunk_done (j : TJPGR) (r : Nat) (hend : j.endofinput = 0) (herr : j.error = 0)
    (hmode : j.iccpmode = 2) (hlen : r ≤ (j.window ++ j.stream).length) :
    ∃ w rm st, iccpchunk j r = some (true, { j with window := w, room := rm, stream := st }) ∧
      w ++ st = (j.window ++ j.stream).drop r := by
  obtain ⟨w, rm, st, h1, h2⟩ := skipbytes_ok j r hend hlen
  refine ⟨w, rm, st, ?_, h2⟩
  unfold iccpchunk
  rw [if_pos hmode, h1]
  have hd : decide (j.error = 0) = true := by simp [herr]
  show some (decide (j.error = 0), _) = _
  rw [hd]

/-- The part of `parseAPP2` after the signature, for a segment that follows the
first one of a profile. -/
theorem iccpchunk_next (j : TJPGR) (r s1 s2 : Nat) (rest : List Nat) (hend : j.endofinput = 0)
    (hmode : j.iccpmode = 1) (hL : j.window ++ j.stream = s1 :: s2 :: rest) :
    ∃ w rm st, iccpchunk j r
        = appendiccp { j with window := w, room := rm, stream := st } (r - 2) s1 s2 ∧
      w ++ st = rest := by
  obtain ⟨w, rm, st, h1, h2⟩ := jreadinput_ok j 2 hend (by decide) (by rw [hL]; simp)
  rw [hL] at h1 h2
  simp only [List.take_succ_cons, List.take_zero, List.drop_succ_cons, List.drop_zero] at h1 h2
  refine ⟨w, rm, st, ?_, h2⟩
  unfold iccpchunk
  rw [if_neg (by omega), h1]
  dsimp only
  rw [if_neg (by omega)]
  rfl

/-- On a segment that opens with a header `checkiccheader` accepts,
`primeiccpchunk` returns 1 unless the profile memory has to grow and the
allocation fails: the header is consumed, the profile memory holds at least
the declared size and `iccptotal` is that size. -/
theorem primeiccpchunk_ok (j j0 : TJPGR) (r size : Nat) (hend : j.endofinput = 0)
    (hr : 0x80 ≤ r) (hlen : r ≤ (j.window ++ j.stream).length)
    (hm1 : ∀ mem, j.iccpmemory = some mem → mem.length = j.iccpsizePrvt)
    (hm2 : j.iccpmemory = none → j.iccpsizePrvt = 0)
    (hhdr : (jcheckiccheader j0 ((j.window ++ j.stream).take 0x80)).map (fun r => r.1)
      = some size)
    (hs : size ≠ 0) (halloc : ¬ (j.iccpsizePrvt < size ∧ j.nomemory = true)) :
    ∃ jp, primeiccpchunk j r = some (true, jp) ∧ jp.endofinput = 0 ∧ jp.error = j.error ∧
      jp.window ++ jp.stream = (j.window ++ j.stream).drop 0x80 ∧ jp.iccptotal = size ∧
      (∃ mem, jp.iccpmemory = some mem ∧ size ≤ mem.length) ∧
      jp.warnings = j.warnings ∧ jp.iccprofile = j.iccprofile ∧ jp.iccpsize = j.iccpsize := by
  obtain ⟨w, rm, st, h1, h2⟩ := jreadinput_ok j 0x80 hend (by decide) (by omega)
  have hsl : ((j.window ++ j.stream).take 0x80).length = 0x80 := by
    rw [List.length_take]; omega
  unfold primeiccpchunk
  rw [if_neg (by omega), h1]
  dsimp only
  obtain ⟨c1, c2⟩ := jcheckiccheader_accepts { j with window := w, room := rm, stream := st } j0
    _ size hhdr hs
  rw [c1]
  dsimp only
  rw [if_neg hs, if_neg halloc]
  by_cases hbig : size > j.iccpsizePrvt
  · rw [if_pos hbig]
    dsimp only
    have hl : ((j.iccpmemory.getD []).take size ++
        List.replicate (size - (j.iccpmemory.getD []).length) 0).length = size := by
      rw [List.length_append, List.length_take, List.length_replicate]
      omega
    obtain ⟨mem, m1, m2⟩ := wrs_ok ((j.window ++ j.stream).take 0x80) _ 0
      (by rw [hl, hsl]; omega)
    simp only [Option.some_bind, m1]
    exact ⟨_, rfl, hend, rfl, h2, rfl, ⟨mem, rfl, by rw [m2, hl]⟩, rfl, rfl, rfl⟩
  · rw [if_neg hbig]
    cases hmem : j.iccpmemory with
    | none =>
      have := hm2 hmem
      omega
    | some mem0 =>
      have hl0 := hm1 mem0 hmem
      obtain ⟨mem, m1, m2⟩ := wrs_ok ((j.window ++ j.stream).take 0x80) mem0 0
        (by rw [hsl]; omega)
      simp only [hmem, Option.some_bind, m1]
      exact ⟨_, rfl, hend, rfl, h2, rfl, ⟨mem, rfl, by rw [m2]; omega⟩, rfl, rfl, rfl⟩

/-- When the profile memory has to grow and the allocation fails,
`primeiccpchunk` returns 0 with the error `JPGR_EOOM`; the profile is not
touched. -/
theorem primeiccpchunk_oom (j j0 : TJPGR) (r size : Nat) (hend : j.endofinput = 0)
    (hr : 0x80 ≤ r) (hlen : r ≤ (j.window ++ j.stream).length)
    (hhdr : (jcheckiccheader j0 ((j.window ++ j.stream).take 0x80)).map (fun r => r.1)
      = some size)
    (hs : size ≠ 0) (halloc : j.iccpsizePrvt < size ∧ j.nomemory = true) :
    ∃ jp, primeiccpchunk j r = some (false, jp) ∧ jp.error = JPGR_EOOM ∧
      jp.warnings = j.warnings ∧ jp.iccprofile = j.iccprofile ∧ jp.iccpsize = j.iccpsize ∧
      jp.iccpmemory = j.iccpmemory := by
  obtain ⟨w, rm, st, h1, h2⟩ := jreadinput_ok j 0x80 hend (by decide) (by omega)
  unfold primeiccpchunk
  rw [if_neg (by omega), h1]
  dsimp only
  obtain ⟨c1, c2⟩ := jcheckiccheader_accepts { j with window := w, room := rm, stream := st } j0
    _ size hhdr hs
  rw [c1]
  dsimp only
  rw [if_neg hs, if_pos halloc]
  exact ⟨_, rfl, rfl, rfl, rfl, rfl, rfl⟩

/-- The part of `parseAPP2` after the signature, for the first segment of a
profile, with a header that `checkiccheader` accepts. -/
theorem iccpchunk_first (j j0 : TJPGR) (s1 s2 size : Nat) (body rest : List Nat)
    (hend : j.endofinput = 0) (hmode : j.iccpmode = 0)
    (hL : j.window ++ j.stream = s1 :: s2 :: (body ++ rest))
    (hb : 0x80 ≤ body.length)
    (hm1 : ∀ mem, j.iccpmemory = some mem → mem.length = j.iccpsizePrvt)
    (hm2 : j.iccpmemory = none → j.iccpsizePrvt = 0)
    (hhdr : (jcheckiccheader j0 (body.take 0x80)).map (fun r => r.1) = some size)
    (hs : size ≠ 0) (halloc : ¬ (j.iccpsizePrvt < size ∧ j.nomemory = true)) :
    ∃ jp : TJPGR, iccpchunk j (body.length + 2)
        = appendiccp { jp with iccps1 := s1, iccps2 := s2, iccpmode := 1 }
            (body.length - 0x80) s1 s2 ∧
      jp.endofinput = 0 ∧ jp.error = j.error ∧
      jp.window ++ jp.stream = (body ++ rest).drop 0x80 ∧ jp.iccptotal = size ∧
      (∃ mem, jp.iccpmemory = some mem ∧ size ≤ mem.length) ∧
      jp.warnings = j.warnings ∧ jp.iccprofile = j.iccprofile ∧ jp.iccpsize = j.iccpsize := by
  obtain ⟨w, rm, st, h1, h2⟩ := jreadinput_ok j 2 hend (by decide) (by rw [hL]; simp)
  rw [hL] at h1 h2
  simp only [List.take_succ_cons, List.take_zero, List.drop_succ_cons, List.drop_zero] at h1 h2
  have htake : (w ++ st).take 0x80 = body.take 0x80 := by
    rw [h2, List.take_append_of_le_length hb]
  obtain ⟨jp, p1, p2, p3, p4, p5, p6, p7, p8, p9⟩ := primeiccpchunk_ok
    { j with window := w, room := rm, stream := st } j0 body.length size hend hb
    (by
      show body.length ≤ (w ++ st).length
      rw [h2, List.length_append]; omega)
    hm1 hm2
    (by
      show (jcheckiccheader j0 ((w ++ st).take 0x80)).map (fun r => r.1) = some size
      rw [htake]; exact hhdr)
    hs halloc
  refine ⟨jp, ?_, p2, p3, ?_, p5, p6, p7, p8, p9⟩
  · unfold iccpchunk
    rw [if_neg (by omega), h1]
    dsimp only
    rw [if_pos hmode]
    have e : body.length + 2 - 2 = body.length := by omega
    rw [e, p1]
    rfl
  · rw [p4]
    show List.drop 0x80 (w ++ st) = _
    rw [h2]

/-- The part of `parseAPP2` after the signature, for the first segment of a
profile, when the allocation of the profile memory fails. -/
theorem iccpchunk_oom (j j0 : TJPGR) (s1 s2 size : Nat) (body rest : List Nat)
    (hend : j.endofinput = 0) (hmode : j.iccpmode = 0)
    (hL : j.window ++ j.stream = s1 :: s2 :: (body ++ rest))
    (hb : 0x80 ≤ body.length)
    (hhdr : (jcheckiccheader j0 (body.take 0x80)).map (fun r => r.1) = some size)
    (hs : size ≠ 0) (halloc : j.iccpsizePrvt < size ∧ j.nomemory = true) :
    ∃ jp : TJPGR, iccpchunk j (body.length + 2) = some (false, jp) ∧ jp.error = JPGR_EOOM ∧
      jp.warnings = j.warnings ∧ jp.iccprofile = j.iccprofile ∧ jp.iccpsize = j.iccpsize ∧
      jp.iccpmemory = j.iccpmemory := by
  obtain ⟨w, rm, st, h1, h2⟩ := jreadinput_ok j 2 hend (by decide) (by rw [hL]; simp)
  rw [hL] at h1 h2
  simp only [List.take_succ_cons, List.take_zero, List.drop_succ_cons, List.drop_zero] at h1 h2
  have htake : (w ++ st).take 0x80 = body.take 0x80 := by
    rw [h2, List.take_append_of_le_length hb]
  obtain ⟨jp, p1, p2, p3, p4, p5, p6⟩ := primeiccpchunk_oom
    { j with window := w, room := rm, stream := st } j0 body.length size hend hb
    (by
      show body.length ≤ (w ++ st).length
      rw [h2, List.length_append]; omega)
    (by
      show (jcheckiccheader j0 ((w ++ st).take 0x80)).map (fun r => r.1) = some size
      rw [htake]; exact hhdr)
    hs halloc
  refine ⟨jp, ?_, p2, p3, p4, p5, p6⟩
  unfold iccpchunk
  rw [if_neg (by omega), h1]
  dsimp only
  rw [if_pos hmode]
  have e : body.length + 2 - 2 = body.length := by omega
  rw [e, p1]
  dsimp only
  rw [if_pos (by rw [p2]; decide)]

theorem jcheckiccheader_size (j0 : TJPGR) (body : List Nat) (size : Nat)
    (hb : 0x80 ≤ body.length)
    (h : (jcheckiccheader j0 (body.take 0x80)).map (fun r => r.1) = some size) (hs : size ≠ 0) :
    size = TOI32 (body.getD 0 0) (body.getD 1 0) (body.getD 2 0) (body.getD 3 0) := by
  unfold jcheckiccheader at h
  have e : rds (body.take 0x80) 0 [0, 1, 2, 3]
      = some [body.getD 0 0, body.getD 1 0, body.getD 2 0, body.getD 3 0] := by
    have g : ∀ k, k < 4 → rd (body.take 0x80) (0 + k) = some (body.getD k 0) := by
      intro k hk
      unfold rd
      rw [List.getElem?_take_of_lt (by omega), Nat.zero_add, List.getD_eq_getElem?_getD,
        List.getElem?_eq_getElem (by omega)]
      rfl
    simp only [rds, g 0 (by omega), g 1 (by omega), g 2 (by omega), g 3 (by omega),
      Option.bind_eq_bind, Option.some_bind, Option.pure_def]
  rw [e] at h
  cases hd : alldiffer (body.take 0x80) 36 [0x61, 0x63, 0x73, 0x70] with
  | none => simp [hd] at h
  | some d =>
    simp only [hd, Option.bind_eq_bind, Option.some_bind] at h
    by_cases hdd : d = true
    · simp only [hdd, if_true, Option.pure_def, Option.map_some', Option.some.injEq] at h
      exact absurd h.symm hs
    · simp only [hdd, Bool.false_eq_true, if_false] at h
      split_ifs at h with hc
      · simp only [Option.pure_def, Option.map_some', Option.some.injEq] at h
        exact absurd h.symm hs
      · simp only [Option.pure_def, Option.map_some', Option.some.injEq] at h
        rw [← h]
        rfl

theorem iccSegment_length (seq tot : Nat) (body : List Nat) :
    (iccSegment seq tot body).length = body.length + 16 := by
  simp [iccSegment, signature]

/-- Function `parseAPP2` on an ICC segment, once the profile is complete or spoilt: the
segment is skipped and nothing else changes. -/
theorem parseAPP2_done (j : TJPGR) (seq tot : Nat) (body rest : List Nat)
    (hend : j.endofinput = 0) (herr : j.error = 0) (hmode : j.iccpmode = 2)
    (hlen : body.length ≤ 65519)
    (hL : j.window ++ j.stream = iccSegment seq tot body ++ rest) :
    ∃ w rm st, parseAPP2 j = some (true, { j with window := w, room := rm, stream := st }) ∧
      w ++ st = rest := by
  obtain ⟨w, rm, st, h1, h2⟩ := parseAPP2_prefix j seq tot body rest hend hlen hL
  obtain ⟨w', rm', st', e1, e2⟩ := iccpchunk_done
    { j with window := w, room := rm, stream := st } (body.length + 2) hend herr hmode
    (by
      show body.length + 2 ≤ (w ++ st).length
      rw [h2]
      simp only [List.length_cons, List.length_append]
      omega)
  refine ⟨w', rm', st', ?_, ?_⟩
  · rw [h1, e1]
  · rw [e2]
    show List.drop (body.length + 2) (w ++ st) = rest
    rw [h2]
    simp

/-- Function `parseAPP2` on a segment that follows the first one of a profile. -/
theorem parseAPP2_next (j : TJPGR) (seq tot : Nat) (body rest mem : List Nat)
    (hend : j.endofinput = 0) (herr : j.error = 0) (hmode : j.iccpmode = 1)
    (hmem : j.iccpmemory = some mem) (htot : j.iccptotal ≤ mem.length)
    (hlen : body.length ≤ 65519)
    (hL : j.window ++ j.stream = iccSegment seq tot body ++ rest) :
    ∃ j', parseAPP2 j = some (true, j') ∧ j'.endofinput = 0 ∧ j'.error = 0 ∧
      j'.window ++ j'.stream = rest ∧
      j'.iccps2 = j.iccps2 ∧ j'.iccptotal = j.iccptotal ∧
      (∃ mem', j'.iccpmemory = some mem' ∧ mem'.length = mem.length) ∧
      (if tot ≠ j.iccps2 ∨ seq ≠ j.iccps1 then
        j'.iccpmode = 2 ∧ j'.warnings = j.warnings ||| JPGR_BADICCP ∧
          j'.iccprofile = j.iccprofile ∧ j'.iccpsize = j.iccpsize
       else if seq = tot then
        j'.iccpmode = 2 ∧ j'.warnings = j.warnings ∧ j'.iccprofile = true ∧
          j'.iccpsize = j.iccptotal
       else
        j'.iccpmode = 1 ∧ j'.iccps1 = (j.iccps1 + 1) % 256 ∧
          j'.warnings = j.warnings ∧ j'.iccprofile = j.iccprofile ∧
          j'.iccpsize = j.iccpsize) := by
  obtain ⟨w, rm, st, h1, h2⟩ := parseAPP2_prefix j seq tot body rest hend hlen hL
  obtain ⟨w', rm', st', e1, e2⟩ := iccpchunk_next
    { j with window := w, room := rm, stream := st } (body.length + 2) seq tot (body ++ rest)
    hend hmode h2
  obtain ⟨j', a1, a2, a3, a4, a5, a6, a7, a8⟩ := appendiccp_ok
    { j with window := w', room := rm', stream := st' } (body.length + 2 - 2) seq tot mem
    hend herr hmem htot
    (by
      show body.length + 2 - 2 ≤ (w' ++ st').length
      rw [e2, List.length_append]
      omega)
  refine ⟨j', ?_, a2, a3, ?_, a5, a6, a7, ?_⟩
  · rw [h1, e1]
    exact a1
  · rw [a4]
    show List.drop (body.length + 2 - 2) (w' ++ st') = rest
    rw [e2]
    simp
  · rw [hmode] at a8
    exact a8

/-- Function `parseAPP2` on the first segment of a profile, with a header that
`checkiccheader` accepts. -/
theorem parseAPP2_first (j j0 : TJPGR) (seq tot size : Nat) (body rest : List Nat)
    (hend : j.endofinput = 0) (herr : j.error = 0) (hmode : j.iccpmode = 0)
    (hm1 : ∀ mem, j.iccpmemory = some mem → mem.length = j.iccpsizePrvt)
    (hm2 : j.iccpmemory = none → j.iccpsizePrvt = 0)
    (hlen : body.length ≤ 65519) (hb : 0x80 ≤ body.length)
    (hhdr : (jcheckiccheader j0 (body.take 0x80)).map (fun r => r.1) = some size)
    (hs : size ≠ 0) (halloc : ¬ (j.iccpsizePrvt < size ∧ j.nomemory = true))
    (hL : j.window ++ j.stream = iccSegment seq tot body ++ rest) :
    ∃ j', parseAPP2 j = some (true, j') ∧ j'.endofinput = 0 ∧ j'.error = 0 ∧
      j'.window ++ j'.stream = rest ∧
      j'.iccps2 = tot ∧ j'.iccptotal = size ∧
      (∃ mem', j'.iccpmemory = some mem' ∧ size ≤ mem'.length) ∧
      (if seq = tot then
        j'.iccpmode = 2 ∧ j'.warnings = j.warnings ∧ j'.iccprofile = true ∧ j'.iccpsize = size
       else
        j'.iccpmode = 1 ∧ j'.iccps1 = (seq + 1) % 256 ∧
          j'.warnings = j.warnings ∧ j'.iccprofile = j.iccprofile ∧
          j'.iccpsize = j.iccpsize) := by
  obtain ⟨w, rm, st, h1, h2⟩ := parseAPP2_prefix j seq tot body rest hend hlen hL
  obtain ⟨jp, p1, p2, p3, p4, p5, ⟨mem, p6, p6'⟩, p7, p8, p9⟩ := iccpchunk_first
    { j with window := w, room := rm, stream := st } j0 seq tot size body rest hend hmode h2 hb
    hm1 hm2 hhdr hs halloc
  obtain ⟨j', a1, a2, a3, a4, a5, a6, ⟨mem', a7, a7'⟩, a8⟩ := appendiccp_ok
    { jp with iccps1 := seq, iccps2 := tot, iccpmode := 1 } (body.length - 0x80) seq tot mem
    p2 (p3.trans herr) p6 (by show jp.iccptotal ≤ mem.length; omega)
    (by
      show body.length - 0x80 ≤ (jp.window ++ jp.stream).length
      rw [p4, List.length_drop, List.length_append]
      omega)
  refine ⟨j', ?_, a2, a3, ?_, a5, a6.trans p5, ⟨mem', a7, by omega⟩, ?_⟩
  · rw [h1, p1]
    exact a1
  · rw [a4]
    show List.drop (body.length - 0x80) (jp.window ++ jp.stream) = rest
    rw [p4, List.drop_drop]
    have : 0x80 + (body.length - 0x80) = body.length := by omega
    rw [this]
    simp
  · rw [if_neg (by
      show ¬ (tot ≠ tot ∨ seq ≠ seq)
      simp)] at a8
    by_cases hlast : seq = tot
    · rw [if_pos hlast] at a8 ⊢
      obtain ⟨b1, b2, b3, b4⟩ := a8
      exact ⟨b1, b2.trans p7, b3, b4.trans p5⟩
    · rw [if_neg hlast] at a8 ⊢
      obtain ⟨b1, b2, b3, b4, b5⟩ := a8
      exact ⟨b1, b2, b3.trans p7, b4.trans p8, b5.trans p9⟩

/-- Function `parseAPP2` on the first segment of a profile, when the allocation
of the profile memory fails: the function returns 0 with the error
`JPGR_EOOM`. -/
theorem parseAPP2_oom (j j0 : TJPGR) (seq tot size : Nat) (body rest : List Nat)
    (hend : j.endofinput = 0) (hmode : j.iccpmode = 0)
    (hlen : body.length ≤ 65519) (hb : 0x80 ≤ body.length)
    (hhdr : (jcheckiccheader j0 (body.take 0x80)).map (fun r => r.1) = some size)
    (hs : size ≠ 0) (halloc : j.iccpsizePrvt < size ∧ j.nomemory = true)
    (hL : j.window ++ j.stream = iccSegment seq tot body ++ rest) :
    ∃ j', parseAPP2 j = some (false, j') ∧ j'.error = JPGR_EOOM ∧
      j'.warnings = j.warnings ∧ j'.iccprofile = j.iccprofile ∧ j'.iccpsize = j.iccpsize ∧
      j'.iccpmemory = j.iccpmemory := by
  obtain ⟨w, rm, st, h1, h2⟩ := parseAPP2_prefix j seq tot body rest hend hlen hL
  obtain ⟨jp, p1, p2, p3, p4, p5, p6⟩ := iccpchunk_oom
    { j with window := w, room := rm, stream := st } j0 seq tot size body rest hend hmode h2 hb
    hhdr hs halloc
  exact ⟨jp, by rw [h1, p1], p2, p3, p4, p5, p6⟩

/-- Once the profile is complete or spoilt, further ICC segments change
neither the profile nor the warnings. -/
theorem parseAPP2s_done : ∀ (segs : List (Nat × Nat × List Nat)) (j : TJPGR) (tail : List Nat),
    j.endofinput = 0 → j.error = 0 → j.iccpmode = 2 →
    (∀ s ∈ segs, s.2.2.length ≤ 65519) →
    j.window ++ j.stream = iccStream segs ++ tail →
    ∃ j', parseAPP2s segs.length j = some (true, j') ∧ j'.window ++ j'.stream = tail ∧
      j'.iccprofile = j.iccprofile ∧ j'.iccpsize = j.iccpsize ∧ j'.warnings = j.warnings := by
  intro segs
  induction segs with
  | nil =>
    intro j tail _ _ _ _ hL
    exact ⟨j, rfl, by simpa [iccStream] using hL, rfl, rfl, rfl⟩
  | cons s segs ih =>
    intro j tail hend herr hmode hwf hL
    obtain ⟨seq, tot, body⟩ := s
    have hL' : j.window ++ j.stream = iccSegment seq tot body ++ (iccStream segs ++ tail) := by
      rw [hL, iccStream, List.append_assoc]
    obtain ⟨w, rm, st, h1, h2⟩ := parseAPP2_done j seq tot body _ hend herr hmode
      (hwf _ (List.mem_cons_self _ _)) hL'
    obtain ⟨j', e1, e2, e3, e4, e5⟩ := ih { j with window := w, room := rm, stream := st } tail
      hend herr hmode (fun s hs => hwf s (List.mem_cons_of_mem _ hs)) h2
    refine ⟨j', ?_, e2, e3, e4, e5⟩
    rw [List.length_cons, parseAPP2s, h1]
    exact e1

/-- An open profile and the segments that follow: the outcome is the one the
numbers of the segments give. -/
theorem parseAPP2s_open : ∀ (segs : List (Nat × Nat × List Nat)) (j : TJPGR)
    (mem tail : List Nat),
    j.endofinput = 0 → j.error = 0 → j.iccpmode = 1 →
    j.iccpmemory = some mem → j.iccptotal ≤ mem.length →
    (∀ s ∈ segs, s.2.2.length ≤ 65519) →
    j.window ++ j.stream = iccStream segs ++ tail →
    ∃ j', parseAPP2s segs.length j = some (true, j') ∧ j'.window ++ j'.stream = tail ∧
      (iccpOutcome j.iccps1 j.iccps2 segs = some false →
        j'.iccprofile = j.iccprofile ∧ j'.iccpsize = j.iccpsize ∧
          j'.warnings = j.warnings ||| JPGR_BADICCP) ∧
      (iccpOutcome j.iccps1 j.iccps2 segs = some true →
        j'.iccprofile = true ∧ j'.iccpsize = j.iccptotal ∧ j'.warnings = j.warnings) ∧
      (iccpOutcome j.iccps1 j.iccps2 segs = none →
        j'.iccprofile = j.iccprofile ∧ j'.iccpsize = j.iccpsize ∧
          j'.warnings = j.warnings) := by
  intro segs
  induction segs with
  | nil =>
    intro j mem tail _ _ _ _ _ _ hL
    refine ⟨j, rfl, by simpa [iccStream] using hL, ?_, ?_, ?_⟩
    · intro h; simp [iccpOutcome] at h
    · intro h; simp [iccpOutcome] at h
    · intro _; exact ⟨rfl, rfl, rfl⟩
  | cons s segs ih =>
    intro j mem tail hend herr hmode hmem htot hwf hL
    obtain ⟨seq, tot, body⟩ := s
    have hL' : j.window ++ j.stream = iccSegment seq tot body ++ (iccStream segs ++ tail) := by
      rw [hL, iccStream, List.append_assoc]
    obtain ⟨j1, h1, h2, h3, h4, h5, h6, ⟨mem1, h7, h7'⟩, h8⟩ := parseAPP2_next j seq tot body _ mem
      hend herr hmode hmem htot (hwf _ (List.mem_cons_self _ _)) hL'
    have hwf' : ∀ s ∈ segs, s.2.2.length ≤ 65519 := fun s hs => hwf s (List.mem_cons_of_mem _ hs)
    have hstep : parseAPP2s (List.length ((seq, tot, body) :: segs)) j
        = parseAPP2s segs.length j1 := by
      rw [List.length_cons, parseAPP2s, h1]
    rw [hstep]
    by_cases hbad : tot ≠ j.iccps2 ∨ seq ≠ j.iccps1
    · rw [if_pos hbad] at h8
      obtain ⟨b1, b2, b3, b4⟩ := h8
      obtain ⟨j', e1, e2, e3, e4, e5⟩ := parseAPP2s_done segs j1 tail h2 h3 b1 hwf' h4
      have ho : iccpOutcome j.iccps1 j.iccps2 ((seq, tot, body) :: segs) = some false := by
        rw [iccpOutcome, if_pos hbad]
      refine ⟨j', e1, e2, ?_, ?_, ?_⟩
      · intro _
        exact ⟨e3.trans b3, e4.trans b4, e5.trans b2⟩
      · intro h; rw [ho] at h; simp at h
      · intro h; rw [ho] at h; simp at h
    · rw [if_neg hbad] at h8
      by_cases hlast : seq = tot
      · rw [if_pos hlast] at h8
        obtain ⟨b1, b2, b3, b4⟩ := h8
        obtain ⟨j', e1, e2, e3, e4, e5⟩ := parseAPP2s_done segs j1 tail h2 h3 b1 hwf' h4
        have ho : iccpOutcome j.iccps1 j.iccps2 ((seq, tot, body) :: segs) = some true := by
          rw [iccpOutcome, if_neg hbad, if_pos hlast]
        refine ⟨j', e1, e2, ?_, ?_, ?_⟩
        · intro h; rw [ho] at h; simp at h
        · intro _
          exact ⟨e3.trans b3, e4.trans b4, e5.trans b2⟩
        · intro h; rw [ho] at h; simp at h
      · rw [if_neg hlast] at h8
        obtain ⟨b1, b2, b3, b4, b5⟩ := h8
        obtain ⟨j', e1, e2, e3, e4, e5⟩ := ih j1 mem1 tail h2 h3 b1 h7 (by omega) hwf' h4
        have ho : iccpOutcome j.iccps1 j.iccps2 ((seq, tot, body) :: segs)
            = iccpOutcome j1.iccps1 j1.iccps2 segs := by
          rw [iccpOutcome, if_neg hbad, if_neg hlast, b2, h5]
        rw [ho]
        refine ⟨j', e1, e2, ?_, ?_, ?_⟩
        · intro h
          obtain ⟨c1, c2, c3⟩ := e3 h
          exact ⟨c1.trans b4, c2.trans b5, by rw [c3, b3]⟩
        · intro h
          obtain ⟨c1, c2, c3⟩ := e4 h
          exact ⟨c1, c2.trans h6, c3.trans b3⟩
        · intro h
          obtain ⟨c1, c2, c3⟩ := e5 h
          exact ⟨c1.trans b4, c2.trans b5, c3.trans b3⟩

/-! ### `tograyscale` on `int16` samples -/

/-- The value `tograyscale` gives for each `int16` sample: the clamp of `v + 128`
up to 32639, and 0 above, where `v + 128` wraps to a negative `int16`. -/
theorem tograyscale_int16 (v : Int) (h0 : -32768 ≤ v) (h1 : v ≤ 32767) :
    (tograyscale v : Int) = if 32639 < v then 0 else min 255 (max 0 (v + 128)) := by
  unfold tograyscale toInt16 toUInt16
  simp only []
  split_ifs <;> omega

/-! ### The samples `inverseDCT` stores and their grayscale values -/

theorem shr17_range (x : Int) :
    -16384 ≤ toInt32 x >>> (17 : Nat) ∧ toInt32 x >>> (17 : Nat) ≤ 16383 := by
  rw [Int.shiftRight_eq_div_pow]
  unfold toInt32
  norm_num
  omega

theorem toInt16_shr17 (x : Int) :
    -16384 ≤ toInt16 (toInt32 x >>> (17 : Nat)) ∧ toInt16 (toInt32 x >>> (17 : Nat)) ≤ 16383 := by
  obtain ⟨h1, h2⟩ := shr17_range x
  generalize toInt32 x >>> (17 : Nat) = y at h1 h2
  unfold toInt16
  omega

theorem inverseDCTlast_range (l : TDCTStage) (k : Nat) (v : Int)
    (h : (inverseDCTlast l 65536 17)[k]? = some v) :
    -16384 ≤ toInt16 v ∧ toInt16 v ≤ 16383 := by
  have hm := List.getElem?_mem h
  simp only [inverseDCTlast, List.mem_cons, List.mem_singleton, List.not_mem_nil, or_false] at hm
  rcases hm with rfl | rfl | rfl | rfl | rfl | rfl | rfl | rfl <;> exact toInt16_shr17 _

theorem storecolumn_spec (P : Int → Prop) (out : List Int) (i : Nat)
    (hP : ∀ (k : Nat) (v : Int), out[k]? = some v → P (toInt16 v)) :
    ∀ (ks : List Nat) (rb rb' : List Int),
    ks.foldlM (fun rblock k => do let v ← rd out k; wr rblock (i + k * 8) (toInt16 v)) rb
      = some rb' →
    rb'.length = rb.length ∧ (∀ (j : Nat) (v : Int), rb'[j]? = some v → P v ∨ rb[j]? = some v) ∧
    (∀ k, k ∈ ks → ∃ v : Int, rb'[i + k * 8]? = some v ∧ P v) := by
  intro ks
  induction ks with
  | nil =>
    intro rb rb' h
    simp only [List.foldlM_nil, Option.pure_def, Option.some.injEq] at h
    subst h
    exact ⟨rfl, fun j v hv => Or.inr hv, fun k hk => absurd hk (List.not_mem_nil _)⟩
  | cons k ks ih =>
    intro rb rb' h
    rw [List.foldlM_cons] at h
    cases hb : rd out k with
    | none => simp [hb] at h
    | some v =>
      simp only [hb, Option.bind_eq_bind, Option.some_bind] at h
      by_cases hin : i + k * 8 < rb.length
      · have hw : wr rb (i + k * 8) (toInt16 v) = some (rb.set (i + k * 8) (toInt16 v)) := by
          simp [wr, hin]
        rw [hw, Option.some_bind] at h
        obtain ⟨c1, c2, c3⟩ := ih _ _ h
        have hlen : rb'.length = rb.length := by rw [c1, List.length_set]
        have hstep : ∀ (j : Nat) (w : Int), rb'[j]? = some w → P w ∨ rb[j]? = some w := by
          intro j w hw'
          rcases c2 j w hw' with hp | hp
          · exact Or.inl hp
          · by_cases hj : j = i + k * 8
            · subst hj
              rw [List.getElem?_set_self hin] at hp
              simp only [Option.some.injEq] at hp
              subst hp
              exact Or.inl (hP k v hb)
            · rw [List.getElem?_set_ne (fun e => hj e.symm)] at hp
              exact Or.inr hp
        refine ⟨hlen, hstep, ?_⟩
        intro k' hk'
        rcases List.mem_cons.1 hk' with rfl | hm
        · have hlt : i + k' * 8 < rb'.length := by omega
          refine ⟨rb'[i + k' * 8], List.getElem?_eq_getElem hlt, ?_⟩
          rcases c2 _ _ (List.getElem?_eq_getElem hlt) with hp | hp
          · exact hp
          · rw [List.getElem?_set_self hin] at hp
            simp only [Option.some.injEq] at hp
            rw [← hp]
            exact hP k' v hb
        · exact c3 k' hm
      · have hw : wr rb (i + k * 8) (toInt16 v) = none := by simp [wr, hin]
        rw [hw] at h
        simp at h

theorem inverseDCTpass2_spec (P : Int → Prop) (r : List Int)
    (hP : ∀ (l : TDCTStage) (k : Nat) (v : Int),
      (inverseDCTlast (inverseDCTstages l) 65536 17)[k]? = some v →
      P (toInt16 v)) :
    ∀ (cols : List Nat) (rb rb' : List Int),
    cols.foldlM (fun rblock i => (inverseDCTload r i).bind (fun l =>
      (List.range 8).foldlM (fun rblock k => do
        let v ← rd (inverseDCTlast (inverseDCTstages l) 65536 17) k;
        wr rblock (i + k * 8) (toInt16 v)) rblock)) rb = some rb' →
    rb'.length = rb.length ∧ (∀ (j : Nat) (v : Int), rb'[j]? = some v → P v ∨ rb[j]? = some v) ∧
    (∀ i k, i ∈ cols → k < 8 → ∃ v : Int, rb'[i + k * 8]? = some v ∧ P v) := by
  intro cols
  induction cols with
  | nil =>
    intro rb rb' h
    simp only [List.foldlM_nil, Option.pure_def, Option.some.injEq] at h
    subst h
    exact ⟨rfl, fun j v hv => Or.inr hv, fun i k hi => absurd hi (List.not_mem_nil _)⟩
  | cons i cols ih =>
    intro rb rb' h
    rw [List.foldlM_cons] at h
    cases hl : inverseDCTload r i with
    | none => simp [hl] at h
    | some l =>
      simp only [hl, Option.bind_eq_bind, Option.some_bind] at h
      cases hc : (List.range 8).foldlM (fun rblock k => do
          let v ← rd (inverseDCTlast (inverseDCTstages l) 65536 17) k;
          wr rblock (i + k * 8) (toInt16 v)) rb with
      | none =>
        simp only [Option.bind_eq_bind] at hc
        simp [hc] at h
      | some rb1 =>
        simp only [Option.bind_eq_bind] at hc
        simp only [hc, Option.some_bind] at h
        obtain ⟨a1, a2, a3⟩ := storecolumn_spec P _ i (hP l) _ _ _ hc
        obtain ⟨c1, c2, c3⟩ := ih _ _ h
        refine ⟨c1.trans a1, ?_, ?_⟩
        · intro j w hw
          rcases c2 j w hw with hp | hp
          · exact Or.inl hp
          · exact a2 j w hp
        · intro i' k hi' hk
          rcases List.mem_cons.1 hi' with rfl | hm
          · obtain ⟨v, q1, q2⟩ := a3 k (List.mem_range.2 hk)
            have hlt : i' + k * 8 < rb'.length := by
              have := (List.getElem?_eq_some_iff.1 q1).1
              omega
            refine ⟨rb'[i' + k * 8], List.getElem?_eq_getElem hlt, ?_⟩
            rcases c2 _ _ (List.getElem?_eq_getElem hlt) with hp | hp
            · exact hp
            · rw [q1] at hp
              simp only [Option.some.injEq] at hp
              rw [← hp]
              exact q2
          · exact c3 i' k hm hk

/-- Every sample `inverseDCT` stores lies between -16384 and 16383. -/
theorem inverseDCT_range (sblock rblock qtable out : List Int)
    (h : inverseDCT sblock rblock qtable = some out) (j : Nat) (hj : j < 64) :
    ∃ w, out[j]? = some w ∧ -16384 ≤ w ∧ w ≤ 16383 := by
  unfold inverseDCT at h
  obtain ⟨r, _, h2⟩ := Option.bind_eq_some.1 h
  unfold inverseDCTpass2 at h2
  obtain ⟨_, _, c3⟩ := inverseDCTpass2_spec (fun w => -16384 ≤ w ∧ w ≤ 16383) r
    (fun l k v hv => inverseDCTlast_range _ k v hv) _ _ _ h2
  have := c3 (j % 8) (j / 8) (List.mem_range.2 (Nat.mod_lt _ (by decide))) (by omega)
  have e : j % 8 + j / 8 * 8 = j := by omega
  rw [e] at this
  exact this

/-- Function `setrow1` stores the value of `tograyscale` for each of its eight
samples. -/
theorem setrow1_tograyscale (r1 : List Int) (ro : Nat) (row row' : List Nat) (o : Nat)
    (h : setrow1 r1 ro row o = some row') (i : Nat) (hi : i < 8) :
    ∃ v, r1[ro + i]? = some v ∧ row'[o + i]? = some (tograyscale v) := by
  have hfun : (fun (row : List Nat) (i : Nat) => do
        let v ← rd r1 (ro + i)
        let r := toInt16 (v + 128)
        let r := if toUInt16 r > 255 then (if r > 255 then 255 else 0) else r
        wr row (o + i) (r % 256).toNat)
      = (fun (pixels : List Nat) (k : Nat) => do
        let b ← rd ((r1.drop ro).map tograyscale) k
        wr pixels (o + k) b) := by
    funext row i
    simp only [rd, List.getElem?_map, List.getElem?_drop]
    cases r1[ro + i]? with
    | none => rfl
    | some v => rfl
  unfold setrow1 at h
  rw [hfun] at h
  have hb := copyidx_bounds _ o _ _ _ h
  obtain ⟨px', e1, _, e3⟩ := copyidx_spec ((r1.drop ro).map tograyscale) o (List.range 8) row hb
  rw [h] at e1
  simp only [Option.some.injEq] at e1
  subst e1
  have hlt := (hb i (List.mem_range.2 hi)).1
  rw [List.length_map, List.length_drop] at hlt
  have hv : r1[ro + i]? = some r1[ro + i] := List.getElem?_eq_getElem (by omega)
  refine ⟨_, hv, ?_⟩
  rw [e3 (o + i), if_pos ⟨by omega, by rw [Nat.add_sub_cancel_left]; exact List.mem_range.2 hi⟩,
    Nat.add_sub_cancel_left, List.getElem?_map, List.getElem?_drop, hv]
  rfl

/-! ### `extend` -/

theorem extend_mask (k : Nat) : ∃ n : Nat, (-1 : Int) <<< ((k : Int) + 1) + 1 = Int.negSucc n ∧
    Int.negSucc n = -(2 ^ (k + 1) - 1) := by
  have e2 : (-1 : Int) <<< ((k : Int) + 1) = -(2 ^ (k + 1)) := by
    have := Int.shiftLeft_eq_mul_pow (-1) (k + 1)
    push_cast at this
    rw [this]
    ring
  have h2 : 2 ≤ 2 ^ (k + 1) := by
    calc 2 = 2 ^ 1 := rfl
      _ ≤ 2 ^ (k + 1) := Nat.pow_le_pow_right (by norm_num) (by omega)
  have e : Int.negSucc (2 ^ (k + 1) - 2) = -(2 ^ (k + 1) - 1) := by
    rw [Int.negSucc_eq]
    push_cast [Nat.cast_sub h2]
    ring
  exact ⟨2 ^ (k + 1) - 2, by rw [e2, e]; ring, e⟩

theorem extend_shift (k : Nat) : (1 : Int) <<< ((k : Int) + 1 - 1) = 2 ^ k := by
  rw [add_sub_cancel_right, Int.one_shiftLeft]
  push_cast
  rfl

/-- A value with the top bit clear is negative: `extend` subtracts `2^size - 1`. -/
theorem extend_of_lt (k : Nat) (bits : Int) (h0 : 0 ≤ bits) (hk : k < 31)
    (hb : bits < 2 ^ k) :
    extend ((k : Int) + 1) bits = bits - (2 ^ (k + 1) - 1) := by
  unfold extend
  obtain ⟨n, hn, hn'⟩ := extend_mask k
  have hp : (2 : Int) ^ k ≤ 2 ^ 30 := pow_le_pow_right₀ (by norm_num) (by omega)
  have e3' : (bits - 2 ^ k) >>> (31 : Nat) = -1 := by
    rw [Int.shiftRight_eq_div_pow]
    have : (0 : Int) < 2 ^ k := by positivity
    norm_num at hp ⊢
    omega
  have e3 : (bits - 2 ^ k) >>> (31 : Nat) = Int.negSucc 0 := e3'
  rw [extend_shift, hn, e3]
  have e4 : Int.land (Int.negSucc 0) (Int.negSucc n) = Int.negSucc n := by
    show Int.negSucc (0 ||| n) = _
    rw [Nat.zero_or]
  rw [e4, hn']
  ring

/-- A value with the top bit set stands for itself. -/
theorem extend_of_ge (k : Nat) (bits : Int) (hk : k < 31)
    (hb : 2 ^ k ≤ bits) (hb' : bits < 2 ^ (k + 1)) :
    extend ((k : Int) + 1) bits = bits := by
  unfold extend
  obtain ⟨n, hn, _⟩ := extend_mask k
  have hp : (2 : Int) ^ (k + 1) ≤ 2 ^ 31 := pow_le_pow_right₀ (by norm_num) (by omega)
  have e3' : (bits - 2 ^ k) >>> (31 : Nat) = 0 := by
    rw [Int.shiftRight_eq_div_pow]
    have : (0 : Int) < 2 ^ k := by positivity
    have h3 : (2 : Int) ^ (k + 1) = 2 * 2 ^ k := by ring
    norm_num at hp ⊢
    omega
  have e3 : (bits - 2 ^ k) >>> (31 : Nat) = Int.ofNat 0 := e3'
  rw [extend_shift, hn, e3]
  have e4 : Int.land (Int.ofNat 0) (Int.negSucc n) = 0 := by
    show ((Nat.ldiff 0 n : Nat) : Int) = 0
    simp [Nat.ldiff]
  rw [e4, add_zero]

/-! ### The up-sample maps -/

/-- The index into `upscalemap` of a component whose size in units is 1, 2 or 4
in both directions: below 8 but for the size 4 x 4. -/
theorem umapindex_range (bsizey bsizex : Nat) (hy : bsizey = 1 ∨ bsizey = 2 ∨ bsizey = 4)
    (hx : bsizex = 1 ∨ bsizex = 2 ∨ bsizex = 4) :
    ∃ n, umapindex bsizey bsizex = some n ∧
      (n < upscalemap.length ↔ ¬ (bsizey = 4 ∧ bsizex = 4)) := by
  rcases hy with h | h | h <;> rcases hx with h' | h' | h' <;> subst h <;> subst h' <;>
    exact ⟨_, rfl, by decide⟩

/-! ### The public calls of the JPEG reader on an aborted reader -/

/-- The reader `TJPGR.init` is the one `jpgr_reset` leaves. -/
theorem reset_init (stream : List Nat) : jpgr_reset (TJPGR.init stream) = TJPGR.init [] := by
  rfl

theorem getstate_badstate (jpgr : TJPGR) (h : jpgr.state = JPGR_BADSTATE) :
    (jpgr_getstate jpgr).1 = JPGR_ABORTED := by
  unfold jpgr_getstate
  rw [h]
  rfl

theorem badstate_tests (jpgr : TJPGR) (h : jpgr.state = JPGR_BADSTATE) :
    jpgr.state ≠ 0 ∧ jpgr.state ^^^ 1 ≠ 0 ∧ jpgr.state ^^^ 3 ≠ 0 ∧ jpgr.state ≠ 2 ∧
      jpgr.state ≠ 3 ∧ jpgr.state ≠ 4 := by
  rw [h]
  decide

theorem initdecoder_badstate (d : TDecoders) (jpgr : TJPGR) (info : TImageInfo)
    (h : jpgr.state = JPGR_BADSTATE) :
    ∃ j, jpgr_initdecoder d jpgr info = some (false, j, info) ∧ j.state = JPGR_BADSTATE := by
  unfold jpgr_initdecoder
  rw [if_pos (badstate_tests jpgr h).1]
  exact ⟨_, rfl, rfl⟩

theorem setbuffers_badstate (assign : TJPGR → List TJPGComponent) (jpgr : TJPGR)
    (pixels : Option (List Nat)) (h : jpgr.state = JPGR_BADSTATE) :
    (jpgr_setbuffers assign jpgr pixels).state = JPGR_BADSTATE := by
  unfold jpgr_setbuffers
  rw [if_pos (badstate_tests jpgr h).2.1]

theorem decodeimg_badstate (d : TDecoders) (jpgr : TJPGR) (h : jpgr.state = JPGR_BADSTATE) :
    ∃ j, jpgr_decodeimg d jpgr = some (0, j) ∧ j.state = JPGR_BADSTATE := by
  unfold jpgr_decodeimg
  rw [if_pos (badstate_tests jpgr h).2.2.1, if_neg (badstate_tests jpgr h).2.2.2.1]
  exact ⟨_, rfl, rfl⟩

theorem decodepass_badstate (d : TDecoders) (jpgr : TJPGR) (update : Bool)
    (h : jpgr.state = JPGR_BADSTATE) :
    ∃ j, jpgr_decodepass d jpgr update = some (0, j) ∧ j.state = JPGR_BADSTATE := by
  unfold jpgr_decodepass
  rw [if_pos (badstate_tests jpgr h).2.2.1, if_neg (badstate_tests jpgr h).2.2.2.1]
  exact ⟨_, rfl, rfl⟩

theorem callupdateimg_state (d : TDecoders) (jpgr j : TJPGR) (h : callupdateimg d jpgr = some j) :
    j.state = jpgr.state ∧ j.error = jpgr.error ∧ j.warnings = jpgr.warnings := by
  unfold callupdateimg at h
  cases hu : d.updateimg jpgr with
  | none => rw [hu] at h; cases h
  | some r => rw [hu] at h; cases h; exact ⟨rfl, rfl, rfl⟩

theorem updateimg_badstate (d : TDecoders) (jpgr j : TJPGR) (h : jpgr.state = JPGR_BADSTATE)
    (hj : jpgr_updateimg d jpgr = some j) : j.state = JPGR_BADSTATE := by
  unfold jpgr_updateimg at hj
  split_ifs at hj
  · cases hj; exact h
  · cases hj; rfl
  · rw [(callupdateimg_state d jpgr j hj).1, h]

theorem updateimg_returns (d : TDecoders) (jpgr : TJPGR) :
    (jpgr_updateimg d jpgr).isSome = true ∨ d.updateimg jpgr = none := by
  unfold jpgr_updateimg
  split_ifs
  · exact Or.inl rfl
  · exact Or.inl rfl
  · unfold callupdateimg
    cases hu : d.updateimg jpgr with
    | none => exact Or.inr rfl
    | some r => exact Or.inl rfl

/-! ### `jpgr_decodeimg` and `jpgr_decodepass` -/

theorem qtablemissing_congr (j1 j2 : TJPGR) (hc : j1.components = j2.components)
    (hq : j1.qtables = j2.qtables) :
    ∀ n i, qtablemissing j1 n i = qtablemissing j2 n i := by
  intro n
  induction n with
  | zero => intro i; rfl
  | succ n ih =>
    intro i
    simp only [qtablemissing, hc, hq, ih]

/-- A call of `jpgr_decodeimg` in state 2 or 3 is the decoding in state 3. -/
theorem decodeimg_enter (d : TDecoders) (jpgr : TJPGR) (h : jpgr.state = 2 ∨ jpgr.state = 3) :
    jpgr_decodeimg d jpgr = decodeimgScans d { jpgr with state := 3 } := by
  unfold jpgr_decodeimg
  rcases h with h | h
  · have e : jpgr.state + 1 = 3 := by rw [h]
    have t1 : jpgr.state ^^^ 3 ≠ 0 := by rw [h]; decide
    rw [if_pos t1, if_pos h, e]
  · have t1 : ¬ (jpgr.state ^^^ 3 ≠ 0) := by rw [h]; decide
    rw [if_neg t1]
    congr 1
    cases jpgr
    cases h
    rfl

/-- A call of `jpgr_decodepass` in state 3 is the decoding of the pass. -/
theorem decodepass_enter (d : TDecoders) (jpgr : TJPGR) (update : Bool) (h : jpgr.state = 3) :
    jpgr_decodepass d jpgr update = decodepassScan d jpgr update := by
  unfold jpgr_decodepass
  have t1 : ¬ (jpgr.state ^^^ 3 ≠ 0) := by rw [h]; decide
  rw [if_neg t1]

/-- A baseline image with a quantization table missing: the decoding returns 0
with the error set and the state as it was. -/
theorem decodeimg_noqtable (d : TDecoders) (jpgr : TJPGR)
    (hp : jpgr.header.isprogressive = 0)
    (hq : qtablemissing jpgr jpgr.scan.ncomponents 0 = some true) :
    decodeimgScans d jpgr = some (0, { jpgr with error := JPGR_ENOQTTABLE }) := by
  have t2 : ¬ (jpgr.header.isprogressive ≠ 0) := by rw [hp]; decide
  unfold decodeimgScans
  rw [if_neg t2, hq]

/-- A pass at the limit of the pass count: `jpgr_decodepass` returns 0 with
`JPGR_EPASSLIMIT` and does not touch the state. -/
theorem decodepass_passlimit (d : TDecoders) (jpgr j1 j2 : TJPGR)
    (hn : jpgr.scan.npass ≠ 0)
    (hss : jpgr.scan.ss = 0) (hse : jpgr.scan.se = 0) (hah : jpgr.scan.ah = 0)
    (hd : d.readfirstDC jpgr = some (true, j1))
    (hs : d.parsesegments j1 = some (true, j2)) (h4 : j2.state ≠ 4)
    (hl : j2.scan.npass = JPGR_MAXPASSES) :
    decodepassScan d jpgr false = some (0,
      { j2 with scan := { j2.scan with npass := JPGR_MAXPASSES + 1 }, error := JPGR_EPASSLIMIT }) := by
  have t2 : ¬ (jpgr.scan.se ≠ 0) := by rw [hse]; decide
  have t3 : ¬ ((false : Bool) = true) := by decide
  unfold decodepassScan
  dsimp only
  rw [if_neg hn, if_pos hss, if_neg t2, if_pos hah, hd]
  dsimp only
  rw [if_neg t3]
  dsimp only
  rw [hs]
  dsimp only
  rw [if_neg h4, hl]
  rfl

/-- A progressive image whose pass count is at the limit: the next pass makes
the decoding return 0 with `JPGR_EPASSLIMIT` and the state of the pass. -/
theorem decodeimg_passlimit (d : TDecoders) (jpgr j1 j2 : TJPGR) (h3 : jpgr.state = 3)
    (hp : jpgr.header.isprogressive ≠ 0) (hn : jpgr.scan.npass ≠ 0)
    (hss : jpgr.scan.ss = 0) (hse : jpgr.scan.se = 0) (hah : jpgr.scan.ah = 0)
    (hd : d.readfirstDC jpgr = some (true, j1))
    (hs : d.parsesegments j1 = some (true, j2)) (h4 : j2.state ≠ 4)
    (hl : j2.scan.npass = JPGR_MAXPASSES) :
    decodeimgScans d jpgr = some (0,
      { j2 with scan := { j2.scan with npass := JPGR_MAXPASSES + 1 }, error := JPGR_EPASSLIMIT }) := by
  have p := decodepass_passlimit d jpgr j1 j2 hn hss hse hah hd hs h4 hl
  rw [← decodepass_enter d jpgr false h3] at p
  unfold decodeimgScans
  rw [if_pos hp]
  have l : decodepassLoop d (JPGR_MAXPASSES + 2) jpgr = some
      { j2 with scan := { j2.scan with npass := JPGR_MAXPASSES + 1 }, error := JPGR_EPASSLIMIT } := by
    show decodepassLoop d (101 + 1) jpgr = _
    rw [decodepassLoop, p]
    rfl
  rw [l]
  rfl

/-- An interleaved baseline scan whose decoder returns 0: the decoding sets
the state and leaves the error as the decoder left it. -/
theorem decodeimg_baseline_fails (d : TDecoders) (jpgr j1 : TJPGR)
    (hp : jpgr.header.isprogressive = 0)
    (hq : qtablemissing jpgr jpgr.scan.ncomponents 0 = some false)
    (hi : jpgr.scan.isinterleaved ≠ 0)
    (hd : d.decodebaseline jpgr = some (false, j1)) :
    decodeimgScans d jpgr = some (0, { j1 with state := JPGR_BADSTATE }) := by
  have t2 : ¬ (jpgr.header.isprogressive ≠ 0) := by rw [hp]; decide
  unfold decodeimgScans
  rw [if_neg t2, hq]
  dsimp only
  rw [if_neg hi, hd]

/-- An interleaved baseline scan that decodes and is followed by the end of the
image: the decoding returns 1 with state 4. -/
theorem decodeimg_baseline_ok (d : TDecoders) (jpgr j1 j2 : TJPGR)
    (hp : jpgr.header.isprogressive = 0)
    (hq : qtablemissing jpgr jpgr.scan.ncomponents 0 = some false)
    (hi : jpgr.scan.isinterleaved ≠ 0)
    (hd : d.decodebaseline jpgr = some (true, j1))
    (hs : d.parsesegments j1 = some (true, j2)) :
    decodeimgScans d jpgr = some (1, { j2 with state := 4 }) := by
  have t2 : ¬ (jpgr.header.isprogressive ≠ 0) := by rw [hp]; decide
  unfold decodeimgScans
  rw [if_neg t2, hq]
  dsimp only
  rw [if_neg hi, hd]
  dsimp only
  rw [hs]

theorem state_three_eq (jpgr : TJPGR) (h : jpgr.state = 3) : { jpgr with state := 3 } = jpgr := by
  cases jpgr
  cases h
  rfl

/-! ### The input callback -/

/-- With the callback that stores all it is asked for, `readmoreWith` is
`readmore`. -/
theorem readmoreWith_fullread (jpgr : TJPGR) (avaible amount : Nat) :
    readmoreWith fullread jpgr avaible amount = readmore jpgr avaible amount := by
  unfold readmoreWith readmore fullread
  dsimp only
  by_cases he : jpgr.endofinput ≠ 0
  · rw [if_pos he, if_pos he]
  · rw [if_neg he, if_neg he]
    by_cases hr : min (if jpgr.room + avaible < amount then BUFFERSIZE - avaible else jpgr.room)
        jpgr.stream.length > 0
    · have hr' : ((min (if jpgr.room + avaible < amount then BUFFERSIZE - avaible else jpgr.room)
          jpgr.stream.length : Nat) : Int) > 0 := by exact_mod_cast hr
      rw [if_pos hr, if_pos hr', Int.toNat_ofNat]
    · have hr' : ¬ ((min (if jpgr.room + avaible < amount then BUFFERSIZE - avaible else jpgr.room)
          jpgr.stream.length : Nat) : Int) > 0 := by
        intro h
        exact hr (by exact_mod_cast h)
      have h0 : ¬ ((min (if jpgr.room + avaible < amount then BUFFERSIZE - avaible else jpgr.room)
          jpgr.stream.length : Nat) : Int) ≠ 0 := by
        intro h
        apply hr
        have : (min (if jpgr.room + avaible < amount then BUFFERSIZE - avaible else jpgr.room)
          jpgr.stream.length : Nat) ≠ 0 := by exact_mod_cast h
        omega
      rw [if_neg hr, if_neg hr', if_neg h0]

theorem ensurebytesWith_fullread (jpgr : TJPGR) (amount : Nat) :
    ensurebytesWith fullread jpgr amount = ensurebytes jpgr amount := by
  unfold ensurebytesWith ensurebytes
  dsimp only
  rw [readmoreWith_fullread]

theorem bytewise_obeys : ObeysContract bytewise := by
  intro stream size hs
  unfold bytewise
  split_ifs with h
  · refine ⟨le_refl _, by exact_mod_cast Nat.zero_le _, by exact_mod_cast Nat.zero_le _, ?_⟩
    intro _
    rcases h with h | h
    · exact List.length_eq_zero.1 h
    · omega
  · refine ⟨by decide, by exact_mod_cast hs, ?_, fun h1 => absurd h1 (by decide)⟩
    have : 1 ≤ stream.length := by omega
    exact_mod_cast this

/-- A callback that obeys its contract and stores fewer bytes than are missing
makes `ensurebytes` fail, whatever the input still holds. -/
theorem ensurebytesWith_short (inputfn : List Nat → Nat → Int) (jpgr : TJPGR) (amount : Nat)
    (he : jpgr.endofinput = 0)
    (hpos : 0 < inputfn jpgr.stream
      (if jpgr.room + jpgr.window.length < amount then BUFFERSIZE - jpgr.window.length
       else jpgr.room))
    (hshort : jpgr.window.length + (inputfn jpgr.stream
      (if jpgr.room + jpgr.window.length < amount then BUFFERSIZE - jpgr.window.length
       else jpgr.room)).toNat < amount) :
    (ensurebytesWith inputfn jpgr amount).1 = false ∧
    (ensurebytesWith inputfn jpgr amount).2.endofinput = 0 ∧
    (ensurebytesWith inputfn jpgr amount).2.error = jpgr.error := by
  have hav : jpgr.window.length < amount := by omega
  unfold ensurebytesWith readmoreWith
  dsimp only
  rw [if_pos hav, if_neg (by rw [he]; decide), if_pos hpos]
  dsimp only
  exact ⟨by simp only [decide_eq_false_iff_not]; omega, he, rfl⟩

/-! ### The restart interval -/

theorem readmore_scan (j : TJPGR) (a n : Nat) :
    (readmore j a n).2.scan = j.scan ∧ (readmore j a n).2.components = j.components := by
  unfold readmore
  dsimp only
  split_ifs <;> exact ⟨rfl, rfl⟩

theorem ensurebytes_scan (j : TJPGR) (n : Nat) :
    (ensurebytes j n).2.scan = j.scan ∧ (ensurebytes j n).2.components = j.components := by
  unfold ensurebytes
  dsimp only
  split_ifs
  · exact readmore_scan j _ n
  · exact ⟨rfl, rfl⟩

theorem jreadinput_scan (j : TJPGR) (n : Nat) :
    (jreadinput j n).2.scan = j.scan ∧ (jreadinput j n).2.components = j.components := by
  unfold jreadinput
  have h := ensurebytes_scan j n
  cases he : ensurebytes j n with
  | mk b j1 =>
    rw [he] at h
    cases b
    · exact h
    · exact h

theorem readmarkerLoop_scan : ∀ (fuel : Nat) (j : TJPGR) (m : Nat) (j' : TJPGR),
    readmarkerLoop fuel j = some (m, j') → j'.scan = j.scan ∧ j'.components = j.components := by
  intro fuel
  induction fuel with
  | zero =>
    intro j m j' h
    simp [readmarkerLoop] at h
  | succ fuel ih =>
    intro j m j' h
    rw [readmarkerLoop] at h
    have hs := jreadinput_scan j 1
    cases hr : jreadinput j 1 with
    | mk s j1 =>
      rw [hr] at h hs
      cases s with
      | none =>
        simp only [Option.some.injEq, Prod.mk.injEq] at h
        rw [← h.2]
        exact hs
      | some s =>
        simp only at h
        split_ifs at h
        · obtain ⟨a, b⟩ := ih j1 m j' h
          exact ⟨a.trans hs.1, b.trans hs.2⟩
        · simp only [Option.some.injEq, Prod.mk.injEq] at h
          rw [← h.2]
          exact hs

theorem readmarker_scan (j : TJPGR) (m : Nat) (j' : TJPGR) (h : readmarker j = some (m, j')) :
    j'.scan = j.scan ∧ j'.components = j.components := by
  unfold readmarker at h
  have hs := jreadinput_scan j 1
  cases hr : jreadinput j 1 with
  | mk s j1 =>
    rw [hr] at h hs
    cases s with
    | none =>
      simp only [Option.some.injEq, Prod.mk.injEq] at h
      rw [← h.2]
      exact hs
    | some s =>
      simp only at h
      split_ifs at h
      · obtain ⟨a, b⟩ := readmarkerLoop_scan _ j1 m j' h
        exact ⟨a.trans hs.1, b.trans hs.2⟩
      · simp only [Option.some.injEq, Prod.mk.injEq] at h
        rw [← h.2]
        exact hs

theorem fecthbitsFast_scan : ∀ (n index : Nat) (j : TJPGR) (b : Bool) (i : Nat) (j' : TJPGR),
    fecthbitsFast n index j = some (b, i, j') →
      j'.scan = j.scan ∧ j'.components = j.components := by
  intro n
  induction n with
  | zero =>
    intro index j b i j' h
    simp only [fecthbitsFast, Option.some.injEq, Prod.mk.injEq] at h
    rw [← h.2.2]
    exact ⟨rfl, rfl⟩
  | succ n ih =>
    intro index j b i j' h
    rw [fecthbitsFast] at h
    cases h0 : rd j.window 0 with
    | none => simp [h0] at h
    | some b0 =>
      cases h1 : rd j.window 1 with
      | none => simp [h0, h1] at h
      | some b1 =>
        simp only [h0, h1, Option.bind_eq_bind, Option.some_bind] at h
        split_ifs at h
        · simp only [Option.some.injEq, Prod.mk.injEq] at h
          rw [← h.2.2]
          exact ⟨rfl, rfl⟩
        · cases hw : wr j.bits.bb index (b0 <<< 8 ||| b1) with
          | none => simp [hw] at h
          | some bb =>
            simp only [hw, Option.some_bind] at h
            have := ih _ _ b i j' h
            exact this

theorem takebyte_scan (j : TJPGR) (m s r m' s' r' : Nat) (j' : TJPGR)
    (h : takebyte j m s r = some (m', s', r', j')) :
    j'.scan = j.scan ∧ j'.components = j.components := by
  unfold takebyte at h
  cases h1 : rd j.window 1 <;> simp only [h1] at h <;> split_ifs at h <;>
    (simp only [Option.some.injEq, Prod.mk.injEq] at h; rw [← h.2.2.2]; exact ⟨rfl, rfl⟩)

theorem fecthbitsSlow_scan : ∀ (fuel index k s r buffer : Nat) (j : TJPGR) (r' : Nat) (j' : TJPGR),
    fecthbitsSlow fuel index k s r buffer j = some (r', j') →
      j'.scan = j.scan ∧ j'.components = j.components := by
  intro fuel
  induction fuel with
  | zero =>
    intro index k s r buffer j r' j' h
    simp [fecthbitsSlow] at h
  | succ fuel ih =>
    intro index k s r buffer j r' j' h
    rw [fecthbitsSlow] at h
    by_cases hi : index < BPREFETCHBZ
    · rw [if_pos hi] at h
      cases hn : nextbyte j s with
      | none =>
        simp only [hn] at h
        obtain ⟨a, b⟩ := ih _ _ _ _ _ _ r' j' h
        have := readmore_scan j j.window.length (4 * BUFFERBYTES)
        exact ⟨a.trans this.1, b.trans this.2⟩
      | some ms =>
        obtain ⟨m, s1⟩ := ms
        simp only [hn] at h
        cases ht : takebyte j m s1 r with
        | none => simp [ht] at h
        | some res =>
          obtain ⟨m2, s2, r2, j2⟩ := res
          have hj2 := takebyte_scan j m s1 r m2 s2 r2 j2 ht
          simp only [ht] at h
          by_cases hk : k + 8 = 16
          · rw [if_pos hk] at h
            cases hw : wr j2.bits.bb index ((m2 ||| buffer <<< 8) % 65536) with
            | none => simp [hw] at h
            | some bb =>
              simp only [hw] at h
              have := ih _ _ _ _ _ _ r' j' h
              exact ⟨this.1.trans hj2.1, this.2.trans hj2.2⟩
          · rw [if_neg hk] at h
            have := ih _ _ _ _ _ _ r' j' h
            exact ⟨this.1.trans hj2.1, this.2.trans hj2.2⟩
    · rw [if_neg hi] at h
      simp only [Option.some.injEq, Prod.mk.injEq] at h
      rw [← h.2]
      exact ⟨rfl, rfl⟩

theorem fecthbits_scan (j j' : TJPGR) (h : fecthbits j = some j') :
    j'.scan = j.scan ∧ j'.components = j.components := by
  unfold fecthbits at h
  have slow : ∀ (index : Nat) (j1 : TJPGR),
      (fecthbitsSlow 256 index 0 0 0 0 j1).map (fun r =>
        { r.2 with bits := { r.2.bits with
            bbcread := r.2.bits.bbcread + ((r.1 <<< 3 : Nat) : Int) } }) = some j' →
      j'.scan = j1.scan ∧ j'.components = j1.components := by
    intro index j1 hh
    cases hs : fecthbitsSlow 256 index 0 0 0 0 j1 with
    | none => simp [hs] at hh
    | some res =>
      obtain ⟨r, j2⟩ := res
      have := fecthbitsSlow_scan _ _ _ _ _ _ j1 r j2 hs
      simp only [hs, Option.map_some', Option.some.injEq] at hh
      rw [← hh]
      exact this
  dsimp only at h
  split_ifs at h
  · simp only [Option.some.injEq] at h; rw [← h]; exact ⟨rfl, rfl⟩
  · simp only [Option.some.injEq] at h; rw [← h]; exact ⟨rfl, rfl⟩
  · cases hf : fecthbitsFast BPREFETCHBZ 0
        { j with bits := { j.bits with bindex := 0 } } with
    | none => simp [hf] at h
    | some res =>
      obtain ⟨b, i, j1⟩ := res
      have hj1 := fecthbitsFast_scan _ _ _ b i j1 hf
      simp only [hf] at h
      cases b with
      | true =>
        simp only [Option.some.injEq] at h
        rw [← h]
        exact hj1
      | false =>
        simp only at h
        have := slow i j1 h
        exact ⟨this.1.trans hj1.1, this.2.trans hj1.2⟩
  · have := slow 0 { j with bits := { j.bits with bindex := 0 } } h
    exact this

theorem initbitmode_scan (j j' : TJPGR) (h : initbitmode j = some j') :
    j'.scan = j.scan ∧ j'.components = j.components := by
  unfold initbitmode at h
  have := fecthbits_scan _ j' h
  exact this

theorem checkinterval_scan (j j' : TJPGR) (h : checkinterval j = some (true, j')) :
    j'.scan = j.scan ∧
    j'.components = (j.components.take j.scan.ncomponents).map (fun c => { c with cofficient := 0 })
      ++ j.components.drop j.scan.ncomponents := by
  unfold checkinterval at h
  by_cases ho : overread j = true
  · rw [if_pos ho] at h
    simp at h
  · rw [if_neg ho] at h
    cases hm : readmarker j with
    | none => simp [hm] at h
    | some res =>
      obtain ⟨m, j1⟩ := res
      obtain ⟨a, b⟩ := readmarker_scan j m j1 hm
      simp only [hm] at h
      by_cases hx : m >>> 8 ≠ 0xff
      · rw [if_pos hx] at h
        simp at h
      · rw [if_neg hx] at h
        simp only [Option.some.injEq, Prod.mk.injEq, true_and] at h
        rw [← h]
        dsimp only
        rw [a, b]
        exact ⟨rfl, rfl⟩

/-! ### The samples a pass visits lie inside the image -/

theorem passLoop_inside (pngr : TPNGR) (info : TPassInfo) (y stepx : Nat) (rowp : List Nat)
    (paint : List Nat → Nat → Nat → List Nat → Option (List Nat))
    (hy : y < pngr.sizey) (hstep : stepx = info.stepx * pngr.pelsize) :
    ∀ (fuel x ro off : Nat) (px : List Nat) (v : List (Nat × Nat × Nat))
      (px' : List Nat) (v' : List (Nat × Nat × Nat)),
    off = y * pngr.rowsize + x * pngr.pelsize →
    passLoop pngr info y stepx rowp paint fuel x ro off px v = some (px', v') →
    ∀ e ∈ v', e ∈ v ∨
      (e.1 < pngr.sizex ∧ e.2.1 < pngr.sizey ∧ e.2.2 = e.2.1 * pngr.rowsize + e.1 * pngr.pelsize) := by
  intro fuel
  induction fuel with
  | zero =>
    intro x ro off px v px' v' _ h
    simp [passLoop] at h
  | succ fuel ih =>
    intro x ro off px v px' v' hoff h
    rw [passLoop] at h
    by_cases hx : x < pngr.sizex
    · rw [if_pos hx] at h
      cases hp : paint px x off (rowp.drop ro) with
      | none => simp [hp] at h
      | some px1 =>
        simp only [hp] at h
        intro e he
        have e1 : (x + info.stepx) * pngr.pelsize = x * pngr.pelsize + info.stepx * pngr.pelsize := by
          ring
        rcases ih (x + info.stepx) (ro + pngr.rawpelsize) (off + stepx) px1
          (v ++ [(x, y, off)]) px' v' (by rw [hoff, hstep, e1]; omega) h e he with h1 | h1
        · rcases List.mem_append.1 h1 with h2 | h2
          · exact Or.inl h2
          · rw [List.mem_singleton] at h2
            subst h2
            exact Or.inr ⟨hx, hy, hoff⟩
        · exact Or.inr h1
    · rw [if_neg hx] at h
      simp only [Option.some.injEq, Prod.mk.injEq] at h
      intro e he
      rw [← h.2] at he
      exact Or.inl he

theorem passrow_inside (pngr : TPNGR) (info : TPassInfo) (i y stepx pel idx : Nat)
    (rowp : List Nat) (b b' : TPNGRBuffers)
    (hy : y < pngr.sizey) (hstep : stepx = info.stepx * pngr.pelsize)
    (hpel : pel = y * pngr.rowsize + info.originx * pngr.pelsize)
    (h : passrow pngr info i y stepx pel idx rowp b = some b') :
    b'.pixels.isSome = b.pixels.isSome ∧
    ∀ e ∈ b'.visited, e ∈ b.visited ∨
      (e.1 < pngr.sizex ∧ e.2.1 < pngr.sizey ∧ e.2.2 = e.2.1 * pngr.rowsize + e.1 * pngr.pelsize) := by
  have fin : ∀ (pixels : Option (List Nat)) (visited : List (Nat × Nat × Nat)),
      (match (match b.idxs with
          | none => some none
          | some idxs =>
            (idxLoop pngr info rowp (pngr.sizex + 1) info.originx 0 idx idxs).map some :
            Option (Option (List Nat))) with
        | none => none
        | some idxs => some { b with pixels := pixels, idxs := idxs, visited := visited }) = some b' →
      b'.pixels = pixels ∧ b'.visited = visited := by
    intro pixels visited hh
    cases hi : b.idxs with
    | none =>
      simp only [hi, Option.some.injEq] at hh
      subst hh
      exact ⟨rfl, rfl⟩
    | some idxs =>
      simp only [hi] at hh
      cases hx : idxLoop pngr info rowp (pngr.sizex + 1) info.originx 0 idx idxs with
      | none => simp [hx] at hh
      | some idxs' =>
        simp only [hx, Option.map_some', Option.some.injEq] at hh
        subst hh
        exact ⟨rfl, rfl⟩
  cases hpx : b.pixels with
  | none =>
    simp only [passrow, hpx] at h
    obtain ⟨a1, a2⟩ := fin _ _ h
    refine ⟨by rw [a1], ?_⟩
    intro e he
    rw [a2] at he
    exact Or.inl he
  | some px =>
    simp only [passrow, hpx] at h
    generalize hpaint : (if b.interpolate ≠ 0 then
        fun pixels x offsetx row => fillpixel pngr i x y pixels offsetx row
      else fun pixels _ offsetx row => passpixel pngr pixels offsetx row) = paint at h
    cases hl : passLoop pngr info y stepx rowp paint (pngr.sizex + 1) info.originx 0 pel px
        b.visited with
    | none => simp [hl] at h
    | some r =>
      obtain ⟨px1, v1⟩ := r
      have hv := passLoop_inside pngr info y stepx rowp paint hy hstep _ _ _ _ _ _ _ _ hpel hl
      simp only [hl, Option.map_some'] at h
      obtain ⟨a1, a2⟩ := fin _ _ h
      refine ⟨by rw [a1]; rfl, ?_⟩
      intro e he
      rw [a2] at he
      exact hv e he

theorem rowLoop_inside (pngr : TPNGR) (info : TPassInfo) (i stepx stepy : Nat)
    (hstepx : stepx = info.stepx * pngr.pelsize) (hstepy : stepy = info.stepy * pngr.rowsize) :
    ∀ (fuel y pel idx : Nat) (b : TPNGRBuffers) (flag : Bool) (b' : TPNGRBuffers),
    (b.pixels.isSome = true → pel = y * pngr.rowsize + info.originx * pngr.pelsize) →
    rowLoop pngr info i stepx stepy fuel y pel idx b = some (flag, b') →
    ∀ e ∈ b'.visited, e ∈ b.visited ∨
      (e.1 < pngr.sizex ∧ e.2.1 < pngr.sizey ∧ e.2.2 = e.2.1 * pngr.rowsize + e.1 * pngr.pelsize) := by
  intro fuel
  induction fuel with
  | zero =>
    intro y pel idx b flag b' _ h
    simp [rowLoop] at h
  | succ fuel ih =>
    intro y pel idx b flag b' hpel h
    rw [rowLoop] at h
    by_cases hy : y < pngr.sizey
    · rw [if_pos hy] at h
      cases hr : b.rows with
      | nil =>
        simp only [hr, Option.some.injEq, Prod.mk.injEq] at h
        intro e he
        rw [← h.2] at he
        exact Or.inl he
      | cons rowp rows =>
        simp only [hr] at h
        cases hp : passrow pngr info i y stepx pel idx rowp { b with rows := rows } with
        | none => simp [hp] at h
        | some b1 =>
          simp only [hp] at h
          cases hsome : b.pixels with
          | none =>
            -- without a pixel buffer nothing is visited
            have hb1 : b1.visited = b.visited ∧ b1.pixels = none := by
              simp only [passrow, hsome] at hp
              cases hi : b.idxs with
              | none =>
                simp only [hi, Option.some.injEq] at hp
                subst hp
                exact ⟨rfl, rfl⟩
              | some idxs =>
                simp only [hi] at hp
                cases hx : idxLoop pngr info rowp (pngr.sizex + 1) info.originx 0 idx idxs with
                | none => simp [hx] at hp
                | some idxs' =>
                  simp only [hx, Option.map_some', Option.some.injEq] at hp
                  subst hp
                  exact ⟨rfl, rfl⟩
            intro e he
            have := ih _ _ _ b1 flag b' (by rw [hb1.2]; intro hc; cases hc) h e he
            rw [hb1.1] at this
            exact this
          | some px =>
            have hpel' := hpel (by rw [hsome]; rfl)
            obtain ⟨a1, a2⟩ := passrow_inside pngr info i y stepx pel idx rowp
              { b with rows := rows } b1 hy hstepx hpel' hp
            have a3 : b1.pixels.isSome = true := by rw [a1]; show b.pixels.isSome = true; rw [hsome]; rfl
            rw [a3, if_pos rfl] at h
            have e1 : (y + info.stepy) * pngr.rowsize = y * pngr.rowsize + info.stepy * pngr.rowsize := by
              ring
            intro e he
            rcases ih _ _ _ b1 flag b' (by intro _; rw [hpel', hstepy, e1]; omega) h e he with h1 | h1
            · exact a2 e h1
            · exact Or.inr h1
    · rw [if_neg hy] at h
      simp only [Option.some.injEq, Prod.mk.injEq] at h
      intro e he
      rw [← h.2] at he
      exact Or.inl he

theorem enterdecoding_fields (p q : TPNGR) (flag : Bool) (h : enterdecoding p = (q, flag)) :
    q.sizex = p.sizex ∧ q.sizey = p.sizey ∧ q.rowsize = p.rowsize ∧ q.pelsize = p.pelsize ∧
      q.pass = p.pass := by
  unfold enterdecoding at h
  split_ifs at h <;>
    (simp only [Prod.mk.injEq] at h; obtain ⟨h, _⟩ := h; subst h; exact ⟨rfl, rfl, rfl, rfl, rfl⟩)

/-- Every sample a call of `pngr_decodepass` visits lies inside the image, at
the offset of its pixel. -/
theorem decodepass_inside (checktail parsechunks : TPNGR → Option (Bool × TPNGR))
    (pngr : TPNGR) (b : TPNGRBuffers) (r : Nat) (p' : TPNGR) (b' : TPNGRBuffers)
    (h : pngr_decodepass checktail parsechunks pngr b = some (r, p', b')) :
    ∀ e ∈ b'.visited, e ∈ b.visited ∨
      (e.1 < pngr.sizex ∧ e.2.1 < pngr.sizey ∧ e.2.2 = e.2.1 * pngr.rowsize + e.1 * pngr.pelsize) := by
  unfold pngr_decodepass at h
  cases he : enterdecoding pngr with
  | mk q flag =>
    obtain ⟨f1, f2, f3, f4, f5⟩ := enterdecoding_fields pngr q flag he
    rw [he] at h
    cases flag with
    | false =>
      simp only [Option.some.injEq, Prod.mk.injEq] at h
      intro e hm
      rw [← h.2.2] at hm
      exact Or.inl hm
    | true =>
      simp only at h
      cases h1 : rd q.passrowsize q.pass with
      | none => simp [h1] at h
      | some rowsize =>
        cases h2 : rd q.passmemsize q.pass with
        | none => simp [h1, h2] at h
        | some ms =>
          simp only [h1, h2] at h
          have tail : ∀ (b1 : TPNGRBuffers),
              (if q.pass + 1 = ADAM7PASSES then
                  (finishdecoding checktail parsechunks { q with pass := q.pass + 1 }).map
                    (fun pngr => (0, pngr, b1))
                else some (q.pass + 1, { q with pass := q.pass + 1 }, b1)) = some (r, p', b') →
              b' = b1 := by
            intro b1 ht
            by_cases h7 : q.pass + 1 = ADAM7PASSES
            · rw [if_pos h7] at ht
              cases hf : finishdecoding checktail parsechunks { q with pass := q.pass + 1 } with
              | none => simp [hf] at ht
              | some q' =>
                simp only [hf, Option.map_some', Option.some.injEq, Prod.mk.injEq] at ht
                exact ht.2.2.symm
            · rw [if_neg h7] at ht
              simp only [Option.some.injEq, Prod.mk.injEq] at ht
              exact ht.2.2.symm
          by_cases h0 : rowsize = 0
          · rw [if_pos h0] at h
            simp only at h
            have := tail b h
            subst this
            intro e hm
            exact Or.inl hm
          · rw [if_neg h0] at h
            cases h3 : rd passinfo q.pass with
            | none => simp [h3] at h
            | some info =>
              simp only [h3] at h
              cases h4 : rowLoop q info q.pass (info.stepx * q.pelsize) (info.stepy * q.rowsize)
                  (q.sizey + 1) info.originy
                  (info.originx * q.pelsize + info.originy * q.rowsize)
                  (info.originx + info.originy * q.sizex) b with
              | none => simp [h4] at h
              | some res =>
                obtain ⟨flag, b1⟩ := res
                have hin := rowLoop_inside q info q.pass _ _ rfl rfl _ _ _ _ b flag b1
                  (by intro _; omega) h4
                rw [f1, f2, f3, f4] at hin
                simp only [h4] at h
                cases flag with
                | false =>
                  simp only [Option.some.injEq, Prod.mk.injEq] at h
                  rw [← h.2.2]
                  exact hin
                | true =>
                  simp only at h
                  have := tail b1 h
                  subst this
                  exact hin

/-- The block `fillpixel` hands to `fill` for the sample at `(x, y)` of pass `i`
is clipped to the image: `fill` succeeds on a buffer of the size of the image
and writes inside pixels of the image only. -/
theorem fillpixel_inside (pngr : TPNGR) (i x y : Nat) (hi : i < 7)
    (hx : x < pngr.sizex) (hy : y < pngr.sizey)
    (hR : pngr.rowsize = pngr.pelsize * pngr.sizex)
    (px : List Nat) (hlen : pngr.sizex * pngr.sizey * pngr.pelsize ≤ px.length)
    (row s : List Nat) (hg : getsample pngr row (List.replicate 8 0) = some s)
    (hs : pelbytes pngr.pelsize ≤ s.length) :
    ∃ wx wy px', passsizex[i]? = some wx ∧ passsizey[i]? = some wy ∧
      fillpixel pngr i x y px (y * pngr.rowsize + x * pngr.pelsize) row
        = fill pngr px (y * pngr.rowsize + x * pngr.pelsize) s
            (min (pngr.sizex - x) wx) (min (pngr.sizey - y) wy) ∧
      fillpixel pngr i x y px (y * pngr.rowsize + x * pngr.pelsize) row = some px' ∧
      px'.length = px.length ∧
      ∀ b, px'[b]? = px[b]? ∨
        ∃ dy dx t, dy < min (pngr.sizey - y) wy ∧ dx < min (pngr.sizex - x) wx ∧
          t < pngr.pelsize ∧ x + dx < pngr.sizex ∧ y + dy < pngr.sizey ∧
          b = (y + dy) * pngr.rowsize + (x + dx) * pngr.pelsize + t ∧
          b < pngr.sizex * pngr.sizey * pngr.pelsize := by
  obtain ⟨wx, wy, hwx, hwy⟩ := passsize_some hi
  have hrx : rd passsizex i = some wx := hwx
  have hry : rd passsizey i = some wy := hwy
  have ebw : (if pngr.sizex - x > wx then wx else pngr.sizex - x) = min (pngr.sizex - x) wx := by
    split_ifs with h
    · exact (Nat.min_eq_right (by omega)).symm
    · exact (Nat.min_eq_left (by omega)).symm
  have ebh : (if pngr.sizey - y > wy then wy else pngr.sizey - y) = min (pngr.sizey - y) wy := by
    split_ifs with h
    · exact (Nat.min_eq_right (by omega)).symm
    · exact (Nat.min_eq_left (by omega)).symm
  have hfp : fillpixel pngr i x y px (y * pngr.rowsize + x * pngr.pelsize) row
      = fill pngr px (y * pngr.rowsize + x * pngr.pelsize) s
          (min (pngr.sizex - x) wx) (min (pngr.sizey - y) wy) := by
    simp only [fillpixel, hrx, hry, hg, Option.bind_eq_bind, Option.some_bind, ebw, ebh]
  have hsz : pngr.sizey * pngr.rowsize = pngr.sizex * pngr.sizey * pngr.pelsize := by
    rw [hR]; ring
  have inb : ∀ dy dx, dy < min (pngr.sizey - y) wy → dx ≤ min (pngr.sizex - x) wx →
      (y + dy) * pngr.rowsize + (x + dx) * pngr.pelsize ≤ pngr.sizey * pngr.rowsize := by
    intro dy dx hdy hdx
    have h1 := Nat.min_le_left (pngr.sizey - y) wy
    have h2 := Nat.min_le_left (pngr.sizex - x) wx
    exact inimage_bound pngr.sizex pngr.sizey pngr.pelsize pngr.rowsize (x + dx) (y + dy) hR
      (by omega) (by omega)
  obtain ⟨px', f1, f2, f3⟩ := fill_spec pngr px (y * pngr.rowsize + x * pngr.pelsize) s
    (min (pngr.sizex - x) wx) (min (pngr.sizey - y) wy) hs (by
      intro dy hdy
      have := inb dy (min (pngr.sizex - x) wx) hdy (le_refl _)
      have e2 : (y + dy) * pngr.rowsize = y * pngr.rowsize + dy * pngr.rowsize := by ring
      have e3 : (x + min (pngr.sizex - x) wx) * pngr.pelsize
          = x * pngr.pelsize + min (pngr.sizex - x) wx * pngr.pelsize := by ring
      omega)
  refine ⟨wx, wy, px', hwx, hwy, hfp, by rw [hfp, f1], f2, ?_⟩
  intro b
  rcases f3 b with ⟨g1, _⟩ | ⟨dy, dx, t, g1, g2, g3, g4, _⟩
  · exact Or.inl g1
  · right
    have h1 := Nat.min_le_left (pngr.sizey - y) wy
    have h2 := Nat.min_le_left (pngr.sizex - x) wx
    have hpb := pelbytes_le pngr.pelsize
    have := inb dy (dx + 1) g1 (by omega)
    have e2 : (y + dy) * pngr.rowsize = y * pngr.rowsize + dy * pngr.rowsize := by ring
    have e3 : (x + dx) * pngr.pelsize = x * pngr.pelsize + dx * pngr.pelsize := by ring
    have e4 : (x + (dx + 1)) * pngr.pelsize
        = x * pngr.pelsize + dx * pngr.pelsize + pngr.pelsize := by ring
    refine ⟨dy, dx, t, g1, g2, by omega, by omega, by omega, by omega, by omega⟩

/-! ### Evaluation of `extend` and of the example tables -/

/-- The value of `extend` in closed form where the size is between 1 and 31 and
the bits are below `2^size`; the expression of `extend` itself does not
evaluate in the kernel. -/
theorem extend_closed : extend = fun m a =>
    if 1 ≤ m ∧ m ≤ 31 ∧ 0 ≤ a ∧ a < 2 ^ m.toNat then
      (if a < 2 ^ (m.toNat - 1) then a - (2 ^ m.toNat - 1) else a)
    else extend m a := by
  funext m a
  split_ifs with h h2
  · obtain ⟨h1, h3, h4, h5⟩ := h
    obtain ⟨k, rfl⟩ : ∃ k : Nat, m = (k : Int) + 1 := ⟨(m - 1).toNat, by omega⟩
    have e : ((k : Int) + 1).toNat = k + 1 := by omega
    rw [e] at h5 h2 ⊢
    simp only [Nat.add_sub_cancel] at h2
    exact extend_of_lt k a h4 (by omega) h2
  · obtain ⟨h1, h3, h4, h5⟩ := h
    obtain ⟨k, rfl⟩ : ∃ k : Nat, m = (k : Int) + 1 := ⟨(m - 1).toNat, by omega⟩
    have e : ((k : Int) + 1).toNat = k + 1 := by omega
    rw [e] at h5 h2
    simp only [Nat.add_sub_cancel] at h2
    exact extend_of_ge k a (by omega) (by omega) h5
  · rfl

theorem buildtable_dcOneCode : buildtable emptyDCTable 0 code9 [1] = some (true, dcOneCode) := by
  decide!

theorem buildtable_acOneCode :
    buildtable emptyACTable 1 code9 [0x21] = some (true, acOneCode) := by
  decide!

/-! ### `toRGB` and `setrow3` -/

theorem clampbyte_int32 (v : Int) (h0 : -2147483648 ≤ v) (h1 : v ≤ 2147483647) :
    (clampbyte v : Int) = min 255 (max 0 v) := by
  unfold clampbyte toUInt32
  simp only []
  split_ifs <;> omega

theorem rgbsums_transform (y cb cr : Int) :
    rgbsums y cb cr 1 =
      ((4096 * y + 5743 * cr + 2048 + 524228) / 4096,
       (4096 * y - 1410 * cb - 2925 * cr + 2048 + 524228) / 4096,
       (4096 * y + 7258 * cb + 2048 + 524228) / 4096) := by
  have e : y <<< (12 : Int) = y * 4096 := by
    have := Int.shiftLeft_eq_mul_pow y 12
    push_cast at this
    rw [this]
  unfold rgbsums FIXED_1_402 FIXED_0_344 FIXED_0_714 FIXED_1_772
  rw [if_pos (by decide), e]
  simp only [Int.shiftRight_eq_div_pow]
  norm_num
  refine ⟨?_, ?_, ?_⟩ <;> congr 1 <;> ring

/-! ### `parseBKGD` -/

/-- The background `parseBKGD` stores for the palette index `p`: the three bytes
of the palette from `3 * p` on when no tRNS chunk was seen, from `4 * p` on
otherwise. -/
theorem bkgdcolor_index (pngr : TPNGR) (p : Nat) (hb : pngr.background.length = 3)
    (hp : 4 * p + 2 < pngr.palette.length) :
    bkgdcolor pngr 1 [p] =
      if pngr.hasalpha ≠ 0 then
        some [pngr.palette.getD (4 * p) 0, pngr.palette.getD (4 * p + 1) 0,
          pngr.palette.getD (4 * p + 2) 0]
      else
        some [pngr.palette.getD (3 * p) 0, pngr.palette.getD (3 * p + 1) 0,
          pngr.palette.getD (3 * p + 2) 0] := by
  obtain ⟨b0, b1, b2, hbg⟩ : ∃ b0 b1 b2, pngr.background = [b0, b1, b2] := by
    match h : pngr.background, hb with
    | [b0, b1, b2], _ => exact ⟨b0, b1, b2, rfl⟩
  unfold bkgdcolor
  rw [if_pos rfl, hbg]
  by_cases ha : pngr.hasalpha ≠ 0
  · have e : p * 3 + p = 4 * p := by omega
    simp only [if_pos ha, e, rd, wr, List.getElem?_cons_zero, Option.bind_eq_bind,
      Option.some_bind, Nat.add_zero]
    rw [List.getElem?_eq_getElem (by omega : 4 * p < pngr.palette.length),
      List.getElem?_eq_getElem (by omega : 4 * p + 1 < pngr.palette.length),
      List.getElem?_eq_getElem (by omega : 4 * p + 2 < pngr.palette.length)]
    simp [List.getD_eq_getElem?_getD, List.getElem?_eq_getElem, hp,
      (by omega : 4 * p < pngr.palette.length), (by omega : 4 * p + 1 < pngr.palette.length)]
  · have e : p * 3 = 3 * p := by omega
    simp only [if_neg ha, e, rd, wr, List.getElem?_cons_zero, Option.bind_eq_bind,
      Option.some_bind, Nat.add_zero]
    rw [List.getElem?_eq_getElem (by omega : 3 * p < pngr.palette.length),
      List.getElem?_eq_getElem (by omega : 3 * p + 1 < pngr.palette.length),
      List.getElem?_eq_getElem (by omega : 3 * p + 2 < pngr.palette.length)]
    simp [List.getD_eq_getElem?_getD, List.getElem?_eq_getElem,
      (by omega : 3 * p < pngr.palette.length), (by omega : 3 * p + 1 < pngr.palette.length),
      (by omega : 3 * p + 2 < pngr.palette.length)]

/-! ### The blocks of a scan of one component -/

theorem readfirstDCrow_single (block : TJPGR → Nat → Nat → Option (Bool × TJPGR))
    (c totalx y : Nat) : ∀ (n x interval : Nat) (jpgr : TJPGR),
    readfirstDCrow block true c totalx y n x interval jpgr
      = scanrow block c y totalx n x interval jpgr := by
  intro n
  induction n with
  | zero => intro x interval jpgr; rfl
  | succ n ih =>
    intro x interval jpgr
    rw [readfirstDCrow, scanrow]
    cases h : restartinterval jpgr interval with
    | none => rfl
    | some r =>
      obtain ⟨f, interval', j⟩ := r
      cases f with
      | false => rfl
      | true =>
        simp only [if_true]
        cases hb : block j c (y * totalx + x) with
        | none => rfl
        | some r2 =>
          obtain ⟨f2, j2⟩ := r2
          cases f2 with
          | false => rfl
          | true => exact ih _ _ _

theorem readfirstDCrows_single (block : TJPGR → Nat → Nat → Option (Bool × TJPGR))
    (c totalx : Nat) : ∀ (n y interval : Nat) (jpgr : TJPGR),
    readfirstDCrows block true c totalx n y interval jpgr
      = scanrows block c totalx totalx n y interval jpgr := by
  intro n
  induction n with
  | zero => intro y interval jpgr; rfl
  | succ n ih =>
    intro y interval jpgr
    rw [readfirstDCrows, scanrows, readfirstDCrow_single]
    cases h : scanrow block c y totalx totalx 0 interval jpgr with
    | none => rfl
    | some r =>
      obtain ⟨f, interval', j⟩ := r
      cases f with
      | false => rfl
      | true =>
        simp only []
        split_ifs
        · rfl
        · exact ih _ _ _

theorem refineDCrow_single (block : TJPGR → Nat → Nat → Option (Bool × TJPGR))
    (c icols y : Nat) : ∀ (n x interval : Nat) (jpgr : TJPGR),
    refineDCrow block true c icols y n x interval jpgr
      = scanrow block c y icols n x interval jpgr := by
  intro n
  induction n with
  | zero => intro x interval jpgr; rfl
  | succ n ih =>
    intro x interval jpgr
    rw [refineDCrow, scanrow]
    cases h : restartinterval jpgr interval with
    | none => rfl
    | some r =>
      obtain ⟨f, interval', j⟩ := r
      cases f with
      | false => rfl
      | true =>
        simp only [if_true]
        cases hb : block j c (y * icols + x) with
        | none => rfl
        | some r2 =>
          obtain ⟨f2, j2⟩ := r2
          cases f2 with
          | false => rfl
          | true => exact ih _ _ _

theorem refineDCrows_single (block : TJPGR → Nat → Nat → Option (Bool × TJPGR))
    (c icols totalx : Nat) : ∀ (n y interval : Nat) (jpgr : TJPGR),
    refineDCrows block true c icols totalx n y interval jpgr
      = scanrows block c totalx icols n y interval jpgr := by
  intro n
  induction n with
  | zero => intro y interval jpgr; rfl
  | succ n ih =>
    intro y interval jpgr
    rw [refineDCrows, scanrows, refineDCrow_single]
    cases h : scanrow block c y icols totalx 0 interval jpgr with
    | none => rfl
    | some r =>
      obtain ⟨f, interval', j⟩ := r
      cases f with
      | false => rfl
      | true =>
        simp only []
        split_ifs
        · rfl
        · exact ih _ _ _

/-! ### `inverseDCT` -/

theorem toInt32_of_range (v : Int) (h0 : -2147483648 ≤ v) (h1 : v ≤ 2147483647) :
    toInt32 v = v := by
  unfold toInt32
  omega

theorem toInt32_zero : toInt32 0 = 0 := rfl

theorem int_shiftLeft_13 (v : Int) : v <<< (13 : Int) = v * 8192 := by
  have := Int.shiftLeft_eq_mul_pow v 13
  push_cast at this
  rw [this]

theorem int_shiftLeft_1 (v : Int) : v <<< (1 : Int) = v * 2 := by
  have := Int.shiftLeft_eq_mul_pow v 1
  push_cast at this
  rw [this]

/-- The stages of `inverseDCT` on a column that holds only the value `p` in
`l0`. -/
theorem inverseDCTstages_dc (p : Int) (h0 : -2147483648 ≤ p * 8192)
    (h1 : p * 8192 ≤ 2147483647) :
    inverseDCTstages { l0 := p, l1 := 0, l2 := 0, l3 := 0, l4 := 0, l5 := 0, l6 := 0, l7 := 0 }
      = { l0 := p * 8192, l1 := p * 8192, l2 := p * 8192, l3 := p * 8192,
          l4 := 0, l5 := 0, l6 := 0, l7 := 0 } := by
  have hp : toInt32 p = p := toInt32_of_range p (by omega) (by omega)
  have hq : toInt32 (p * 8192) = p * 8192 := toInt32_of_range _ h0 h1
  unfold inverseDCTstages
  simp only [add_zero, sub_zero, zero_add, zero_mul, mul_zero, toInt32_zero, hp,
    int_shiftLeft_13, hq]

/-! ### `zzorder` and the values of a quantization table -/

theorem zzorder_lt (k : Nat) (h : k < 64) : zzorder.getD k 0 < 64 := by
  revert k
  decide

theorem zzorder_rd (k : Nat) (h : k < 64) : rd zzorder k = some (zzorder.getD k 0) := by
  revert k
  decide

/-- The two bytes of a value of 16 bits, joined as `parseDQT` does. -/
theorem dqtvalue_pair (s : List Nat) (k : Nat) (hs : ∀ b ∈ s, b < 256)
    (h1 : 2 * k + 1 < s.length) :
    s[2 * k] <<< 8 ||| s[2 * k + 1] = 256 * s[2 * k] + s[2 * k + 1] := by
  have hlo : s[2 * k + 1] < 2 ^ 8 := hs _ (List.getElem_mem h1)
  rw [Nat.shiftLeft_eq, Nat.mul_comm, ← Nat.mul_add_lt_is_or hlo]

/-- One iteration of the loop of `parseDQTvalues`. -/
theorem dqtstep (s : List Nat) (precision : Nat) (hs : ∀ b ∈ s, b < 256)
    (hl : (if precision = 0 then 64 else 128) ≤ s.length) (values : List Int)
    (hv : values.length = 64) (a : Nat) (ha : a < 64) :
    (do
      let v ← if precision = 0 then rd s a
              else do
                let hi ← rd s (a <<< 1)
                let lo ← rd s ((a <<< 1) + 1)
                pure ((hi <<< 0x08) ||| lo)
      let z ← rd zzorder a
      wr values z (toInt16 (v : Int)))
      = some (values.set (zzorder.getD a 0) (toInt16 (transmitted s precision a : Nat))) := by
  have hz := zzorder_lt a ha
  have hw : wr values (zzorder.getD a 0) (toInt16 (transmitted s precision a : Nat))
      = some (values.set (zzorder.getD a 0) (toInt16 (transmitted s precision a : Nat))) := by
    unfold wr
    rw [if_pos (by omega)]
  rw [← hw]
  unfold transmitted
  by_cases hp : precision = 0
  · rw [if_pos hp] at hl
    have hk' : a < s.length := by omega
    simp only [hp, if_true, rd, List.getElem?_eq_getElem hk', Option.bind_eq_bind,
      Option.some_bind, zzorder_rd a ha, List.getD_eq_getElem?_getD, Option.getD_some]
    rw [← rd, zzorder_rd a ha]
    rfl
  · rw [if_neg hp] at hl
    have e : a <<< 1 = 2 * a := by rw [Nat.shiftLeft_eq]; omega
    have h0 : 2 * a < s.length := by omega
    have h1 : 2 * a + 1 < s.length := by omega
    simp only [hp, if_false, e, rd, List.getElem?_eq_getElem h0, List.getElem?_eq_getElem h1,
      Option.bind_eq_bind, Option.some_bind, Option.pure_def, List.getD_eq_getElem?_getD,
      Option.getD_some, dqtvalue_pair s a hs h1]
    rw [← rd, zzorder_rd a ha]
    rfl

/-- The stores of `parseDQTvalues` for a list of entries `ks`: an entry of the
table that is the target of no store keeps its value, and when the targets
differ every entry of `ks` is found at its target. -/
theorem dqtfold (s : List Nat) (precision : Nat) (hs : ∀ b ∈ s, b < 256)
    (hl : (if precision = 0 then 64 else 128) ≤ s.length) :
    ∀ (ks : List Nat) (values : List Int), (∀ k ∈ ks, k < 64) → values.length = 64 →
    ∃ out, ks.foldlM (fun values i => do
        let v ← if precision = 0 then rd s i
                else do
                  let hi ← rd s (i <<< 1)
                  let lo ← rd s ((i <<< 1) + 1)
                  pure ((hi <<< 0x08) ||| lo)
        let z ← rd zzorder i
        wr values z (toInt16 (v : Int))) values = some out ∧ out.length = 64 ∧
      (∀ j, (∀ k ∈ ks, zzorder.getD k 0 ≠ j) → out[j]? = values[j]?) ∧
      ((ks.map (fun k => zzorder.getD k 0)).Nodup →
        ∀ k ∈ ks, out[zzorder.getD k 0]? = some (toInt16 (transmitted s precision k : Nat))) := by
  intro ks
  induction ks with
  | nil =>
    intro values _ hv
    exact ⟨values, rfl, hv, fun _ _ => rfl, fun _ k hk => absurd hk (List.not_mem_nil k)⟩
  | cons a ks ih =>
    intro values hks hv
    have ha : a < 64 := hks a (List.mem_cons_self a ks)
    have hz := zzorder_lt a ha
    have hstep := dqtstep s precision hs hl values hv a ha
    obtain ⟨out, ho, hlen, hkeep, hput⟩ :=
      ih (values.set (zzorder.getD a 0) (toInt16 (transmitted s precision a : Nat)))
        (fun k hk => hks k (List.mem_cons_of_mem a hk)) (by rw [List.length_set]; exact hv)
    refine ⟨out, ?_, hlen, ?_, ?_⟩
    · rw [List.foldlM_cons, hstep]
      exact ho
    · intro j hj
      rw [hkeep j (fun k hk => hj k (List.mem_cons_of_mem a hk))]
      rw [List.getElem?_set_ne (hj a (List.mem_cons_self a ks))]
    · intro hnd k hk
      rw [List.map_cons, List.nodup_cons] at hnd
      rcases List.mem_cons.mp hk with rfl | hk'
      · rw [hkeep _ (fun k' hk' e => hnd.1 (by rw [← e]; exact List.mem_map_of_mem _ hk'))]
        exact List.getElem?_set_self (by omega)
      · exact hput hnd.2 k hk'

/-! ### The working memory of the JPEG reader -/

/-- The alignment of `jpgr_setbuffers` moves the pointer by 1 to 16 bytes. -/
theorem align16 (memory : Nat) :
    memory < (memory ||| 15) + 1 ∧ (memory ||| 15) + 1 ≤ memory + 16 := by
  have h1 : memory % 16 < 2 ^ 4 := Nat.mod_lt _ (by norm_num)
  have h2 : memory = 2 ^ 4 * (memory / 16) + memory % 16 := by omega
  have h3 : (memory % 16) ||| 15 = 15 := by
    have : ∀ r, r < 16 → r ||| 15 = 15 := by decide
    exact this _ (Nat.mod_lt _ (by norm_num))
  have h4 : memory ||| 15 = 2 ^ 4 * (memory / 16) + 15 := by
    conv_lhs => rw [h2, Nat.mul_add_lt_is_or h1, Nat.lor_assoc, h3]
    rw [← Nat.mul_add_lt_is_or (by norm_num : 15 < 2 ^ 4)]
  omega

theorem within_nil (lo hi : Nat) : Within [] lo hi :=
  fun p hp => absurd hp (List.not_mem_nil p)

theorem within_mono (pieces : List (Nat × Nat)) (lo hi lo' hi' : Nat)
    (h : Within pieces lo hi) (h1 : lo' ≤ lo) (h2 : hi ≤ hi') : Within pieces lo' hi' := by
  intro p hp
  have := h p hp
  omega

theorem within_cons (a : Nat × Nat) (pieces : List (Nat × Nat)) (lo hi : Nat)
    (ha : lo ≤ a.1 ∧ a.1 + a.2 ≤ hi) (h : Within pieces lo hi) :
    Within (a :: pieces) lo hi := by
  intro p hp
  rcases List.mem_cons.mp hp with rfl | hp
  · exact ha
  · exact h p hp

theorem within_append (a b : List (Nat × Nat)) (lo hi : Nat)
    (ha : Within a lo hi) (hb : Within b lo hi) : Within (a ++ b) lo hi := by
  intro p hp
  rcases List.mem_append.mp hp with hp | hp
  · exact ha p hp
  · exact hb p hp

theorem setbuffersScan_spec : ∀ (components : List TJPGComponent) (memory : Nat),
    (setbuffersScan components memory).2
        = memory + (components.map (fun c => (c.ucount * 64) * 2)).sum ∧
      Within (setbuffersScan components memory).1 memory
        (memory + (components.map (fun c => (c.ucount * 64) * 2)).sum) := by
  intro components
  induction components with
  | nil => intro memory; exact ⟨rfl, within_nil _ _⟩
  | cons c rest ih =>
    intro memory
    obtain ⟨h1, h2⟩ := ih (memory + (c.ucount * 64) * 2)
    simp only [setbuffersScan, List.map_cons, List.sum_cons]
    refine ⟨by rw [h1]; omega, within_cons _ _ _ _ ⟨le_refl _, by simp only []; omega⟩ ?_⟩
    exact within_mono _ _ _ _ _ h2 (by omega) (by omega)

theorem setbuffersSrow_spec : ∀ (components : List TJPGComponent) (memory : Nat),
    (setbuffersSrow components memory).2 = memory + components.length * 16 ∧
      Within (setbuffersSrow components memory).1 memory (memory + components.length * 16) := by
  intro components
  induction components with
  | nil => intro memory; exact ⟨rfl, within_nil _ _⟩
  | cons c rest ih =>
    intro memory
    obtain ⟨h1, h2⟩ := ih (memory + 8 * 2)
    simp only [setbuffersSrow, List.length_cons]
    refine ⟨by rw [h1]; omega, within_cons _ _ _ _ ⟨le_refl _, by simp only []; omega⟩ ?_⟩
    exact within_mono _ _ _ _ _ h2 (by omega) (by omega)

theorem setbuffersBlocks_spec : ∀ (n j memory : Nat), j + n ≤ 8 →
    ∃ pieces, setbuffersBlocks n j memory = some (pieces, memory + n * 128) ∧
      Within pieces memory (memory + n * 128) := by
  intro n
  induction n with
  | zero => intro j memory _; exact ⟨[], rfl, within_nil _ _⟩
  | succ n ih =>
    intro j memory h
    obtain ⟨pieces, h1, h2⟩ := ih (j + 1) (memory + 64 * 2) (by omega)
    refine ⟨(memory, 64 * 2) :: pieces, ?_, ?_⟩
    · rw [setbuffersBlocks, if_neg (by omega), h1]
      simp only [Option.some.injEq, Prod.mk.injEq, true_and]
      omega
    · refine within_cons _ _ _ _ ⟨le_refl _, by simp only []; omega⟩ ?_
      exact within_mono _ _ _ _ _ h2 (by omega) (by omega)

theorem setbuffersUnits_spec (jpgr : TJPGR) : ∀ (components : List TJPGComponent)
    (memory : Nat), (∀ c ∈ components, unitblocks jpgr c ≤ 8) →
    ∃ pieces, setbuffersUnits jpgr components memory
        = some (pieces, memory + (components.map (fun c => unitblocks jpgr c * 128)).sum) ∧
      Within pieces memory (memory + (components.map (fun c => unitblocks jpgr c * 128)).sum) := by
  intro components
  induction components with
  | nil => intro memory _; exact ⟨[], rfl, within_nil _ _⟩
  | cons c rest ih =>
    intro memory h
    have hc : unitblocks jpgr c ≤ 8 := h c (List.mem_cons_self c rest)
    obtain ⟨p1, e1, w1⟩ := setbuffersBlocks_spec (unitblocks jpgr c) 0 memory (by omega)
    obtain ⟨p2, e2, w2⟩ := ih (memory + unitblocks jpgr c * 128)
      (fun c' hc' => h c' (List.mem_cons_of_mem c hc'))
    refine ⟨p1 ++ p2, ?_, ?_⟩
    · rw [setbuffersUnits, e1]
      simp only [e2, List.map_cons, List.sum_cons, Option.some.injEq, Prod.mk.injEq,
        true_and]
      omega
    · simp only [List.map_cons, List.sum_cons]
      exact within_append _ _ _ _ (within_mono _ _ _ _ _ w1 (le_refl _) (by omega))
        (within_mono _ _ _ _ _ w2 (by omega) (by omega))

theorem setbuffersUnits_header (jpgr : TJPGR) (h : TJPGRHeader) :
    ∀ (components : List TJPGComponent) (memory : Nat),
    setbuffersUnits { jpgr with header := h } components memory
      = setbuffersUnits jpgr components memory := by
  intro components
  induction components with
  | nil => intro memory; rfl
  | cons c rest ih =>
    intro memory
    rw [setbuffersUnits, setbuffersUnits]
    have e : unitblocks { jpgr with header := h } c = unitblocks jpgr c := rfl
    rw [e]
    cases setbuffersBlocks (unitblocks jpgr c) 0 memory with
    | none => rfl
    | some r =>
      obtain ⟨pieces, m⟩ := r
      simp only [ih]

theorem requiredunits_split (jpgr : TJPGR) (c : TJPGComponent) :
    requiredunits jpgr c * 128
      = (if jpgr.scan.isinterleaved = 0 then (c.ucount * 64) * 2 else 0)
        + unitblocks jpgr c * 128 := by
  unfold requiredunits unitblocks
  by_cases h : jpgr.scan.isinterleaved = 0
  · rw [if_neg (by simp [h]), if_pos h, if_pos h]
    omega
  · rw [if_pos h, if_neg h, if_neg h]
    omega

theorem sum_le_of_le (f : TJPGComponent → Nat) (bound : Nat) :
    ∀ components : List TJPGComponent, (∀ c ∈ components, f c ≤ bound) →
    (components.map f).sum ≤ components.length * bound := by
  intro components
  induction components with
  | nil => intro _; simp
  | cons c rest ih =>
    intro h
    have h1 := h c (List.mem_cons_self c rest)
    have h2 := ih (fun c' hc' => h c' (List.mem_cons_of_mem c hc'))
    simp only [List.map_cons, List.sum_cons, List.length_cons]
    nlinarith

theorem requiredfold (jpgr : TJPGR) : ∀ (components : List TJPGComponent) (total : Nat),
    total + (components.map (requiredunits jpgr)).sum < 2 ^ 64 →
    components.foldl (fun total c => (total + requiredunits jpgr c) % 2 ^ 64) total
      = total + (components.map (requiredunits jpgr)).sum := by
  intro components
  induction components with
  | nil => intro total _; simp
  | cons c rest ih =>
    intro total h
    simp only [List.map_cons, List.sum_cons] at h
    simp only [List.foldl_cons, List.map_cons, List.sum_cons]
    rw [Nat.mod_eq_of_lt (by omega), ih _ (by omega)]
    omega

theorem sum_split (jpgr : TJPGR) : ∀ components : List TJPGComponent,
    (components.map (requiredunits jpgr)).sum * 128
      = (if jpgr.scan.isinterleaved = 0
          then (components.map (fun c => (c.ucount * 64) * 2)).sum else 0)
        + (components.map (fun c => unitblocks jpgr c * 128)).sum := by
  intro components
  induction components with
  | nil => simp
  | cons c rest ih =>
    simp only [List.map_cons, List.sum_cons, Nat.add_mul, ih, requiredunits_split]
    by_cases h : jpgr.scan.isinterleaved = 0
    · simp only [if_pos h]
      omega
    · simp only [if_neg h]
      omega

/-! ### Arithmetic of the extents -/

/-- Bits cleared in a number whose low `k` bits are all set. -/
theorem ldiff_low (k a y : Nat) (hy : y < 2 ^ k) :
    Nat.ldiff (2 ^ k * a + (2 ^ k - 1)) y = 2 ^ k * a + (2 ^ k - 1 - y) := by
  have hp : 0 < 2 ^ k := Nat.two_pow_pos _
  apply Nat.eq_of_testBit_eq
  intro j
  rw [Nat.testBit_ldiff]
  rw [Nat.testBit_mul_pow_two_add a (by omega : 2 ^ k - 1 < 2 ^ k) j]
  rw [Nat.testBit_mul_pow_two_add a (by omega : 2 ^ k - 1 - y < 2 ^ k) j]
  have e : 2 ^ k - 1 - y = 2 ^ k - (y + 1) := by omega
  have e0 : 2 ^ k - 1 = 2 ^ k - (0 + 1) := by omega
  by_cases hj : j < k
  · rw [if_pos hj, if_pos hj, e, Nat.testBit_two_pow_sub_succ hy, e0,
      Nat.testBit_two_pow_sub_succ hp]
    simp [hj]
  · rw [if_neg hj, if_neg hj]
    have : y.testBit j = false :=
      Nat.testBit_lt_two_pow (lt_of_lt_of_le hy (Nat.pow_le_pow_right (by norm_num) (by omega)))
    simp [this]

/-- Bits of a smaller number set in a multiple of a power of two. -/
theorem int_lor_low (c : Int) (k y : Nat) (hy : y < 2 ^ k) :
    Int.lor (c * 2 ^ k) ((y : Nat) : Int) = c * 2 ^ k + y := by
  rcases c with a | m
  · have e3 : Int.ofNat a * 2 ^ k = ((2 ^ k * a : Nat) : Int) := by
      show ((a : Nat) : Int) * 2 ^ k = _
      push_cast
      ring
    rw [e3]
    show ((2 ^ k * a ||| y : Nat) : Int) = _
    have := Nat.mul_add_lt_is_or hy a
    rw [← this]
    push_cast
    ring
  · have hp : 0 < 2 ^ k := Nat.two_pow_pos _
    have e3 : Int.negSucc m * 2 ^ k = Int.negSucc (2 ^ k * m + (2 ^ k - 1)) := by
      rw [Int.negSucc_eq, Int.negSucc_eq]
      have : ((2 ^ k - 1 : Nat) : Int) = 2 ^ k - 1 := by
        rw [Nat.cast_sub hp]
        push_cast
        ring
      push_cast
      rw [this]
      ring
    rw [e3]
    show Int.negSucc (Nat.ldiff (2 ^ k * m + (2 ^ k - 1)) y) = _
    rw [ldiff_low k m _ hy, ← e3]
    rw [Int.negSucc_eq, Int.negSucc_eq]
    have : ((2 ^ k - 1 - y : Nat) : Int) = 2 ^ k - 1 - y := by
      rw [Nat.cast_sub (by omega), Nat.cast_sub hp]
      push_cast
      ring
    push_cast
    rw [this]
    ring

/-- The value `(v << 8) | (rrrr << 4) | n` that `buildextenttable` stores. -/
theorem extent_value (v : Int) (rrrr n : Nat) (hv0 : -128 ≤ v) (hv1 : v ≤ 127)
    (hr : rrrr ≤ 15) (hn : n ≤ 15) :
    toInt16 (Int.lor (Int.lor (v <<< (8 : Int)) ((rrrr <<< 4 : Nat) : Int)) ((n : Nat) : Int))
      = v * 256 + rrrr * 16 + n := by
  have e8 : v <<< (8 : Int) = v * 2 ^ 8 := by
    have := Int.shiftLeft_eq_mul_pow v 8
    push_cast at this
    rw [this]
    norm_num
  have er : rrrr <<< 4 = rrrr * 16 := by rw [Nat.shiftLeft_eq]
  rw [e8, er, int_lor_low v 8 (rrrr * 16) (by omega)]
  have e1 : v * 2 ^ 8 + ((rrrr * 16 : Nat) : Int) = (v * 16 + rrrr) * 2 ^ 4 := by
    push_cast
    ring
  rw [e1, int_lor_low _ 4 n (by omega)]
  unfold toInt16
  omega

/-- The fields of an extent: the run, the coefficient and the bit count. -/
theorem extent_fields (v : Int) (rrrr n : Nat) (hr : rrrr ≤ 15) (hn : n ≤ 15) :
    ((v * 256 + rrrr * 16 + n) >>> (4 : Nat)) % 16 = rrrr ∧
    (v * 256 + rrrr * 16 + n) >>> (8 : Nat) = v ∧
    (v * 256 + rrrr * 16 + n) % 16 = n := by
  rw [Int.shiftRight_eq_div_pow, Int.shiftRight_eq_div_pow]
  norm_num
  refine ⟨?_, ?_, ?_⟩ <;> omega

/-- The bits behind the code in the root index are the bits behind the code in
the bit buffer. -/
theorem window_bits (bb bc len size : Nat) (hbc : 9 ≤ bc) (hs : len + size ≤ 9) :
    (((bb >>> (bc - 9)) <<< len) &&& ((1 <<< 9) - 1)) >>> (9 - size)
      = (bb % 2 ^ (bc - len)) >>> (bc - len - size) := by
  have e1 : (1 <<< 9) - 1 = 2 ^ 9 - 1 := by decide
  rw [e1, Nat.and_pow_two_sub_one_eq_mod, Nat.shiftLeft_eq, Nat.shiftRight_eq_div_pow,
    Nat.shiftRight_eq_div_pow, Nat.shiftRight_eq_div_pow]
  -- left side
  have p9 : 2 ^ 9 = 2 ^ (9 - len) * 2 ^ len := by
    rw [← Nat.pow_add]
    congr 1
    omega
  have ps : 2 ^ (9 - size) = 2 ^ (9 - size - len) * 2 ^ len := by
    rw [← Nat.pow_add]
    congr 1
    omega
  have hl : bb / 2 ^ (bc - 9) * 2 ^ len % 2 ^ 9 / 2 ^ (9 - size)
      = bb / 2 ^ (bc - 9) % 2 ^ (9 - len) / 2 ^ (9 - size - len) := by
    rw [p9, Nat.mul_mod_mul_right, ps, Nat.mul_div_mul_right _ _ (Nat.two_pow_pos _)]
  -- right side
  have q1 : 2 ^ (bc - len) = 2 ^ (bc - 9) * 2 ^ (9 - len) := by
    rw [← Nat.pow_add]
    congr 1
    omega
  have q2 : 2 ^ (bc - len - size) = 2 ^ (bc - 9) * 2 ^ (9 - size - len) := by
    rw [← Nat.pow_add]
    congr 1
    omega
  have hr : bb % 2 ^ (bc - len) / 2 ^ (bc - len - size)
      = bb / 2 ^ (bc - 9) % 2 ^ (9 - len) / 2 ^ (9 - size - len) := by
    rw [q1, q2, ← Nat.div_div_eq_div_mul, Nat.mod_mul_right_div_self]
  rw [hl, hr]

/-- Three words appended to a bit buffer of fewer than 16 bits leave its bits
on top. -/
theorem refill_bits (bb bc w1 w2 w3 size : Nat) (hbb : bb < 2 ^ bc) (hbc : bc < 16)
    (hs : size ≤ bc) :
    ((((((bb <<< 16 ||| w1 % 65536) % 2 ^ 64) <<< 16 ||| w2 % 65536) % 2 ^ 64) <<< 16
        ||| w3 % 65536) % 2 ^ 64) >>> (bc + 48 - size)
      = bb >>> (bc - size) := by
  have h1 : w1 % 65536 < 2 ^ 16 := Nat.mod_lt _ (by norm_num)
  have h2 : w2 % 65536 < 2 ^ 16 := Nat.mod_lt _ (by norm_num)
  have h3 : w3 % 65536 < 2 ^ 16 := Nat.mod_lt _ (by norm_num)
  have hb : bb < 2 ^ 16 :=
    lt_of_lt_of_le hbb (Nat.pow_le_pow_right (by norm_num) (by omega))
  generalize w1 % 65536 = a1 at h1
  generalize w2 % 65536 = a2 at h2
  generalize w3 % 65536 = a3 at h3
  have s1 : (bb <<< 16 ||| a1) % 2 ^ 64 = 2 ^ 16 * bb + a1 := by
    rw [Nat.shiftLeft_eq, Nat.mul_comm, ← Nat.mul_add_lt_is_or h1]
    exact Nat.mod_eq_of_lt (by omega)
  rw [s1]
  have s2 : ((2 ^ 16 * bb + a1) <<< 16 ||| a2) % 2 ^ 64
      = 2 ^ 16 * (2 ^ 16 * bb + a1) + a2 := by
    rw [Nat.shiftLeft_eq, Nat.mul_comm, ← Nat.mul_add_lt_is_or h2]
    exact Nat.mod_eq_of_lt (by omega)
  rw [s2]
  have s3 : ((2 ^ 16 * (2 ^ 16 * bb + a1) + a2) <<< 16 ||| a3) % 2 ^ 64
      = 2 ^ 16 * (2 ^ 16 * (2 ^ 16 * bb + a1) + a2) + a3 := by
    rw [Nat.shiftLeft_eq, Nat.mul_comm, ← Nat.mul_add_lt_is_or h3]
    exact Nat.mod_eq_of_lt (by omega)
  rw [s3]
  rw [Nat.shiftRight_eq_div_pow, Nat.shiftRight_eq_div_pow]
  have e : 2 ^ (bc + 48 - size) = 2 ^ 48 * 2 ^ (bc - size) := by
    rw [← Nat.pow_add]
    congr 1
    omega
  rw [e, ← Nat.div_div_eq_div_mul]
  congr 1
  omega

/-! ### Root entries of a table built by `buildtable` -/

theorem rootOK_wr (symbols out : List Nat) (i v : Nat) (h : RootOK symbols)
    (hv : v < 8192 ∨ 32768 ≤ v) (hw : wr symbols i v = some out) : RootOK out := by
  unfold wr at hw
  split_ifs at hw with hi
  cases hw
  intro k s hk5 hk
  unfold rd at hk
  by_cases e : i = k
  · subst e
    rw [List.getElem?_set_self hi] at hk
    cases hk
    exact hv
  · rw [List.getElem?_set_ne e] at hk
    exact h k s hk5 hk

theorem rootOK_reset (symbols out : List Nat)
    (hr : buildtableReset symbols = some out) : RootOK out := by
  unfold buildtableReset at hr
  split_ifs at hr with hl
  cases hr
  intro k s hk5 hk
  unfold rd at hk
  have e : k < (List.replicate (1 <<< ROOTBITS) 0).length := by
    simpa [ROOTBITS] using hk5
  rw [List.getElem?_append_left e] at hk
  rw [List.getElem?_replicate] at hk
  split_ifs at hk
  cases hk
  left
  norm_num

theorem rootOK_mark (i r c : Nat) : ∀ (n m : Nat) (symbols : List Nat) (offset : Nat)
    (out : List Nat) (o : Nat), RootOK symbols →
    buildtableMark i r c n m symbols offset = some (out, o) → RootOK out := by
  intro n
  induction n with
  | zero =>
    intro m symbols offset out o h hm
    simp only [buildtableMark] at hm
    cases hm
    exact h
  | succ n ih =>
    intro m symbols offset out o h hm
    simp only [buildtableMark] at hm
    split at hm
    · cases hm
    · split_ifs at hm with ho
      · exact ih _ _ _ _ _ h hm
      · split at hm
        · cases hm
        · rename_i s2 hw
          refine ih _ _ _ _ _ (rootOK_wr _ _ _ _ h ?_ hw) hm
          right
          apply Nat.testBit_implies_ge (i := 15)
          rw [show 65536 = 2 ^ 16 by norm_num, Nat.testBit_mod_two_pow]
          simp [Nat.testBit_or]
          left
          left
          decide

theorem rootOK_secondary (lns codes : List Nat) : ∀ (n : Nat) (symbols : List Nat)
    (offset : Nat) (out : List Nat) (o : Nat), RootOK symbols →
    buildtableSecondary lns codes n symbols offset = some (out, o) → RootOK out := by
  intro n
  induction n with
  | zero =>
    intro symbols offset out o h hm
    simp only [buildtableSecondary] at hm
    cases hm
    exact h
  | succ n ih =>
    intro symbols offset out o h hm
    simp only [buildtableSecondary, Option.bind_eq_bind, Option.bind_eq_some] at hm
    obtain ⟨count, _, hm⟩ := hm
    split_ifs at hm with h0
    · exact ih _ _ _ _ h hm
    all_goals
      simp only [Option.bind_eq_some] at hm
      obtain ⟨code, _, p, hk, hm⟩ := hm
      obtain ⟨s2, o2⟩ := p
      exact ih _ _ _ _ (rootOK_mark _ _ _ _ _ _ _ _ _ h hk) hm

theorem rootOK_fill (e k c : Nat) (he : e < 8192 ∨ 32768 ≤ e) : ∀ (n : Nat)
    (symbols out : List Nat), RootOK symbols →
    buildtableFill e k c n symbols = some out → RootOK out := by
  intro n
  induction n with
  | zero =>
    intro symbols out h hm
    simp only [buildtableFill] at hm
    cases hm
    exact h
  | succ n ih =>
    intro symbols out h hm
    simp only [buildtableFill] at hm
    split at hm
    · cases hm
    · rename_i s2 hw
      exact ih _ _ (rootOK_wr _ _ _ _ h he hw) hm

theorem rootOK_put (syms : List Nat) (j : Nat) (hj : j < 16) (hs : ∀ x ∈ syms, x < 256) :
    ∀ (n m : Nat) (codes symbols : List Nat) (m2 : Nat) (codes2 out : List Nat),
    RootOK symbols →
    buildtablePut syms j n m codes symbols = some (m2, codes2, out) → RootOK out := by
  intro n
  induction n with
  | zero =>
    intro m codes symbols m2 codes2 out h hm
    simp only [buildtablePut] at hm
    cases hm
    exact h
  | succ n ih =>
    intro m codes symbols m2 codes2 out h hm
    simp only [buildtablePut, Option.bind_eq_bind, Option.bind_eq_some] at hm
    obtain ⟨sym, hsym, code, _, hm⟩ := hm
    have key : ∀ p : Nat × Nat × Nat,
        ((buildtableFill ((sym <<< LENGTHBITS ||| (j + 1)) % 65536) p.1 p.2.1 (1 <<< p.2.2)
          symbols).bind fun symbols =>
            (wr codes j ((code + 1) % 65536)).bind fun codes =>
              buildtablePut syms j n (m + 1) codes symbols) = some (m2, codes2, out) →
        RootOK out := by
      intro p hp
      simp only [Option.bind_eq_some] at hp
      obtain ⟨symbols2, hf, codes3, _, hp⟩ := hp
      refine ih _ _ _ _ _ _ (rootOK_fill _ _ _ ?_ _ _ _ h hf) hp
      left
      have h1 : sym < 256 := hs sym (List.getElem?_mem hsym)
      have h2 : (sym <<< LENGTHBITS) ||| (j + 1) < 2 ^ 13 := by
        apply Nat.or_lt_two_pow
        · rw [Nat.shiftLeft_eq]
          unfold LENGTHBITS
          omega
        · omega
      exact lt_of_le_of_lt (Nat.mod_le _ _) h2
    split_ifs at hm with hc
    · simp only [Option.bind_eq_some] at hm
      obtain ⟨entry, _, hm⟩ := hm
      split_ifs at hm with hr
      · simp at hm
      · exact key _ hm
    · exact key _ hm

theorem rootOK_populate (lns syms : List Nat) (hs : ∀ x ∈ syms, x < 256) :
    ∀ (n j m : Nat) (codes symbols out : List Nat), j + n ≤ 16 → RootOK symbols →
    buildtablePopulate lns syms n j m codes symbols = some out → RootOK out := by
  intro n
  induction n with
  | zero =>
    intro j m codes symbols out _ h hm
    simp only [buildtablePopulate] at hm
    cases hm
    exact h
  | succ n ih =>
    intro j m codes symbols out hj h hm
    simp only [buildtablePopulate, Option.bind_eq_bind, Option.bind_eq_some] at hm
    obtain ⟨count, _, p, hp, hm⟩ := hm
    obtain ⟨m2, codes2, symbols2⟩ := p
    exact ih _ _ _ _ _ (by omega)
      (rootOK_put syms j (by omega) hs _ _ _ _ _ _ _ h hp) hm

/-- The extents after `buildextenttable`. -/
theorem buildextentfold (symbols : List Nat) : ∀ (n : Nat) (init out : List Int),
    (List.range n).foldlM (fun sextent i => do
      let s ← rd symbols i
      wr sextent i (buildextententry i s)) init = some out →
    out.length = init.length ∧ n ≤ init.length ∧
    (∀ k, k < n → ∃ s, rd symbols k = some s ∧ rd out k = some (buildextententry k s)) ∧
    (∀ k, n ≤ k → rd out k = rd init k) := by
  intro n
  induction n with
  | zero =>
    intro init out h
    simp at h
    subst h
    simp
  | succ n ih =>
    intro init out h
    rw [List.range_succ, List.foldlM_append] at h
    simp only [Option.bind_eq_bind, Option.bind_eq_some, List.foldlM_cons, List.foldlM_nil,
      Option.pure_def] at h
    obtain ⟨mid, hmid, out2, ⟨s, hs, hw⟩, ho⟩ := h
    cases ho
    obtain ⟨l1, l2, l3, l4⟩ := ih init mid hmid
    unfold wr at hw
    split_ifs at hw with hl
    cases hw
    refine ⟨by simp [l1], by omega, ?_, ?_⟩
    · intro k hk
      by_cases e : k = n
      · subst e
        refine ⟨s, hs, ?_⟩
        unfold rd
        rw [List.getElem?_set_self hl]
      · obtain ⟨s2, h1, h2⟩ := l3 k (by omega)
        refine ⟨s2, h1, ?_⟩
        unfold rd at h2 ⊢
        rw [List.getElem?_set_ne (by omega)]
        exact h2
    · intro k hk
      have := l4 k (by omega)
      unfold rd at this ⊢
      rw [List.getElem?_set_ne (by omega)]
      exact this

/-- The entries of the root table and of the extents of an AC table built by
`buildtable` with the extents asked for. -/
theorem buildtable_extents (table ac : TJPGHmTable) (mode : Nat) (lns syms : List Nat)
    (hb : buildtable table mode lns syms = some (true, ac)) (hm : mode >>> 1 ≠ 0)
    (hs : ∀ x ∈ syms, x < 256) (k : Nat) (hk : k < 512) :
    ∃ s, rd ac.symbols k = some s ∧ (s < 8192 ∨ 32768 ≤ s) ∧
      rd ac.sextent k = some (buildextententry k s) := by
  have tail : ∀ (codes : List Nat) (v : Nat),
      ((buildtableReset table.symbols).bind fun symbols =>
        (buildtableSecondary lns codes (16 - ROOTBITS) symbols (1 <<< ROOTBITS)).bind fun d =>
          if d.2 > v then some (false, { table with symbols := d.1 })
          else (buildtablePopulate lns syms 16 0 0 codes d.1).bind fun symbols =>
            (buildextenttable { table with symbols := symbols }).bind fun t => some (true, t))
        = some (true, ac) →
      ∃ s, rd ac.symbols k = some s ∧ (s < 8192 ∨ 32768 ≤ s) ∧
        rd ac.sextent k = some (buildextententry k s) := by
    intro codes v hb
    simp only [Option.bind_eq_some] at hb
    obtain ⟨symbols1, hr, p, hsec, hb⟩ := hb
    obtain ⟨symbols2, offset⟩ := p
    by_cases h3 : offset > v
    · simp [h3] at hb
    simp only [h3, if_false, Option.bind_eq_some] at hb
    obtain ⟨symbols3, hp, t2, he, hb⟩ := hb
    simp only [Option.some.injEq, Prod.mk.injEq, true_and] at hb
    subst hb
    unfold buildextenttable at he
    simp only [Option.bind_eq_bind, Option.bind_eq_some] at he
    obtain ⟨sextent, hf, he⟩ := he
    simp only [Option.pure_def, Option.some.injEq] at he
    subst he
    have hroot : RootOK symbols3 := by
      apply rootOK_populate lns syms hs _ _ _ _ _ _ (by omega) _ hp
      apply rootOK_secondary _ _ _ _ _ _ _ _ hsec
      exact rootOK_reset _ _ hr
    obtain ⟨_, _, l3, _⟩ := buildextentfold symbols3 _ _ _ hf
    obtain ⟨s, e1, e2⟩ := l3 k (by simpa [ROOTBITS] using hk)
    exact ⟨s, e1, hroot k s hk e1, e2⟩
  unfold buildtable at hb
  by_cases hmode : mode &&& 1 = 0
  · simp only [hmode, if_true, Option.bind_eq_bind, Option.bind_eq_some] at hb
    obtain ⟨r, _, hb⟩ := hb
    rcases r with _ | ⟨m, codes⟩
    · simp at hb
    · simp only [Option.bind_eq_some] at hb
      obtain ⟨ok, _, hb⟩ := hb
      split_ifs at hb with h1
      all_goals first | exact tail codes _ hb | simp at hb
  · simp only [hmode, if_false, Option.bind_eq_bind, Option.bind_eq_some] at hb
    obtain ⟨r, _, hb⟩ := hb
    rcases r with _ | ⟨m, codes⟩
    · simp at hb
    · simp only [Option.pure_def, Option.some_bind] at hb
      split_ifs at hb with h1
      all_goals first | exact tail codes _ hb | simp at hb

/-- The word that `fillword` appends. -/
theorem fillword_value (jpgr j : TJPGR) (bb b : Nat) (h : fillword jpgr bb = some (b, j)) :
    ∃ w, b = ((bb <<< 16) ||| (w % 65536)) % 2 ^ 64 := by
  unfold fillword at h
  by_cases hc : jpgr.bits.bindex ≥ BPREFETCHBZ
  · simp only [hc, if_true, Option.bind_eq_bind, Option.bind_eq_some, Option.pure_def,
      Option.some.injEq, Prod.mk.injEq] at h
    obtain ⟨_, _, w, _, e, _⟩ := h
    exact ⟨w, e.symm⟩
  · simp only [hc, if_false, Option.bind_eq_bind, Option.bind_eq_some, Option.pure_def,
      Option.some.injEq, Prod.mk.injEq] at h
    obtain ⟨_, _, w, _, e, _⟩ := h
    exact ⟨w, e.symm⟩

/-- A refill keeps the position, the count of bits, the block and the bits at
the top of the bit buffer. -/
theorem refill_keeps (jpgr jpgr2 : TJPGR) (l l2 : TBlockLocals) (size : Nat)
    (hbb : l.bb < 2 ^ l.bc) (hs : size ≤ l.bc) (h : refill jpgr l = some (jpgr2, l2)) :
    l2.i = l.i ∧ l2.r = l.r ∧ l2.block = l.block ∧ size ≤ l2.bc ∧
      l2.bb >>> (l2.bc - size) = l.bb >>> (l.bc - size) := by
  unfold refill at h
  split_ifs at h with hc
  · simp only [Option.map_eq_some'] at h
    obtain ⟨p, hp, h⟩ := h
    simp only [Prod.mk.injEq] at h
    obtain ⟨_, h⟩ := h
    subst h
    unfold fillbbuffer at hp
    simp only [Option.bind_eq_bind, Option.bind_eq_some, Prod.exists] at hp
    obtain ⟨b1, j1, h1, b2, j2, h2, h3⟩ := hp
    obtain ⟨b3, j3⟩ := p
    obtain ⟨w1, e1⟩ := fillword_value _ _ _ _ h1
    obtain ⟨w2, e2⟩ := fillword_value _ _ _ _ h2
    obtain ⟨w3, e3⟩ := fillword_value _ _ _ _ h3
    refine ⟨rfl, rfl, rfl, ?_, ?_⟩
    · show size ≤ l.bc + BBFILLBITS
      omega
    · show b3 >>> (l.bc + BBFILLBITS - size) = _
      rw [e3, e2, e1]
      exact refill_bits l.bb l.bc w1 w2 w3 size hbb hc hs
  · cases h
    exact ⟨rfl, rfl, rfl, hs, rfl⟩

/-- The content of an extent that is not 0, for a root entry of a symbol of 8
bits. -/
theorem extent_entry (k s0 : Nat) (hr : s0 < 8192 ∨ 32768 ≤ s0)
    (h0 : buildextententry k s0 ≠ 0) :
    s0 < 8192 ∧ (s0 >>> 5) &&& 15 ≠ 0 ∧ (s0 &&& 31) + ((s0 >>> 5) &&& 15) ≤ 9 ∧
    -128 ≤ extend (((s0 >>> 5) &&& 15 : Nat) : Int)
      (((((k <<< (s0 &&& 31)) &&& ((1 <<< 9) - 1)) >>> (9 - ((s0 >>> 5) &&& 15)) : Nat)) : Int) ∧
    extend (((s0 >>> 5) &&& 15 : Nat) : Int)
      (((((k <<< (s0 &&& 31)) &&& ((1 <<< 9) - 1)) >>> (9 - ((s0 >>> 5) &&& 15)) : Nat)) : Int) ≤ 127 ∧
    buildextententry k s0 =
      extend (((s0 >>> 5) &&& 15 : Nat) : Int)
        (((((k <<< (s0 &&& 31)) &&& ((1 <<< 9) - 1)) >>> (9 - ((s0 >>> 5) &&& 15)) : Nat)) : Int)
          * (256 : Int)
      + (((s0 >>> 5) >>> 4 : Nat) : Int) * (16 : Int)
      + (((s0 &&& 31) + ((s0 >>> 5) &&& 15) : Nat) : Int) := by
  unfold buildextententry at h0 ⊢
  simp only [GETSYMBOL, GETLENGTH, LENGTHMASK, LENGTHBITS, ROOTBITS, Nat.shiftRight_zero] at h0 ⊢
  have e31 : (1 <<< 5) - 1 = 31 := by decide
  rw [e31] at h0 ⊢
  split_ifs at h0 ⊢ with h1 h2 h3
  · exact absurd rfl h0
  · exact absurd rfl h0
  · exact absurd rfl h0
  · have hs : s0 < 8192 := by omega
    have hrr : (s0 >>> 5) >>> 4 ≤ 15 := by
      rw [Nat.shiftRight_eq_div_pow, Nat.shiftRight_eq_div_pow]
      omega
    push_neg at h2 h3
    refine ⟨hs, h2.1, by omega, h3.1, h3.2, ?_⟩
    exact extent_value _ _ _ h3.1 h3.2 hrr (by omega)

theorem zzorder_rd64 (k : Nat) (h : k < 64) : ∃ z, rd zzorder k = some z ∧ z < 64 := by
  revert k
  decide

/-- The symbol that `decodeblock` takes from an `int16` entry without the sign
bit. -/
theorem getsymbol16 (s : Nat) (h : s < 32768) : GETSYMBOL16 s = s >>> 5 := by
  unfold GETSYMBOL16 toInt16
  have e : ((s : Int) + 32768) % 65536 - 32768 = ((s : Nat) : Int) := by omega
  rw [e, Int.shiftRight_eq_div_pow]
  have e2 : ((s : Nat) : Int) / ((2 ^ 5 : Nat) : Int) = ((s / 2 ^ 5 : Nat) : Int) := by
    push_cast
    rfl
  rw [e2, Nat.shiftRight_eq_div_pow]
  have : s / 2 ^ 5 < 2 ^ 64 := by omega
  omega

/-- The extents after the loop of `buildextenttable`, in closed form. -/
theorem buildextentfold_closed (symbols : List Nat) : ∀ (n : Nat) (init : List Int),
    n ≤ symbols.length → n ≤ init.length →
    (List.range n).foldlM (fun sextent i => do
      let s ← rd symbols i
      wr sextent i (buildextententry i s)) init
    = some ((List.range n).map (fun i => buildextententry i (symbols.getD i 0))
        ++ init.drop n) := by
  intro n
  induction n with
  | zero =>
    intro init _ _
    simp
  | succ n ih =>
    intro init h1 h2
    rw [List.range_succ, List.foldlM_append, ih init (by omega) (by omega)]
    have hs : rd symbols n = some (symbols.getD n 0) := by
      unfold rd
      rw [List.getD_eq_getElem?_getD, List.getElem?_eq_getElem (by omega)]
      rfl
    simp only [Option.bind_eq_bind, Option.some_bind, List.foldlM_cons, List.foldlM_nil, hs,
      Option.pure_def, List.map_append, List.map_cons, List.map_nil]
    unfold wr
    rw [if_pos (by simp; omega)]
    simp only [Option.bind_some, Option.some.injEq]
    have hl : (List.map (fun i => buildextententry i (symbols.getD i 0)) (List.range n)).length
        = n := by simp
    rw [List.set_append_right _ _ (by omega), hl, Nat.sub_self]
    rw [List.append_assoc]
    congr 1
    rw [List.drop_eq_getElem_cons (by omega : n < init.length)]
    rfl

/-- A table built with the extents is the table built without them to which
`buildextenttable` is applied. -/
theorem buildtable_with_extents (table t : TJPGHmTable) (mode mode2 : Nat)
    (lns syms : List Nat) (h : buildtable table mode lns syms = some (true, t))
    (h0 : mode >>> 1 = 0) (h1 : mode2 &&& 1 = mode &&& 1) (h2 : mode2 >>> 1 ≠ 0) :
    buildtable table mode2 lns syms = (buildextenttable t).map (fun t2 => (true, t2)) := by
  have tail : ∀ (codes : List Nat) (v : Nat),
      ((buildtableReset table.symbols).bind fun a =>
        (buildtableSecondary lns codes (16 - ROOTBITS) a (1 <<< ROOTBITS)).bind fun a =>
          if a.2 > v then
            pure (false, { defined := table.defined, symbols := a.1, sextent := table.sextent })
          else
            (buildtablePopulate lns syms 16 0 0 codes a.1).bind fun symbols =>
              if mode >>> 1 ≠ 0 then
                (buildextenttable
                      { defined := table.defined, symbols := symbols, sextent := table.sextent }).bind
                  fun table => pure (true, table)
              else pure (true, { defined := table.defined, symbols := symbols,
                                 sextent := table.sextent })) = some (true, t) →
      ((buildtableReset table.symbols).bind fun a =>
        (buildtableSecondary lns codes (16 - ROOTBITS) a (1 <<< ROOTBITS)).bind fun a =>
          if a.2 > v then
            pure (false, { defined := table.defined, symbols := a.1, sextent := table.sextent })
          else
            (buildtablePopulate lns syms 16 0 0 codes a.1).bind fun symbols =>
              if mode2 >>> 1 ≠ 0 then
                (buildextenttable
                      { defined := table.defined, symbols := symbols, sextent := table.sextent }).bind
                  fun table => pure (true, table)
              else pure (true, { defined := table.defined, symbols := symbols,
                                 sextent := table.sextent }))
        = Option.map (fun t2 => (true, t2)) (buildextenttable t) := by
    intro codes v h
    generalize buildtableReset table.symbols = r1 at h ⊢
    rcases r1 with _ | symbols1
    · simp at h
    simp only [Option.some_bind] at h ⊢
    generalize buildtableSecondary lns codes (16 - ROOTBITS) symbols1 (1 <<< ROOTBITS) = r2 at h ⊢
    rcases r2 with _ | ⟨symbols2, offset⟩
    · simp at h
    simp only [Option.some_bind] at h ⊢
    by_cases h3 : offset > v
    · simp [h3] at h
    simp only [h3, if_false] at h ⊢
    generalize buildtablePopulate lns syms 16 0 0 codes symbols2 = r3 at h ⊢
    rcases r3 with _ | symbols3
    · simp at h
    simp only [Option.some_bind, h0, h2, ne_eq, not_true_eq_false, not_false_eq_true, if_true,
      if_false, Option.pure_def, Option.some.injEq, Prod.mk.injEq, true_and] at h ⊢
    subst h
    generalize buildextenttable _ = rb
    cases rb <;> rfl
  unfold buildtable at h ⊢
  rw [h1]
  generalize buildtableCodes lns 16 0 1 0 0 (List.replicate 16 0) = rc at h ⊢
  rcases rc with _ | _ | ⟨m, codes⟩
  · simp at h
  · simp at h
  · simp only [Option.bind_eq_bind, Option.some_bind] at h ⊢
    by_cases hmode : mode &&& 1 = 0
    · simp only [hmode, if_true] at h ⊢
      generalize buildtableRange syms m 0 = rr at h ⊢
      rcases rr with _ | ok
      · simp at h
      · simp only [Option.some_bind] at h ⊢
        by_cases hok : ok = false
        · simp [hok] at h
        · simp only [hok, if_false] at h ⊢
          rw [if_neg (by decide)] at h ⊢
          exact tail codes _ h
    · simp only [hmode, if_false, Option.pure_def, Option.some_bind] at h ⊢
      rw [if_neg (by decide)] at h ⊢
      exact tail codes _ h

/-- The table of the code `code8` for the symbol 0x21 with its extents. -/
theorem buildtable_acExtents :
    buildtable emptyACTable 5 code8 [0x21] = some (true, acExtents) := by
  have h : buildtable emptyACTable 1 code8 [0x21]
      = some (true, { acExtents with sextent := List.replicate (1 <<< ROOTBITS) 0 }) := by
    decide!
  rw [buildtable_with_extents _ _ 1 5 _ _ h (by decide) (by decide) (by decide)]
  unfold buildextenttable
  rw [buildextentfold_closed _ _ _ (by decide) (by decide)]
  have e : (List.range (1 <<< ROOTBITS)).map (fun i => buildextententry i
      (({ acExtents with sextent := List.replicate (1 <<< ROOTBITS) 0 } : TJPGHmTable).symbols.getD
        i 0)) = acExtents.sextent := by
    delta buildextententry
    rw [extend_closed]
    decide!
  rw [e]
  rfl

/-! ### The words that `fecthbits` stores -/

theorem words_append : ∀ (n : Nat) (pre x : List Nat), pre.length = 2 * n →
    words (pre ++ x) = words pre ++ words x := by
  intro n
  induction n with
  | zero =>
    intro pre x h
    have : pre = [] := List.length_eq_zero.mp (by omega)
    subst this
    rfl
  | succ n ih =>
    intro pre x h
    match pre, h with
    | b0 :: b1 :: t, h =>
      simp only [List.length_cons] at h
      show words (b0 :: b1 :: (t ++ x)) = _
      simp only [words, List.cons_append]
      rw [ih t x (by omega)]

theorem words_length : ∀ (n : Nat) (l : List Nat), l.length = 2 * n → (words l).length = n := by
  intro n
  induction n with
  | zero =>
    intro l h
    have : l = [] := List.length_eq_zero.mp (by omega)
    subst this
    rfl
  | succ n ih =>
    intro l h
    match l, h with
    | b0 :: b1 :: t, h =>
      simp only [List.length_cons] at h
      simp only [words, List.length_cons]
      rw [ih t (by omega)]

theorem take_set_self (bb : List Nat) (index v : Nat) :
    List.take index (bb.set index v) = List.take index bb := by
  apply List.ext_getElem?
  intro i
  rw [List.getElem?_take, List.getElem?_take]
  split_ifs with h
  · rw [List.getElem?_set_ne (by omega)]
  · rfl

theorem store_index_lt (index j buffer : Nat) (bb out : List Nat)
    (h : StoreInv index j buffer bb out) (hl : out.length < 64) : index < BPREFETCHBZ := by
  unfold BPREFETCHBZ
  obtain ⟨_, h | h⟩ := h
  · omega
  · obtain ⟨_, _, pre, e, e2, _⟩ := h
    rw [e] at hl
    simp at hl
    omega

theorem store_final (index j buffer : Nat) (bb out : List Nat)
    (h : StoreInv index j buffer bb out) (hl : out.length = 64) :
    index = BPREFETCHBZ ∧ j = 0 ∧ bb = words out := by
  unfold BPREFETCHBZ
  obtain ⟨hb, h | h⟩ := h
  · obtain ⟨h1, h2, h3, h4⟩ := h
    have : index = 32 := by omega
    subst this
    refine ⟨rfl, h1, ?_⟩
    rw [← h4, List.take_of_length_le (by rw [hb]; decide)]
  · obtain ⟨_, _, pre, e, e2, _⟩ := h
    rw [e] at hl
    simp at hl
    omega

theorem store_push (index j buffer m : Nat) (bb out : List Nat)
    (h : StoreInv index j buffer bb out) (hm : m < 256) (hi : index < BPREFETCHBZ) :
    (j + 8 = 16 → ∃ bb', wr bb index ((m ||| buffer <<< 8) % 65536) = some bb' ∧
      StoreInv (index + 1) 0 0 bb' (out ++ [m])) ∧
    (j + 8 ≠ 16 → StoreInv index (j + 8) (m ||| buffer <<< 8) bb (out ++ [m])) := by
  obtain ⟨hb, h | h⟩ := h
  · obtain ⟨h1, h2, h3, h4⟩ := h
    subst h1 h2
    refine ⟨fun e => absurd e (by decide), fun _ => ⟨hb, Or.inr ⟨rfl, ?_, out, ?_, h3, h4⟩⟩⟩
    · simpa using hm
    · simp
  · obtain ⟨h1, h2, pre, e, e2, e3⟩ := h
    subst h1
    refine ⟨fun _ => ?_, fun e => absurd rfl e⟩
    have hv : (m ||| buffer <<< 8) % 65536 = buffer * 256 + m := by
      rw [Nat.shiftLeft_eq, Nat.lor_comm, Nat.mul_comm,
        ← Nat.mul_add_lt_is_or (by omega : m < 2 ^ 8)]
      omega
    unfold wr
    rw [if_pos (by rw [hb]; exact hi)]
    refine ⟨_, rfl, by simp [hb], Or.inl ⟨rfl, rfl, ?_, ?_⟩⟩
    · rw [e]
      simp
      omega
    · rw [e, List.append_assoc, words_append index pre _ e2, hv]
      show _ = words pre ++ [buffer * 256 + m]
      rw [← e3]
      have hlt : index < bb.length := by rw [hb]; exact hi
      rw [List.take_succ]
      congr 1
      · rw [take_set_self]
      · rw [List.getElem?_set_self hlt]
        rfl

/-! ### The input of `fecthbits` -/

theorem nextbyte_none (j : TJPGR) (s : Nat) :
    nextbyte j s = none ↔ j.window.length ≤ 1 ∧ j.endofinput = 0 := by
  unfold nextbyte
  simp only
  split_ifs <;> simp <;> omega

/-- A call of `readmore` by `fecthbits` keeps the upcoming input and the bit
buffer; it ends the input, or makes two bytes visible, or leaves nothing to
deliver. -/
theorem readmore_upcoming (j : TJPGR) (hv : j.window.length ≤ 1) :
    upcoming (readmore j j.window.length (4 * BUFFERBYTES)).2 = upcoming j ∧
    (readmore j j.window.length (4 * BUFFERBYTES)).2.bits = j.bits ∧
    (j.endofinput = 0 →
      ((readmore j j.window.length (4 * BUFFERBYTES)).2.endofinput ≠ 0 ∨
       1 < (readmore j j.window.length (4 * BUFFERBYTES)).2.window.length ∨
       (readmore j j.window.length (4 * BUFFERBYTES)).2.stream = []) ∧
      (j.stream = [] → (readmore j j.window.length (4 * BUFFERBYTES)).2.endofinput ≠ 0)) := by
  unfold readmore
  simp only
  have hrem : 255 ≤ (if j.room + j.window.length < 4 * BUFFERBYTES
      then BUFFERSIZE - j.window.length else j.room) := by
    unfold BUFFERBYTES BUFFERSIZE
    split_ifs <;> omega
  generalize (if j.room + j.window.length < 4 * BUFFERBYTES
      then BUFFERSIZE - j.window.length else j.room) = remaining at hrem
  by_cases he : j.endofinput ≠ 0
  · rw [if_pos he]
    refine ⟨?_, rfl, fun h => absurd h he⟩
    unfold upcoming
    rfl
  · rw [if_neg he]
    push_neg at he
    by_cases hr : min remaining j.stream.length > 0
    · rw [if_pos hr]
      refine ⟨?_, rfl, fun _ => ⟨?_, ?_⟩⟩
      · unfold upcoming
        simp only [he, if_true, List.append_assoc, List.take_append_drop]
      · by_cases h2 : 1 < (j.window ++ j.stream.take (min remaining j.stream.length)).length
        · exact Or.inr (Or.inl h2)
        · right
          right
          show j.stream.drop (min remaining j.stream.length) = []
          rw [List.length_append, List.length_take] at h2
          apply List.drop_eq_nil_of_le
          omega
      · intro hs
        rw [hs] at hr
        simp at hr
    · rw [if_neg hr]
      have hs : j.stream = [] := by
        apply List.length_eq_zero.mp
        omega
      refine ⟨?_, rfl, fun _ => ⟨Or.inl (by simp), fun _ => by simp⟩⟩
      unfold upcoming
      simp [he, hs]

/-- After at most two calls of `readmore` the loop after `L_SLOW` has a byte to
store. -/
theorem slow_ready (index jj s r buffer : Nat) (j : TJPGR) (hi : index < BPREFETCHBZ) :
    ∃ (k : Nat) (j1 : TJPGR), k ≤ 2 ∧ upcoming j1 = upcoming j ∧ j1.bits = j.bits ∧
      nextbyte j1 s ≠ none ∧
      ∀ fuel, fecthbitsSlow (fuel + k) index jj s r buffer j
        = fecthbitsSlow fuel index jj s r buffer j1 := by
  by_cases h0 : nextbyte j s = none
  · obtain ⟨hv, he⟩ := (nextbyte_none j s).mp h0
    obtain ⟨u1, b1, c1⟩ := readmore_upcoming j hv
    obtain ⟨c1, c1s⟩ := c1 he
    have step1 : ∀ fuel, fecthbitsSlow (fuel + 1) index jj s r buffer j
        = fecthbitsSlow fuel index jj s r buffer
            (readmore j j.window.length (4 * BUFFERBYTES)).2 := by
      intro fuel
      rw [fecthbitsSlow, if_pos hi, h0]
    generalize (readmore j j.window.length (4 * BUFFERBYTES)).2 = j1 at *
    by_cases h1 : nextbyte j1 s = none
    · obtain ⟨hv1, he1⟩ := (nextbyte_none j1 s).mp h1
      obtain ⟨u2, b2, c2⟩ := readmore_upcoming j1 hv1
      obtain ⟨_, c2s⟩ := c2 he1
      have hs1 : j1.stream = [] := by
        rcases c1 with c | c | c
        · exact absurd he1 c
        · omega
        · exact c
      have step2 : ∀ fuel, fecthbitsSlow (fuel + 1) index jj s r buffer j1
          = fecthbitsSlow fuel index jj s r buffer
              (readmore j1 j1.window.length (4 * BUFFERBYTES)).2 := by
        intro fuel
        rw [fecthbitsSlow, if_pos hi, h1]
      refine ⟨2, (readmore j1 j1.window.length (4 * BUFFERBYTES)).2, le_refl _,
        u2.trans u1, b2.trans b1, ?_, ?_⟩
      · intro hn
        exact c2s hs1 ((nextbyte_none _ s).mp hn).2
      · intro fuel
        rw [show fuel + 2 = (fuel + 1) + 1 from rfl, step1, step2]
    · exact ⟨1, j1, by omega, u1, b1, h1, step1⟩
  · exact ⟨0, j, by omega, rfl, rfl, h0, fun _ => rfl⟩

/-- A data byte at the head of the upcoming input is taken by the loop after
`L_SLOW`, with the zero stuffed behind a byte 0xff. -/
theorem data_byte (j : TJPGR) (b r : Nat) (d tail : List Nat)
    (hu : upcoming j = stuffed (b :: d) ++ tail) (hn : nextbyte j 0 ≠ none) :
    ∃ j2, nextbyte j 0 = some (b, 0) ∧ takebyte j b 0 r = some (b, 0, r + 1, j2) ∧
      upcoming j2 = stuffed d ++ tail ∧ j2.bits = j.bits := by
  have hn2 : ¬ (j.window.length ≤ 1 ∧ j.endofinput = 0) := fun h => hn ((nextbyte_none j 0).mpr h)
  unfold upcoming at hu
  by_cases hb : b = 0xff
  · subst hb
    simp only [stuffed, if_true, List.cons_append] at hu
    have hw : 2 ≤ j.window.length := by
      by_contra hc
      have he : j.endofinput ≠ 0 := fun h => hn2 ⟨by omega, h⟩
      rw [if_neg he, List.append_nil] at hu
      rw [hu] at hc
      simp at hc
    match hwin : j.window, hw with
    | b0 :: b1 :: w, _ =>
      rw [hwin] at hu
      simp only [List.cons_append, List.cons.injEq] at hu
      obtain ⟨e0, e1, e2⟩ := hu
      subst e0 e1
      refine ⟨{ j with window := j.window.drop 2 }, ?_, ?_, ?_, rfl⟩
      · unfold nextbyte
        simp [hwin]
      · unfold takebyte rd
        simp [hwin]
      · unfold upcoming
        simp only [hwin, List.drop_succ_cons, List.drop_zero]
        exact e2
  · simp only [stuffed, if_neg hb, List.cons_append] at hu
    have hw : 1 ≤ j.window.length := by
      by_contra hc
      have he : j.endofinput ≠ 0 := fun h => hn2 ⟨by omega, h⟩
      rw [if_neg he, List.append_nil] at hu
      rw [hu] at hc
      simp at hc
    match hwin : j.window, hw with
    | b0 :: w, _ =>
      rw [hwin] at hu
      simp only [List.cons_append, List.cons.injEq] at hu
      obtain ⟨e0, e2⟩ := hu
      subst e0
      refine ⟨{ j with window := j.window.drop 1 }, ?_, ?_, ?_, rfl⟩
      · unfold nextbyte
        simp only [hwin, List.length_cons, List.getD_cons_zero]
        by_cases h1 : w.length + 1 > 1
        · rw [if_pos h1]
        · rw [if_neg h1]
          have hl : j.window.length = w.length + 1 := by rw [hwin]; rfl
          have he : j.endofinput ≠ 0 := fun h => hn2 ⟨by omega, h⟩
          rw [if_pos he, if_pos (by omega), if_neg hb]
      · unfold takebyte
        rw [if_neg hb, if_pos rfl]
      · unfold upcoming
        simp only [hwin, List.drop_succ_cons, List.drop_zero]
        exact e2

/-- A marker at the head of the upcoming input is not taken by the loop after
`L_SLOW`: a zero is stored and `bend` is set. -/
theorem marker_byte (j : TJPGR) (s r nz : Nat) (tail : List Nat)
    (hu : upcoming j = 0xff :: nz :: tail) (hnz : nz ≠ 0) (hn : nextbyte j s ≠ none) :
    nextbyte j s = some (0xff, s) ∧
    takebyte j 0xff s r = some (0, 1, r, { j with bits := { j.bits with bend := 1 } }) := by
  have hn2 : ¬ (j.window.length ≤ 1 ∧ j.endofinput = 0) := fun h => hn ((nextbyte_none j s).mpr h)
  unfold upcoming at hu
  have hw : 2 ≤ j.window.length := by
    by_contra hc
    have he : j.endofinput ≠ 0 := fun h => hn2 ⟨by omega, h⟩
    rw [if_neg he, List.append_nil] at hu
    rw [hu] at hc
    simp at hc
  match hwin : j.window, hw with
  | b0 :: b1 :: w, _ =>
    rw [hwin] at hu
    simp only [List.cons_append, List.cons.injEq] at hu
    obtain ⟨e0, e1, e2⟩ := hu
    subst e0 e1
    constructor
    · unfold nextbyte
      simp [hwin]
    · unfold takebyte rd
      simp [hwin, hnz]

/-- The loop after `L_SLOW` stores the data bytes `d` at the head of the
upcoming input, in at most three iterations for a byte. -/
theorem slow_data : ∀ (d out : List Nat) (index jj buffer r : Nat) (j : TJPGR)
    (tail : List Nat),
    StoreInv index jj buffer j.bits.bb out → upcoming j = stuffed d ++ tail →
    (∀ b ∈ d, b < 256) → out.length + d.length ≤ 64 →
    ∃ (k index' jj' buffer' : Nat) (j' : TJPGR), k ≤ 3 * d.length ∧
      StoreInv index' jj' buffer' j'.bits.bb (out ++ d) ∧ upcoming j' = tail ∧
      j'.bits.bend = j.bits.bend ∧ j'.bits.bbcread = j.bits.bbcread ∧
      ∀ fuel, fecthbitsSlow (fuel + k) index jj 0 r buffer j
        = fecthbitsSlow fuel index' jj' 0 (r + d.length) buffer' j' := by
  intro d
  induction d with
  | nil =>
    intro out index jj buffer r j tail hinv hu _ _
    refine ⟨0, index, jj, buffer, j, le_refl _, ?_, hu, rfl, rfl, fun _ => rfl⟩
    rw [List.append_nil]
    exact hinv
  | cons b d ih =>
    intro out index jj buffer r j tail hinv hu hd hl
    simp only [List.length_cons] at hl
    have hi : index < BPREFETCHBZ := store_index_lt _ _ _ _ _ hinv (by omega)
    obtain ⟨k1, j1, hk1, u1, b1, n1, s1⟩ := slow_ready index jj 0 r buffer j hi
    rw [← b1] at hinv
    obtain ⟨j2, hnext, htake, u2, b2⟩ := data_byte j1 b r d tail (u1.trans hu) n1
    rw [← b2] at hinv
    have hb : b < 256 := hd b (List.mem_cons_self _ _)
    obtain ⟨p1, p2⟩ := store_push index jj buffer b _ out hinv hb hi
    have hd2 : ∀ x ∈ d, x < 256 := fun x hx => hd x (List.mem_cons_of_mem _ hx)
    by_cases h16 : jj + 8 = 16
    · obtain ⟨bb', hw, hinv'⟩ := p1 h16
      obtain ⟨k2, index', jj', buffer', j', hk2, q1, q2, q3, q4, q5⟩ :=
        ih (out ++ [b]) (index + 1) 0 0 (r + 1) { j2 with bits := { j2.bits with bb := bb' } }
          tail hinv' u2 hd2 (by simp; omega)
      refine ⟨k2 + 1 + k1, index', jj', buffer', j', by simp only [List.length_cons]; omega,
        ?_, q2, ?_, ?_, ?_⟩
      · rw [List.append_assoc] at q1
        exact q1
      · rw [q3]
        show j2.bits.bend = _
        rw [b2, b1]
      · rw [q4]
        show j2.bits.bbcread = _
        rw [b2, b1]
      · intro fuel
        rw [← Nat.add_assoc, s1, ← Nat.add_assoc, fecthbitsSlow, if_pos hi, hnext]
        simp only [htake]
        rw [if_pos h16]
        simp only [hw]
        rw [q5]
        simp only [List.length_cons]
        congr 1
        omega
    · have hinv' := p2 h16
      obtain ⟨k2, index', jj', buffer', j', hk2, q1, q2, q3, q4, q5⟩ :=
        ih (out ++ [b]) index (jj + 8) (b ||| buffer <<< 8) (r + 1) j2
          tail hinv' u2 hd2 (by simp; omega)
      refine ⟨k2 + 1 + k1, index', jj', buffer', j', by simp only [List.length_cons]; omega,
        ?_, q2, ?_, ?_, ?_⟩
      · rw [List.append_assoc] at q1
        exact q1
      · rw [q3, b2, b1]
      · rw [q4, b2, b1]
      · intro fuel
        rw [← Nat.add_assoc, s1, ← Nat.add_assoc, fecthbitsSlow, if_pos hi, hnext]
        simp only [htake]
        rw [if_neg h16]
        rw [q5]
        simp only [List.length_cons]
        congr 1
        omega

/-- The loop after `L_SLOW` ends when the 64 bytes are stored. -/
theorem slow_done (index jj s r buffer fuel : Nat) (j : TJPGR) (out : List Nat)
    (hinv : StoreInv index jj buffer j.bits.bb out) (hl : out.length = 64) :
    fecthbitsSlow (fuel + 1) index jj s r buffer j = some (r, j) ∧ j.bits.bb = words out := by
  obtain ⟨e1, _, e3⟩ := store_final _ _ _ _ _ hinv hl
  refine ⟨?_, e3⟩
  rw [fecthbitsSlow, if_neg (by omega)]

/-- The loop after `L_SLOW` at a marker stores zeros up to the end of `bb` and
leaves the input as it is. -/
theorem slow_marker : ∀ (n : Nat) (out : List Nat) (index jj s buffer r : Nat) (j : TJPGR)
    (nz : Nat) (tail : List Nat),
    StoreInv index jj buffer j.bits.bb out → out.length + n = 64 →
    upcoming j = 0xff :: nz :: tail → nz ≠ 0 → nextbyte j s ≠ none →
    ∃ j', (∀ fuel, fecthbitsSlow (fuel + n + 1) index jj s r buffer j = some (r, j')) ∧
      j'.bits.bb = words (out ++ List.replicate n 0) ∧ upcoming j' = upcoming j ∧
      (0 < n → j'.bits.bend = 1) ∧ (n = 0 → j'.bits.bend = j.bits.bend) ∧
      j'.bits.bbcread = j.bits.bbcread := by
  intro n
  induction n with
  | zero =>
    intro out index jj s buffer r j nz tail hinv hl hu hnz hn
    refine ⟨j, fun fuel => (slow_done index jj s r buffer fuel j out hinv hl).1, ?_, rfl,
      fun h => absurd h (by decide), fun _ => rfl, rfl⟩
    rw [List.replicate_zero, List.append_nil]
    exact (slow_done index jj s r buffer 0 j out hinv hl).2
  | succ n ih =>
    intro out index jj s buffer r j nz tail hinv hl hu hnz hn
    have hi : index < BPREFETCHBZ := store_index_lt _ _ _ _ _ hinv (by omega)
    obtain ⟨hnext, htake⟩ := marker_byte j s r nz tail hu hnz hn
    obtain ⟨p1, p2⟩ := store_push index jj buffer 0 _ out hinv (by decide) hi
    have hn' : ∀ (jx : TJPGR), jx.window = j.window → jx.endofinput = j.endofinput →
        nextbyte jx 1 ≠ none := by
      intro jx e1 e2 h
      have := (nextbyte_none jx 1).mp h
      rw [e1, e2] at this
      exact hn ((nextbyte_none j s).mpr this)
    have hrep : out ++ List.replicate (n + 1) 0 = (out ++ [0]) ++ List.replicate n 0 := by
      rw [List.replicate_succ, List.append_assoc]
      rfl
    by_cases h16 : jj + 8 = 16
    · obtain ⟨bb', hw, hinv'⟩ := p1 h16
      obtain ⟨j', q1, q2, q3, q4, q5, q6⟩ :=
        ih (out ++ [0]) (index + 1) 0 1 0 r
          { j with bits := { j.bits with bend := 1, bb := bb' } } nz tail hinv'
          (by simp; omega) hu hnz (hn' _ rfl rfl)
      refine ⟨j', ?_, ?_, q3, fun _ => ?_, fun h => absurd h (by omega), q6⟩
      · intro fuel
        rw [fecthbitsSlow, if_pos hi, hnext]
        simp only [htake]
        rw [if_pos h16]
        simp only [hw]
        exact q1 fuel
      · rw [hrep]
        exact q2
      · rcases Nat.eq_zero_or_pos n with h0 | h0
        · exact q5 h0
        · exact q4 h0
    · have hinv' := p2 h16
      obtain ⟨j', q1, q2, q3, q4, q5, q6⟩ :=
        ih (out ++ [0]) index (jj + 8) 1 (0 ||| buffer <<< 8) r
          { j with bits := { j.bits with bend := 1 } } nz tail hinv'
          (by simp; omega) hu hnz (hn' _ rfl rfl)
      refine ⟨j', ?_, ?_, q3, fun _ => ?_, fun h => absurd h (by omega), q6⟩
      · intro fuel
        rw [fecthbitsSlow, if_pos hi, hnext]
        simp only [htake]
        rw [if_neg h16]
        exact q1 fuel
      · rw [hrep]
        exact q2
      · rcases Nat.eq_zero_or_pos n with h0 | h0
        · exact q5 h0
        · exact q4 h0

/-- The loop after `L_SLOW` on an input that holds the data bytes for the rest
of `bb`. -/
theorem slow_filled (d out : List Nat) (index jj buffer r : Nat) (j : TJPGR) (tail : List Nat)
    (hinv : StoreInv index jj buffer j.bits.bb out) (hu : upcoming j = stuffed d ++ tail)
    (hd : ∀ b ∈ d, b < 256) (hl : out.length + d.length = 64) :
    ∃ j', fecthbitsSlow 256 index jj 0 r buffer j = some (r + d.length, j') ∧
      j'.bits.bb = words (out ++ d) ∧ upcoming j' = tail ∧
      j'.bits.bend = j.bits.bend ∧ j'.bits.bbcread = j.bits.bbcread := by
  obtain ⟨k, index', jj', buffer', j', hk, q1, q2, q3, q4, q5⟩ :=
    slow_data d out index jj buffer r j tail hinv hu hd (by omega)
  have hlen : (out ++ d).length = 64 := by rw [List.length_append]; exact hl
  obtain ⟨e1, e2⟩ := slow_done index' jj' 0 (r + d.length) buffer' (255 - k) j' (out ++ d) q1 hlen
  refine ⟨j', ?_, e2, q2, q3, q4⟩
  have h := q5 (255 - k + 1)
  rw [show 255 - k + 1 + k = 256 by omega] at h
  rw [h, e1]

/-- The loop after `L_SLOW` on an input that holds a marker behind fewer data
bytes than `bb` has room for. -/
theorem slow_marked (d out : List Nat) (index jj buffer r nz : Nat) (j : TJPGR)
    (tail : List Nat)
    (hinv : StoreInv index jj buffer j.bits.bb out)
    (hu : upcoming j = stuffed d ++ 0xff :: nz :: tail) (hnz : nz ≠ 0)
    (hd : ∀ b ∈ d, b < 256) (hl : out.length + d.length < 64) :
    ∃ j', fecthbitsSlow 256 index jj 0 r buffer j = some (r + d.length, j') ∧
      j'.bits.bb = words (out ++ d ++ List.replicate (64 - (out.length + d.length)) 0) ∧
      upcoming j' = 0xff :: nz :: tail ∧
      j'.bits.bend = 1 ∧ j'.bits.bbcread = j.bits.bbcread := by
  obtain ⟨k, index', jj', buffer', j1, hk, q1, q2, q3, q4, q5⟩ :=
    slow_data d out index jj buffer r j _ hinv hu hd (by omega)
  have hlen : (out ++ d).length = out.length + d.length := List.length_append _ _
  have hi : index' < BPREFETCHBZ := store_index_lt _ _ _ _ _ q1 (by omega)
  obtain ⟨k2, j2, hk2, u2, b2, n2, s2⟩ := slow_ready index' jj' 0 (r + d.length) buffer' j1 hi
  rw [← b2] at q1
  obtain ⟨j', m1, m2, m3, m4, _, m6⟩ :=
    slow_marker (64 - (out.length + d.length)) (out ++ d) index' jj' 0 buffer' (r + d.length) j2
      nz tail q1 (by omega) (u2.trans q2) hnz n2
  refine ⟨j', ?_, m2, (m3.trans u2).trans q2, m4 (by omega), ?_⟩
  · have h := q5 (256 - k)
    rw [show 256 - k + k = 256 by omega] at h
    rw [h]
    have h2 := s2 (256 - k - k2)
    rw [show 256 - k - k2 + k2 = 256 - k by omega] at h2
    rw [h2]
    have h3 := m1 (256 - k - k2 - (64 - (out.length + d.length)) - 1)
    rw [show 256 - k - k2 - (64 - (out.length + d.length)) - 1
        + (64 - (out.length + d.length)) + 1 = 256 - k - k2 by omega] at h3
    exact h3
  · rw [m6, b2, q4]

/-- The head of an entropy-coded sequence that is not 0xff is a data byte. -/
theorem stuffed_head (d tail rest : List Nat) (b0 : Nat) (h : stuffed d ++ tail = b0 :: rest)
    (hb : b0 ≠ 0xff) (hd : d ≠ [] ∨ ∃ t, tail = 0xff :: t) :
    ∃ d', d = b0 :: d' ∧ rest = stuffed d' ++ tail := by
  match d, hd with
  | [], hd =>
    rcases hd with hd | ⟨t, ht⟩
    · exact absurd rfl hd
    · subst ht
      simp only [stuffed, List.nil_append, List.cons.injEq] at h
      exact absurd h.1.symm hb
  | x :: d', _ =>
    by_cases hx : x = 0xff
    · subst hx
      simp only [stuffed, if_true, List.cons_append, List.cons.injEq] at h
      exact absurd h.1.symm hb
    · simp only [stuffed, if_neg hx, List.cons_append, List.cons.injEq] at h
      obtain ⟨e1, e2⟩ := h
      subst e1
      exact ⟨d', rfl, e2.symm⟩

theorem store_pair (index b0 b1 : Nat) (bb out : List Nat)
    (h : StoreInv index 0 0 bb out) (h1 : b1 < 256) (hi : index < BPREFETCHBZ) :
    ∃ bb', wr bb index ((b0 <<< 8) ||| b1) = some bb' ∧
      StoreInv (index + 1) 0 0 bb' (out ++ [b0, b1]) := by
  obtain ⟨hb, h | h⟩ := h
  · obtain ⟨_, _, h3, h4⟩ := h
    have hv : (b0 <<< 8) ||| b1 = b0 * 256 + b1 := by
      rw [Nat.shiftLeft_eq, Nat.mul_comm, ← Nat.mul_add_lt_is_or (by omega : b1 < 2 ^ 8)]
    unfold wr
    rw [if_pos (by rw [hb]; exact hi)]
    refine ⟨_, rfl, by simp [hb], Or.inl ⟨rfl, rfl, ?_, ?_⟩⟩
    · simp only [List.length_append, List.length_cons, List.length_nil]
      omega
    · rw [words_append index out _ h3, hv]
      show _ = words out ++ [b0 * 256 + b1]
      rw [← h4]
      have hlt : index < bb.length := by rw [hb]; exact hi
      rw [List.take_succ]
      congr 1
      · rw [take_set_self]
      · rw [List.getElem?_set_self hlt]
        rfl
  · obtain ⟨h1, _⟩ := h
    exact absurd h1 (by decide)

/-- The first loop of `fecthbits` stores the data bytes two by two up to a
byte 0xff. -/
theorem fast_data : ∀ (n index : Nat) (j : TJPGR) (d tail out : List Nat),
    StoreInv index 0 0 j.bits.bb out → upcoming j = stuffed d ++ tail →
    (∀ b ∈ d, b < 256) → index + n ≤ BPREFETCHBZ → 2 * n ≤ j.window.length →
    (2 * n ≤ d.length ∨ ∃ t, tail = 0xff :: t) →
    ∃ (ok : Bool) (index' : Nat) (j' : TJPGR) (dpre drest : List Nat),
      fecthbitsFast n index j = some (ok, index', j') ∧ d = dpre ++ drest ∧
      StoreInv index' 0 0 j'.bits.bb (out ++ dpre) ∧ upcoming j' = stuffed drest ++ tail ∧
      j'.bits.bend = j.bits.bend ∧
      (ok = true → index' = index + n ∧ j'.bits.bbcread = j.bits.bbcread) ∧
      (ok = false →
        j'.bits.bbcread = j.bits.bbcread + ((8 * (out ++ dpre).length : Nat) : Int)) := by
  intro n
  induction n with
  | zero =>
    intro index j d tail out hinv hu hd hi hw hdt
    refine ⟨true, index, j, [], d, rfl, rfl, ?_, hu, rfl, fun _ => ⟨rfl, rfl⟩,
      fun h => absurd h (by decide)⟩
    rw [List.append_nil]
    exact hinv
  | succ n ih =>
    intro index j d tail out hinv hu hd hi hw hdt
    match hwin : j.window, hw with
    | b0 :: b1 :: w, hw =>
      have r0 : rd j.window 0 = some b0 := by rw [hwin]; rfl
      have r1 : rd j.window 1 = some b1 := by rw [hwin]; simp [rd]
      rw [fecthbitsFast]
      simp only [r0, r1, Option.bind_eq_bind, Option.some_bind]
      by_cases hff : b0 = 0xff ∨ b1 = 0xff
      · rw [if_pos hff]
        refine ⟨false, index, _, [], d, rfl, rfl, ?_, hu, rfl, fun h => absurd h (by decide),
          fun _ => ?_⟩
        · rw [List.append_nil]
          exact hinv
        · show j.bits.bbcread + _ = _
          congr 2
          rw [List.append_nil]
          obtain ⟨_, h | h⟩ := hinv
          · rw [h.2.2.1, Nat.shiftLeft_eq, Nat.shiftLeft_eq]
            omega
          · exact absurd h.1 (by decide)
      · rw [if_neg hff]
        push_neg at hff
        unfold upcoming at hu
        rw [hwin] at hu
        simp only [List.cons_append] at hu
        obtain ⟨d1, e1, hu1⟩ := stuffed_head d tail _ b0 hu.symm hff.1 (by
          rcases hdt with h | h
          · left
            intro hnil
            rw [hnil] at h
            simp only [List.length_nil] at h
            omega
          · exact Or.inr h)
        obtain ⟨d2, e2, hu2⟩ := stuffed_head d1 tail _ b1 hu1.symm hff.2 (by
          rcases hdt with h | h
          · left
            intro hnil
            rw [e1, hnil] at h
            simp only [List.length_cons, List.length_nil] at h
            omega
          · exact Or.inr h)
        subst e1 e2
        have hb1 : b1 < 256 := hd b1 (by simp)
        have hidx : index < BPREFETCHBZ := by omega
        obtain ⟨bb', hwr, hinv'⟩ := store_pair index b0 b1 _ out hinv hb1 hidx
        simp only [hwr, Option.some_bind]
        obtain ⟨ok, index', j', dpre, drest, f1, f2, f3, f4, f5, f6, f7⟩ :=
          ih (index + 1)
            { j with bits := { j.bits with bb := bb' }, window := j.window.drop 2 }
            d2 tail (out ++ [b0, b1]) hinv' (by
              unfold upcoming
              simp only [hwin, List.drop_succ_cons, List.drop_zero]
              exact hu2)
            (fun x hx => hd x (by simp [hx])) (by omega) (by
              simp only [hwin, List.drop_succ_cons, List.drop_zero]
              simp only [List.length_cons] at hw
              omega)
            (by
              rcases hdt with h | h
              · left
                simp only [List.length_cons] at h
                omega
              · exact Or.inr h)
        refine ⟨ok, index', j', b0 :: b1 :: dpre, drest, f1, ?_, ?_, f4, f5, ?_, ?_⟩
        · rw [f2]
          rfl
        · rw [List.append_assoc] at f3
          exact f3
        · intro h
          obtain ⟨g1, g2⟩ := f6 h
          exact ⟨by omega, g2⟩
        · intro h
          rw [f7 h, List.append_assoc]
          rfl

/-- The call `fecthbits` in terms of its two loops, for a reader that is not
at a marker. -/
theorem fecthbits_loops (jpgr : TJPGR) (hbend : jpgr.bits.bend = 0) :
    fecthbits jpgr =
      if jpgr.window.length ≥ BUFFERBYTES then
        match fecthbitsFast BPREFETCHBZ 0 { jpgr with bits := { jpgr.bits with bindex := 0 } } with
        | none => none
        | some (true, _, j) =>
          some { j with bits := { j.bits with
            bbcread := j.bits.bbcread + ((BUFFERBYTES <<< 3 : Nat) : Int) } }
        | some (false, index, j) =>
          (fecthbitsSlow 256 index 0 0 0 0 j).map (fun r =>
            { r.2 with bits := { r.2.bits with
                bbcread := r.2.bits.bbcread + ((r.1 <<< 3 : Nat) : Int) } })
      else
        (fecthbitsSlow 256 0 0 0 0 0 { jpgr with bits := { jpgr.bits with bindex := 0 } }).map
          (fun r =>
            { r.2 with bits := { r.2.bits with
                bbcread := r.2.bits.bbcread + ((r.1 <<< 3 : Nat) : Int) } }) := by
  unfold fecthbits
  dsimp only
  exact (if_neg (not_not.mpr hbend)).trans rfl

theorem store_start (bb : List Nat) (h : bb.length = BPREFETCHBZ) : StoreInv 0 0 0 bb [] :=
  ⟨h, Or.inl ⟨rfl, rfl, rfl, rfl⟩⟩

/-- The call `fecthbits` on an input that holds 64 data bytes. -/
theorem fecthbits_filled (jpgr : TJPGR) (d tail : List Nat)
    (hbend : jpgr.bits.bend = 0) (hbb : jpgr.bits.bb.length = BPREFETCHBZ)
    (hd : ∀ b ∈ d, b < 256) (hl : d.length = BUFFERBYTES)
    (hu : upcoming jpgr = stuffed d ++ tail) :
    ∃ jpgr', fecthbits jpgr = some jpgr' ∧ jpgr'.bits.bb = words d ∧ upcoming jpgr' = tail ∧
      jpgr'.bits.bbcread = jpgr.bits.bbcread + 8 * (d.length : Int) ∧ jpgr'.bits.bend = 0 := by
  rw [fecthbits_loops jpgr hbend]
  unfold BUFFERBYTES at hl
  generalize hj0 : ({ jpgr with bits := { jpgr.bits with bindex := 0 } } : TJPGR) = j0
  have u0 : upcoming j0 = stuffed d ++ tail := by rw [← hj0]; exact hu
  have b0 : j0.bits.bb = jpgr.bits.bb := by rw [← hj0]
  have c0 : j0.bits.bbcread = jpgr.bits.bbcread := by rw [← hj0]
  have e0 : j0.bits.bend = 0 := by rw [← hj0]; exact hbend
  have w0 : j0.window = jpgr.window := by rw [← hj0]
  have hinv : StoreInv 0 0 0 j0.bits.bb [] := store_start _ (by rw [b0]; exact hbb)
  by_cases hw : jpgr.window.length ≥ BUFFERBYTES
  · rw [if_pos hw]
    obtain ⟨ok, index', j', dpre, drest, f1, f2, f3, f4, f5, f6, f7⟩ :=
      fast_data BPREFETCHBZ 0 j0 d tail [] hinv u0 hd (by omega) (by
        rw [w0]
        unfold BUFFERBYTES at hw
        unfold BPREFETCHBZ
        omega) (Or.inl (by unfold BPREFETCHBZ; omega))
    rw [f1]
    rw [List.nil_append] at f3 f7
    cases ok with
    | true =>
      obtain ⟨g1, g2⟩ := f6 rfl
      obtain ⟨_, h | h⟩ := f3
      · have hpre : dpre.length = 64 := by
          rw [h.2.2.1, g1]
          rfl
        have hrest : drest = [] := by
          apply List.length_eq_zero.mp
          have := congrArg List.length f2
          rw [List.length_append] at this
          omega
        subst hrest
        rw [List.append_nil] at f2
        subst f2
        refine ⟨_, rfl, ?_, f4, ?_, ?_⟩
        · show j'.bits.bb = words d
          have := h.2.2.2
          rw [g1, List.take_of_length_le (by rw [‹j'.bits.bb.length = _›]; decide)] at this
          exact this
        · show j'.bits.bbcread + _ = _
          rw [g2, c0, hl]
          rfl
        · show j'.bits.bend = 0
          rw [f5, e0]
      · exact absurd h.1 (by decide)
    | false =>
      have hlen : dpre.length + drest.length = 64 := by
        have := congrArg List.length f2
        rw [List.length_append] at this
        omega
      obtain ⟨j2, s1, s2, s3, s4, s5⟩ := slow_filled drest dpre index' 0 0 0 j' tail f3 f4
        (fun x hx => hd x (by rw [f2]; simp [hx])) hlen
      simp only [s1, Option.map_some']
      refine ⟨_, rfl, ?_, s3, ?_, ?_⟩
      · show j2.bits.bb = words d
        rw [s2, f2]
      · show j2.bits.bbcread + _ = _
        rw [s5, f7 rfl, c0, Nat.shiftLeft_eq, f2, List.length_append]
        push_cast
        ring
      · show j2.bits.bend = 0
        rw [s4, f5, e0]
  · rw [if_neg hw]
    obtain ⟨j2, s1, s2, s3, s4, s5⟩ := slow_filled d [] 0 0 0 0 j0 tail hinv u0 hd
      (by simp; omega)
    simp only [s1, Option.map_some']
    refine ⟨_, rfl, ?_, s3, ?_, ?_⟩
    · show j2.bits.bb = words d
      rw [s2, List.nil_append]
    · show j2.bits.bbcread + _ = _
      rw [s5, c0, Nat.shiftLeft_eq]
      push_cast
      ring
    · show j2.bits.bend = 0
      rw [s4, e0]

/-- The call `fecthbits` on an input that holds a marker behind fewer than 64
data bytes. -/
theorem fecthbits_marked (jpgr : TJPGR) (d tail : List Nat) (nz : Nat)
    (hbend : jpgr.bits.bend = 0) (hbb : jpgr.bits.bb.length = BPREFETCHBZ)
    (hd : ∀ b ∈ d, b < 256) (hl : d.length < BUFFERBYTES) (hnz : nz ≠ 0)
    (hu : upcoming jpgr = stuffed d ++ 0xff :: nz :: tail) :
    ∃ jpgr', fecthbits jpgr = some jpgr' ∧
      jpgr'.bits.bb = words (d ++ List.replicate (BUFFERBYTES - d.length) 0) ∧
      upcoming jpgr' = 0xff :: nz :: tail ∧
      jpgr'.bits.bbcread = jpgr.bits.bbcread + 8 * (d.length : Int) ∧ jpgr'.bits.bend = 1 := by
  rw [fecthbits_loops jpgr hbend]
  unfold BUFFERBYTES at hl ⊢
  generalize hj0 : ({ jpgr with bits := { jpgr.bits with bindex := 0 } } : TJPGR) = j0
  have u0 : upcoming j0 = stuffed d ++ 0xff :: nz :: tail := by rw [← hj0]; exact hu
  have b0 : j0.bits.bb = jpgr.bits.bb := by rw [← hj0]
  have c0 : j0.bits.bbcread = jpgr.bits.bbcread := by rw [← hj0]
  have e0 : j0.bits.bend = 0 := by rw [← hj0]; exact hbend
  have w0 : j0.window = jpgr.window := by rw [← hj0]
  have hinv : StoreInv 0 0 0 j0.bits.bb [] := store_start _ (by rw [b0]; exact hbb)
  by_cases hw : jpgr.window.length ≥ 64
  · rw [if_pos hw]
    obtain ⟨ok, index', j', dpre, drest, f1, f2, f3, f4, f5, f6, f7⟩ :=
      fast_data BPREFETCHBZ 0 j0 d (0xff :: nz :: tail) [] hinv u0 hd (by omega) (by
        rw [w0]
        unfold BPREFETCHBZ
        omega) (Or.inr ⟨_, rfl⟩)
    rw [f1]
    rw [List.nil_append] at f3 f7
    have hsum : dpre.length + drest.length = d.length := by
      have := congrArg List.length f2
      rw [List.length_append] at this
      omega
    cases ok with
    | true =>
      obtain ⟨g1, g2⟩ := f6 rfl
      obtain ⟨_, h | h⟩ := f3
      · have hpre : dpre.length = 64 := by
          rw [h.2.2.1, g1]
          rfl
        omega
      · exact absurd h.1 (by decide)
    | false =>
      obtain ⟨j2, s1, s2, s3, s4, s5⟩ := slow_marked drest dpre index' 0 0 0 nz j' tail f3 f4 hnz
        (fun x hx => hd x (by rw [f2]; simp [hx])) (by omega)
      simp only [s1, Option.map_some']
      refine ⟨_, rfl, ?_, s3, ?_, s4⟩
      · show j2.bits.bb = _
        rw [s2, hsum, ← f2]
      · show j2.bits.bbcread + _ = _
        rw [s5, f7 rfl, c0, Nat.shiftLeft_eq, f2, List.length_append]
        push_cast
        ring
  · rw [if_neg hw]
    obtain ⟨j2, s1, s2, s3, s4, s5⟩ := slow_marked d [] 0 0 0 0 nz j0 tail hinv u0 hnz hd
      (by simp; omega)
    simp only [s1, Option.map_some']
    refine ⟨_, rfl, ?_, s3, ?_, s4⟩
    · show j2.bits.bb = _
      rw [s2]
      simp
    · show j2.bits.bbcread + _ = _
      rw [s5, c0, Nat.shiftLeft_eq]
      push_cast
      ring

/-! ### The claims -/

/-- C1: the standard zlib header 0x78 0x9C (CM = 8, CINFO = 7, check value
divisible by 31, FDICT = 0), met as the first two bytes of an IDAT body, is
refused by `readzlibheader` with `PNGR_EBADDATA`, because the function tests
the compression method nibble against 0 and not against 8; the header
0x70 0x03 with CM = 0 is accepted. -/
theorem readzlibheader_standard_header_rejected :
    (readzlibheader { TPNGR.init [0x78, 0x9C, 0x63, 0x00] with remaining := 4 }).map
        (fun r => (r.1, r.2.error, r.2.remaining, r.2.input))
      = some (false, PNGR_EBADDATA, 2, [0x63, 0x00]) ∧
    (0x78 &&& 0x0f = 8 ∧ (0x78 >>> 4) &&& 0x0f ≤ 7 ∧ (256 * 0x78 + 0x9C) % 31 = 0 ∧
      (0x9C >>> 5) &&& 1 = 0) ∧
    (readzlibheader { TPNGR.init [0x70, 0x03, 0x63, 0x00] with remaining := 4 }).map
        (fun r => (r.1, r.2.error))
      = some (true, 0) := by
  refine ⟨by decide, by decide, by decide⟩

/-- C2: for a grayscale image 5 pixels wide and 8 high whose unit holds
`unit[k] = k`, `setpixels1` paints pixel (row 1, column 0) with sample 13
instead of sample 8 and leaves rows 5 to 7 unpainted: in a partial MCU the
pixel loop advances `s` itself and the row loop then adds 8 again. For width 7
the fifth row reads the samples 60..66: with a unit of 64 samples the read is
outside the unit, and with three more samples behind the unit the pixel
(row 4, column 4) shows sample 64. An image of width 8 is painted as
claimed. -/
theorem setpixels1_edge_mcu_wrong :
    ((setpixels1 (grayReader 5 8 ((List.range 64).map Int.ofNat)) 0 0).map
        (fun r => (r.pixels.getD (1 * 5 + 0) 0, r.pixels.drop (5 * 5)))
      = some (tograyscale 13, List.replicate 15 0) ∧
      tograyscale 13 ≠ tograyscale 8) ∧
    setpixels1 (grayReader 7 8 ((List.range 64).map Int.ofNat)) 0 0 = none ∧
    (setpixels1 (grayReader 7 8 ((List.range 67).map Int.ofNat)) 0 0).map
        (fun r => r.pixels.getD (4 * 7 + 4) 0)
      = some (tograyscale 64) ∧
    (setpixels1 (grayReader 8 8 ((List.range 64).map Int.ofNat)) 0 0).map (fun r => r.pixels)
      = some ((List.range 64).map (fun k => tograyscale k)) := by
  refine ⟨⟨by decide, by decide⟩, by decide, by decide, by decide⟩

/-- C3: for the count vector with one code of length 10 and three codes of
length 11 (a valid canonical code: codewords 0000000000, 00000000010,
00000000011, 00000000100 for the symbols 1, 2, 3, 4), `buildtable` succeeds,
but `decodesymbol` on the pattern 0x0000, whose leading 10 bits are the
codeword of symbol 1, returns an entry of length 11 and symbol 4, and so it
does on 0x0040, whose leading 11 bits are the codeword of symbol 2. The last
code of length 11 lies under root prefix 1, for which no subtable was
allocated, and its entries are written over the root entries 0..31. -/
theorem decodesymbol_spilled_code_wrong :
    (List.range 4).map (canonicalCode [0, 0, 0, 0, 0, 0, 0, 0, 0, 1, 3, 0, 0, 0, 0, 0])
      = [some (10, 0), some (11, 2), some (11, 3), some (11, 4)] ∧
    (0x0000 >>> (16 - 10) = 0 ∧ 0x0040 >>> (16 - 11) = 2) ∧
    (buildtable emptyDCTable 0 [0, 0, 0, 0, 0, 0, 0, 0, 0, 1, 3, 0, 0, 0, 0, 0] [1, 2, 3, 4]).map
        (fun r => (r.1, (decodesymbol r.2 0x0000).map (fun s => (GETLENGTH s, GETSYMBOL s)),
          (decodesymbol r.2 0x0040).map (fun s => (GETLENGTH s, GETSYMBOL s))))
      = some (true, some (11, 4), some (11, 4)) := by
  refine ⟨by decide, by decide, by decide⟩

/-- C4: a DQT segment that defines table 1 twice (values 1, then values 2) is
accepted by `parseDQT`: it returns 1 with no error and the second definition
replaces the first. The duplicate test only works for table 0, because the
function records every table as bit 0 of `tablemap`. -/
theorem parseDQT_duplicate_id1_accepted :
    (parseDQT (TJPGR.init (dqtSegment [(1, 1), (1, 2)]))).map
        (fun r => (r.1, r.2.error, (r.2.qtables.getD 1 ⟨0, []⟩).values.getD 0 0, r.2.stream))
      = some (true, 0, 2, []) ∧
    (parseDQT (TJPGR.init (dqtSegment [(0, 1), (0, 2)]))).map (fun r => (r.1, r.2.error))
      = some (false, JPGR_ETABLEID) := by
  refine ⟨by decide, by decide⟩

/-- C5: a well-formed DQT segment carrying table 1 followed by table 0
(distinct identifiers) is refused by `parseDQT` with `JPGR_ETABLEID`, and
table 0 stays undefined; the same two tables in the order 0, 1 are
accepted. -/
theorem parseDQT_distinct_ids_rejected :
    (parseDQT (TJPGR.init (dqtSegment [(1, 1), (0, 2)]))).map
        (fun r => (r.1, r.2.error, (r.2.qtables.getD 0 ⟨7, []⟩).defined))
      = some (false, JPGR_ETABLEID, 0) ∧
    (parseDQT (TJPGR.init (dqtSegment [(0, 1), (1, 2)]))).map
        (fun r => (r.1, r.2.error, (r.2.qtables.getD 0 ⟨7, []⟩).defined,
          (r.2.qtables.getD 1 ⟨7, []⟩).defined))
      = some (true, 0, 1, 1) := by
  refine ⟨by decide, by decide⟩

/-- C6: for every filter type `f` in 0..4, pixel stride `psize >= 1`,
previous row `prev` and original row `x` of bytes with `psize <= size`, when
the row buffers carry at least three bytes of padding behind the `size` row
bytes (the decoder allocates 16), `unfilter` applied to the encoder's filtered
row returns normally, keeps the buffer length and restores the first `size`
bytes to `x`. -/
theorem unfilter_pngfilter_roundtrip (f psize : Nat) (x prev pad1 pad2 : List Nat)
    (hf : f ≤ 4) (hps : 1 ≤ psize) (hsize : psize ≤ x.length)
    (hprev : prev.length = x.length)
    (hx : ∀ b ∈ x, b < 256) (hpv : ∀ b ∈ prev, b < 256)
    (hp1 : 3 ≤ pad1.length) (hp2 : 3 ≤ pad2.length) :
    ∃ r, unfilter (pngfilter f psize x prev ++ pad1) (prev ++ pad2) f x.length psize = some r ∧
      r.length = x.length + pad1.length ∧ r.take x.length = x := by
  have hfl := pngfilter_length f psize x prev
  have hlen : x.length + 3 ≤ (pngfilter f psize x prev ++ pad1).length := by
    rw [List.length_append, hfl]; omega
  have hlen' : (pngfilter f psize x prev ++ pad1).length = x.length + pad1.length := by
    rw [List.length_append, hfl]
  have h0 := unfilterInv_init x (pngfilter f psize x prev) pad1 hfl
  suffices h : ∃ r, unfilter (pngfilter f psize x prev ++ pad1) (prev ++ pad2) f x.length psize
      = some r ∧ UnfilterInv x (pngfilter f psize x prev) x.length
        (pngfilter f psize x prev ++ pad1).length x.length r by
    obtain ⟨r, hr, hinv⟩ := h
    exact ⟨r, hr, by rw [hinv.1, hlen'], take_of_unfilterInv x _ r _ hlen hinv⟩
  interval_cases f
  · -- None
    refine ⟨_, rfl, h0.1, fun k hk _ => ?_, fun k hk1 hk2 => absurd hk2 (by omega)⟩
    rw [h0.2.2 k (Nat.zero_le k) hk, pngfilter_getD _ _ _ _ _ hk]
    have := getD_lt_of_forall x hx k
    simp only [Nat.sub_zero]
    congr 1
    omega
  · -- Sub
    have hinit : UnfilterInv x (pngfilter 1 psize x prev) x.length
        (pngfilter 1 psize x prev ++ pad1).length psize (pngfilter 1 psize x prev ++ pad1) := by
      refine ⟨rfl, fun k hk hks => ?_, fun k _ hks => h0.2.2 k (Nat.zero_le k) hks⟩
      rw [h0.2.2 k (Nat.zero_le k) hks, pngfilter_getD _ _ _ _ _ hks]
      have := getD_lt_of_forall x hx k
      simp only [if_pos hk, Nat.sub_zero]
      congr 1
      omega
    exact loop4_inv (predOk_sub psize x prev hps hx) hlen (x.length + 1) psize _
      (le_refl psize) (by omega) hinit
  · -- Up
    exact loop4_inv (predOk_up psize x prev pad2 hprev hp2 hx hpv) hlen (x.length + 1) 0 _
      (le_refl 0) (by omega) h0
  · -- Average
    obtain ⟨c1, hc1, hinv1⟩ := loop1_inv
      (predOk_avg_first psize x prev pad2 hprev hp2 hsize hx hpv) hsize hlen (psize + 1) 0 _
      (le_refl 0) (Nat.zero_le psize) (by omega) h0
    obtain ⟨r, hr, hinv⟩ := loop4_inv (predOk_avg psize x prev pad2 hprev hp2 hps hx hpv) hlen
      (x.length + 1) psize c1 (le_refl psize) (by omega) hinv1
    refine ⟨r, ?_, hinv⟩
    simp only [unfilter, Option.bind_eq_bind]
    rw [hc1, Option.some_bind]
    exact hr
  · -- Paeth
    obtain ⟨c1, hc1, hinv1⟩ := loop1_inv
      (predOk_paeth_first psize x prev pad2 hprev hp2 hsize hx hpv) hsize hlen (psize + 1) 0 _
      (le_refl 0) (Nat.zero_le psize) (by omega) h0
    obtain ⟨r, hr, hinv⟩ := loop1_inv (predOk_paeth psize x prev pad2 hprev hp2 hps hx hpv)
      (le_refl x.length) hlen (x.length + 1) psize c1 (le_refl psize) hsize (by omega) hinv1
    refine ⟨r, ?_, hinv⟩
    simp only [unfilter, Option.bind_eq_bind]
    rw [hc1, Option.some_bind]
    exact hr

/-- Witness of C6: Paeth filter, stride 3, a row of 9 bytes. -/
theorem unfilter_pngfilter_roundtrip_witness :
    ∃ r, unfilter (pngfilter 4 3 [1, 2, 3, 4, 5, 6, 7, 250, 9] [9, 8, 7, 200, 5, 100, 3, 2, 1]
        ++ [0, 0, 0]) ([9, 8, 7, 200, 5, 100, 3, 2, 1] ++ [7, 7, 7]) 4 9 3 = some r ∧
      r.length = 9 + 3 ∧ r.take 9 = [1, 2, 3, 4, 5, 6, 7, 250, 9] :=
  unfilter_pngfilter_roundtrip 4 3 [1, 2, 3, 4, 5, 6, 7, 250, 9] [9, 8, 7, 200, 5, 100, 3, 2, 1]
    [0, 0, 0] [7, 7, 7] (by decide) (by decide) (by decide) (by decide) (by decide) (by decide)
    (by decide) (by decide)

/-- C7: for depth 1 `unpack` does not extract the samples most significant bit
first: on the packed byte 0x20 (only bit 5 set, so sample 2 is 1) it leaves
sample 2 at 0, and on 0x40 (only bit 6 set, so only sample 1 is 1) it sets
both samples 1 and 2; the statement listing `(v >> 6) & 1` twice stands where
`(v >> 5) & 1` belongs. Depths 2 and 4 expand as claimed on the rows
shown. -/
theorem unpack_depth1_bit5_wrong :
    (unpack ([0x20] ++ List.replicate 7 0) 8 1 = some [0, 0, 0, 0, 0, 0, 0, 0] ∧
      packedSample [0x20] 1 2 = 1) ∧
    (unpack ([0x40] ++ List.replicate 7 0) 8 1 = some [0, 1, 1, 0, 0, 0, 0, 0] ∧
      packedSample [0x40] 1 2 = 0) ∧
    unpack ([0xA5, 0x3C] ++ List.replicate 6 0) 8 2
      = some ((List.range 8).map (packedSample [0xA5, 0x3C] 2)) ∧
    unpack ([0xA5, 0x3C] ++ List.replicate 2 0) 4 4
      = some ((List.range 4).map (packedSample [0xA5, 0x3C] 4)) := by
  refine ⟨⟨by decide, by decide⟩, ⟨by decide, by decide⟩, by decide, by decide⟩

/-- C8: for a 16-bit grayscale image and the tRNS body 0x12 0x34,
`parseTRNS` succeeds and stores `alpha[0] = 0x34`, not `0x1234`; for a 16-bit
RGB image and the body 12 34 56 78 9A BC it stores (0x34, 0x78, 0xBC): the
high byte of every key is dropped, because the branch that stores the full
value is guarded by `colortype ^ 16`, which is never zero. -/
theorem parseTRNS_drops_high_byte :
    (parseTRNS { TPNGR.init [0x12, 0x34, 0, 0, 0, 0] with colortype := 0, depth := 16 }
        { length := 2, fcc := [0x74, 0x52, 0x4e, 0x53] }).map
        (fun r => (r.1, r.2.error, r.2.hasalpha, r.2.alpha))
      = some (true, 0, 1, [0x34, 0, 0]) ∧
    256 * 0x12 + 0x34 ≠ 0x34 ∧
    (parseTRNS { TPNGR.init [0x12, 0x34, 0x56, 0x78, 0x9a, 0xbc, 0, 0, 0, 0] with
          colortype := 2, depth := 16 }
        { length := 6, fcc := [0x74, 0x52, 0x4e, 0x53] }).map
        (fun r => (r.1, r.2.error, r.2.hasalpha, r.2.alpha))
      = some (true, 0, 1, [0x34, 0x78, 0xbc]) := by
  refine ⟨by decide, by decide, by decide⟩

/-- C9: for an 8-bit colortype-2 image with tRNS key `(kr, kg, kb)` and a raw
row of at least `3 * sizex` bytes, `setrow` returns normally and writes for
each pixel `i` the bytes `(r_i, g_i, b_i, a_i)` with `a_i = 0x00` when
`(r_i, g_i, b_i)` is the key and `a_i = 0xFF` otherwise, leaving the bytes
behind the row untouched; with key (10, 20, 30) the rows
(10,20,30,40,50,60) and (70,80,90,10,20,30) get the alphas 0x00, 0xFF and
0xFF, 0x00. -/
theorem setrow_rgb8_key (pngr : TPNGR) (pixels row : List Nat) (kr kg kb : Nat)
    (hct : pngr.colortype = 2) (hd : pngr.depth = 8) (ha : pngr.hasalpha ≠ 0)
    (hal : pngr.alpha = [kr, kg, kb]) (hkr : kr < 256) (hkg : kg < 256) (hkb : kb < 256)
    (hrow : 3 * pngr.sizex ≤ row.length) (hpix : 4 * pngr.sizex ≤ pixels.length) :
    (∃ out, setrow pngr pixels row = some out ∧ out.length = pixels.length ∧
      (∀ i, i < pngr.sizex →
        out[4 * i]? = row[3 * i]? ∧ out[4 * i + 1]? = row[3 * i + 1]? ∧
        out[4 * i + 2]? = row[3 * i + 2]? ∧
        out[4 * i + 3]? = some (if row[3 * i]? = some kr ∧ row[3 * i + 1]? = some kg ∧
          row[3 * i + 2]? = some kb then 0x00 else 0xff)) ∧
      ∀ j, 4 * pngr.sizex ≤ j → out[j]? = pixels[j]?) ∧
    (setrow keyReader (List.replicate 8 0) [10, 20, 30, 40, 50, 60]).map
        (fun o => [o.getD 3 0, o.getD 7 0]) = some [0x00, 0xff] ∧
    (setrow keyReader (List.replicate 8 0) [70, 80, 90, 10, 20, 30]).map
        (fun o => [o.getD 3 0, o.getD 7 0]) = some [0xff, 0x00] := by
  refine ⟨?_, by decide, by decide⟩
  obtain ⟨out, h, hl, hp, hr⟩ :=
    pixelLoop_keyRGB8 kr kg kb row pngr.sizex 0 0 pixels (by omega) (by omega)
  refine ⟨out, ?_, hl, ?_, ?_⟩
  · have hs : pngr.alpha.map (fun a => a % 256) = [kr, kg, kb] := by
      rw [hal]
      simp [Nat.mod_eq_of_lt hkr, Nat.mod_eq_of_lt hkg, Nat.mod_eq_of_lt hkb]
    unfold setrow
    rw [if_pos ⟨ha, Or.inr hct⟩, if_pos (by rw [hd]; decide), if_neg (by rw [hct]; decide)]
    simp only [hs]
    exact h
  · intro i hi
    have := hp i hi
    simpa only [Nat.zero_add] using this
  · intro j hj
    exact hr j (Or.inr (by omega))

/-- Witness of C9: the first row of the 2 x 2 example. -/
theorem setrow_rgb8_key_witness :
    (3 * keyReader.sizex ≤ [10, 20, 30, 40, 50, 60].length ∧
      4 * keyReader.sizex ≤ (List.replicate 8 0).length) ∧
    ∃ out, setrow keyReader (List.replicate 8 0) [10, 20, 30, 40, 50, 60] = some out ∧
      out.length = (List.replicate 8 0).length ∧
      (∀ i, i < keyReader.sizex →
        out[4 * i]? = [10, 20, 30, 40, 50, 60][3 * i]? ∧
        out[4 * i + 1]? = [10, 20, 30, 40, 50, 60][3 * i + 1]? ∧
        out[4 * i + 2]? = [10, 20, 30, 40, 50, 60][3 * i + 2]? ∧
        out[4 * i + 3]? = some (if [10, 20, 30, 40, 50, 60][3 * i]? = some 10 ∧
          [10, 20, 30, 40, 50, 60][3 * i + 1]? = some 20 ∧
          [10, 20, 30, 40, 50, 60][3 * i + 2]? = some 30 then 0x00 else 0xff)) ∧
      ∀ j, 4 * keyReader.sizex ≤ j → out[j]? = (List.replicate 8 0)[j]? :=
  ⟨⟨by decide, by decide⟩,
    (setrow_rgb8_key keyReader (List.replicate 8 0) [10, 20, 30, 40, 50, 60] 10 20 30
      rfl rfl (by decide) rfl (by decide) (by decide) (by decide) (by decide) (by decide)).1⟩

/-- C10: on a little-endian target, for a 16-bit grayscale image without tRNS
key and the raw pixel 0x12 0x34, `setrow` writes 0x34 0x12 (bytes swapped)
while the pass path, `getsample` followed by the pixel copy, writes 0x12 0x34
(bytes not swapped): `getsample` assembles each word as
`(source[1] << 8) | source[0]` and stores it low byte first. The same holds
for a 16-bit RGBA pixel. -/
theorem setrow_getsample_16bit_differ :
    (setrow (reader16 0 2) [0, 0] [0x12, 0x34] = some [0x34, 0x12] ∧
      passpixel (reader16 0 2) [0, 0] 0 [0x12, 0x34] = some [0x12, 0x34]) ∧
    (setrow (reader16 6 8) (List.replicate 8 0) [1, 2, 3, 4, 5, 6, 7, 8]
        = some [2, 1, 4, 3, 6, 5, 8, 7] ∧
      passpixel (reader16 6 8) (List.replicate 8 0) 0 [1, 2, 3, 4, 5, 6, 7, 8]
        = some [1, 2, 3, 4, 5, 6, 7, 8]) := by
  refine ⟨⟨by decide, by decide⟩, ⟨by decide, by decide⟩⟩

/-- C11, a stream that ends early: the 4 x 4 image with the row of the first
pass and no other. Both functions return 0 in the state `PNGR_BADSTATE` when
the fourth pass finds no row, but the pixel buffers differ: the calls of
`pngr_decodepass` have filled the whole image with the sample of the first
pass, `pngr_decodeimg` has painted the pixel (0, 0) and nothing else. -/
theorem decodepass_short_stream_differs :
    (decodepasses tailok tailok 7 ready4x4
        { buffers4x4 with interpolate := 1, rows := [[1]] }).map
        (fun r => (r.1.state, r.2.pixels))
      = some (PNGR_BADSTATE, some (List.replicate 48 1)) ∧
    (pngr_decodeimg tailok tailok ready4x4
        { buffers4x4 with interpolate := 1, rows := [[1]] }).map
        (fun r => (r.1, r.2.1.state, r.2.2.pixels))
      = some (0, PNGR_BADSTATE, some ([1, 1, 1] ++ List.replicate 45 0)) ∧
    (setuppasses ready4x4 { buffers4x4 with interpolate := 1, rows := [[1]] }).map
        (fun r => (r.1.passrowsize, r.2.interpolate))
      = some (ready4x4.passrowsize, 1) := by
  refine ⟨by rfl, by rfl, by rfl⟩

/-- C11, amended: take an Adam7-interlaced image whose reader `setuppasses`
has prepared for `pngr_decodepass` (same `passrowsize`, replication mode), sizes
within the PNG limit, `rowsize = pelsize * sizex`, a pixel buffer of at least
`sizey * rowsize` bytes and the decoded rows of the seven passes. If
`pngr_decodeimg`, which runs the passes in exact-placement mode, returns 1,
then calling `pngr_decodepass` until it returns 0 ends within seven calls and
leaves the same reader and the same pixel buffer: `interpolate` is 1 on that
side, every replicated pixel has been overwritten by the pass that owns it
and no block has covered a pixel painted before. -/
theorem decodepass_until_zero_eq_decodeimg
    (checktail parsechunks : TPNGR → Option (Bool × TPNGR))
    (pngr : TPNGR) (b : TPNGRBuffers) (px : List Nat)
    (hstate : pngr.state = 2) (hlace : pngr.interlace ≠ 0) (hpass : pngr.pass = 0)
    (hW : pngr.sizex ≤ 0x7fffffff) (hH : pngr.sizey ≤ 0x7fffffff)
    (hR : pngr.rowsize = pngr.pelsize * pngr.sizex)
    (hsetup : (setuppasses pngr b).map (fun r => (r.1.passrowsize, r.2.interpolate))
      = some (pngr.passrowsize, b.interpolate))
    (hpix : b.pixels = some px) (hlen : pngr.sizey * pngr.rowsize ≤ px.length)
    (hdec : (pngr_decodeimg checktail parsechunks pngr b).map (fun r => r.1) = some 1) :
    b.interpolate = 1 ∧
    (decodepasses checktail parsechunks 7 pngr b).map (fun r => (r.1, r.2.pixels))
      = (pngr_decodeimg checktail parsechunks pngr b).map (fun r => (r.2.1, r.2.2.pixels)) := by
  refine ⟨(emptyKnown_of_setuppasses pngr b hW hH hsetup).2, ?_⟩
  cases hd : pngr_decodeimg checktail parsechunks pngr b with
  | none => simp [hd] at hdec
  | some res =>
    obtain ⟨r, pe, be⟩ := res
    simp only [hd, Option.map_some', Option.some.injEq] at hdec
    subst hdec
    obtain ⟨bf, h1, h2⟩ := decodepasses_eq_decodeimg checktail parsechunks pngr b px hstate hlace
      hpass hW hH hR hsetup hpix hlen pe be hd
    rw [h1]
    simp only [Option.map_some', h2]

theorem decodepass_until_zero_eq_decodeimg_witness :
    { buffers4x4 with interpolate := 1 }.interpolate = 1 ∧
    (decodepasses tailok tailok 7 ready4x4 { buffers4x4 with interpolate := 1 }).map
        (fun r => (r.1, r.2.pixels))
      = (pngr_decodeimg tailok tailok ready4x4 { buffers4x4 with interpolate := 1 }).map
        (fun r => (r.2.1, r.2.2.pixels)) :=
  decodepass_until_zero_eq_decodeimg tailok tailok ready4x4 { buffers4x4 with interpolate := 1 }
    (List.replicate 48 0) (by decide) (by decide) (by decide) (by decide) (by decide) (by decide)
    (by rfl) (by rfl) (by decide) (by rfl)

/-- C12, the rows of an empty pass: in a 1 x 1 image the second pass (origin
`x = 4`) has `passrowsize` 0, and the call of `pngr_decodepass` for it returns
2 without taking a decoded row (the rows are `[[6]]` before and after), while
`ceil((H - oy) / sy)` is 1 for that pass. -/
theorem decodepass_empty_pass_no_row :
    ((setuppasses reader1x1 buffers1x1).bind
        (fun r => passes tailok tailok 1 r.1 { r.2 with interpolate := 0 })).bind
      (fun r => (pngr_decodepass tailok tailok r.1 r.2).map
        (fun q => (r.1.pass, r.1.passrowsize, r.2.rows, q.1, q.2.2.rows)))
      = some (1, [1, 0, 0, 0, 0, 0, 0], [[6]], 2, [[6]]) ∧
    (passinfo.map (fun info => (reader1x1.sizey - info.originy + info.stepy - 1) / info.stepy))[1]?
      = some 1 := by
  constructor
  · rfl
  · rfl

/-- C12, amended: for a reader between two passes (state 3) with sizes within
the PNG limit and the `passrowsize` of `setuppasses`, in exact-placement mode:
(1) every pixel lies on the grid of exactly one of the seven passes of
`passinfo`; (2) a call of `pngr_decodepass` that does not fail for want of a
row reads `passrowsize[i]` samples in each of its rows, where `passrowsize[i]`
is 0 when the pass has no column or no row in the image and
`ceil((W - ox) / sx)` otherwise, takes `ceil((H - oy) / sy)` rows, none when
`passrowsize[i]` is 0, and places one sample at each pixel of the grid of the
pass, in the order of the loops, at the offset `y * rowsize + x * pelsize`;
(3) after the seven passes, run from pass 0, the samples placed are the pixels
`(x, y)` with `x < W` and `y < H`, each once and at its own offset, and
nothing else; (4) with `rowsize = pelsize * sizex` the seven passes keep the
length of the pixel buffer and leave every byte from `sizey * rowsize` on as
it was; (5) with `rowsize = pelsize * sizex` such a call leaves, in the pixel
buffer, at the offset `y * rowsize + x * pelsize` of every pixel `(x, y)` of
the image on the grid of its pass, the bytes of the sample `getsample` gives
for the sample number `(x - ox) / sx` of the row number `(y - oy) / sy` of the
pass, and leaves every byte outside these pixels as it was; (6) after the
seven passes, run from pass 0, every pixel `(x, y)` of the image holds in the
pixel buffer the sample of the one pass that owns it, the rows of the passes
following one another in the input (`rowstart` rows before pass `i`). -/
theorem adam7_exact_placement (checktail parsechunks : TPNGR → Option (Bool × TPNGR))
    (pngr : TPNGR) (b : TPNGRBuffers)
    (hstate : pngr.state = 3)
    (hW : pngr.sizex ≤ 0x7fffffff) (hH : pngr.sizey ≤ 0x7fffffff)
    (hsetup : (setuppasses pngr b).map (fun r => r.1.passrowsize) = some pngr.passrowsize)
    (hmode : b.interpolate = 0) (hpix : b.pixels.isSome = true) :
    (∀ x y, ∃! i, i < 7 ∧ ownedby i x y) ∧
    (∀ (info : TPassInfo) (r : Nat) (p' : TPNGR) (b' : TPNGRBuffers),
      passinfo[pngr.pass]? = some info →
      pngr_decodepass checktail parsechunks pngr b = some (r, p', b') →
      p'.state ≠ PNGR_BADSTATE →
      ∃ prs, pngr.passrowsize[pngr.pass]? = some prs ∧
        prs = (if pngr.sizex ≤ info.originx ∨ pngr.sizey ≤ info.originy then 0
          else (pngr.sizex - info.originx + info.stepx - 1) / info.stepx) ∧
        b'.rows = b.rows.drop (passrows pngr info prs) ∧
        b'.visited = b.visited ++ passgrid pngr info prs (passrows pngr info prs)) ∧
    (pngr.pass = 0 → b.visited = [] →
      ∀ (pe : TPNGR) (be : TPNGRBuffers),
        passes checktail parsechunks 7 pngr b = some (pe, be) →
        (pe.state = 4 ∨ pe.state = 5) →
        be.visited.Nodup ∧
        ∀ x y o, (x, y, o) ∈ be.visited ↔
          (x < pngr.sizex ∧ y < pngr.sizey ∧ o = y * pngr.rowsize + x * pngr.pelsize)) ∧
    (pngr.pass = 0 → b.visited = [] → pngr.rowsize = pngr.pelsize * pngr.sizex →
      ∀ (px : List Nat) (pe : TPNGR) (be : TPNGRBuffers), b.pixels = some px →
        passes checktail parsechunks 7 pngr b = some (pe, be) →
        (pe.state = 4 ∨ pe.state = 5) →
        ∃ px', be.pixels = some px' ∧ px'.length = px.length ∧
          ∀ j, pngr.sizey * pngr.rowsize ≤ j → px'[j]? = px[j]?) ∧
    (pngr.rowsize = pngr.pelsize * pngr.sizex →
      ∀ (info : TPassInfo) (r : Nat) (p' : TPNGR) (b' : TPNGRBuffers) (px : List Nat),
        passinfo[pngr.pass]? = some info → b.pixels = some px →
        pngr_decodepass checktail parsechunks pngr b = some (r, p', b') →
        p'.state ≠ PNGR_BADSTATE →
        ∃ px', b'.pixels = some px' ∧ px'.length = px.length ∧
          (∀ x y, x < pngr.sizex → y < pngr.sizey → owns info x y →
            ∃ rowp s, b.rows[(y - info.originy) / info.stepy]? = some rowp ∧
              getsample pngr (rowp.drop ((x - info.originx) / info.stepx * pngr.rawpelsize))
                (List.replicate 8 0) = some s ∧
              ∀ t, t < pelbytes pngr.pelsize →
                t < s.length ∧ px'[y * pngr.rowsize + x * pngr.pelsize + t]? = s[t]?) ∧
          ∀ j, (∀ x y, x < pngr.sizex → y < pngr.sizey → owns info x y →
              (j < y * pngr.rowsize + x * pngr.pelsize ∨
                y * pngr.rowsize + x * pngr.pelsize + pelbytes pngr.pelsize ≤ j)) →
            px'[j]? = px[j]?) ∧
    (pngr.pass = 0 → pngr.rowsize = pngr.pelsize * pngr.sizex →
      ∀ (px : List Nat) (pe : TPNGR) (be : TPNGRBuffers), b.pixels = some px →
        passes checktail parsechunks 7 pngr b = some (pe, be) →
        (pe.state = 4 ∨ pe.state = 5) →
        ∃ px', be.pixels = some px' ∧
          ∀ (i : Nat) (info : TPassInfo) (x y : Nat), passinfo[i]? = some info →
            x < pngr.sizex → y < pngr.sizey → owns info x y →
            ∃ rowp s, b.rows[rowstart pngr i + (y - info.originy) / info.stepy]? = some rowp ∧
              getsample pngr (rowp.drop ((x - info.originx) / info.stepx * pngr.rawpelsize))
                (List.replicate 8 0) = some s ∧
              ∀ t, t < pelbytes pngr.pelsize →
                t < s.length ∧ px'[y * pngr.rowsize + x * pngr.pelsize + t]? = s[t]?) := by
  have hprs := passrowsize_of_setuppasses pngr b hW hH hsetup
  have hall : pngr.pass = 0 → b.visited = [] →
      ∀ (pe : TPNGR) (be : TPNGRBuffers),
        passes checktail parsechunks 7 pngr b = some (pe, be) →
        (pe.state = 4 ∨ pe.state = 5) →
        be.visited.Nodup ∧
        ∀ x y o, (x, y, o) ∈ be.visited ↔
          (x < pngr.sizex ∧ y < pngr.sizey ∧ o = y * pngr.rowsize + x * pngr.pelsize) := by
    intro hpass hv pe be hrun hok
    have hinv : VisitedInv pngr pngr.pass b.visited := by
      rw [hpass, hv]
      exact ⟨List.nodup_nil, fun x y o => by simp [ownedBelow]⟩
    obtain ⟨h1, h2⟩ := passes_visited checktail parsechunks 7 pngr b (by omega) hstate hprs hpix
      hinv pe be hrun hok
    refine ⟨h1, ?_⟩
    intro x y o
    rw [h2 x y o]
    constructor
    · rintro ⟨a, b, c, _⟩
      exact ⟨a, b, c⟩
    · rintro ⟨a, b, c⟩
      exact ⟨a, b, c, ownedBelow_seven x y⟩
  refine ⟨ownedby_unique, ?_, hall, ?_, ?_, ?_⟩
  · intro info r p' b' hinfo hd hok
    rcases decodepass_visited checktail parsechunks pngr hstate info hinfo hprs b hpix r p' b' hd
      with ⟨_, c2⟩ | ⟨prs, c1, c2, c3, _, _⟩
    · exact absurd c2 hok
    · refine ⟨prs, c1, ?_, c2, c3⟩
      have := hprs pngr.pass info hinfo
      rw [c1] at this
      rw [Option.some.inj this]
      split_ifs with hc
      · rfl
      · congr 1
        omega
  · intro hpass hv hR px pe be hpx hrun hok
    obtain ⟨_, hmem⟩ := hall hpass hv pe be hrun hok
    obtain ⟨px', new, f1, f2, f3, f4⟩ := passes_frame checktail parsechunks 7 pngr b px
      (by omega) hstate hprs hmode hpx pe be hrun
    rw [hv, List.nil_append] at f2
    refine ⟨px', f1, f3, ?_⟩
    intro j hj
    apply f4
    rintro ⟨x, y, o⟩ he
    rw [← f2] at he
    obtain ⟨hx, hy, ho⟩ := (hmem x y o).1 he
    right
    have hb := inimage_bound pngr.sizex pngr.sizey pngr.pelsize pngr.rowsize (x + 1) y hR
      (by omega) hy
    have hp := pelbytes_le pngr.pelsize
    show o + pelbytes pngr.pelsize ≤ j
    have e : (x + 1) * pngr.pelsize = x * pngr.pelsize + pngr.pelsize := by ring
    omega
  · intro hR info r p' b' px hinfo hpx hd hok
    exact decodepass_content checktail parsechunks pngr hstate info hinfo hprs hR b px hmode hpx
      r p' b' hd hok
  · intro hpass hR px pe be hpx hrun hok
    obtain ⟨px', e1, _, e3⟩ := passes_content checktail parsechunks b.rows 7 pngr b px
      (by omega) hstate hprs hR hmode hpx (by rw [hpass]; rfl)
      (by
        rw [hpass]
        intro i _ _ _ hi
        omega) pe be hrun hok
    refine ⟨px', e1, ?_⟩
    intro i info x y hinfo hx hy hown
    exact e3 i info x y (passinfo_lt hinfo) hinfo hx hy hown

theorem adam7_exact_placement_witness :
    (∃ pe be, passes tailok tailok 7 exact4x4 buffers4x4 = some (pe, be) ∧ pe.state = 4 ∧
      be.visited.Nodup ∧
      (∀ x y o, (x, y, o) ∈ be.visited ↔
        (x < exact4x4.sizex ∧ y < exact4x4.sizey ∧
          o = y * exact4x4.rowsize + x * exact4x4.pelsize)) ∧
      (∃ px', be.pixels = some px' ∧ px'.length = (List.replicate 48 0).length ∧
        ∀ j, exact4x4.sizey * exact4x4.rowsize ≤ j → px'[j]? = (List.replicate 48 0)[j]?) ∧
      be.pixels = some ([1, 5, 2, 6, 9, 10, 11, 12, 3, 7, 4, 8, 13, 14, 15, 16].flatMap
        (fun v => [v, v, v])) ∧
      ∃ px', be.pixels = some px' ∧
        ∀ (i : Nat) (info : TPassInfo) (x y : Nat), passinfo[i]? = some info →
          x < exact4x4.sizex → y < exact4x4.sizey → owns info x y →
          ∃ rowp s,
            buffers4x4.rows[rowstart exact4x4 i + (y - info.originy) / info.stepy]?
              = some rowp ∧
            getsample exact4x4
              (rowp.drop ((x - info.originx) / info.stepx * exact4x4.rawpelsize))
              (List.replicate 8 0) = some s ∧
            ∀ t, t < pelbytes exact4x4.pelsize →
              t < s.length ∧ px'[y * exact4x4.rowsize + x * exact4x4.pelsize + t]? = s[t]?) ∧
    (∃ r p' b', pngr_decodepass tailok tailok exact4x4 buffers4x4 = some (r, p', b') ∧
      (∃ prs, exact4x4.passrowsize[exact4x4.pass]? = some prs ∧
        prs = (if exact4x4.sizex ≤ 0 ∨ exact4x4.sizey ≤ 0 then 0
          else (exact4x4.sizex - 0 + 8 - 1) / 8) ∧
        b'.rows = buffers4x4.rows.drop (passrows exact4x4 ⟨0, 0, 8, 8⟩ prs) ∧
        b'.visited = buffers4x4.visited ++
          passgrid exact4x4 ⟨0, 0, 8, 8⟩ prs (passrows exact4x4 ⟨0, 0, 8, 8⟩ prs)) ∧
      b'.pixels = some ([1, 1, 1] ++ List.replicate 45 0) ∧
      ∃ px', b'.pixels = some px' ∧ px'.length = (List.replicate 48 0).length ∧
        (∀ x y, x < exact4x4.sizex → y < exact4x4.sizey → owns ⟨0, 0, 8, 8⟩ x y →
          ∃ rowp s, buffers4x4.rows[(y - 0) / 8]? = some rowp ∧
            getsample exact4x4 (rowp.drop ((x - 0) / 8 * exact4x4.rawpelsize))
              (List.replicate 8 0) = some s ∧
            ∀ t, t < pelbytes exact4x4.pelsize →
              t < s.length ∧
                px'[y * exact4x4.rowsize + x * exact4x4.pelsize + t]? = s[t]?) ∧
        ∀ j, (∀ x y, x < exact4x4.sizex → y < exact4x4.sizey → owns ⟨0, 0, 8, 8⟩ x y →
            (j < y * exact4x4.rowsize + x * exact4x4.pelsize ∨
              y * exact4x4.rowsize + x * exact4x4.pelsize + pelbytes exact4x4.pelsize ≤ j)) →
          px'[j]? = (List.replicate 48 0)[j]?) :=
  ⟨⟨_, _, rfl, rfl,
      ((adam7_exact_placement tailok tailok exact4x4 buffers4x4 (by decide) (by decide)
        (by decide) (by rfl) (by rfl) (by rfl)).2.2.1 rfl rfl _ _ rfl (Or.inl rfl)).1,
      ((adam7_exact_placement tailok tailok exact4x4 buffers4x4 (by decide) (by decide)
        (by decide) (by rfl) (by rfl) (by rfl)).2.2.1 rfl rfl _ _ rfl (Or.inl rfl)).2,
      (adam7_exact_placement tailok tailok exact4x4 buffers4x4 (by decide) (by decide)
        (by decide) (by rfl) (by rfl) (by rfl)).2.2.2.1 rfl rfl rfl _ _ _ rfl rfl (Or.inl rfl),
      by decide,
      (adam7_exact_placement tailok tailok exact4x4 buffers4x4 (by decide) (by decide)
        (by decide) (by rfl) (by rfl) (by rfl)).2.2.2.2.2 rfl rfl _ _ _ rfl rfl (Or.inl rfl)⟩,
    ⟨_, _, _, rfl,
      (adam7_exact_placement tailok tailok exact4x4 buffers4x4 (by decide) (by decide)
        (by decide) (by rfl) (by rfl) (by rfl)).2.1 ⟨0, 0, 8, 8⟩ _ _ _ rfl rfl (by decide),
      by decide,
      (adam7_exact_placement tailok tailok exact4x4 buffers4x4 (by decide) (by decide)
        (by decide) (by rfl) (by rfl) (by rfl)).2.2.2.2.1 rfl ⟨0, 0, 8, 8⟩ _ _ _ _ rfl rfl rfl
        (by decide)⟩⟩

/-- C13, pass 2 of a 4 x 4 image: `setuppasses` gives the row sizes
`[1, 0, 0, 1, 2, 2, 4]`, so pass 2 has no sample; the first call of
`pngr_decodepass` takes one row and places pixel (0, 0), the second call takes
no row and places nothing. -/
theorem decodepass_4x4_pass2_empty :
    (setuppasses reader4x4 buffers4x4).map (fun r => r.1.passrowsize)
      = some [1, 0, 0, 1, 2, 2, 4] ∧
    (decoded4x4 1).map (fun r => (r.1.pass, r.2.rows.length, r.2.visited))
      = some (1, 6, [(0, 0, 0)]) ∧
    (decoded4x4 2).map (fun r => (r.1.pass, r.2.rows.length, r.2.visited))
      = some (2, 6, [(0, 0, 0)]) := by
  refine ⟨by rfl, by rfl, by rfl⟩

/-- C13, amended: the 4 x 4 indexed example after 0 to 7 calls of
`pngr_decodepass` in exact-placement mode, as rows left, pixels placed so far
and the bytes of pixels (0, 0) and (1, 0). Passes 2 and 3 are empty, pass 5
decodes one scanline of 2 samples, pass 6 two scanlines of 2 samples and pass
7 two scanlines of 4 samples; pixel (0, 0) is painted by pass 1 and pixel
(1, 0) is first painted by pass 6. -/
theorem decodepass_4x4_passes :
    (List.range 8).map (fun k => (decoded4x4 k).map (fun r =>
        (r.2.rows.length, r.2.visited.map (fun e => (e.1, e.2.1)),
          r.2.pixels.map (fun px => (px.take 3, (px.drop 3).take 3)))))
      = [some (7, [], some ([0, 0, 0], [0, 0, 0])),
         some (6, [(0, 0)], some ([1, 1, 1], [0, 0, 0])),
         some (6, [(0, 0)], some ([1, 1, 1], [0, 0, 0])),
         some (6, [(0, 0)], some ([1, 1, 1], [0, 0, 0])),
         some (5, [(0, 0), (2, 0)], some ([1, 1, 1], [0, 0, 0])),
         some (4, [(0, 0), (2, 0), (0, 2), (2, 2)], some ([1, 1, 1], [0, 0, 0])),
         some (2, [(0, 0), (2, 0), (0, 2), (2, 2), (1, 0), (3, 0), (1, 2), (3, 2)],
           some ([1, 1, 1], [5, 5, 5])),
         some (0, [(0, 0), (2, 0), (0, 2), (2, 2), (1, 0), (3, 0), (1, 2), (3, 2),
             (0, 1), (1, 1), (2, 1), (3, 1), (0, 3), (1, 3), (2, 3), (3, 3)],
           some ([1, 1, 1], [5, 5, 5]))] := by
  rfl

/-- C14: for a header accepted by `isvalidmode`, a tRNS flag set only for the
colortypes 0, 2 and 3 that allow the chunk, and sizes of 32 bits, a successful
`setvalues` reports `info.size = imginfo_getrowsize(info) * sizey` and sets the
output stride `rowsize` to `imginfo_getrowsize(info)` and `pelsize` to
`imginfo_getpelsize(info)`; the row size is `pelsize * sizex` without wrap. -/
theorem setvalues_public_sizes (pngr pngr' : TPNGR) (info info' : TImageInfo)
    (hmode : isvalidmode pngr.depth pngr.colortype = true)
    (halpha : pngr.hasalpha ≠ 0 → pngr.colortype = 0 ∨ pngr.colortype = 2 ∨ pngr.colortype = 3)
    (hx : pngr.sizex < 2 ^ 32) (hy : pngr.sizey < 2 ^ 32)
    (h : setvalues pngr info = some (true, pngr', info')) :
    info'.size = imginfo_getrowsize info' * pngr.sizey ∧
    pngr'.rowsize = imginfo_getrowsize info' ∧
    pngr'.pelsize = imginfo_getpelsize info' ∧
    imginfo_getrowsize info' = imginfo_getpelsize info' * pngr.sizex := by
  obtain ⟨h1, h2, h3, h4, h5, h6⟩ := setvalues_fields pngr pngr' info info' hmode halpha h
  have hb := checklimits_bound _ _ _ hx hy h2 h3
  have e1 : pngr'.pelsize * pngr.sizex < 2 ^ 64 := by
    calc pngr'.pelsize * pngr.sizex ≤ 8 * pngr.sizex := Nat.mul_le_mul_right _ h2
      _ < 2 ^ 64 := by omega
  have e2 : pngr'.pelsize * pngr.sizex * pngr.sizey < 2 ^ 64 := by
    have : pngr'.pelsize * pngr.sizex * pngr.sizey = pngr.sizex * pngr.sizey * pngr'.pelsize := by
      ring
    rw [this]; omega
  have e3 : imginfo_getrowsize info' = pngr'.pelsize * pngr.sizex := by
    unfold imginfo_getrowsize
    rw [h1, h5, Nat.mod_eq_of_lt e1]
  refine ⟨?_, ?_, h1.symm, ?_⟩
  · rw [h6, e3, Nat.mod_eq_of_lt e2]
  · rw [h4, e3, Nat.mod_eq_of_lt e1]
  · rw [e3, h1]

theorem setvalues_public_sizes_witness :
    ∃ pngr' info', setvalues reader4x4 ⟨0, 0, 0, 0, 0⟩ = some (true, pngr', info') ∧
      info'.size = imginfo_getrowsize info' * reader4x4.sizey ∧
      pngr'.rowsize = imginfo_getrowsize info' ∧
      pngr'.pelsize = imginfo_getpelsize info' ∧
      imginfo_getrowsize info' = imginfo_getpelsize info' * reader4x4.sizex :=
  ⟨_, _, rfl, setvalues_public_sizes reader4x4 _ ⟨0, 0, 0, 0, 0⟩ _ (by decide) (by decide)
    (by decide) (by decide) rfl⟩

/-- C15, the multiply-shift at 512: `(512 * 0x156) >> 10` is 171 where
`512 / 3` is 170. -/
theorem psize_512 : psize 512 = 171 ∧ 512 / 3 = 170 ∧ 512 ≤ 768 := by decide

/-- C15, amended: `parsePLTE` accepts a PLTE chunk only if the colortype is
not 0 or 4, the length is a positive multiple of 3 not above 768 (for such a
length the multiply-shift equals `length / 3`), the entry count is at most
`2 ^ depth` for an indexed image and at most 255 for any other; on acceptance
`palettesize = length / 3` and entry `k` of the palette holds the bytes
`3k .. 3k + 2` of the chunk body followed by 0xff. -/
theorem parsePLTE_accepts (pngr pngr' : TPNGR) (head : TChunkHead)
    (hpal : pngr.palette.length = 1024)
    (h : parsePLTE pngr head = some (true, pngr')) :
    pngr.colortype ≠ 0 ∧ pngr.colortype ≠ 4 ∧
    0 < head.length ∧ head.length ≤ 768 ∧ head.length % 3 = 0 ∧
    psize head.length = head.length / 3 ∧
    (pngr.colortype = 3 → head.length / 3 ≤ 2 ^ pngr.depth) ∧
    (pngr.colortype ≠ 3 → head.length / 3 ≤ 255) ∧
    pngr'.palettesize = head.length / 3 ∧
    ∀ k, k < head.length / 3 →
      pngr'.palette[4 * k]? = pngr.input[3 * k]? ∧
      pngr'.palette[4 * k + 1]? = pngr.input[3 * k + 1]? ∧
      pngr'.palette[4 * k + 2]? = pngr.input[3 * k + 2]? ∧
      pngr'.palette[4 * k + 3]? = some 0xff := by
  unfold parsePLTE at h
  dsimp only at h
  generalize hlim : (if pngr.colortype = 3 then 1 <<< pngr.depth else 0xff) = limit at h
  split_ifs at h with c1 c2 c3 c4 c5 c6 c7
  any_goals (first | (simp at h; done) | skip)
  have hps : psize head.length = head.length * 342 / 1024 := by
    unfold psize
    rw [Nat.shiftRight_eq_div_pow]
  have hlen : head.length = 3 * psize head.length := by
    rw [hps] at c5 ⊢
    omega
  have hdiv : head.length / 3 = psize head.length := by omega
  by_cases hin : pngr.input.length < head.length
  · rw [readinput, if_pos hin] at h
    simp at h
  · rw [readinput, if_neg hin] at h
    dsimp only at h
    have hsl : (pngr.input.take head.length).length = head.length := by
      rw [List.length_take]; omega
    have hpl : 4 * psize head.length ≤
        (List.take head.length pngr.input ++
          List.drop (List.take head.length pngr.input).length pngr.palette).length := by
      rw [List.length_append, List.length_drop]
      omega
    obtain ⟨out, ho, hol, hok, hob⟩ := expandpalette_spec (psize head.length) _ hpl
    rw [ho] at h
    simp only [Option.some.injEq, Prod.mk.injEq, decide_eq_true_eq] at h
    obtain ⟨_, h⟩ := h
    subst h
    rw [(checkcrc32_palette _).1, (checkcrc32_palette _).2]
    dsimp only
    refine ⟨by omega, by omega, by omega, by omega, by omega, hdiv.symm, ?_, ?_, hdiv.symm, ?_⟩
    · intro h3
      rw [if_pos h3, Nat.shiftLeft_eq, one_mul] at hlim
      omega
    · intro h3
      rw [if_neg h3] at hlim
      omega
    · intro k hk
      have src : ∀ b, b < head.length →
          (List.take head.length pngr.input ++
            List.drop (List.take head.length pngr.input).length pngr.palette)[b]?
            = pngr.input[b]? := by
        intro b hb
        rw [List.getElem?_append_left (by omega), List.getElem?_take_of_lt hb]
      obtain ⟨a0, a1, a2, a3⟩ := hok k (by omega)
      rw [src _ (by omega)] at a0 a1 a2
      exact ⟨a0, a1, a2, a3⟩

theorem parsePLTE_accepts_witness :
    paletteReader.palette.length = 1024 ∧
    ∃ pngr', parsePLTE paletteReader ⟨6, [0x50, 0x4c, 0x54, 0x45]⟩ = some (true, pngr') ∧
      paletteReader.colortype ≠ 0 ∧ paletteReader.colortype ≠ 4 ∧
      0 < 6 ∧ 6 ≤ 768 ∧ 6 % 3 = 0 ∧
      psize 6 = 6 / 3 ∧
      (paletteReader.colortype = 3 → 6 / 3 ≤ 2 ^ paletteReader.depth) ∧
      (paletteReader.colortype ≠ 3 → 6 / 3 ≤ 255) ∧
      pngr'.palettesize = 6 / 3 ∧
      ∀ k, k < 6 / 3 →
        pngr'.palette[4 * k]? = paletteReader.input[3 * k]? ∧
        pngr'.palette[4 * k + 1]? = paletteReader.input[3 * k + 1]? ∧
        pngr'.palette[4 * k + 2]? = paletteReader.input[3 * k + 2]? ∧
        pngr'.palette[4 * k + 3]? = some 0xff :=
  ⟨by decide, _, rfl,
    parsePLTE_accepts paletteReader _ ⟨6, [0x50, 0x4c, 0x54, 0x45]⟩ (by decide) rfl⟩

/-- C16: `parsechunks` does not look at the length of an IEND chunk. After the
image data (state 4) the head `00 00 00 01 "IEND"`, which declares one byte of
body, makes it return 1 with no error, whatever `parseancillary` is: the four
bytes that follow are taken for the CRC and the last byte is left unread. -/
theorem parsechunks_IEND_length_ignored
    (parseancillary : TPNGR → Nat → TChunkHead → Option (Bool × TPNGR)) :
    (parsechunks parseancillary
        { TPNGR.init [0, 0, 0, 1, 0x49, 0x45, 0x4e, 0x44, 0xaa, 0xae, 0x42, 0x60, 0x82] with
          state := 4 }).map (fun r => (r.1, r.2.error, r.2.input))
      = some (true, 0, [0x82]) := by
  rfl

/-- C17: both `checkiccheader` functions accept a header as soon as one byte of
the signature matches: the signatures `aXXX` and `XXXp` with the size 128 give
128 in the PNG and in the JPEG variant; only a signature that differs from
`acsp` in all four bytes (`XXXX`) gives 0. The test joins the four
comparisons with `&&` where the comment above it asks for `acsp`. -/
theorem checkiccheader_one_byte_suffices :
    checkiccheader (iccHeader 128 [0x61, 0x58, 0x58, 0x58]) = some 128 ∧
    (jcheckiccheader (TJPGR.init []) (iccHeader 128 [0x61, 0x58, 0x58, 0x58])).map (fun r => r.1)
      = some 128 ∧
    checkiccheader (iccHeader 128 [0x58, 0x58, 0x58, 0x70]) = some 128 ∧
    (jcheckiccheader (TJPGR.init []) (iccHeader 128 [0x58, 0x58, 0x58, 0x70])).map (fun r => r.1)
      = some 128 ∧
    checkiccheader (iccHeader 128 [0x58, 0x58, 0x58, 0x58]) = some 0 := by
  decide

/-- C18, a segment out of sequence after the last one: the segment 1 of 1, with
a header that is accepted, completes the profile; the segment 5 of 1 that
follows it is skipped: `parseAPP2` returns 1, `iccprofile` stays set,
`iccpsize` is 128 and no warning is raised. -/
theorem parseAPP2_late_segment_ignored :
    ((parseAPP2 (TJPGR.init (iccSegment 1 1 (iccHeader 128 [0x61, 0x63, 0x73, 0x70]) ++
        iccSegment 5 1 []))).bind (fun r => parseAPP2 r.2)).map
      (fun r => (r.1, r.2.iccprofile, r.2.iccpsize, r.2.warnings, r.2.window, r.2.stream))
      = some (true, true, 128, 0, [], []) := by
  rfl

/-- C18, amended: take a reader with no profile yet (`iccpmode` 0, `iccprofile`
null, profile memory of `iccpsize` bytes or none) and ICC segments that are
wholly in the input, the first with at least 128 bytes of payload that open
with a header `checkiccheader` accepts with the size `size`, the size declared
at offset 0. When the profile memory has to grow (`iccpsize < size`) and
`CTB_REALLOC` returns `NULL`, `parseAPP2` returns 0 on the first segment with
the error `JPGR_EOOM`, `iccprofile` stays null and no warning is raised.
Otherwise `parseAPP2` returns 1 on each segment and consumes it, and the
profile ends as the numbers of the segments tell (`iccpOutcome`): the first
segment whose sequence number is not the one of the segment before plus 1
(modulo 256), or whose total is not the total of the first segment, spoils the
profile, `iccprofile` stays null and `JPGR_BADICCP` is added to the warnings;
a segment in sequence with `seq = total`, when no such segment came before,
completes it, `iccprofile` is set and `iccpsize` is `size`, without a warning;
the segments after either of the two are skipped and change nothing; with
neither of the two, `iccprofile` stays null and there is no warning. -/
theorem parseAPP2_profile (j j0 : TJPGR) (seq tot size : Nat) (body : List Nat)
    (segs : List (Nat × Nat × List Nat)) (tail : List Nat)
    (hend : j.endofinput = 0) (herr : j.error = 0) (hmode : j.iccpmode = 0)
    (hprof : j.iccprofile = false)
    (hm1 : ∀ mem, j.iccpmemory = some mem → mem.length = j.iccpsizePrvt)
    (hm2 : j.iccpmemory = none → j.iccpsizePrvt = 0)
    (hwf : ∀ s ∈ (seq, tot, body) :: segs, s.2.2.length ≤ 65519)
    (hb : 0x80 ≤ body.length)
    (hhdr : (jcheckiccheader j0 (body.take 0x80)).map (fun r => r.1) = some size)
    (hs : size ≠ 0)
    (hL : j.window ++ j.stream = iccStream ((seq, tot, body) :: segs) ++ tail) :
    size = TOI32 (body.getD 0 0) (body.getD 1 0) (body.getD 2 0) (body.getD 3 0) ∧
    (j.iccpsizePrvt < size ∧ j.nomemory = true →
      ∃ j', parseAPP2 j = some (false, j') ∧
        parseAPP2s (segs.length + 1) j = some (false, j') ∧ j'.error = JPGR_EOOM ∧
        j'.iccprofile = false ∧ j'.warnings = j.warnings) ∧
    (¬ (j.iccpsizePrvt < size ∧ j.nomemory = true) →
      ∃ j', parseAPP2s (segs.length + 1) j = some (true, j') ∧ j'.window ++ j'.stream = tail ∧
        (iccpOutcome seq tot ((seq, tot, body) :: segs) = some false →
          j'.iccprofile = false ∧ j'.warnings = j.warnings ||| JPGR_BADICCP) ∧
        (iccpOutcome seq tot ((seq, tot, body) :: segs) = some true →
          j'.iccprofile = true ∧ j'.iccpsize = size ∧ j'.warnings = j.warnings) ∧
        (iccpOutcome seq tot ((seq, tot, body) :: segs) = none →
          j'.iccprofile = false ∧ j'.warnings = j.warnings)) := by
  refine ⟨jcheckiccheader_size j0 body size hb hhdr hs, ?_, ?_⟩
  · intro halloc
    have hL' : j.window ++ j.stream = iccSegment seq tot body ++ (iccStream segs ++ tail) := by
      rw [hL, iccStream, List.append_assoc]
    obtain ⟨j1, h1, h2, h3, h4, _, _⟩ := parseAPP2_oom j j0 seq tot size body _ hend hmode
      (hwf _ (List.mem_cons_self _ _)) hb hhdr hs halloc hL'
    exact ⟨j1, h1, by rw [parseAPP2s, h1], h2, h4.trans hprof, h3⟩
  intro halloc
  have hL' : j.window ++ j.stream = iccSegment seq tot body ++ (iccStream segs ++ tail) := by
    rw [hL, iccStream, List.append_assoc]
  obtain ⟨j1, h1, h2, h3, h4, h5, h6, ⟨mem1, h7, h7'⟩, h8⟩ := parseAPP2_first j j0 seq tot size body
    _ hend herr hmode hm1 hm2 (hwf _ (List.mem_cons_self _ _)) hb hhdr hs halloc hL'
  have hwf' : ∀ s ∈ segs, s.2.2.length ≤ 65519 := fun s hs => hwf s (List.mem_cons_of_mem _ hs)
  have hstep : parseAPP2s (segs.length + 1) j = parseAPP2s segs.length j1 := by
    rw [parseAPP2s, h1]
  rw [hstep]
  have hgood : ¬ (tot ≠ tot ∨ seq ≠ seq) := by simp
  by_cases hlast : seq = tot
  · rw [if_pos hlast] at h8
    obtain ⟨b1, b2, b3, b4⟩ := h8
    obtain ⟨j', e1, e2, e3, e4, e5⟩ := parseAPP2s_done segs j1 tail h2 h3 b1 hwf' h4
    have ho : iccpOutcome seq tot ((seq, tot, body) :: segs) = some true := by
      rw [iccpOutcome, if_neg hgood, if_pos hlast]
    refine ⟨j', e1, e2, ?_, ?_, ?_⟩
    · intro h; rw [ho] at h; simp at h
    · intro _
      exact ⟨e3.trans b3, e4.trans b4, e5.trans b2⟩
    · intro h; rw [ho] at h; simp at h
  · rw [if_neg hlast] at h8
    obtain ⟨b1, b2, b3, b4, b5⟩ := h8
    obtain ⟨j', e1, e2, e3, e4, e5⟩ := parseAPP2s_open segs j1 mem1 tail h2 h3 b1 h7 (by omega)
      hwf' h4
    have ho : iccpOutcome seq tot ((seq, tot, body) :: segs)
        = iccpOutcome j1.iccps1 j1.iccps2 segs := by
      rw [iccpOutcome, if_neg hgood, if_neg hlast, b2, h5]
    rw [ho]
    refine ⟨j', e1, e2, ?_, ?_, ?_⟩
    · intro h
      obtain ⟨c1, _, c3⟩ := e3 h
      exact ⟨(c1.trans b4).trans hprof, by rw [c3, b3]⟩
    · intro h
      obtain ⟨c1, c2, c3⟩ := e4 h
      exact ⟨c1, c2.trans h6, c3.trans b3⟩
    · intro h
      obtain ⟨c1, _, c3⟩ := e5 h
      exact ⟨(c1.trans b4).trans hprof, c3.trans b3⟩

theorem parseAPP2_profile_witness :
    (∃ j', parseAPP2s 2 (TJPGR.init (iccStream
          [(1, 2, iccHeader 128 [0x61, 0x63, 0x73, 0x70]), (2, 2, [])] ++ [0xff, 0xd9]))
        = some (true, j') ∧ j'.window ++ j'.stream = [0xff, 0xd9] ∧
      j'.iccprofile = true ∧ j'.iccpsize = 128 ∧ j'.warnings = 0) ∧
    (∃ j', parseAPP2s 2 (TJPGR.init (iccStream
          [(1, 2, iccHeader 128 [0x61, 0x63, 0x73, 0x70]), (3, 2, [])] ++ [0xff, 0xd9]))
        = some (true, j') ∧ j'.window ++ j'.stream = [0xff, 0xd9] ∧
      j'.iccprofile = false ∧ j'.warnings = JPGR_BADICCP) ∧
    (∃ j', parseAPP2s 2 { TJPGR.init (iccStream
          [(1, 2, iccHeader 128 [0x61, 0x63, 0x73, 0x70]), (2, 2, [])] ++ [0xff, 0xd9])
          with nomemory := true }
        = some (false, j') ∧ j'.error = JPGR_EOOM ∧ j'.iccprofile = false ∧
      j'.warnings = 0) := by
  refine ⟨?_, ?_, ?_⟩
  · obtain ⟨j', h1, h2, _, h4, _⟩ := (parseAPP2_profile
      (TJPGR.init (iccStream [(1, 2, iccHeader 128 [0x61, 0x63, 0x73, 0x70]), (2, 2, [])]
        ++ [0xff, 0xd9]))
      (TJPGR.init []) 1 2 128 (iccHeader 128 [0x61, 0x63, 0x73, 0x70]) [(2, 2, [])] [0xff, 0xd9]
      rfl rfl rfl rfl (fun _ h => by simp [TJPGR.init] at h) (fun _ => rfl) (by decide)
      (by decide) (by decide) (by decide) (by rfl)).2.2 (by decide)
    obtain ⟨a, b, c⟩ := h4 (by decide)
    exact ⟨j', h1, h2, a, b, c⟩
  · obtain ⟨j', h1, h2, h3, _, _⟩ := (parseAPP2_profile
      (TJPGR.init (iccStream [(1, 2, iccHeader 128 [0x61, 0x63, 0x73, 0x70]), (3, 2, [])]
        ++ [0xff, 0xd9]))
      (TJPGR.init []) 1 2 128 (iccHeader 128 [0x61, 0x63, 0x73, 0x70]) [(3, 2, [])] [0xff, 0xd9]
      rfl rfl rfl rfl (fun _ h => by simp [TJPGR.init] at h) (fun _ => rfl) (by decide)
      (by decide) (by decide) (by decide) (by rfl)).2.2 (by decide)
    obtain ⟨a, b⟩ := h3 (by decide)
    exact ⟨j', h1, h2, a, b⟩
  · obtain ⟨j', _, h1, h2, h3, h4⟩ := (parseAPP2_profile
      { TJPGR.init (iccStream [(1, 2, iccHeader 128 [0x61, 0x63, 0x73, 0x70]), (2, 2, [])]
        ++ [0xff, 0xd9]) with nomemory := true }
      (TJPGR.init []) 1 2 128 (iccHeader 128 [0x61, 0x63, 0x73, 0x70]) [(2, 2, [])] [0xff, 0xd9]
      rfl rfl rfl rfl (fun _ h => by simp [TJPGR.init] at h) (fun _ => rfl) (by decide)
      (by decide) (by decide) (by decide) (by rfl)).2.1 (by decide)
    exact ⟨j', h1, h2, h3, h4⟩

/-- C19: on a stream with the segment `ff m 00 04 aa bb` followed by EOI,
`parsesegments` fails with `JPGR_ENOSUPPORTED` for the markers SOF3, SOF5, SOF6
and SOF7, but for SOF9, SOF10, SOF11, SOF13, SOF14 and SOF15 it skips the
segment as an unknown one, goes on to EOI and fails there with `JPGR_EBADDATA`,
whatever the segment parsers are. -/
theorem parsesegments_sof9_skipped (p : TSegmentParsers) :
    (∀ m ∈ [0xc3, 0xc5, 0xc6, 0xc7],
      (parsesegments p (TJPGR.init (frameStream m))).map (fun r => (r.1, r.2.error, r.2.stream))
        = some (false, JPGR_ENOSUPPORTED, [])) ∧
    (∀ m ∈ [0xc9, 0xca, 0xcb, 0xcd, 0xce, 0xcf],
      (parsesegments p (TJPGR.init (frameStream m))).map
          (fun r => (r.1, r.2.error, r.2.state, r.2.window))
        = some (false, JPGR_EBADDATA, JPGR_BADSTATE, [])) := by
  constructor
  · intro m hm
    simp only [List.mem_cons, List.mem_singleton, List.not_mem_nil, or_false] at hm
    rcases hm with h | h | h | h <;> subst h <;> rfl
  · intro m hm
    simp only [List.mem_cons, List.mem_singleton, List.not_mem_nil, or_false] at hm
    rcases hm with h | h | h | h | h | h <;> subst h <;> rfl

/-- C20: met before any SOF segment, `parseSOS` fails and leaves in `error` the
warning bit `JPGR_SEGMENTORDER` (8), which as an error code reads
`JPGR_ETABLEID`, not the error code `JPGR_ESEGMENTORDER` (13); this for every
input stream and every continuation of the function. -/
theorem parseSOS_before_SOF (rest : TJPGR → Option (Bool × TJPGR)) (stream : List Nat) :
    (parseSOS rest (TJPGR.init stream)).map (fun r => (r.1, r.2.error))
        = some (false, JPGR_SEGMENTORDER) ∧
      JPGR_SEGMENTORDER = 8 ∧ JPGR_ESEGMENTORDER = 13 ∧ JPGR_SEGMENTORDER = JPGR_ETABLEID := by
  refine ⟨rfl, rfl, rfl, rfl⟩

/-- C21: the frame with the components (H=4,V=1), (H=1,V=4), (H=1,V=1) is
accepted by `parseSOF0` (the sum of H*V is 9) with sampling 4 x 4; for its
third component `initcomponents` computes the index 3*2 + 2 = 8 into
`upscalemap`, which has 8 maps, so the map selected does not exist (the
embedding stops with `none` at that read). For the frame (2,2), (1,1), (1,1)
the maps 0, 4 and 4 are selected. -/
theorem initcomponents_upscalemap_index_8 :
    (parseSOF0 (frameReader [(1, 4, 1, 0), (2, 1, 4, 0), (3, 1, 1, 0)]) 0).map (fun r =>
        (r.1, r.2.error, r.2.ysampling, r.2.xsampling, r.2.scan.ncomponents,
          r.2.components.map (fun c => (c.id, c.xsampling, c.ysampling))))
      = some (true, 0, 4, 4, 3, [(1, 4, 1), (2, 1, 4), (3, 1, 1)])
    ∧ umapindex (4 >>> 0) (4 >>> 0) = some 8
    ∧ upscalemap.length = 8
    ∧ (parseSOF0 (frameReader [(1, 4, 1, 0), (2, 1, 4, 0), (3, 1, 1, 0)]) 0).bind
        (fun r => initcomponents r.2 r.2.ysampling r.2.xsampling) = none
    ∧ ((parseSOF0 (frameReader [(1, 2, 2, 0), (2, 1, 1, 0), (3, 1, 1, 0)]) 0).bind
        (fun r => initcomponents r.2 r.2.ysampling r.2.xsampling)).map
          (fun j => j.components.map (fun c => some c.umap))
        = some [upscalemap[0]?, upscalemap[4]?, upscalemap[4]?] :=
  ⟨rfl, rfl, rfl, rfl, rfl⟩

/-- C22: for a sample above 32639 the sum `v + 128` wraps in `int16` to a
negative value and `tograyscale` and `setrow1` give 0, where the clamp over
the integers gives 255; for every other `int16` sample they give
`min(255, max(0, v + 128))`. -/
theorem tograyscale_wraps_above_32639 :
    tograyscale 32640 = 0 ∧ tograyscale 32767 = 0
    ∧ min (255 : Int) (max 0 (32767 + 128)) = 255
    ∧ setrow1 [32767, 32640, 32639, 127, 0, -128, -129, -32768] 0 (List.replicate 8 7) 0
        = some [0, 0, 255, 255, 128, 0, 0, 0]
    ∧ ∀ v : Int, -32768 ≤ v → v ≤ 32767 →
        (tograyscale v : Int) = if 32639 < v then 0 else min 255 (max 0 (v + 128)) := by
  refine ⟨by decide, by decide, by decide, by decide, tograyscale_int16⟩

/-- C22, amended: for every `int16` sample `v` up to 32639, `tograyscale(v)`
and each byte `setrow1` writes for such a sample equal
`min(255, max(0, v + 128))` computed over the integers; every sample that
`inverseDCT` stores lies between -16384 and 16383, so the samples of a decoded
block are all of this kind. -/
theorem tograyscale_clamps_up_to_32639 (v : Int) (h0 : -32768 ≤ v) (h1 : v ≤ 32639) :
    (tograyscale v : Int) = min 255 (max 0 (v + 128)) ∧
    (∀ (r1 : List Int) (ro : Nat) (row row' : List Nat) (o i : Nat), i < 8 →
      r1[ro + i]? = some v → setrow1 r1 ro row o = some row' →
      row'[o + i]? = some (min 255 (max 0 (v + 128))).toNat) ∧
    (∀ (sblock rblock qtable out : List Int),
      inverseDCT sblock rblock qtable = some out →
      ∀ j, j < 64 → ∃ w, out[j]? = some w ∧ -16384 ≤ w ∧ w ≤ 16383 ∧
        (tograyscale w : Int) = min 255 (max 0 (w + 128))) := by
  have hg : ∀ w : Int, -32768 ≤ w → w ≤ 32639 →
      (tograyscale w : Int) = min 255 (max 0 (w + 128)) := by
    intro w a b
    rw [tograyscale_int16 w a (by omega), if_neg (by omega)]
  refine ⟨hg v h0 h1, ?_, ?_⟩
  · intro r1 ro row row' o i hi hv h
    obtain ⟨v', q1, q2⟩ := setrow1_tograyscale r1 ro row row' o h i hi
    rw [hv] at q1
    simp only [Option.some.injEq] at q1
    subst q1
    rw [q2, ← hg v h0 h1]
    rfl
  · intro sblock rblock qtable out h j hj
    obtain ⟨w, q1, q2, q3⟩ := inverseDCT_range sblock rblock qtable out h j hj
    exact ⟨w, q1, q2, q3, hg w (by omega) (by omega)⟩

theorem tograyscale_clamps_up_to_32639_witness :
    (-32768 : Int) ≤ 32639 ∧ (tograyscale 32639 : Int) = min 255 (max 0 (32639 + 128)) ∧
    ∃ row', setrow1 [32639, 127, 0, -128, -129, -32768, 16383, -16384] 0 (List.replicate 8 7) 0
        = some row' ∧
      row'[0 + 0]? = some (min 255 (max 0 ((32639 : Int) + 128))).toNat :=
  ⟨by decide, (tograyscale_clamps_up_to_32639 32639 (by decide) (by decide)).1,
    [255, 255, 128, 0, 0, 0, 255, 0], by decide,
    (tograyscale_clamps_up_to_32639 32639 (by decide) (by decide)).2.1
      [32639, 127, 0, -128, -129, -32768, 16383, -16384] 0 (List.replicate 8 7)
      [255, 255, 128, 0, 0, 0, 255, 0] 0 0 (by decide) rfl (by decide)⟩

/-- C23: for every size from 1 to 13 and every `bits` below `2^size`,
`extend(size, bits)` is `bits - (2^size - 1)` when `bits < 2^(size-1)` and `bits`
otherwise. -/
theorem extend_spec (size bits : Nat) (h1 : 1 ≤ size) (h2 : size ≤ 13) (hb : bits < 2 ^ size) :
    extend (size : Int) (bits : Int)
      = if bits < 2 ^ (size - 1) then (bits : Int) - (2 ^ size - 1) else (bits : Int) := by
  obtain ⟨k, rfl⟩ : ∃ k, size = k + 1 := ⟨size - 1, by omega⟩
  simp only [Nat.add_sub_cancel]
  push_cast
  by_cases h : bits < 2 ^ k
  · rw [if_pos h]
    exact extend_of_lt k bits (by omega) (by omega) (by exact_mod_cast h)
  · rw [if_neg h]
    exact extend_of_ge k bits (by omega) (by exact_mod_cast (Nat.le_of_not_lt h))
      (by exact_mod_cast hb)

/-- The statement of `extend_spec` at size 3 and bits 2. -/
theorem extend_spec_witness :
    extend ((3 : Nat) : Int) ((2 : Nat) : Int)
      = if 2 < 2 ^ (3 - 1) then ((2 : Nat) : Int) - (2 ^ 3 - 1) else ((2 : Nat) : Int) :=
  extend_spec 3 2 (by decide) (by decide) (by decide)

/-- C24: for all bytes `a` (left), `b` (above) and `c` (upper left), with
`p = a + b - c` over the integers, `paetchfilter` returns `a` if
`|p - a| <= |p - b|` and `|p - a| <= |p - c|`, else `b` if `|p - b| <= |p - c|`,
else `c`. -/
theorem paetchfilter_tie_order (a b c : Nat) (ha : a < 256) (hb : b < 256) (hc : c < 256) :
    paetchfilter a b c =
      if |((a : Int) + b - c) - a| ≤ |((a : Int) + b - c) - b|
          ∧ |((a : Int) + b - c) - a| ≤ |((a : Int) + b - c) - c| then a
      else if |((a : Int) + b - c) - b| ≤ |((a : Int) + b - c) - c| then b
      else c := by
  rw [paetchfilter_eq a b c ha hb hc]
  rfl

/-- The statement of `paetchfilter_tie_order` at (1, 4, 2), where `b` and `c` are
equally near to `p` and `b` is returned. -/
theorem paetchfilter_tie_order_witness :
    paetchfilter 1 4 2 =
      if |(((1 : Nat) : Int) + (4 : Nat) - (2 : Nat)) - (1 : Nat)|
            ≤ |(((1 : Nat) : Int) + (4 : Nat) - (2 : Nat)) - (4 : Nat)|
          ∧ |(((1 : Nat) : Int) + (4 : Nat) - (2 : Nat)) - (1 : Nat)|
            ≤ |(((1 : Nat) : Int) + (4 : Nat) - (2 : Nat)) - (2 : Nat)| then 1
      else if |(((1 : Nat) : Int) + (4 : Nat) - (2 : Nat)) - (4 : Nat)|
            ≤ |(((1 : Nat) : Int) + (4 : Nat) - (2 : Nat)) - (2 : Nat)| then 4
      else 2 :=
  paetchfilter_tie_order 1 4 2 (by decide) (by decide) (by decide)

/-- C25: on an aborted reader (state `JPGR_BADSTATE`) `jpgr_setinputfn` stores the
error code `JPGR_EBADSTATE` (1) in the state, after which `jpgr_getstate` returns
`JPGR_READY`, not `JPGR_ABORTED`. The calls `jpgr_initdecoder`,
`jpgr_setbuffers`, `jpgr_decodeimg`, `jpgr_decodepass` and `jpgr_updateimg` leave
`jpgr_getstate` at `JPGR_ABORTED` (`jpgr_updateimg` returns when `updateimg`
does), and `jpgr_reset` gives `JPGR_NOTSET`. This holds for every reader,
whatever the decoders and the arguments are. -/
theorem setinputfn_leaves_aborted (d : TDecoders) (jpgr : TJPGR) (fn : Bool) (user : List Nat)
    (info : TImageInfo) (assign : TJPGR → List TJPGComponent) (pixels : Option (List Nat))
    (update : Bool) :
    (jpgr_getstate { jpgr with state := JPGR_BADSTATE }).1 = JPGR_ABORTED
    ∧ (jpgr_setinputfn { jpgr with state := JPGR_BADSTATE } fn user).state = JPGR_EBADSTATE
    ∧ (jpgr_getstate (jpgr_setinputfn { jpgr with state := JPGR_BADSTATE } fn user)).1 = JPGR_READY
    ∧ (∃ j, jpgr_initdecoder d { jpgr with state := JPGR_BADSTATE } info = some (false, j, info)
        ∧ (jpgr_getstate j).1 = JPGR_ABORTED)
    ∧ (jpgr_getstate (jpgr_setbuffers assign { jpgr with state := JPGR_BADSTATE } pixels)).1
        = JPGR_ABORTED
    ∧ (∃ j, jpgr_decodeimg d { jpgr with state := JPGR_BADSTATE } = some (0, j)
        ∧ (jpgr_getstate j).1 = JPGR_ABORTED)
    ∧ (∃ j, jpgr_decodepass d { jpgr with state := JPGR_BADSTATE } update = some (0, j)
        ∧ (jpgr_getstate j).1 = JPGR_ABORTED)
    ∧ ((jpgr_updateimg d { jpgr with state := JPGR_BADSTATE }).isSome = true ∨
        d.updateimg { jpgr with state := JPGR_BADSTATE } = none)
    ∧ (∀ j, jpgr_updateimg d { jpgr with state := JPGR_BADSTATE } = some j →
        (jpgr_getstate j).1 = JPGR_ABORTED)
    ∧ (jpgr_getstate (jpgr_reset { jpgr with state := JPGR_BADSTATE })).1 = JPGR_NOTSET := by
  refine ⟨rfl, rfl, rfl, ?_, ?_, ?_, ?_, ?_, ?_, rfl⟩
  · obtain ⟨j, h1, h2⟩ := initdecoder_badstate d { jpgr with state := JPGR_BADSTATE } info rfl
    exact ⟨j, h1, getstate_badstate j h2⟩
  · exact getstate_badstate _ (setbuffers_badstate assign _ pixels rfl)
  · obtain ⟨j, h1, h2⟩ := decodeimg_badstate d { jpgr with state := JPGR_BADSTATE } rfl
    exact ⟨j, h1, getstate_badstate j h2⟩
  · obtain ⟨j, h1, h2⟩ := decodepass_badstate d { jpgr with state := JPGR_BADSTATE } update rfl
    exact ⟨j, h1, getstate_badstate j h2⟩
  · exact updateimg_returns d _
  · intro j hj
    exact getstate_badstate j (updateimg_badstate d _ j rfl hj)

/-- C26: three ways in which `jpgr_decodeimg` returns 0 without the state
`JPGR_BADSTATE` and an error. A baseline image with a quantization table not
defined: error `JPGR_ENOQTTABLE`, state 3 (`JPGR_DECODING`). A progressive image
whose next pass exceeds `JPGR_MAXPASSES`: error `JPGR_EPASSLIMIT`, state 3. An
interleaved baseline scan whose decoder returns 0 without an error, as
`decodeblock` does after an over-read: state `JPGR_BADSTATE`, error 0. -/
theorem decodeimg_zero_without_abort (d : TDecoders) (jpgr : TJPGR) :
    (jpgr.state = 2 ∨ jpgr.state = 3 → jpgr.header.isprogressive = 0 →
      qtablemissing jpgr jpgr.scan.ncomponents 0 = some true →
      ∃ j, jpgr_decodeimg d jpgr = some (0, j) ∧ j.state = 3 ∧
        jpgr_getstate j = (JPGR_DECODING, JPGR_ENOQTTABLE, jpgr.warnings))
    ∧ (∀ j1 j2, jpgr.state = 3 → jpgr.header.isprogressive ≠ 0 → jpgr.scan.npass ≠ 0 →
      jpgr.scan.ss = 0 → jpgr.scan.se = 0 → jpgr.scan.ah = 0 →
      d.readfirstDC jpgr = some (true, j1) → d.parsesegments j1 = some (true, j2) →
      j2.state = 3 → j2.scan.npass = JPGR_MAXPASSES →
      ∃ j, jpgr_decodeimg d jpgr = some (0, j) ∧ j.state = 3 ∧
        jpgr_getstate j = (JPGR_DECODING, JPGR_EPASSLIMIT, j2.warnings))
    ∧ (∀ j1, jpgr.state = 2 ∨ jpgr.state = 3 → jpgr.header.isprogressive = 0 →
      qtablemissing jpgr jpgr.scan.ncomponents 0 = some false → jpgr.scan.isinterleaved ≠ 0 →
      d.decodebaseline { jpgr with state := 3 } = some (false, j1) → j1.error = 0 →
      ∃ j, jpgr_decodeimg d jpgr = some (0, j) ∧ j.error = 0 ∧
        jpgr_getstate j = (JPGR_ABORTED, 0, j1.warnings)) := by
  refine ⟨?_, ?_, ?_⟩
  · intro hs hp hq
    rw [decodeimg_enter d jpgr hs,
      decodeimg_noqtable d { jpgr with state := 3 } hp
        (by rw [← hq]; exact qtablemissing_congr { jpgr with state := 3 } jpgr rfl rfl _ _)]
    exact ⟨_, rfl, rfl, rfl⟩
  · intro j1 j2 h3 hp hn hss hse hah hd hs h4 hl
    rw [decodeimg_enter d jpgr (Or.inr h3), state_three_eq jpgr h3,
      decodeimg_passlimit d jpgr j1 j2 h3 hp hn hss hse hah hd hs (by rw [h4]; decide) hl]
    refine ⟨_, rfl, h4, ?_⟩
    unfold jpgr_getstate
    dsimp only
    rw [h4]
  · intro j1 hs hp hq hi hd he
    rw [decodeimg_enter d jpgr hs,
      decodeimg_baseline_fails d { jpgr with state := 3 } j1 hp
        (by rw [← hq]; exact qtablemissing_congr { jpgr with state := 3 } jpgr rfl rfl _ _) hi hd]
    refine ⟨_, rfl, he, ?_⟩
    unfold jpgr_getstate
    dsimp only
    rw [he]
    rfl

/-- The three cases of `decodeimg_zero_without_abort` on the example readers. -/
theorem decodeimg_zero_without_abort_witness :
    (∃ j, jpgr_decodeimg exampleDecoders lateTableReader = some (0, j) ∧ j.state = 3 ∧
        jpgr_getstate j = (JPGR_DECODING, JPGR_ENOQTTABLE, lateTableReader.warnings))
    ∧ (∃ j, jpgr_decodeimg exampleDecoders passLimitReader = some (0, j) ∧ j.state = 3 ∧
        jpgr_getstate j = (JPGR_DECODING, JPGR_EPASSLIMIT, 0))
    ∧ (∃ j, jpgr_decodeimg overreadDecoders baselineReader = some (0, j) ∧ j.error = 0 ∧
        jpgr_getstate j = (JPGR_ABORTED, 0, 0)) :=
  ⟨(decodeimg_zero_without_abort exampleDecoders lateTableReader).1 (Or.inl rfl) rfl rfl,
   (decodeimg_zero_without_abort exampleDecoders passLimitReader).2.1
      passLimitReader
      { passLimitReader with
        window := [],
        stream := [],
        room := BUFFERSIZE - 2,
        scan := { passLimitReader.scan with isinterleaved := 1 } }
      rfl (by decide) (by decide) rfl rfl rfl rfl rfl rfl rfl,
   (decodeimg_zero_without_abort overreadDecoders baselineReader).2.2
      { baselineReader with state := 3 } (Or.inl rfl) rfl rfl (by decide) rfl rfl⟩

/-- C27: when the interleaved baseline scan of a reader decodes and the end of
the image follows, `jpgr_decodeimg` returns 1 with state 4 and `jpgr_getstate`
returns `JPGR_DECODED` although the warnings are not zero: the state is set
without a look at `warnings`. -/
theorem decodeimg_state_ignores_warnings (d : TDecoders) (jpgr j1 j2 : TJPGR)
    (hs : jpgr.state = 2 ∨ jpgr.state = 3) (hp : jpgr.header.isprogressive = 0)
    (hq : qtablemissing jpgr jpgr.scan.ncomponents 0 = some false)
    (hi : jpgr.scan.isinterleaved ≠ 0)
    (hd : d.decodebaseline { jpgr with state := 3 } = some (true, j1))
    (hg : d.parsesegments j1 = some (true, j2)) (hw : j2.warnings ≠ 0) :
    ∃ j, jpgr_decodeimg d jpgr = some (1, j) ∧ j.warnings ≠ 0 ∧ j.state = 4 ∧
      jpgr_getstate j = (JPGR_DECODED, j2.error, j2.warnings) := by
  rw [decodeimg_enter d jpgr hs,
    decodeimg_baseline_ok d { jpgr with state := 3 } j1 j2 hp
      (by rw [← hq]; exact qtablemissing_congr { jpgr with state := 3 } jpgr rfl rfl _ _) hi hd hg]
  exact ⟨_, rfl, hw, rfl, rfl⟩

/-- The statement of `decodeimg_state_ignores_warnings` on a file whose APP0
segment has the version 2.1: `parseAPP0` raises `JPGR_BADVERSION`, the file
decodes and the state is `JPGR_DECODED`. -/
theorem decodeimg_state_ignores_warnings_witness :
    version2Ready.isSome = true ∧ version2Reader.warnings = JPGR_BADVERSION ∧
    (parseAPP0 (TJPGR.init (app0Segment 2 1))).map (fun r => (r.1, r.2.warnings))
      = some (true, JPGR_BADVERSION) ∧
    ∃ j, jpgr_decodeimg exampleDecoders version2Reader = some (1, j) ∧ j.warnings ≠ 0 ∧
      j.state = 4 ∧ jpgr_getstate j = (JPGR_DECODED, 0, JPGR_BADVERSION) :=
  ⟨rfl, rfl, rfl,
    decodeimg_state_ignores_warnings exampleDecoders version2Reader
      { version2Reader with state := 3 }
      ((exampleDecoders.parsesegments { version2Reader with state := 3 }).getD
        (false, version2Reader)).2
      (Or.inl rfl) rfl rfl (by decide) rfl rfl (by decide)⟩

/-- C28: with a callback that obeys its contract and stores one byte per call,
`ensurebytes(2)` returns false on an input of two bytes: the callback is
called once, one byte is still to be delivered, the end of the input is not
reached and no error is set. With the callback that stores all it is asked
for the call returns true, and `ensurebytesWith` is then `ensurebytes`. In
general the call fails when the bytes of one positive read do not suffice. -/
theorem ensurebytes_single_read :
    ObeysContract bytewise
    ∧ (ensurebytesWith bytewise (TJPGR.init [0xff, 0xd8]) 2).1 = false
    ∧ (ensurebytesWith bytewise (TJPGR.init [0xff, 0xd8]) 2).2.window = [0xff]
    ∧ (ensurebytesWith bytewise (TJPGR.init [0xff, 0xd8]) 2).2.stream = [0xd8]
    ∧ (ensurebytesWith bytewise (TJPGR.init [0xff, 0xd8]) 2).2.endofinput = 0
    ∧ (ensurebytesWith bytewise (TJPGR.init [0xff, 0xd8]) 2).2.error = 0
    ∧ (ensurebytesWith fullread (TJPGR.init [0xff, 0xd8]) 2).1 = true
    ∧ (∀ jpgr amount, ensurebytesWith fullread jpgr amount = ensurebytes jpgr amount)
    ∧ (∀ (inputfn : List Nat → Nat → Int) (jpgr : TJPGR) (amount : Nat),
        jpgr.endofinput = 0 →
        0 < inputfn jpgr.stream
          (if jpgr.room + jpgr.window.length < amount then BUFFERSIZE - jpgr.window.length
           else jpgr.room) →
        jpgr.window.length + (inputfn jpgr.stream
          (if jpgr.room + jpgr.window.length < amount then BUFFERSIZE - jpgr.window.length
           else jpgr.room)).toNat < amount →
        (ensurebytesWith inputfn jpgr amount).1 = false ∧
        (ensurebytesWith inputfn jpgr amount).2.endofinput = 0 ∧
        (ensurebytesWith inputfn jpgr amount).2.error = jpgr.error) :=
  ⟨bytewise_obeys, rfl, rfl, rfl, rfl, rfl, rfl, ensurebytesWith_fullread, ensurebytesWith_short⟩

/-- C29: when the restart interval has expired the statements on the restart
interval, the same in every scan decoder, set the DC predictor `cofficient` of
every component to 0 and leave `eobrun` as it is; with an EOB run pending the
next call of `decodefirstAC` then skips its block, whatever the loop over the
coefficients is, and so does the loop over the blocks of `readfirstAC`. -/
theorem restart_keeps_eobrun (coefficients : TJPGR → Nat → Nat → Option (Bool × TJPGR))
    (jpgr j' : TJPGR) (interval : Nat) (hr : jpgr.scan.rinterval ≠ 0)
    (h : restartinterval jpgr 0 = some (true, interval, j')) :
    j'.scan.eobrun = jpgr.scan.eobrun
    ∧ (∀ c ∈ j'.components.take jpgr.scan.ncomponents, c.cofficient = 0)
    ∧ (0 < jpgr.scan.eobrun → ∀ c index,
        decodefirstAC coefficients j' c index
          = some (true, { j' with scan := { j'.scan with eobrun := jpgr.scan.eobrun - 1 } }))
    ∧ (0 < jpgr.scan.eobrun → ∀ c y icols n x,
        scanrow (decodefirstAC coefficients) c y icols (n + 1) x 0 jpgr
          = scanrow (decodefirstAC coefficients) c y icols n (x + 1) interval
              { j' with scan := { j'.scan with eobrun := jpgr.scan.eobrun - 1 } }) := by
  have h0 := h
  unfold restartinterval at h
  rw [if_pos hr, if_pos rfl] at h
  cases hc : checkinterval jpgr with
  | none => simp [hc] at h
  | some res =>
    obtain ⟨b, j1⟩ := res
    cases b with
    | false => simp [hc] at h
    | true =>
      simp only [hc] at h
      obtain ⟨a1, a2⟩ := checkinterval_scan jpgr j1 hc
      cases hi : initbitmode j1 with
      | none => simp [hi] at h
      | some j2 =>
        simp only [hi, Option.some.injEq, Prod.mk.injEq, true_and] at h
        obtain ⟨b1, b2⟩ := initbitmode_scan j1 j2 hi
        have e : j2 = j' := h.2
        subst e
        have hscan : j2.scan = jpgr.scan := b1.trans a1
        have skip : 0 < jpgr.scan.eobrun → ∀ c index,
            decodefirstAC coefficients j2 c index
              = some (true,
                  { j2 with scan := { j2.scan with eobrun := jpgr.scan.eobrun - 1 } }) := by
          intro hpos c index
          unfold decodefirstAC
          rw [if_pos (by rw [hscan]; exact hpos), hscan]
        refine ⟨by rw [hscan], ?_, skip, ?_⟩
        · intro c hcm
          rw [b2, a2] at hcm
          have hin : c ∈ (jpgr.components.take jpgr.scan.ncomponents).map
              (fun c => { c with cofficient := 0 }) := by
            by_cases hle : jpgr.scan.ncomponents ≤ jpgr.components.length
            · rw [List.take_append_of_le_length
                (by rw [List.length_map, List.length_take]; omega)] at hcm
              exact List.mem_of_mem_take hcm
            · rw [List.drop_eq_nil_of_le (by omega), List.append_nil] at hcm
              exact List.mem_of_mem_take hcm
          rw [List.mem_map] at hin
          obtain ⟨c0, _, rfl⟩ := hin
          rfl
        · intro hpos c y icols n x
          rw [scanrow, h0]
          dsimp only
          rw [skip hpos]

/-- The statement of `restart_keeps_eobrun` on a reader with an EOB run of two
blocks pending at the marker RST0. -/
theorem restart_keeps_eobrun_witness :
    restartReader.scan.rinterval ≠ 0 ∧ restartReader.scan.eobrun = 2 ∧
    (restartReader.components.map (fun c => c.cofficient)) = [5] ∧
    ∃ j, restartinterval restartReader 0 = some (true, 0, j) ∧
      (j.scan.eobrun = restartReader.scan.eobrun
      ∧ (∀ c ∈ j.components.take restartReader.scan.ncomponents, c.cofficient = 0)
      ∧ (0 < restartReader.scan.eobrun → ∀ c index,
          decodefirstAC (fun jpgr _ _ => some (false, jpgr)) j c index
            = some (true,
                { j with scan := { j.scan with eobrun := restartReader.scan.eobrun - 1 } }))
      ∧ (0 < restartReader.scan.eobrun → ∀ c y icols n x,
          scanrow (decodefirstAC (fun jpgr _ _ => some (false, jpgr))) c y icols (n + 1) x 0
              restartReader
            = scanrow (decodefirstAC (fun jpgr _ _ => some (false, jpgr))) c y icols n (x + 1) 0
                { j with scan := { j.scan with eobrun := restartReader.scan.eobrun - 1 } })) :=
  ⟨by decide, rfl, rfl,
    ((restartinterval restartReader 0).getD (false, 0, restartReader)).2.2, rfl,
    restart_keeps_eobrun (fun jpgr _ _ => some (false, jpgr)) restartReader
      ((restartinterval restartReader 0).getD (false, 0, restartReader)).2.2 0 (by decide) rfl⟩

/-- C30: in a call of `pngr_decodepass` every sample visited lies at a pixel
`(x, y)` of the image, at the offset `y * rowsize + x * pelsize`; the block
handed to `fill` for it has the width `min(sizex - x, passsizex[i])` and the
height `min(sizey - y, passsizey[i])`, the call of `fill` succeeds on a buffer
of `sizex * sizey * pelsize` bytes and every byte it writes lies in a pixel
`(x + dx, y + dy)` of the image, below `sizex * sizey * pelsize`. The sample is
one that `getsample` returns with the bytes of a pixel. -/
theorem fill_block_inside_image (checktail parsechunks : TPNGR → Option (Bool × TPNGR))
    (pngr : TPNGR) (b : TPNGRBuffers) (r : Nat) (p' : TPNGR) (b' : TPNGRBuffers)
    (hpass : pngr.pass < 7) (hR : pngr.rowsize = pngr.pelsize * pngr.sizex)
    (h : pngr_decodepass checktail parsechunks pngr b = some (r, p', b'))
    (x y o : Nat) (hv : (x, y, o) ∈ b'.visited) (hnv : (x, y, o) ∉ b.visited)
    (px : List Nat) (hlen : pngr.sizex * pngr.sizey * pngr.pelsize ≤ px.length)
    (row s : List Nat) (hg : getsample pngr row (List.replicate 8 0) = some s)
    (hs : pelbytes pngr.pelsize ≤ s.length) :
    x < pngr.sizex ∧ y < pngr.sizey ∧ o = y * pngr.rowsize + x * pngr.pelsize ∧
    ∃ wx wy px', passsizex[pngr.pass]? = some wx ∧ passsizey[pngr.pass]? = some wy ∧
      fillpixel pngr pngr.pass x y px o row
        = fill pngr px o s (min (pngr.sizex - x) wx) (min (pngr.sizey - y) wy) ∧
      fillpixel pngr pngr.pass x y px o row = some px' ∧
      px'.length = px.length ∧
      ∀ k, px'[k]? = px[k]? ∨
        ∃ dy dx t, dy < min (pngr.sizey - y) wy ∧ dx < min (pngr.sizex - x) wx ∧
          t < pngr.pelsize ∧ x + dx < pngr.sizex ∧ y + dy < pngr.sizey ∧
          k = (y + dy) * pngr.rowsize + (x + dx) * pngr.pelsize + t ∧
          k < pngr.sizex * pngr.sizey * pngr.pelsize := by
  rcases decodepass_inside checktail parsechunks pngr b r p' b' h (x, y, o) hv with h1 | h1
  · exact absurd h1 hnv
  · obtain ⟨hx, hy, ho⟩ := h1
    simp only at hx hy ho
    subst ho
    exact ⟨hx, hy, rfl, fillpixel_inside pngr pngr.pass x y hpass hx hy hR px hlen row s hg hs⟩

/-- The statement of `fill_block_inside_image` at the first sample of the 4 x 4
example. -/
theorem fill_block_inside_image_witness :
    0 < exact4x4.sizex ∧ 0 < exact4x4.sizey ∧ 0 = 0 * exact4x4.rowsize + 0 * exact4x4.pelsize ∧
    ∃ wx wy px', passsizex[exact4x4.pass]? = some wx ∧ passsizey[exact4x4.pass]? = some wy ∧
      fillpixel exact4x4 exact4x4.pass 0 0 (List.replicate 48 0) 0 [1]
        = fill exact4x4 (List.replicate 48 0) 0 [1, 1, 1, 0, 0, 0, 0, 0]
            (min (exact4x4.sizex - 0) wx) (min (exact4x4.sizey - 0) wy) ∧
      fillpixel exact4x4 exact4x4.pass 0 0 (List.replicate 48 0) 0 [1] = some px' ∧
      px'.length = (List.replicate 48 0).length ∧
      ∀ k, px'[k]? = (List.replicate 48 0)[k]? ∨
        ∃ dy dx t, dy < min (exact4x4.sizey - 0) wy ∧ dx < min (exact4x4.sizex - 0) wx ∧
          t < exact4x4.pelsize ∧ 0 + dx < exact4x4.sizex ∧ 0 + dy < exact4x4.sizey ∧
          k = (0 + dy) * exact4x4.rowsize + (0 + dx) * exact4x4.pelsize + t ∧
          k < exact4x4.sizex * exact4x4.sizey * exact4x4.pelsize :=
  fill_block_inside_image tailok tailok exact4x4 fill4x4
    ((pngr_decodepass tailok tailok exact4x4 fill4x4).getD (0, exact4x4, fill4x4)).1
    ((pngr_decodepass tailok tailok exact4x4 fill4x4).getD (0, exact4x4, fill4x4)).2.1
    ((pngr_decodepass tailok tailok exact4x4 fill4x4).getD (0, exact4x4, fill4x4)).2.2
    (by decide) rfl rfl 0 0 0 (by decide) (by decide) (List.replicate 48 0) (by decide)
    [1] [1, 1, 1, 0, 0, 0, 0, 0] rfl (by decide)

/-- C31: the first 64 entries of `zzorder` are a permutation of 0 .. 63, and
entry `k` is the transpose `8 * (z mod 8) + z div 8` of entry `k` of the
zig-zag sequence of the JPEG standard. The loop of `parseDQT` over the 64
values of a table returns and leaves the value number `k` of the segment, one
byte or two bytes with the high byte first, converted to `int16`, in
`values[zzorder[k]]`, whatever the table held before; the conversion keeps
the 16 bits of the value and keeps the value when it is below 32768. -/
theorem zzorder_parseDQT_placement :
    (zzorder.take 64).Perm (List.range 64)
    ∧ zigzag =
        [ 0,  1,  8, 16,  9,  2,  3, 10, 17, 24, 32, 25, 18, 11,  4,  5,
         12, 19, 26, 33, 40, 48, 41, 34, 27, 20, 13,  6,  7, 14, 21, 28,
         35, 42, 49, 56, 57, 50, 43, 36, 29, 22, 15, 23, 30, 37, 44, 51,
         58, 59, 52, 45, 38, 31, 39, 46, 53, 60, 61, 54, 47, 55, 62, 63]
    ∧ (∀ k, k < 64 → rd zzorder k = (rd zigzag k).map (fun z => 8 * (z % 8) + z / 8))
    ∧ (∀ (s : List Nat) (precision : Nat) (values : List Int), values.length = 64 →
        (∀ b ∈ s, b < 256) → (if precision = 0 then 64 else 128) ≤ s.length →
        ∃ out, parseDQTvalues s precision values = some out ∧ out.length = 64 ∧
          ∀ k, k < 64 →
            rd out (zzorder.getD k 0) = some (toInt16 (transmitted s precision k : Nat)))
    ∧ (∀ v : Nat, v < 65536 →
        toUInt16 (toInt16 (v : Nat)) = v ∧ (v < 32768 → toInt16 (v : Nat) = (v : Nat))) := by
  refine ⟨by decide, by decide, by decide, ?_, ?_⟩
  · intro s precision values hv hs hl
    obtain ⟨out, ho, hlen, _, hput⟩ :=
      dqtfold s precision hs hl (List.range 64) values
        (fun k hk => List.mem_range.mp hk) hv
    refine ⟨out, ho, hlen, fun k hk => ?_⟩
    exact hput (by decide) k (List.mem_range.mpr hk)
  · intro v hv
    unfold toUInt16 toInt16
    constructor
    · omega
    · intro h
      omega

/-- The statement of `zzorder_parseDQT_placement` on the loop of `parseDQT` for
the 64 bytes 0 .. 63 of a table of precision 0 and a table of zeros. -/
theorem zzorder_parseDQT_placement_witness :
    ∃ out, parseDQTvalues (List.range 64) 0 (List.replicate 64 0) = some out ∧ out.length = 64 ∧
      ∀ k, k < 64 →
        rd out (zzorder.getD k 0) = some (toInt16 (transmitted (List.range 64) 0 k : Nat)) :=
  zzorder_parseDQT_placement.2.2.2.1 (List.range 64) 0 (List.replicate 64 0)
    (by decide) (by decide) (by decide)

/-- C32, amended: for an AC table `ac` built by `buildtable` with the
extents, from symbols of 8 bits, and the locals `l` of `decodeblock` after the
refill (at least 16 bits in the bit buffer, a block of 64 coefficients), let
`s` be the entry of `sextent` that the top `ROOTBITS` bits index, not 0, and
let the run in `s` keep the position within 63. Then the fast path is a step
`next` at the position `l.i` plus the run, with the coefficient `s >> 8`
stored at the zig-zag index `z` of that position and `s & 15` bits consumed;
and the general path, where its refill after the `m` bits of the code
succeeds, is a step `next` with the same position, the same block and the
same count of consumed bits (only the bit buffer can hold more bits), and
fails only where that refill fails. -/
theorem decodeblock_fast_eq_general (table ac : TJPGHmTable) (mode : Nat)
    (lns syms : List Nat) (jpgr : TJPGR) (l : TBlockLocals) (s : Int)
    (hb : buildtable table mode lns syms = some (true, ac)) (hm : mode >>> 1 ≠ 0)
    (hsy : ∀ x ∈ syms, x < 256)
    (hbc : 16 ≤ l.bc) (hbb : l.bb < 2 ^ l.bc) (hlen : 64 ≤ l.block.length)
    (hs : (GETBITS l.bb l.bc ROOTBITS).bind (rd ac.sextent) = some s) (hs0 : s ≠ 0)
    (hrun : l.i + ((s >>> (4 : Nat)) % 16).toNat ≤ 63) :
    ∃ (m size z : Nat), rd zzorder (l.i + ((s >>> (4 : Nat)) % 16).toNat) = some z ∧
      m + size = (s % 16).toNat ∧
      decodeblockFast jpgr l s = some (TBlockStep.next jpgr
        { i := l.i + ((s >>> (4 : Nat)) % 16).toNat,
          bb := l.bb % 2 ^ (l.bc - (s % 16).toNat),
          bc := l.bc - (s % 16).toNat,
          r := l.r + (s % 16).toNat,
          block := l.block.set z (s >>> (8 : Nat)) }) ∧
      decodeblockGeneral ac jpgr l =
        (refill jpgr { l with
            i := l.i + ((s >>> (4 : Nat)) % 16).toNat,
            bb := l.bb % 2 ^ (l.bc - m), bc := l.bc - m, r := l.r + m }).map
          (fun p => TBlockStep.next p.1
            { i := l.i + ((s >>> (4 : Nat)) % 16).toNat,
              bb := p.2.bb % 2 ^ (p.2.bc - size),
              bc := p.2.bc - size,
              r := l.r + (s % 16).toNat,
              block := l.block.set z (s >>> (8 : Nat)) }) := by
  -- the index into the root table
  have hg : GETBITS l.bb l.bc ROOTBITS = some (l.bb >>> (l.bc - 9)) := by
    unfold GETBITS ROOTBITS
    rw [if_neg (by omega)]
  rw [hg, Option.some_bind] at hs
  have hk : l.bb >>> (l.bc - 9) < 512 := by
    rw [Nat.shiftRight_eq_div_pow, Nat.div_lt_iff_lt_mul (Nat.two_pow_pos _)]
    have : 2 ^ l.bc = 512 * 2 ^ (l.bc - 9) := by
      rw [show 512 = 2 ^ 9 by norm_num, ← Nat.pow_add]
      congr 1
      omega
    omega
  obtain ⟨s0, hsym, hroot, hext⟩ := buildtable_extents table ac mode lns syms hb hm hsy _ hk
  rw [hext, Option.some.injEq] at hs
  rw [← hs] at hs0
  obtain ⟨h8, hss, hls, hv0, hv1, hval⟩ := extent_entry _ _ hroot hs0
  generalize hkk : l.bb >>> (l.bc - 9) = k at *
  generalize hvv : extend (((s0 >>> 5) &&& 15 : Nat) : Int)
      (((((k <<< (s0 &&& 31)) &&& ((1 <<< 9) - 1)) >>> (9 - ((s0 >>> 5) &&& 15)) : Nat)) : Int) = v at *
  have hrr : (s0 >>> 5) >>> 4 ≤ 15 := by
    rw [Nat.shiftRight_eq_div_pow, Nat.shiftRight_eq_div_pow]
    omega
  obtain ⟨f1, f2, f3⟩ := extent_fields v ((s0 >>> 5) >>> 4) ((s0 &&& 31) + ((s0 >>> 5) &&& 15))
    hrr (by omega)
  rw [← hval, hs] at f1 f2 f3
  rw [f1] at hrun
  rw [f1, f2, f3]
  simp only [Int.toNat_ofNat] at hrun ⊢
  obtain ⟨z, hz, hz64⟩ := zzorder_rd64 _ (by omega : l.i + (s0 >>> 5) >>> 4 < 64)
  refine ⟨s0 &&& 31, (s0 >>> 5) &&& 15, z, hz, rfl, ?_, ?_⟩
  · unfold decodeblockFast
    rw [f1, f2, f3]
    have ht : toInt16 v = v := by
      unfold toInt16
      omega
    have hw : z < l.block.length := by omega
    have hd : ¬ l.bc < (s0 &&& 31) + (s0 >>> 5 &&& 15) := by omega
    simp only [Int.toNat_ofNat, hz, Option.bind_eq_bind, Option.some_bind, setcoef, wr, hw,
      if_true, Option.map_some', takebits, DROPBITS, hd, if_false, Option.pure_def, ht]
  · have hg16 : GETBITS l.bb l.bc 16 = some (l.bb >>> (l.bc - 16)) := by
      unfold GETBITS
      rw [if_neg (by omega)]
    have hds : decodesymbol ac (l.bb >>> (l.bc - 16)) = some s0 := by
      unfold decodesymbol
      have : l.bb >>> (l.bc - 16) >>> (16 - ROOTBITS) = k := by
        rw [← hkk, ← Nat.shiftRight_add]
        congr 1
        unfold ROOTBITS
        omega
      rw [this, hsym]
      simp only [Option.bind_eq_bind, Option.some_bind]
      rw [if_neg (by omega)]
      rfl
    have hs00 : s0 ≠ 0 := by
      intro h
      rw [h] at hss
      exact hss (by decide)
    have hgl : GETLENGTH s0 = s0 &&& 31 := rfl
    have hsy16 : GETSYMBOL16 s0 = s0 >>> 5 := getsymbol16 s0 (by omega)
    have hsy0 : s0 >>> 5 ≠ 0 := by
      intro h
      rw [h] at hss
      exact hss (by decide)
    have hd : ¬ l.bc < s0 &&& 31 := by omega
    unfold decodeblockGeneral
    simp only [hg16, hds, Option.bind_eq_bind, Option.some_bind, hs00, if_false, hgl, takebits,
      DROPBITS, hd, Option.map_some', hsy16, hsy0]
    have hmod : s0 >>> 5 &&& 15 = (s0 >>> 5) % 16 :=
      Nat.and_pow_two_sub_one_eq_mod (s0 >>> 5) 4
    have hdiv : s0 >>> 5 >>> 4 = (s0 >>> 5) / 16 := Nat.shiftRight_eq_div_pow (s0 >>> 5) 4
    have hI : (if s0 >>> 5 > 15 then (l.i + s0 >>> 5 >>> 4) % 2 ^ 64 else l.i)
        = l.i + s0 >>> 5 >>> 4 := by
      split_ifs with hc
      · exact Nat.mod_eq_of_lt (by omega)
      · omega
    have hS : (if s0 >>> 5 > 15 then s0 >>> 5 &&& 15 else s0 >>> 5) = s0 >>> 5 &&& 15 := by
      split_ifs with hc
      · rfl
      · omega
    simp only [hI, hS]
    rw [if_neg (by omega)]
    generalize hre : refill jpgr (TBlockLocals.mk (l.i + s0 >>> 5 >>> 4)
        (l.bb % 2 ^ (l.bc - (s0 &&& 31))) (l.bc - (s0 &&& 31)) (l.r + (s0 &&& 31)) l.block) = res
    rcases res with _ | ⟨jpgr2, l2⟩
    · rfl
    · obtain ⟨g1, g2, g3, g4, g5⟩ := refill_keeps _ _ _ _ (s0 >>> 5 &&& 15)
        (Nat.mod_lt _ (Nat.two_pow_pos _)) (by show _ ≤ l.bc - (s0 &&& 31); omega) hre
      simp only [Option.some_bind, Option.map_some']
      simp only at g1 g2 g3 g4 g5
      have hw := window_bits l.bb l.bc (s0 &&& 31) (s0 >>> 5 &&& 15) (by omega) hls
      rw [hkk] at hw
      have hgb : GETBITS l2.bb l2.bc (s0 >>> 5 &&& 15)
          = some ((k <<< (s0 &&& 31) &&& 1 <<< 9 - 1) >>> (9 - (s0 >>> 5 &&& 15))) := by
        unfold GETBITS
        rw [if_neg (by omega), g5, hw]
      have ht : toInt16 v = v := by
        unfold toInt16
        omega
      have hwz : z < l.block.length := by omega
      have hd2 : ¬ l2.bc < s0 >>> 5 &&& 15 := by omega
      simp only [hgb, Option.some_bind, hz, hvv, ht, setcoef, wr, hwz, if_true, Option.map_some',
        hd2, if_false, Option.pure_def, g1, g2, g3, Nat.add_assoc]

/-- The statement of `decodeblock_fast_eq_general` for the table `acExtents`,
built from the code `code8` for the symbol 0x21, at the position 1 with the
bits `00000000 1` ahead: the extent is 297, the run is 2 and 9 bits are
consumed. -/
theorem decodeblock_fast_eq_general_witness :
    buildtable emptyACTable 5 code8 [0x21] = some (true, acExtents)
    ∧ (GETBITS (extentLocals 1).bb (extentLocals 1).bc ROOTBITS).bind (rd acExtents.sextent)
        = some 297
    ∧ (extentLocals 1).i + (((297 : Int) >>> (4 : Nat)) % 16).toNat = 3
    ∧ ∃ (m size z : Nat),
      rd zzorder ((extentLocals 1).i + (((297 : Int) >>> (4 : Nat)) % 16).toNat) = some z ∧
      m + size = ((297 : Int) % 16).toNat ∧
      decodeblockFast (TJPGR.init []) (extentLocals 1) 297 = some (TBlockStep.next (TJPGR.init [])
        { i := (extentLocals 1).i + (((297 : Int) >>> (4 : Nat)) % 16).toNat,
          bb := (extentLocals 1).bb % 2 ^ ((extentLocals 1).bc - ((297 : Int) % 16).toNat),
          bc := (extentLocals 1).bc - ((297 : Int) % 16).toNat,
          r := (extentLocals 1).r + ((297 : Int) % 16).toNat,
          block := (extentLocals 1).block.set z ((297 : Int) >>> (8 : Nat)) }) ∧
      decodeblockGeneral acExtents (TJPGR.init []) (extentLocals 1) =
        (refill (TJPGR.init []) { extentLocals 1 with
            i := (extentLocals 1).i + (((297 : Int) >>> (4 : Nat)) % 16).toNat,
            bb := (extentLocals 1).bb % 2 ^ ((extentLocals 1).bc - m),
            bc := (extentLocals 1).bc - m, r := (extentLocals 1).r + m }).map
          (fun p => TBlockStep.next p.1
            { i := (extentLocals 1).i + (((297 : Int) >>> (4 : Nat)) % 16).toNat,
              bb := p.2.bb % 2 ^ (p.2.bc - size),
              bc := p.2.bc - size,
              r := (extentLocals 1).r + ((297 : Int) % 16).toNat,
              block := (extentLocals 1).block.set z ((297 : Int) >>> (8 : Nat)) }) :=
  ⟨buildtable_acExtents, by decide, by decide,
    decodeblock_fast_eq_general emptyACTable acExtents 5 code8 [0x21] (TJPGR.init [])
      (extentLocals 1) 297 buildtable_acExtents (by decide) (by decide) (by decide) (by decide)
      (by decide) (by decide) (by decide) (by decide)⟩

/-- C32, a run that passes the end of the block: the table `acExtents` is built
by `buildtable`;
at the position 62 with the bits `00000000 1` ahead the extent is 297, with
the run 2. The fast path stores the coefficient 1 in `block[63]` and goes on
at the position 64; the general path leaves the loop with the block
unchanged. Both consume 9 bits. -/
theorem decodeblock_fast_differs_past_63 :
    buildtable emptyACTable 5 code8 [0x21] = some (true, acExtents)
    ∧ (GETBITS (extentLocals 62).bb (extentLocals 62).bc ROOTBITS).bind (rd acExtents.sextent)
        = some 297
    ∧ decodeblockFast (TJPGR.init []) (extentLocals 62) 297
        = some (TBlockStep.next (TJPGR.init [])
            { i := 64, bb := 0, bc := 23, r := 9,
              block := (List.replicate 64 (0 : Int)).set 63 1 })
    ∧ decodeblockGeneral acExtents (TJPGR.init []) (extentLocals 62)
        = some (TBlockStep.stop (TJPGR.init [])
            { i := 64, bb := 0, bc := 23, r := 9, block := List.replicate 64 (0 : Int) }) := by
  refine ⟨buildtable_acExtents, by decide, by decide!, ?_⟩
  decide!

/-- C33: in the first loop of `inverseDCT`, for a column whose seven values
behind the DC value are 0, the general path gives the eight copies of
`(dc * q) << 1` that the shortcut stores, whatever the other values of the
quantization table are, when the products `dc * q * 8192` and
`dc * q * 8192 + 2048` of the general path fit in 32 bits. -/
theorem inverseDCT_shortcut_eq_general (dc : Int) (q : TDCTStage)
    (h0 : -2147483648 ≤ dc * q.l0 * 8192) (h1 : dc * q.l0 * 8192 + 2048 ≤ 2147483647) :
    inverseDCTgeneral
        { l0 := dc, l1 := 0, l2 := 0, l3 := 0, l4 := 0, l5 := 0, l6 := 0, l7 := 0 } q
      = inverseDCTshortcut dc q.l0
    ∧ inverseDCTshortcut dc q.l0 = List.replicate 8 (2 * (dc * q.l0)) := by
  have hp : toInt32 (dc * q.l0) = dc * q.l0 := toInt32_of_range _ (by omega) (by omega)
  have h2 : toInt32 (dc * q.l0 * 2) = dc * q.l0 * 2 := toInt32_of_range _ (by omega) (by omega)
  have hs : inverseDCTshortcut dc q.l0 = List.replicate 8 (2 * (dc * q.l0)) := by
    unfold inverseDCTshortcut
    rw [hp, int_shiftLeft_1, h2, mul_comm]
  refine ⟨?_, hs⟩
  rw [hs]
  unfold inverseDCTgeneral
  simp only [zero_mul, toInt32_zero, hp]
  rw [inverseDCTstages_dc _ h0 (by omega)]
  have hq : toInt32 (dc * q.l0 * 8192) = dc * q.l0 * 8192 := toInt32_of_range _ h0 (by omega)
  have hr : toInt32 (dc * q.l0 * 8192 + 2048) = dc * q.l0 * 8192 + 2048 :=
    toInt32_of_range _ (by omega) h1
  have hd : (dc * q.l0 * 8192 + 2048) >>> (12 : Nat) = 2 * (dc * q.l0) := by
    rw [Int.shiftRight_eq_div_pow]
    norm_num
    omega
  unfold inverseDCTlast
  simp only [add_zero, sub_zero, hq, hr, hd]
  rfl

/-- The statement of `inverseDCT_shortcut_eq_general` for the DC value 10 and a
quantization table of twos, and the column as `inverseDCTcolumn` computes
it. -/
theorem inverseDCT_shortcut_eq_general_witness :
    (inverseDCTgeneral
        { l0 := 10, l1 := 0, l2 := 0, l3 := 0, l4 := 0, l5 := 0, l6 := 0, l7 := 0 }
        { l0 := 2, l1 := 2, l2 := 2, l3 := 2, l4 := 2, l5 := 2, l6 := 2, l7 := 2 }
      = inverseDCTshortcut 10 2
    ∧ inverseDCTshortcut 10 2 = List.replicate 8 (2 * (10 * 2)))
    ∧ inverseDCTcolumn ((List.replicate 64 (0 : Int)).set 0 10) (List.replicate 64 2) 0
      = some (List.replicate 8 40) :=
  ⟨inverseDCT_shortcut_eq_general 10
      { l0 := 2, l1 := 2, l2 := 2, l3 := 2, l4 := 2, l5 := 2, l6 := 2, l7 := 2 }
      (by decide) (by decide), by decide⟩

/-- C34: with the colour transform `toRGB` and `setrow3` add the constant 524228
after the rounding term 2048, which is 60 less than `128 * 4096 = 524288`:
for `int16` arguments the channels before the clamp are
`(4096*y + 5743*cr + 2048 + 524228) >> 12` and so on, and the bytes stored are
these values clamped to [0, 255]. For `y = 0`, `cb = 0`, `cr = 51` the red
channel is 199, where the offset `0.5 + 128` gives 200; the channels are at
most one below those of the offset `0.5 + 128`. -/
theorem toRGB_offset_524228 :
    toRGB 0 0 51 1 = (199, 92, 128)
    ∧ clampbyte ((4096 * 0 + 5743 * 51 + 2048 + 128 * 4096) >>> (12 : Nat)) = 200
    ∧ setrow3 [0, 0, 0, 0, 0, 0, 0, 0] [0, 0, 0, 0, 0, 0, 0, 0] [51, 0, 0, 0, 0, 0, 0, 0] 0
        (List.replicate 24 0) 0 1
      = some ([199, 92, 128] ++ (List.replicate 7 [128, 128, 128]).flatten)
    ∧ (∀ y cb cr : Int, -32768 ≤ y → y ≤ 32767 → -32768 ≤ cb → cb ≤ 32767 →
        -32768 ≤ cr → cr ≤ 32767 →
        rgbsums y cb cr 1 =
          ((4096 * y + 5743 * cr + 2048 + 524228) / 4096,
           (4096 * y - 1410 * cb - 2925 * cr + 2048 + 524228) / 4096,
           (4096 * y + 7258 * cb + 2048 + 524228) / 4096)
        ∧ ((toRGB y cb cr 1).1 : Int)
          = min 255 (max 0 ((4096 * y + 5743 * cr + 2048 + 524228) / 4096))
        ∧ ((toRGB y cb cr 1).2.1 : Int)
          = min 255 (max 0 ((4096 * y - 1410 * cb - 2925 * cr + 2048 + 524228) / 4096))
        ∧ ((toRGB y cb cr 1).2.2 : Int)
          = min 255 (max 0 ((4096 * y + 7258 * cb + 2048 + 524228) / 4096)))
    ∧ 524228 + 60 = 128 * 4096 := by
  refine ⟨by decide, by decide, by decide, ?_, by decide⟩
  intro y cb cr hy0 hy1 hb0 hb1 hr0 hr1
  refine ⟨rgbsums_transform y cb cr, ?_, ?_, ?_⟩
  · unfold toRGB
    simp only [rgbsums_transform]
    exact clampbyte_int32 _ (by omega) (by omega)
  · unfold toRGB
    simp only [rgbsums_transform]
    exact clampbyte_int32 _ (by omega) (by omega)
  · unfold toRGB
    simp only [rgbsums_transform]
    exact clampbyte_int32 _ (by omega) (by omega)

/-- C35: let the reader not be at a marker, with a prefetch buffer of 32
words, and let `d` be data bytes. If `d` has 64 bytes and the upcoming input
is the entropy-coded form of `d` (a zero stuffed after every byte 0xff)
followed by `tail`, then `fecthbits` returns, `bb` holds the big-endian words
of `d`, the input left is `tail` (the data bytes and the stuffed zeros are
consumed, nothing more), `bbcread` has grown by 8 times 64 and `bend` is still
0. If `d` has fewer than 64 bytes and its entropy-coded form is followed by a
byte 0xff and a byte `nz` that is not 0, then `fecthbits` returns, `bb` holds
the words of `d` followed by zeros, the input left starts at the marker,
`bbcread` has grown by 8 times the number of data bytes and `bend` is 1. -/
theorem fecthbits_destuffs (jpgr : TJPGR) (d tail : List Nat)
    (hbend : jpgr.bits.bend = 0) (hbb : jpgr.bits.bb.length = BPREFETCHBZ)
    (hd : ∀ b ∈ d, b < 256) :
    (d.length = BUFFERBYTES → upcoming jpgr = stuffed d ++ tail →
      ∃ jpgr', fecthbits jpgr = some jpgr' ∧ jpgr'.bits.bb = words d ∧
        upcoming jpgr' = tail ∧
        jpgr'.bits.bbcread = jpgr.bits.bbcread + 8 * (d.length : Int) ∧
        jpgr'.bits.bend = 0) ∧
    (∀ nz, d.length < BUFFERBYTES → nz ≠ 0 →
      upcoming jpgr = stuffed d ++ 0xff :: nz :: tail →
      ∃ jpgr', fecthbits jpgr = some jpgr' ∧
        jpgr'.bits.bb = words (d ++ List.replicate (BUFFERBYTES - d.length) 0) ∧
        upcoming jpgr' = 0xff :: nz :: tail ∧
        jpgr'.bits.bbcread = jpgr.bits.bbcread + 8 * (d.length : Int) ∧
        jpgr'.bits.bend = 1) :=
  ⟨fun hl hu => fecthbits_filled jpgr d tail hbend hbb hd hl hu,
   fun nz hl hnz hu => fecthbits_marked jpgr d tail nz hbend hbb hd hl hnz hu⟩

/-- The statement of `fecthbits_destuffs` for two readers. The first has 60
bytes 7 in the input buffer and the callback delivers `ff 00 01 02 03 09`: the
64 data bytes are the 60 bytes 7 and `ff 01 02 03`, and the byte 9 is left.
The second has the bytes `01 ff` in the input buffer and the callback
delivers `00 02 ff d9`: the data bytes are `01 ff 02` and the marker is left. -/
theorem fecthbits_destuffs_witness :
    (upcoming (entropyReader (List.replicate 60 7) [0xff, 0, 1, 2, 3, 9])
        = stuffed (List.replicate 60 7 ++ [0xff, 1, 2, 3]) ++ [9]
      ∧ ∃ jpgr', fecthbits (entropyReader (List.replicate 60 7) [0xff, 0, 1, 2, 3, 9])
          = some jpgr' ∧
        jpgr'.bits.bb = words (List.replicate 60 7 ++ [0xff, 1, 2, 3]) ∧
        upcoming jpgr' = [9] ∧
        jpgr'.bits.bbcread
          = (entropyReader (List.replicate 60 7) [0xff, 0, 1, 2, 3, 9]).bits.bbcread
            + 8 * ((List.replicate 60 7 ++ [0xff, 1, 2, 3]).length : Int) ∧
        jpgr'.bits.bend = 0)
    ∧ (upcoming (entropyReader [1, 0xff] [0, 2, 0xff, 0xd9])
        = stuffed [1, 0xff, 2] ++ 0xff :: 0xd9 :: []
      ∧ ∃ jpgr', fecthbits (entropyReader [1, 0xff] [0, 2, 0xff, 0xd9]) = some jpgr' ∧
        jpgr'.bits.bb
          = words ([1, 0xff, 2] ++ List.replicate (BUFFERBYTES - [1, 0xff, 2].length) 0) ∧
        upcoming jpgr' = 0xff :: 0xd9 :: [] ∧
        jpgr'.bits.bbcread
          = (entropyReader [1, 0xff] [0, 2, 0xff, 0xd9]).bits.bbcread
            + 8 * (([1, 0xff, 2] : List Nat).length : Int) ∧
        jpgr'.bits.bend = 1) :=
  ⟨⟨by decide,
    (fecthbits_destuffs (entropyReader (List.replicate 60 7) [0xff, 0, 1, 2, 3, 9])
      (List.replicate 60 7 ++ [0xff, 1, 2, 3]) [9] (by decide) (by decide) (by decide)).1
      (by decide) (by decide)⟩,
   ⟨by decide,
    (fecthbits_destuffs (entropyReader [1, 0xff] [0, 2, 0xff, 0xd9]) [1, 0xff, 2] []
      (by decide) (by decide) (by decide)).2 0xd9 (by decide) (by decide) (by decide)⟩⟩

/-- C36: in `decoderefineAC` the loop that passes the run of zeros in front of a
new coefficient has no bound on `i`. In a refinement scan of the band
`Ss = Se = 1` a symbol with a run of two zeros makes the function read the
coefficients 1, 2 and 3 and store the new coefficient at position 3, behind
`Se`. In a scan of the band `Ss = Se = 63` the same symbol makes it leave
the block: it refines the coefficient 0 of the next block and stores the new
coefficient at position 2 of that block, and when the block is the last one
of the scan the accesses are outside the memory of the scan. The table is
the one `buildtable` builds for a code with the single symbol 0x21. -/
theorem decoderefineAC_leaves_band :
    buildtable emptyACTable 1 code9 [0x21] = some (true, acOneCode)
    ∧ ((initbitmode (refineReader 2 1 1 [0x00, 0x40])).bind
          (fun j => decoderefineAC j 0 0)).map
        (fun r => (r.1, r.2.error, (r.2.components.getD 0 TJPGComponent.init).scan.take 64))
        = some (true, 0, (((List.replicate 64 (0 : Int)).set 0 5).set 3 1))
    ∧ ((initbitmode (refineReader 2 63 63 [0x00, 0x40])).bind
          (fun j => decoderefineAC j 0 0)).map
        (fun r => (r.1, r.2.error, (r.2.components.getD 0 TJPGComponent.init).scan,
          r.2.bits.bbcread))
        = some (true, 0, ((((List.replicate 128 (0 : Int)).set 0 5).set 64 5).set (64 + 2) 1),
            16 - 11)
    ∧ ((initbitmode (refineReader 2 63 63 [0x00, 0x60])).bind
          (fun j => decoderefineAC j 0 0)).map
        (fun r => (r.1, r.2.error, (r.2.components.getD 0 TJPGComponent.init).scan))
        = some (true, 0, ((((List.replicate 128 (0 : Int)).set 0 5).set 64 6).set (64 + 2) 1))
    ∧ (initbitmode (refineReader 1 63 63 [0x00, 0x40])).bind (fun j => decoderefineAC j 0 0)
        = none
    ∧ (initbitmode (refineReader 1 63 63 [0x00, 0x40])).isSome = true := by
  refine ⟨buildtable_acOneCode, ?_, ?_, ?_, ?_, by decide⟩
  · delta decoderefineAC refinesymbols
    rw [extend_closed]
    decide!
  · delta decoderefineAC refinesymbols
    rw [extend_closed]
    decide!
  · delta decoderefineAC refinesymbols
    rw [extend_closed]
    decide!
  · delta decoderefineAC refinesymbols
    rw [extend_closed]
    decide!

/-- C37: in a scan of one component `readfirstDC` numbers the blocks with the
column count `ncols` of the component, `y * ncols + x`, where `refineDC`,
`readfirstAC`, `refineAC` and `updateimg` use `y * icols + x`. For every block
decoder the loops of `readfirstDC` are those of `readfirstAC` with `ncols` in
the place of `icols`. In an image 8 pixels wide and 16 high with the
components Y (2 x 2), Cb and Cr the component Y has two rows of one block and
`icols = 2`: the DC-first scan of Y stores the coefficient of the block
(1, 0) in the block 1 of the memory of the scan, the DC-refine scan then
refines the blocks 0 and 2, and the block 2 is the one `updateimg` reads. -/
theorem readfirstDC_block_index :
    (∀ (block : TJPGR → Nat → Nat → Option (Bool × TJPGR)) (c totalx n y interval : Nat)
        (jpgr : TJPGR),
        readfirstDCrows block true c totalx n y interval jpgr
          = scanrows block c totalx totalx n y interval jpgr)
    ∧ (∀ (block : TJPGR → Nat → Nat → Option (Bool × TJPGR)) (c icols totalx n y interval : Nat)
        (jpgr : TJPGR),
        refineDCrows block true c icols totalx n y interval jpgr
          = scanrows block c totalx icols n y interval jpgr)
    ∧ tallFrame.map (fun j => j.components.map (fun c => (c.nrows, c.ncols, c.irows, c.icols)))
        = some [(2, 1, 2, 2), (1, 1, 1, 1), (1, 1, 1, 1)]
    ∧ tallFrame.map (fun j => mcublocks (j.components.getD 0 TJPGComponent.init) 0 0)
        = some [0, 1, 2, 3]
    ∧ ((tallScan 1 [0x00, 0x40, 0x10]).bind (readfirstDC decodefirstDC)).map
        (fun r => (r.1, r.2.error, (r.2.components.getD 0 TJPGComponent.init).scan))
        = some (true, 0, ((List.replicate 256 (0 : Int)).set 0 2).set (1 * 64) 4)
    ∧ (((tallScan 1 [0x00, 0x40, 0x10]).bind (readfirstDC decodefirstDC)).bind
          (fun r => refineDC refineDCblock (nextScan r.2 0 [0xc0]))).map
        (fun r => (r.1, r.2.error, (r.2.components.getD 0 TJPGComponent.init).scan))
        = some (true, 0,
            (((List.replicate 256 (0 : Int)).set 0 3).set (1 * 64) 4).set (2 * 64) 1) := by
  refine ⟨readfirstDCrows_single, refineDCrows_single, by decide, by decide, ?_, ?_⟩
  · delta decodefirstDC decodefirstDCvalue
    rw [extend_closed]
    decide!
  · delta decodefirstDC decodefirstDCvalue
    rw [extend_closed]
    decide!

/-- C38: when `setrequiredmemory` has returned 1 on a reader of at most three
components whose unit counts fit in 32 bits and whose components get at most
eight unit blocks (the size of `units`), `jpgr_setbuffers` hands out its
pieces between the aligned pointer and the pointer it ends with, which is
the aligned pointer plus `requiredmemory - 16`; the alignment moves the
pointer by 1 to 16 bytes, so the memory used, alignment included, is at most
`requiredmemory`. -/
theorem setbuffers_within_requiredmemory (jpgr jpgr' : TJPGR) (memory : Nat)
    (hn : jpgr.scan.ncomponents ≤ 3)
    (hu : ∀ c ∈ jpgr.components.take jpgr.scan.ncomponents,
      c.ucount < 2 ^ 32 ∧ unitblocks jpgr c ≤ 8)
    (hr : setrequiredmemory jpgr = some (true, jpgr')) :
    ∃ pieces last, setbuffersMemory jpgr' memory = some (pieces, last) ∧
      last = (memory ||| 15) + 1 + (jpgr'.header.requiredmemory - 16) ∧
      16 ≤ jpgr'.header.requiredmemory ∧
      memory < (memory ||| 15) + 1 ∧
      last ≤ memory + jpgr'.header.requiredmemory ∧
      Within (pieces.scan ++ pieces.units ++ pieces.srow) ((memory ||| 15) + 1) last := by
  obtain ⟨ha1, ha2⟩ := align16 memory
  unfold setrequiredmemory at hr
  by_cases hlen : jpgr.components.length < jpgr.scan.ncomponents
  · rw [if_pos hlen] at hr
    exact absurd hr (by simp)
  rw [if_neg hlen] at hr
  have hcl : (jpgr.components.take jpgr.scan.ncomponents).length = jpgr.scan.ncomponents := by
    rw [List.length_take]
    omega
  -- the sum of the blocks does not wrap
  have hb : ∀ c ∈ jpgr.components.take jpgr.scan.ncomponents,
      requiredunits jpgr c ≤ 2 ^ 33 := by
    intro c hc
    have h1 := (hu c hc).1
    have h2 : (c.ysampling * c.xsampling) % 2 ^ 32 < 2 ^ 32 := Nat.mod_lt _ (by norm_num)
    unfold requiredunits
    split_ifs <;> omega
  have hs := sum_le_of_le (requiredunits jpgr) (2 ^ 33) _ hb
  rw [hcl] at hs
  have hs' : (List.map (requiredunits jpgr)
      (jpgr.components.take jpgr.scan.ncomponents)).sum ≤ 3 * 2 ^ 33 :=
    le_trans hs (Nat.mul_le_mul_right _ hn)
  have hf := requiredfold jpgr (jpgr.components.take jpgr.scan.ncomponents) 0 (by omega)
  rw [Nat.zero_add] at hf
  have hsplit := sum_split jpgr (jpgr.components.take jpgr.scan.ncomponents)
  obtain ⟨pu, eu, wu⟩ := setbuffersUnits_spec jpgr
    (jpgr.components.take jpgr.scan.ncomponents)
    (if jpgr.scan.isinterleaved = 0 then
      (setbuffersScan (jpgr.components.take jpgr.scan.ncomponents) ((memory ||| 15) + 1)).2
     else (memory ||| 15) + 1) (fun c hc => (hu c hc).2)
  obtain ⟨es, ws⟩ := setbuffersScan_spec (jpgr.components.take jpgr.scan.ncomponents)
    ((memory ||| 15) + 1)
  generalize hS : (List.map (requiredunits jpgr)
      (jpgr.components.take jpgr.scan.ncomponents)).sum = S at hs' hf hsplit
  generalize hA : (List.map (fun c => (c.ucount * 64) * 2)
      (jpgr.components.take jpgr.scan.ncomponents)).sum = A at hsplit es ws
  generalize hU : (List.map (fun c => unitblocks jpgr c * 128)
      (jpgr.components.take jpgr.scan.ncomponents)).sum = U at hsplit eu wu
  rw [hf] at hr
  simp only [] at hr
  rw [Nat.mod_eq_of_lt (by omega : S * 64 * 2 + 16 < 2 ^ 64)] at hr
  have hmod : (S * 64 * 2 + 16 + jpgr.scan.ncomponents * (8 * 2)) % 2 ^ 64
      = S * 64 * 2 + 16 + jpgr.scan.ncomponents * (8 * 2) := Nat.mod_eq_of_lt (by omega)
  rw [hmod] at hr
  obtain ⟨es2, ws2⟩ := setbuffersSrow_spec (jpgr.components.take jpgr.scan.ncomponents)
    ((if jpgr.scan.isinterleaved = 0 then
      (setbuffersScan (jpgr.components.take jpgr.scan.ncomponents) ((memory ||| 15) + 1)).2
     else (memory ||| 15) + 1) + U)
  rw [hcl] at es2 ws2
  split_ifs at hr with hsub hlim hlim
  · simp at hr
  · -- subsampled
    simp only [Option.some.injEq, Prod.mk.injEq, true_and] at hr
    subst hr
    unfold setbuffersMemory
    simp only [if_neg hlen, setbuffersUnits_header]
    by_cases hi : jpgr.scan.isinterleaved = 0
    · simp only [if_pos hi] at eu wu es2 ws2 hsplit ⊢
      rw [eu]
      simp only [if_pos hsub]
      refine ⟨_, _, rfl, ?_, by omega, ha1, ?_, ?_⟩
      · rw [es2, es]; omega
      · rw [es2, es]; omega
      · rw [es2]
        rw [es] at wu ws2 ⊢
        refine within_append _ _ _ _ (within_append _ _ _ _ ?_ ?_) ?_
        · exact within_mono _ _ _ _ _ ws (le_refl _) (by omega)
        · exact within_mono _ _ _ _ _ wu (by omega) (by omega)
        · exact within_mono _ _ _ _ _ ws2 (by omega) (by omega)
    · simp only [if_neg hi] at eu wu es2 ws2 hsplit ⊢
      rw [eu]
      simp only [if_pos hsub]
      refine ⟨_, _, rfl, ?_, by omega, ha1, ?_, ?_⟩
      · rw [es2]; omega
      · rw [es2]; omega
      · rw [es2]
        refine within_append _ _ _ _ (within_append _ _ _ _ (within_nil _ _) ?_) ?_
        · exact within_mono _ _ _ _ _ wu (by omega) (by omega)
        · exact within_mono _ _ _ _ _ ws2 (by omega) (by omega)
  · simp at hr
  · -- not subsampled
    simp only [Option.some.injEq, Prod.mk.injEq, true_and] at hr
    subst hr
    unfold setbuffersMemory
    simp only [if_neg hlen, setbuffersUnits_header]
    by_cases hi : jpgr.scan.isinterleaved = 0
    · simp only [if_pos hi] at eu wu hsplit ⊢
      rw [eu]
      simp only [if_neg hsub]
      refine ⟨_, _, rfl, ?_, by omega, ha1, ?_, ?_⟩
      · rw [es]; omega
      · rw [es]; omega
      · rw [es] at wu ⊢
        refine within_append _ _ _ _ (within_append _ _ _ _ ?_ ?_) (within_nil _ _)
        · exact within_mono _ _ _ _ _ ws (le_refl _) (by omega)
        · exact within_mono _ _ _ _ _ wu (by omega) (by omega)
    · simp only [if_neg hi] at eu wu hsplit ⊢
      rw [eu]
      simp only [if_neg hsub]
      refine ⟨_, _, rfl, ?_, by omega, ha1, ?_, ?_⟩
      · omega
      · omega
      · refine within_append _ _ _ _ (within_append _ _ _ _ (within_nil _ _) ?_) (within_nil _ _)
        exact within_mono _ _ _ _ _ wu (by omega) (by omega)

/-- The statement of `setbuffers_within_requiredmemory` for the image 8 pixels
wide and 16 high with the components Y (2 x 2), Cb and Cr as `parseSOF0` and
`initcomponents` leave it, with the memory at the address 1000:
`requiredmemory` is 1600 and the pieces end at 2592. -/
theorem setbuffers_within_requiredmemory_witness :
    tallFrame.isSome = true
    ∧ (setrequiredmemory tallReader).map (fun r => (r.1, r.2.header.requiredmemory))
      = some (true, 1600)
    ∧ ((setbuffersMemory ((setrequiredmemory tallReader).getD (false, tallReader)).2 1000).map
        (fun r => r.2)) = some 2592
    ∧ ∃ pieces last,
        setbuffersMemory ((setrequiredmemory tallReader).getD (false, tallReader)).2 1000
          = some (pieces, last) ∧
        last = (1000 ||| 15) + 1
          + (((setrequiredmemory tallReader).getD (false, tallReader)).2.header.requiredmemory
              - 16) ∧
        16 ≤ ((setrequiredmemory tallReader).getD (false, tallReader)).2.header.requiredmemory ∧
        1000 < (1000 ||| 15) + 1 ∧
        last ≤ 1000
          + ((setrequiredmemory tallReader).getD (false, tallReader)).2.header.requiredmemory ∧
        Within (pieces.scan ++ pieces.units ++ pieces.srow) ((1000 ||| 15) + 1) last :=
  ⟨by decide, by decide, by decide,
    setbuffers_within_requiredmemory tallReader
      ((setrequiredmemory tallReader).getD (false, tallReader)).2 1000
      (by decide) (by decide) (by decide)⟩

/-- C39: `parseBKGD` reads the palette entry of the index `p` at `3 * p` unless a
tRNS chunk was seen, while `parsePLTE` has stored it at `4 * p`. For the
palette (10, 20, 30), (40, 50, 60) and the index 1 the background is
(255, 40, 50) without a tRNS chunk, and (40, 50, 60), the entry 1, with one. -/
theorem parseBKGD_palette_stride :
    (bkgdParsed false).map (fun r => (r.1, r.2.error, r.2.background, r.2.palette.take 8))
      = some (true, 0, [255, 40, 50], [10, 20, 30, 255, 40, 50, 60, 255])
    ∧ (bkgdParsed true).map (fun r => (r.1, r.2.error, r.2.background, r.2.palette.take 8))
      = some (true, 0, [40, 50, 60], [10, 20, 30, 200, 40, 50, 60, 100])
    ∧ (∀ (pngr : TPNGR) (p : Nat), pngr.background.length = 3 →
        4 * p + 2 < pngr.palette.length → pngr.hasalpha = 0 →
        bkgdcolor pngr 1 [p] =
          some [pngr.palette.getD (3 * p) 0, pngr.palette.getD (3 * p + 1) 0,
            pngr.palette.getD (3 * p + 2) 0])
    ∧ (∀ (pngr : TPNGR) (p : Nat), pngr.background.length = 3 →
        4 * p + 2 < pngr.palette.length → pngr.hasalpha ≠ 0 →
        bkgdcolor pngr 1 [p] =
          some [pngr.palette.getD (4 * p) 0, pngr.palette.getD (4 * p + 1) 0,
            pngr.palette.getD (4 * p + 2) 0]) := by
  refine ⟨by decide, by decide, ?_, ?_⟩
  · intro pngr p hb hp ha
    rw [bkgdcolor_index pngr p hb hp, if_neg (by simp [ha])]
  · intro pngr p hb hp ha
    rw [bkgdcolor_index pngr p hb hp, if_pos ha]

/-- C40: `jpgr_reset` sets the state and the error to 0 and leaves `warnings` as
it is: after the call `jpgr_getstate` returns `JPGR_NOTSET` and error 0 with the
warnings of before, and after `jpgr_create` with those of the block that was
allocated, which is not initialised. The reader of a file whose APP0 segment
has the version 2.1 still reports `JPGR_BADVERSION` after `jpgr_reset`. -/
theorem reset_keeps_warnings :
    (∀ jpgr : TJPGR, jpgr_getstate (jpgr_reset jpgr) = (JPGR_NOTSET, 0, jpgr.warnings))
    ∧ (∀ (memory : TJPGR) (flags : Nat),
        (jpgr_create (some memory) flags).map jpgr_getstate
          = some (JPGR_NOTSET, 0, memory.warnings))
    ∧ version2Reader.warnings = JPGR_BADVERSION
    ∧ jpgr_getstate (jpgr_reset version2Reader) = (JPGR_NOTSET, 0, JPGR_BADVERSION)
    ∧ JPGR_BADVERSION ≠ 0 :=
  ⟨fun _ => rfl, fun _ _ => rfl, rfl, rfl, by decide⟩

end Jimage
